import Mathlib

/-!
# JSONBin / JSONOut: a shallow embedding of `jsonbin/jsonbin.cpp`

Conventions of the embedding.

* The input buffer `json` is a list of byte values (`Nat`, each below 256); a pointer into it
  is an offset from its start.  Unsigned 32 bit arithmetic is `Nat` arithmetic modulo `2^32`.
* A read that the source guards with its `left` counter is in bounds and is written
  `peek`.  A read the source does not guard (the byte at the cursor at the head of the main
  loop, the sign after an exponent letter, the look-ahead of a comment) may fall outside the
  buffer; that is reported as `Fault.inputRead`.  The same holds for writes outside the item
  array, the context stack and the hierarchy stack.
* A loop of the source whose state does not change between two iterations never exits; the
  embedding reports it as `Outcome.diverges`.
* Floating point arithmetic is not modelled: a float is kept as the decimal operands from
  which the source computes it.
* The compiled traits are the defaults of `jsonbin.h` (`JB_KEY_HASH`, `JB_KEY_HASH_AND_NAME`,
  32 bit values, `char` strings, offset strings without `JB_STRLEN`); the traits that the
  specification calls toggleable are fields of `Config`.
-/

namespace jbin

/-- The raw bytes of a text. -/
abbrev Bytes := List Nat

/-- The bytes of an ASCII string literal, used to write inputs readably. -/
def bytesOf (s : String) : Bytes := s.toList.map Char.toNat

/-- Compile-time traits kept as parameters. -/
structure Config where
  /-- `JB_ALLOW_C_COMMENTS` -/
  allowCComments : Bool
  /-- `JB_ALLOW_ROOT_ARRAY` -/
  allowRootArray : Bool
  /-- `JB_HANDLE_UTF8_BOM` -/
  handleUtf8Bom : Bool
  /-- `JB_UTF16_SURROGATE_PAIRS` -/
  surrogatePairs : Bool
  /-- whether plain `char` is a signed type (implementation-defined in C) -/
  signedChar : Bool
deriving DecidableEq, Repr

/-- The traits as `jsonbin.h` ships them: comments off, everything else on. -/
def defaultConfig : Config := ⟨false, true, true, true, true⟩

/-- The default traits with `JB_ALLOW_C_COMMENTS` defined as well. -/
def commentsConfig : Config := ⟨true, true, true, true, true⟩

/-- What the platform decides during one call. -/
structure Env where
  /-- `malloc` of the string cache work memory succeeds -/
  mallocWork : Bool
  /-- `calloc` of the returned block succeeds -/
  callocRet : Bool
  /-- `malloc` of the string offset table succeeds (only called when the work memory
  cannot be reused) -/
  mallocRetStr : Bool
  /-- `sizeof(const char**)` -/
  ptrSize : Nat
  /-- the floating point test `double(n_frac) / pow(10.0, n_frac_size) <= FP_MAXEXP_FRC` -/
  fracLeMax : Nat → Nat → Bool

/-- A platform on which every allocation succeeds, pointers are 8 bytes, and the
fraction test is evaluated on exact decimals. -/
def okEnv : Env := ⟨true, true, true, 8, fun n_frac n_frac_size => decide (n_frac * 1000000000 ≤ 402823467 * 10 ^ n_frac_size)⟩

inductive JBType
  | JB_ROOT | JB_OBJECT | JB_ARRAY | JB_STRING | JB_INT | JB_FLOAT | JB_BOOL | JB_NULL
  | JB_NULL_VALUE
deriving DecidableEq, Repr

inductive JBError
  | JBERR_NONE
  | JBERR_UNEXPECTED_BRACE
  | JBERR_UNEXPECTED_CLOSE_BRACE
  | JBERR_UNEXPECTED_BRACKET
  | JBERR_UNEXPECTED_CLOSE_BRACKET
  | JBERR_UNTERMINATED_QUOTE
  | JBERR_UNEXPECTED_QUOTE
  | JBERR_UNEXPECTED_COLON
  | JBERR_UNEXPECTED_COMMA
  | JBERR_UNEXPECTED_NULL
  | JBERR_UNEXPECTED_CHARACTER
  | JBERR_EXCEED_MAX_DEPTH
  | JBERR_UNEXPECTED_STRCOUNT
  | JBERR_INTERNAL_MISS_STR
  | JBERR_UNREPRESENTABLE
  | JBERR_OUT_OF_MEMORY
deriving DecidableEq, Repr

inductive eJSONCtx
  | JSON_ROOT
  | JSON_GET_TAG
  | JSON_COLON
  | JSON_VALUE
  | JSON_OBJECT_OPEN
  | JSON_OBJECT
  | JSON_OBJECT_CLOSE
  | JSON_ARRAY_OPEN
  | JSON_ARRAY
  | JSON_ARRAY_CLOSE
  | JSON_NULL_TAG
  | JSON_STRING_VALUE
  | JSON_NUMERIC_VALUE
  | JSON_TRUE_VALUE
  | JSON_FALSE_VALUE
  | JSON_NULL_VALUE
  | JSON_COMMENT
deriving DecidableEq, Repr

/-- Undefined behaviour of the C program that the embedding detects. -/
inductive Fault
  /-- a read outside the input buffer -/
  | inputRead
  /-- `context[ctx_stack]` with `ctx_stack` outside `0 .. JSON_MAX_CONTEXT - 1` -/
  | contextIndex
  /-- `aHier[level]` with `level` outside `0 .. JSON_MAX_DEPTH - 1` -/
  | hierIndex
  /-- an access to an item outside the allocated item array, or through a null pointer -/
  | itemIndex
  /-- an access to the string cache arrays outside `0 .. numStrMax - 1` -/
  | strCacheIndex
  /-- a write to the string blob behind the end of the block `calloc` returned -/
  | blobWrite
  /-- an internal iteration bound of the embedding was reached (does not happen) -/
  | bound
deriving DecidableEq, Repr

def JSON_MAX_DEPTH : Nat := 256
def JSON_MAX_CONTEXT : Nat := 256
def JB_FNV1A_PRIME : Nat := 16777619
def JB_FNV1A_SEED : Nat := 2166136261

/-- Truncation to `unsigned int`. -/
def u32 (n : Nat) : Nat := n % 4294967296

/-- Conversion of an integer to `int` (two's complement wrap). -/
def toInt32 (v : Int) : Int := (v + 2147483648) % 4294967296 - 2147483648

/-- Conversion of an integer to a signed 24 bit field (two's complement wrap). -/
def toInt24 (v : Int) : Int := (v + 8388608) % 16777216 - 8388608

/-- A read the source guards with its `left` counter. -/
def peek (p : Bytes) (i : Nat) : Nat := p.getD i 0

/-- `tolower` of the C locale, on a byte. -/
def toLower (b : Nat) : Nat := if 65 ≤ b ∧ b ≤ 90 then b + 32 else b

/-! ## Text decoder -/

/-- One hexadecimal digit of `getUCode`: `d = byte - '0'`, adjusted for letters, forced to
0 when out of range. -/
def hexDigit (b : Nat) : Nat :=
  let d : Int := (b : Int) - 48
  let d : Int := if d > 9 then (if d - 7 > 15 then d - 7 - 32 else d - 7) else d
  let d : Int := if d < 0 ∨ d > 15 then 0 else d
  d.toNat &&& 15

/-- `getUCode`: the value of four hexadecimal digits, as `unsigned short`. -/
def getUCode (p : Bytes) : Nat :=
  (List.range 4).foldl (fun c n => ((c <<< 4) ||| hexDigit (peek p n)) % 65536) 0

/-- `solidusCode(ptr, left, code_len)`: `p` starts at the byte after the backslash, `left`
counts from there, `code_len` is the value the caller has set; the result is the code and
the new `code_len`. -/
def solidusCode (cfg : Config) (p : Bytes) (left : Nat) (code_len : Nat) : Nat × Nat :=
  let c := toLower (peek p 0)
  let q := p.drop 1
  if c = 98 then (8, 2)
  else if c = 110 then (10, 2)
  else if c = 114 then (13, 2)
  else if c = 102 then (12, 2)
  else if c = 116 then (9, 2)
  else if c = 92 then (92, 2)
  else if c = 47 then (47, 2)
  else if c = 34 then (34, 2)
  else if c = 117 then
    if left ≥ 5 then
      let c := getUCode q
      if cfg.surrogatePairs = true ∧ c ≥ 0xd800 ∧ c < 0xe000 ∧ left ≥ 11 ∧ peek q 5 = 92
          ∧ toLower (peek q 6) = 117 ∧ getUCode (q.drop 7) > 0xdc00
          ∧ getUCode (q.drop 7) < 0xe000 then
        ((((c &&& 0x3ff) <<< 10) ||| (getUCode (q.drop 7) &&& 0x3ff)) + 0x10000, 12)
      else (c, 6)
    else (92, code_len)
  else (92, code_len)

/-- `getCode(ptr, left, code_len)`: a single byte or escape code, with its length.  (When
`left` is 0 the source leaves `code_len` unset; no caller reaches that case, the
embedding gives 0.) -/
def getCode (cfg : Config) (p : Bytes) (left : Nat) : Nat × Nat :=
  if left ≠ 0 then
    let c := peek p 0
    if left - 1 ≠ 0 ∧ c = 92 then solidusCode cfg (p.drop 1) (left - 1) 1
    else (c, 1)
  else (0, 0)

/-- The `for (uint m = 0x40; (m & c8) && left; m <<= 5)` loop of `getChar`.  `none` is the
early `return c`.  `m` is 0 after six shifts, so seven rounds always suffice. -/
def getCharLoop (cfg : Config) : Nat → Bytes → Nat → Nat → Nat → Nat → Option (Nat × Nat)
  | 0, _, _, _, c8, total => some (c8, total)
  | fuel + 1, p, left, m, c8, total =>
    if (m &&& c8) ≠ 0 ∧ left ≠ 0 then
      let n := getCode cfg p left
      if n.1 < 0x80 ∨ n.1 ≥ 0xc0 then none
      else
        getCharLoop cfg fuel (p.drop n.2) (left - n.2) (u32 (m <<< 5))
          (u32 ((c8 &&& (4294967295 ^^^ m)) <<< 6) ||| (n.1 &&& 0x3f)) (total + n.2)
    else some (c8, total)

/-- `getChar(ptr, left, char_len)`: a full character decoded from bytes or an escape code,
with the number of raw bytes it takes. -/
def getChar (cfg : Config) (p : Bytes) (left : Nat) : Nat × Nat :=
  let c := getCode cfg p left
  if c.1 ≥ 0xc0 ∧ c.1 < 0x100 ∧ left > c.2 then
    match getCharLoop cfg 7 (p.drop c.2) (left - c.2) 0x40 (c.1 &&& 0x7f) c.2 with
    | none => c
    | some r => r
  else c

/-- The loop of the static `getStrLen`; every round takes at least one byte, so `left`
rounds suffice. -/
def getStrLenLoop (cfg : Config) : Nat → Bytes → Nat → Nat → Nat
  | 0, _, _, len => len
  | fuel + 1, p, left, len =>
    if left > 0 then
      let c := getChar cfg p left
      getStrLenLoop cfg fuel (p.drop c.2) (left - c.2)
        (len + 1 + (if c.1 ≥ 0x80 then 1 else 0) + (if c.1 ≥ 0x800 then 1 else 0)
          + (if c.1 ≥ 0x10000 then 1 else 0))
    else len

/-- The static `getStrLen(ptr, left)`: the UTF-8 length of a raw JSON string. -/
def getStrLen (cfg : Config) (p : Bytes) (left : Nat) : Nat :=
  getStrLenLoop cfg left p left 0

/-- `asEncoding(c, out)` without `JB_WCHAR16`: the bytes stored for one character. -/
def asEncoding (c : Nat) : Bytes :=
  if c < 0x80 then [c % 256]
  else if c < 0x800 then [(0xc0 ||| (c >>> 6)) % 256, (0x80 ||| (c &&& 0x3f)) % 256]
  else if c < 0x10000 then
    [(0xe0 ||| (c >>> 12)) % 256, (0x80 ||| ((c >>> 6) &&& 0x3f)) % 256,
      (0x80 ||| (c &&& 0x3f)) % 256]
  else
    [(0xf0 ||| ((c >>> 18) &&& 7)) % 256, (0x80 ||| ((c >>> 12) &&& 0x3f)) % 256,
      (0x80 ||| ((c >>> 6) &&& 0x3f)) % 256, (0x80 ||| (c &&& 0x3f)) % 256]

/-- The loop of `toEncoding`. -/
def toEncodingLoop (cfg : Config) : Nat → Bytes → Nat → Bytes → Bytes
  | 0, _, _, out => out
  | fuel + 1, p, left, out =>
    if left ≠ 0 then
      let c := getChar cfg p left
      toEncodingLoop cfg fuel (p.drop c.2) (left - c.2) (out ++ asEncoding c.1)
    else out

/-- `toEncoding(ptr, left, out)`: the bytes written before the terminating 0; the
source returns their number. -/
def toEncoding (cfg : Config) (p : Bytes) (left : Nat) : Bytes :=
  toEncodingLoop cfg left p left []

/-- Whether `*text <= ' '` holds for a byte. -/
def isSpaceByte (cfg : Config) (b : Nat) : Bool :=
  decide (b ≤ 32) || (cfg.signedChar && decide (b ≥ 128))

/-- `getWhiteSpaceSize(text, left)`, on the window of `left` bytes at `pos`. -/
def getWhiteSpaceSize (cfg : Config) (json : Bytes) : Nat → Nat → Nat
  | _, 0 => 0
  | pos, left + 1 =>
    if isSpaceByte cfg (peek json pos) = true then getWhiteSpaceSize cfg json (pos + 1) left + 1
    else 0

/-! ## Number scanner -/

/-- A `jbfloat` value, kept as the operands of the expression
`(double(n_int) + double(n_frac) / pow(10.0, n_frac_size)) * pow(10.0, n_exp)`, negated
when `neg` is set. -/
structure JBFloat where
  neg : Bool
  n_int : Nat
  n_frac : Nat
  n_frac_size : Nat
  n_exp : Int
deriving DecidableEq, Repr

/-- The results of `getNumStr`: the returned float and the four reference parameters.
`intnum` is `none` where the source does not assign it or derives it from the float. -/
structure NumStr where
  value : JBFloat
  intnum : Option Int
  num_len : Nat
  real : Bool
  representable : Bool
deriving DecidableEq, Repr

/-- `(~0ULL) / 10` -/
def max_int_add_digit : Nat := 18446744073709551615 / 10

/-- `(~0U) / 20` -/
def max_exp : Nat := 4294967295 / 20

/-- `FLT_MAX_10_EXP` (32 bit values) -/
def FP_MAXEXP_EXP : Int := 38

def FP_MAXEXP_INT : Nat := 3

/-- `1UL << 31` (32 bit values) -/
def INT_MAX_INT : Nat := 2147483648

/-- `while (left && *ptr <= ' ') { left--; ptr++; }` on the window `w`: what is left. -/
def skipSpaces (cfg : Config) : Bytes → Bytes
  | [] => []
  | b :: w => if isSpaceByte cfg b = true then skipSpaces cfg w else b :: w

/-- The digit loop of the integer part: `(n_int, int_over, rest of the window)`. -/
def scanInt : Bytes → Nat → Bool → Nat × Bool × Bytes
  | [], n_int, int_over => (n_int, int_over, [])
  | b :: w, n_int, int_over =>
    if 48 ≤ b ∧ b ≤ 57 then
      if n_int < max_int_add_digit then scanInt w (n_int * 10 + (b - 48)) int_over
      else scanInt w n_int true
    else (n_int, int_over, b :: w)

/-- The digit loop of the fraction: `(n_frac, n_frac_size, rest of the window)`. -/
def scanFrac : Bytes → Nat → Nat → Nat × Nat × Bytes
  | [], n_frac, n_frac_size => (n_frac, n_frac_size, [])
  | b :: w, n_frac, n_frac_size =>
    if 48 ≤ b ∧ b ≤ 57 then
      if n_frac < 18446744073709551615 / 10 then
        scanFrac w (n_frac * 10 + (b - 48)) (n_frac_size + 1)
      else scanFrac w n_frac n_frac_size
    else (n_frac, n_frac_size, b :: w)

/-- The digit loop of the exponent: `(n_exp, rest of the window)`. -/
def scanExp : Bytes → Nat → Nat × Bytes
  | [], n_exp => (n_exp, [])
  | b :: w, n_exp =>
    if 48 ≤ b ∧ b ≤ 57 then
      if n_exp < max_exp then scanExp w (n_exp * 10 + (b - 48)) else scanExp w n_exp
    else (n_exp, b :: w)

/-- `getNumStr(ptr, left, intnum, num_len, real, representable)` for 32 bit values.  `p` is
the buffer from `ptr` on, the window is its first `left` bytes.  The sign of an exponent
is read without a test of `left`: when the window ends with the exponent letter that read
is outside the window. -/
def getNumStr (env : Env) (cfg : Config) (p : Bytes) (left : Nat) : Except Fault NumStr :=
  let w0 := p.take left
  let w1 := skipSpaces cfg w0
  let neg : Bool := decide (w1.head? = some 45)
  let w2 := if w1.head? = some 45 ∨ w1.head? = some 43 then w1.drop 1 else w1
  let si := scanInt w2 0 false
  let w3 := si.2.2
  let fracPart : Bool := decide (w3.head? = some 46)
  let sf := if fracPart = true then scanFrac (w3.drop 1) 0 0 else (0, 0, w3)
  let w4 := sf.2.2
  let finish := fun (real : Bool) (n_exp : Int) (wEnd : Bytes) =>
    let num_len := w0.length - wEnd.length
    if real = true then
      let representable : Bool := decide (n_exp < FP_MAXEXP_EXP) ||
        (decide (n_exp = FP_MAXEXP_EXP) && (decide (si.1 < FP_MAXEXP_INT) ||
          (decide (si.1 = FP_MAXEXP_INT) && env.fracLeMax sf.1 sf.2.1)))
      if representable = true then
        NumStr.mk ⟨neg, si.1, sf.1, sf.2.1, n_exp⟩ none num_len true true
      else NumStr.mk ⟨false, 0, 0, 0, 0⟩ none num_len true false
    else
      let representable : Bool := !si.2.1 && decide (si.1 ≤ INT_MAX_INT)
      if representable = true then
        let intnum : Int := if neg = true then toInt32 (-(toInt32 si.1)) else toInt32 si.1
        NumStr.mk ⟨neg, si.1, 0, 0, 0⟩ (some intnum) num_len false true
      else NumStr.mk ⟨false, 0, 0, 0, 0⟩ (some 0) num_len false false
  if w4.head? = some 101 ∨ w4.head? = some 69 then
    let w5 := w4.drop 1
    match w5.head? with
    | none => .error Fault.inputRead
    | some s =>
      let neg_exp : Bool := decide (s = 45)
      let w6 := if s = 45 ∨ s = 43 then w5.drop 1 else w5
      let se := scanExp w6 0
      .ok (finish true (if neg_exp = true then -(se.1 : Int) else (se.1 : Int)) se.2)
  else .ok (finish fracPart 0 w4)

/-! ## Scanning helpers -/

/-- How a run of a loop of the source can fail to produce a value. -/
inductive Stop
  /-- undefined behaviour -/
  | fault (f : Fault)
  /-- the loop never exits -/
  | diverges
deriving DecidableEq, Repr

/-- `fnv1A(s, l)`: the raw FNV-1a hash of the `l` bytes at `p`. -/
def fnv1A (p : Bytes) (l : Nat) : Nat :=
  (p.take l).foldl (fun hash r => u32 ((r ^^^ hash) * JB_FNV1A_PRIME)) JB_FNV1A_SEED

/-- `findChar(str, left, c)`: the position of the first `c` in the window of `left` bytes at
`str`, `none` for `NULL`. -/
def findChar (json : Bytes) (c : Nat) : Nat → Nat → Option Nat
  | _, 0 => none
  | str, left + 1 => if peek json str ≠ c then findChar json c (str + 1) left else some str

/-- `findChar(str, left, c1, c2)` of `JB_ALLOW_C_COMMENTS`. -/
def findChar2 (json : Bytes) (c1 c2 : Nat) : Nat → Nat → Option Nat
  | _, 0 => none
  | str, left + 1 =>
    if peek json str ≠ c1 ∧ peek json str ≠ c2 then findChar2 json c1 c2 (str + 1) left
    else some str

/-- `endOfLine(start, left)`. -/
def endOfLine (json : Bytes) (start left : Nat) : Nat :=
  match findChar json 10 start left with
  | some nextLine => nextLine - start
  | none => left

/-- `commentSize(comment, left)`.  The `while` loop over `findChar(body, body_left, '*')`
changes neither `body` nor `body_left`: when its first round does not return, no round
does.  `body_end[1]` is read without a test against the end of the buffer. -/
def commentSize (json : Bytes) (comment left : Nat) : Except Stop Nat :=
  if left < 2 ∨ peek json comment ≠ 47 then .ok left
  else
    let body := comment + 2
    let body_left := left - 2
    if peek json (comment + 1) = 47 then .ok (endOfLine json comment left)
    else if peek json (comment + 1) = 42 then
      match findChar json 42 body body_left with
      | some body_end =>
        let end_left := left - (body_end - body)
        if end_left < 2 then .ok left
        else
          match json.get? (body_end + 1) with
          | none => .error (Stop.fault Fault.inputRead)
          | some b => if b = 47 then .ok (body_end + 2 - comment) else .error Stop.diverges
      | none => .ok left
    else .ok left

/-- `countBack(str, left, c)`: how many `c` precede `str`, looking back at most `left`
bytes. -/
def countBack (json : Bytes) (c : Nat) : Nat → Nat → Nat
  | _, 0 => 0
  | 0, _ + 1 => 0
  | str + 1, left + 1 => if peek json str = c then countBack json c str left + 1 else 0

/-- The `while` loop of `quoteEnd`; every round takes at least one byte of `left`. -/
def quoteEndLoop (json : Bytes) : Nat → Nat → Nat → Option Nat
  | 0, _, _ => none
  | fuel + 1, str, left =>
    match findChar json 34 str left with
    | some e =>
      if countBack json 92 e (e - str) % 2 = 0 then some e
      else quoteEndLoop json fuel (e + 1) (left - (e - str + 1))
    | none => none

/-- `quoteEnd(str, left)`: the position of the quote that ends the quoted string which
starts at `str`, `none` for `NULL`. -/
def quoteEnd (json : Bytes) (str left : Nat) : Option Nat :=
  quoteEndLoop json left (str + 1) (left - 1)

/-- `sameWord(wordA, wordB, lenA)`: `wordB` is a C string, given without its terminator.
Both pointers are advanced by the comparison, also by the one that fails, and the result
is `!*wordB`. -/
def sameWord : Bytes → Bytes → Nat → Bool
  | _, [], _ => true
  | _, _ :: _, 0 => false
  | a, b :: bs, lenA + 1 =>
    if toLower (peek a 0) = b then sameWord (a.drop 1) bs lenA else bs.isEmpty

def _true : Bytes := [116, 114, 117, 101]
def _false : Bytes := [102, 97, 108, 115, 101]
def _null : Bytes := [110, 117, 108, 108]

/-- `JB_KEY_HASH(hash, x)` -/
def JB_KEY_HASH (hash x : Nat) : Nat := u32 ((x ^^^ hash) * JB_FNV1A_PRIME)

/-- The loop of `hashJSONStr`. -/
def hashJSONStrLoop (cfg : Config) : Nat → Bytes → Nat → Nat → Nat
  | 0, _, _, hash => hash
  | fuel + 1, s, l, hash =>
    if l ≠ 0 then
      let c := getChar cfg s l
      let h :=
        if c.1 < 0x80 then JB_KEY_HASH hash c.1
        else if c.1 < 0x800 then
          JB_KEY_HASH (JB_KEY_HASH hash ((0xc0 ||| (c.1 >>> 6)) % 256))
            ((0x80 ||| (c.1 &&& 0x3f)) % 256)
        else if c.1 < 0x10000 then
          JB_KEY_HASH (JB_KEY_HASH (JB_KEY_HASH hash ((0xc0 ||| (c.1 >>> 12)) % 256))
            ((0x80 ||| ((c.1 >>> 6) &&& 0x3f)) % 256)) ((0x80 ||| (c.1 &&& 0x3f)) % 256)
        else
          JB_KEY_HASH (JB_KEY_HASH (JB_KEY_HASH (JB_KEY_HASH hash
            ((0xc0 ||| ((c.1 >>> 18) &&& 7)) % 256))
            ((0x80 ||| ((c.1 >>> 12) &&& 0x3f)) % 256))
            ((0x80 ||| ((c.1 >>> 6) &&& 0x3f)) % 256)) ((0x80 ||| (c.1 &&& 0x3f)) % 256)
      hashJSONStrLoop cfg fuel (s.drop c.2) (l - c.2) h
    else hash

/-- `hashJSONStr(s, l)`: the key hash of a raw JSON string (`JB_KEY_HASH_PRIME` is the
FNV-1a seed). -/
def hashJSONStr (cfg : Config) (s : Bytes) (l : Nat) : Nat :=
  hashJSONStrLoop cfg l s l JB_FNV1A_SEED

/-! ## String cache -/

structure sHashLink where
  hash : Nat
  next : Nat
deriving DecidableEq, Repr

/-- The string cache.  Pointers to strings are offsets into the input. -/
structure sStrCache where
  hashTableSize : Nat
  numStr : Nat
  numStrMax : Nat
  aHashTable : List Nat
  aHashLinks : List sHashLink
  aStrLen : List Nat
  apStrings : List Nat
  /-- `apRetStr[i].offs` -/
  apRetStr : List Nat
deriving DecidableEq, Repr

/-- `(hash ^ (hash >> 16 | hash << 16)) % hashTableSize` -/
def hashSlot (hash hashTableSize : Nat) : Nat :=
  (hash ^^^ ((hash >>> 16) ||| u32 (hash <<< 16))) % hashTableSize

/-- `while (element && aHashLinks[element - 1].hash != hash) element = ...next`: the first
element of the chain from `element` on with this hash, 0 when there is none.  A chain
visits each stored string at most once. -/
def chainFind (links : List sHashLink) (hash : Nat) : Nat → Nat → Nat
  | 0, _ => 0
  | fuel + 1, element =>
    if element = 0 then 0
    else if (links.getD (element - 1) ⟨0, 0⟩).hash = hash then element
    else chainFind links hash fuel (links.getD (element - 1) ⟨0, 0⟩).next

/-- `sStrCache::findHash(hash)` -/
def sStrCache.findHash (sc : sStrCache) (hash : Nat) : Nat :=
  chainFind sc.aHashLinks hash (sc.numStr + 1) (sc.aHashTable.getD (hashSlot hash sc.hashTableSize) 0)

/-- `sStrCache::checkStr(str, len, index)` for an index that is not negative. -/
def sStrCache.checkStr (sc : sStrCache) (json : Bytes) (str len index : Nat) : Bool :=
  if len ≠ sc.aStrLen.getD index 0 then false
  else if sc.apStrings.getD index 0 = str then true
  else decide ((json.drop (sc.apStrings.getD index 0)).take len = (json.drop str).take len)

/-- The `while (element)` loop shared by `getStringIndex` and `addString`: the element
whose string equals the one at `str`, 0 when there is none. -/
def sStrCache.findStr (sc : sStrCache) (json : Bytes) (str len hash : Nat) : Nat → Nat → Nat
  | 0, _ => 0
  | fuel + 1, element =>
    if element = 0 then 0
    else if sc.checkStr json str len (element - 1) = true then element
    else
      sc.findStr json str len hash fuel
        (chainFind sc.aHashLinks hash (sc.numStr + 1) (sc.aHashLinks.getD (element - 1) ⟨0, 0⟩).next)

/-- `sStrCache::getStringIndex(str, len)`: the index of a string, `-1` when it is not
stored. -/
def sStrCache.getStringIndex (sc : sStrCache) (json : Bytes) (str len : Nat) : Int :=
  let hash := fnv1A (json.drop str) len
  let element := sc.findStr json str len hash (sc.numStr + 1) (sc.findHash hash)
  if element ≠ 0 then (element : Int) - 1 else -1

/-- `sStrCache::addString(str, len)`: store a string unless it is stored already. -/
def sStrCache.addString (sc : sStrCache) (json : Bytes) (str len : Nat) : Except Fault sStrCache :=
  let hash := fnv1A (json.drop str) len
  let element := sc.findStr json str len hash (sc.numStr + 1) (sc.findHash hash)
  if element = 0 then
    let slot := hashSlot hash sc.hashTableSize
    let insert := sc.numStr
    if insert < sc.numStrMax then
      .ok { sc with
        numStr := sc.numStr + 1
        aHashLinks := sc.aHashLinks.set insert ⟨hash, sc.aHashTable.getD slot 0⟩
        aHashTable := sc.aHashTable.set slot (insert + 1)
        apStrings := sc.apStrings.set insert str
        aStrLen := sc.aStrLen.set insert len }
    else .error Fault.strCacheIndex
  else .ok sc

/-! ## Items -/

/-- The `data` union of an item, by the member last written.  Memory from `calloc` reads
as `i 0`. -/
inductive JBData
  | i (v : Int)
  | f (v : JBFloat)
  | b (v : Bool)
  | s (o : Nat)
deriving DecidableEq, Repr

/-- The member `data.i` of the union.  (An item is written once, into zeroed memory; the
bit pattern of a float is not modelled.) -/
def JBData.asInt : JBData → Int
  | .i v => v
  | .f _ => 0
  | .b v => if v = true then 1 else 0
  | .s o => toInt32 o

/-- The member `data.s.o` of the union. -/
def JBData.asOffs : JBData → Nat
  | .i v => (v % 4294967296).toNat
  | .f _ => 0
  | .b v => if v = true then 1 else 0
  | .s o => o

structure JBItem where
  hash : Nat
  type : JBType
  /-- the 24 bit signed field `sibling` -/
  sibling : Int
  /-- `name.o` -/
  name : Nat
  data : JBData
deriving DecidableEq, Repr

/-- An item of zeroed memory. -/
def JBItem.zero : JBItem := ⟨0, JBType.JB_ROOT, 0, 0, JBData.i 0⟩

/-- `sizeof(JBItem)` with the default traits: `hash`, the bit fields, `name.o`, `data`. -/
def sizeofJBItem : Nat := 16

/-- Byte offset of `name.o` in an item. -/
def nameFieldOffset : Nat := 8

/-- Byte offset of `data` in an item. -/
def dataFieldOffset : Nat := 12

/-- The block `JSONBin` returns: the item array, and after it the string blob. -/
structure JBTree where
  items : List JBItem
  strings : Bytes
deriving DecidableEq, Repr

/-- The zero terminated string at a byte address of the block, when the address lies in
the string blob. -/
def JBTree.cstr (t : JBTree) (addr : Nat) : Option Bytes :=
  if sizeofJBItem * t.items.length ≤ addr ∧ addr < sizeofJBItem * t.items.length + t.strings.length then
    some ((t.strings.drop (addr - sizeofJBItem * t.items.length)).takeWhile (fun b => b ≠ 0))
  else none

/-- `JBItem::getName()` of the item at index `idx`: `none` stands for `NULL`. -/
def JBTree.getName (t : JBTree) (idx : Nat) : Option Bytes :=
  match t.items.get? idx with
  | none => none
  | some it =>
    if it.name ≠ 0 then t.cstr (sizeofJBItem * idx + nameFieldOffset + it.name) else none

/-- `JBItem::getStr()` of the item at index `idx`. -/
def JBTree.getStr (t : JBTree) (idx : Nat) : Option Bytes :=
  match t.items.get? idx with
  | none => none
  | some it =>
    if it.type = JBType.JB_STRING ∧ it.data.asOffs ≠ 0 then
      t.cstr (sizeofJBItem * idx + dataFieldOffset + it.data.asOffs)
    else none

/-- `JBItem::getType()` -/
def JBItem.getType (it : JBItem) : JBType := it.type

/-- `JBItem::getHash()` with `JB_KEY_HASH` -/
def JBItem.getHash (it : JBItem) : Nat := it.hash

/-- `JBItem::getInt()`; the conversion of a float is not modelled (`none`). -/
def JBItem.getInt (it : JBItem) : Option Int :=
  if it.type = JBType.JB_INT then some it.data.asInt
  else if it.type = JBType.JB_FLOAT then none
  else some 0

/-- `JBItem::getBool()` -/
def JBItem.getBool (it : JBItem) : Bool :=
  if it.type = JBType.JB_BOOL then decide (it.data.asInt ≠ 0) else false

/-- `JBItem::getChildCount()` -/
def JBItem.getChildCount (it : JBItem) : Int :=
  if it.type = JBType.JB_ROOT ∨ it.type = JBType.JB_OBJECT ∨ it.type = JBType.JB_ARRAY then
    it.data.asInt
  else 0

/-- `JBItem::getChild()` of the item at index `idx`: the index of the first child. -/
def JBTree.getChild (t : JBTree) (idx : Nat) : Option Nat :=
  match t.items.get? idx with
  | none => none
  | some it =>
    if it.data.asInt ≠ 0 ∧ (it.type = JBType.JB_ROOT ∨ it.type = JBType.JB_OBJECT
        ∨ it.type = JBType.JB_ARRAY) then some (idx + 1)
    else none

/-- `JBItem::getSibling()` of the item at index `idx`: the index of the next sibling. -/
def JBTree.getSibling (t : JBTree) (idx : Nat) : Option Nat :=
  match t.items.get? idx with
  | none => none
  | some it => if it.sibling ≠ 0 then some ((idx : Int) + it.sibling).toNat else none

/-- The indices met by `for (i = first; i; i = i->getSibling())`, at most `fuel` of them. -/
def JBTree.siblings (t : JBTree) : Nat → Option Nat → List Nat
  | 0, _ => []
  | _ + 1, none => []
  | fuel + 1, some i => i :: t.siblings fuel (t.getSibling i)

/-- The indices of the children of the item at `idx`, in sibling order. -/
def JBTree.children (t : JBTree) (idx : Nat) : List Nat :=
  t.siblings t.items.length (t.getChild idx)

/-! ## Parser state -/

/-- `struct JBParse`.  Pointers to items are indices into the item array. -/
structure JBParse where
  ctx_stack : Int
  level : Int
  items : Int
  pItem : Option Nat
  /-- `JSON_MAX_CONTEXT` entries -/
  context : List eJSONCtx
  /-- `JSON_MAX_DEPTH` entries `(PARENT, ELDER)` -/
  aHier : List (Option Nat × Option Nat)
deriving DecidableEq, Repr

/-- `JBParse read = { 0 }` -/
def JBParse.zero : JBParse :=
  ⟨0, 0, 0, none, List.replicate JSON_MAX_CONTEXT eJSONCtx.JSON_ROOT,
    List.replicate JSON_MAX_DEPTH (none, none)⟩

/-- `get_context()` -/
def JBParse.get_context (r : JBParse) : Except Fault eJSONCtx :=
  if 0 ≤ r.ctx_stack ∧ r.ctx_stack < JSON_MAX_CONTEXT then
    .ok (r.context.getD r.ctx_stack.toNat eJSONCtx.JSON_ROOT)
  else .error Fault.contextIndex

/-- `set_context(ctx)` -/
def JBParse.set_context (r : JBParse) (ctx : eJSONCtx) : Except Fault JBParse :=
  if 0 ≤ r.ctx_stack ∧ r.ctx_stack < JSON_MAX_CONTEXT then
    .ok { r with context := r.context.set r.ctx_stack.toNat ctx }
  else .error Fault.contextIndex

/-- `push_context(ctx)` -/
def JBParse.push_context (r : JBParse) (ctx : eJSONCtx) : Except Fault JBParse :=
  JBParse.set_context { r with ctx_stack := r.ctx_stack + 1 } ctx

/-- `set_or_push_context(ctx, push)` -/
def JBParse.set_or_push_context (r : JBParse) (ctx : eJSONCtx) (push : Bool) :
    Except Fault JBParse :=
  if push = true then r.push_context ctx else r.set_context ctx

/-- The local state of `JSONBin` while it parses. -/
structure Machine where
  read : JBParse
  strCache : sStrCache
  /-- the item array at `pRet`; empty while `pRet` is null -/
  mem : List JBItem
  cursor : Nat
  left : Nat
  error : JBError
deriving DecidableEq, Repr

/-- A write to the item `p` points at. -/
def Machine.writeItem (m : Machine) (p : Nat) (f : JBItem → JBItem) : Except Fault Machine :=
  if p < m.mem.length then .ok { m with mem := m.mem.set p (f (m.mem.getD p JBItem.zero)) }
  else .error Fault.itemIndex

/-- `JBParse::step_value(type)`, with the item memory it writes to. -/
def step_value (m : Machine) (type : JBType) : Except Fault Machine :=
  let m1 : Machine :=
    { m with read := { m.read with items := m.read.items + 1, ctx_stack := m.read.ctx_stack - 1 } }
  match m1.read.pItem with
  | none => .ok m1
  | some p =>
    if 0 ≤ m1.read.level ∧ m1.read.level < JSON_MAX_DEPTH then
      let lv := m1.read.level.toNat
      match (m1.read.aHier.getD lv (none, none)).1 with
      | none => .error Fault.itemIndex
      | some parent => do
        let m2 ← m1.writeItem parent
          (fun it => { it with data := JBData.i (toInt32 (it.data.asInt + 1)) })
        let m3 ← match (m1.read.aHier.getD lv (none, none)).2 with
          | some elder =>
            m2.writeItem elder (fun it => { it with sibling := toInt24 ((p : Int) - (elder : Int)) })
          | none => .ok m2
        let m4 : Machine :=
          { m3 with read := { m3.read with aHier := m3.read.aHier.set lv (some parent, some p) } }
        let m5 ← m4.writeItem p (fun it => { it with type := type, sibling := 0 })
        if type = JBType.JB_ARRAY ∨ type = JBType.JB_OBJECT then do
          let m6 ← m5.writeItem p (fun it => { it with data := JBData.i 0 })
          if m6.read.level + 1 < JSON_MAX_DEPTH then
            .ok { m6 with read := { m6.read with
              level := m6.read.level + 1
              aHier := m6.read.aHier.set (lv + 1) (some p, none)
              pItem := some (p + 1) } }
          else .error Fault.hierIndex
        else .ok { m5 with read := { m5.read with pItem := some (p + 1) } }
    else .error Fault.hierIndex

/-! ## The parsing loop -/

/-- `error = e` -/
def Machine.setError (m : Machine) (e : JBError) : Machine := { m with error := e }

/-- `text_skip(cursor, left, skip)` -/
def Machine.textSkip (m : Machine) (skip : Nat) : Machine :=
  { m with cursor := m.cursor + skip, left := u32 (m.left + 4294967296 - u32 skip) }

/-- `text_back(cursor, left)` -/
def Machine.textBack (m : Machine) : Machine :=
  { m with cursor := m.cursor - 1, left := u32 (m.left + 1) }

/-- Lift a fault of a helper into a stop of the loop. -/
def liftFault {α : Type} : Except Fault α → Except Stop α
  | .ok a => .ok a
  | .error f => .error (Stop.fault f)

/-- Apply a context operation to the parser state of a machine. -/
def Machine.ctxOp (m : Machine) (op : JBParse → Except Fault JBParse) : Except Stop Machine :=
  match op m.read with
  | .ok r => .ok { m with read := r }
  | .error f => .error (Stop.fault f)

/-- The `switch (c)` of the main loop: `ctx` is the context read before the byte `c` was
taken, the cursor is behind `c`. -/
def tokenSwitch (cfg : Config) (json : Bytes) (m : Machine) (ctx : eJSONCtx) (c : Nat) :
    Except Stop Machine :=
  if c = 123 then
    if m.read.ctx_stack = 0 then m.ctxOp (fun r => r.push_context eJSONCtx.JSON_OBJECT)
    else if ctx = eJSONCtx.JSON_VALUE ∨ ctx = eJSONCtx.JSON_ARRAY then
      m.ctxOp (fun r => r.push_context eJSONCtx.JSON_OBJECT_OPEN)
    else .ok (m.setError JBError.JBERR_UNEXPECTED_BRACE)
  else if c = 125 then
    if ctx = eJSONCtx.JSON_OBJECT then m.ctxOp (fun r => r.set_context eJSONCtx.JSON_OBJECT_CLOSE)
    else .ok (m.setError JBError.JBERR_UNEXPECTED_CLOSE_BRACE)
  else if c = 91 then
    if cfg.allowRootArray = true ∧ ctx = eJSONCtx.JSON_ROOT then do
      let m1 ← m.ctxOp (fun r => r.push_context eJSONCtx.JSON_ARRAY)
      if m1.mem ≠ [] then
        liftFault (m1.writeItem 0 (fun it => { it with type := JBType.JB_ARRAY }))
      else .ok m1
    else if ctx = eJSONCtx.JSON_VALUE ∨ ctx = eJSONCtx.JSON_ARRAY then
      m.ctxOp (fun r => r.push_context eJSONCtx.JSON_ARRAY_OPEN)
    else .ok (m.setError JBError.JBERR_UNEXPECTED_BRACKET)
  else if c = 93 then
    if ctx = eJSONCtx.JSON_ARRAY then m.ctxOp (fun r => r.set_context eJSONCtx.JSON_ARRAY_CLOSE)
    else .ok (m.setError JBError.JBERR_UNEXPECTED_CLOSE_BRACKET)
  else if c = 34 then
    if ctx = eJSONCtx.JSON_OBJECT then m.ctxOp (fun r => r.push_context eJSONCtx.JSON_GET_TAG)
    else if ctx = eJSONCtx.JSON_ARRAY then
      m.ctxOp (fun r => r.push_context eJSONCtx.JSON_STRING_VALUE)
    else if ctx = eJSONCtx.JSON_VALUE then
      m.ctxOp (fun r => r.set_context eJSONCtx.JSON_STRING_VALUE)
    else .ok (m.setError JBError.JBERR_UNEXPECTED_QUOTE)
  else if c = 58 then
    if ctx = eJSONCtx.JSON_COLON then m.ctxOp (fun r => r.set_context eJSONCtx.JSON_VALUE)
    else .ok (m.setError JBError.JBERR_UNEXPECTED_COLON)
  else if c = 44 then
    if ctx ≠ eJSONCtx.JSON_OBJECT ∧ ctx ≠ eJSONCtx.JSON_ARRAY then
      .ok (m.setError JBError.JBERR_UNEXPECTED_COMMA)
    else .ok m
  else if c = 47 then
    if cfg.allowCComments = true ∧ m.left ≠ 0
        ∧ (peek json m.cursor = 47 ∨ peek json m.cursor = 42) then do
      let m1 := m.textBack
      let size ← commentSize json m1.cursor m1.left
      (m1.textSkip size).ctxOp (fun r => r.push_context eJSONCtx.JSON_COMMENT)
    else .ok (m.setError JBError.JBERR_UNEXPECTED_CHARACTER)
  else
    let m1 := m.textBack
    let word := json.drop m1.cursor
    if (48 ≤ c ∧ c ≤ 57) ∨ c = 46 ∨ c = 45 ∨ c = 43 then
      m1.ctxOp (fun r => r.set_or_push_context eJSONCtx.JSON_NUMERIC_VALUE
        (decide (ctx = eJSONCtx.JSON_ARRAY)))
    else if (ctx = eJSONCtx.JSON_ARRAY ∨ ctx = eJSONCtx.JSON_OBJECT)
        ∧ sameWord word _null m1.left = true then do
      let m2 ← m1.ctxOp (fun r => r.push_context eJSONCtx.JSON_NULL_TAG)
      .ok (m2.textSkip _null.length)
    else if ctx ≠ eJSONCtx.JSON_VALUE ∧ ctx ≠ eJSONCtx.JSON_ARRAY then
      .ok (m1.setError JBError.JBERR_UNEXPECTED_NULL)
    else if sameWord word _true m1.left = true then do
      let m2 ← m1.ctxOp (fun r => r.set_or_push_context eJSONCtx.JSON_TRUE_VALUE
        (decide (ctx = eJSONCtx.JSON_ARRAY)))
      .ok (m2.textSkip _true.length)
    else if sameWord word _false m1.left = true then do
      let m2 ← m1.ctxOp (fun r => r.set_or_push_context eJSONCtx.JSON_FALSE_VALUE
        (decide (ctx = eJSONCtx.JSON_ARRAY)))
      .ok (m2.textSkip _false.length)
    else if sameWord word _null m1.left = true then do
      let m2 ← m1.ctxOp (fun r => r.set_or_push_context eJSONCtx.JSON_NULL_VALUE
        (decide (ctx = eJSONCtx.JSON_ARRAY)))
      .ok (m2.textSkip _null.length)
    else .ok (m1.setError JBError.JBERR_UNEXPECTED_CHARACTER)

/-- `if (read.ctx_stack >= JSON_MAX_CONTEXT || read.level >= JSON_MAX_DEPTH) error = ...` -/
def depthCheck (m : Machine) : Machine :=
  if m.read.ctx_stack ≥ JSON_MAX_CONTEXT ∨ m.read.level ≥ JSON_MAX_DEPTH then
    m.setError JBError.JBERR_EXCEED_MAX_DEPTH
  else m

/-- The string reference stored in a field at byte offset `field` of item `p`: the
distance from the field to the encoded string `index` in the blob behind the items. -/
def stringRef (m : Machine) (p field : Nat) (index : Nat) : Nat :=
  ((((sizeofJBItem * m.mem.length + m.strCache.apRetStr.getD index 0 : Nat) : Int)
    - ((sizeofJBItem * p + field : Nat) : Int)) % 4294967296).toNat

/-- The case `JSON_GET_TAG` of the `switch (read.get_context())`. -/
def caseGetTag (cfg : Config) (json : Bytes) (m : Machine) : Except Stop Machine :=
  let m1 := m.textBack
  match quoteEnd json m1.cursor m1.left with
  | some quote_end =>
    let quote_start := m1.cursor + 1
    let quote_len := quote_end - quote_start
    let m2 := m1.textSkip (quote_end - m1.cursor + 1)
    match m2.read.pItem with
    | some p => do
      let m3 ← liftFault (m2.writeItem p (fun it => { it with
        hash := if quote_len ≠ 0 then hashJSONStr cfg (json.drop quote_start) quote_len else 0 }))
      let m4 ←
        if quote_len ≠ 0 then
          let index := m3.strCache.getStringIndex json quote_start quote_len
          if index < 0 then .ok (m3.setError JBError.JBERR_INTERNAL_MISS_STR)
          else liftFault (m3.writeItem p (fun it => { it with
            name := stringRef m3 p nameFieldOffset index.toNat }))
        else .ok m3
      m4.ctxOp (fun r => r.set_context eJSONCtx.JSON_COLON)
    | none => do
      let m3 ←
        if quote_len ≠ 0 then do
          let sc ← liftFault (m2.strCache.addString json quote_start quote_len)
          let m21 : Machine := { m2 with strCache := sc }
          if sc.numStr ≥ sc.numStrMax then
            .ok (m21.setError JBError.JBERR_UNEXPECTED_STRCOUNT)
          else .ok m21
        else .ok m2
      m3.ctxOp (fun r => r.set_context eJSONCtx.JSON_COLON)
  | none => .ok (m1.setError JBError.JBERR_UNTERMINATED_QUOTE)

/-- The case `JSON_STRING_VALUE`. -/
def caseStringValue (json : Bytes) (m : Machine) : Except Stop Machine :=
  let m1 := m.textBack
  match quoteEnd json m1.cursor m1.left with
  | some quote_end =>
    let quote_start := m1.cursor + 1
    let quote_len := quote_end - quote_start
    let m2 := m1.textSkip (quote_end - m1.cursor + 1)
    match m2.read.pItem with
    | some p => do
      let m3 ←
        if quote_len ≠ 0 then
          let index := m2.strCache.getStringIndex json quote_start quote_len
          if index < 0 then .ok (m2.setError JBError.JBERR_INTERNAL_MISS_STR)
          else liftFault (m2.writeItem p (fun it => { it with
            data := JBData.s (stringRef m2 p dataFieldOffset index.toNat) }))
        else .ok m2
      liftFault (step_value m3 JBType.JB_STRING)
    | none => do
      let m3 ←
        if quote_len ≠ 0 then do
          let sc ← liftFault (m2.strCache.addString json quote_start quote_len)
          let m21 : Machine := { m2 with strCache := sc }
          if sc.numStr ≥ sc.numStrMax then
            .ok (m21.setError JBError.JBERR_UNEXPECTED_STRCOUNT)
          else .ok m21
        else .ok m2
      liftFault (step_value m3 JBType.JB_STRING)
  | none => .ok (m1.setError JBError.JBERR_UNTERMINATED_QUOTE)

/-- `if (read.pItem) read.pItem->data = d` -/
def Machine.writeData (m : Machine) (d : JBData) : Except Stop Machine :=
  match m.read.pItem with
  | some p => liftFault (m.writeItem p (fun it => { it with data := d }))
  | none => .ok m

/-- The case `JSON_NUMERIC_VALUE`. -/
def caseNumericValue (env : Env) (cfg : Config) (json : Bytes) (m : Machine) :
    Except Stop Machine := do
  let num ← liftFault (getNumStr env cfg (json.drop m.cursor) m.left)
  if num.representable = false then .ok (m.setError JBError.JBERR_UNREPRESENTABLE)
  else do
    let m1 ← m.writeData
      (if num.real = false then JBData.i (num.intnum.getD 0) else JBData.f num.value)
    liftFault (step_value (m1.textSkip num.num_len)
      (if num.real = false then JBType.JB_INT else JBType.JB_FLOAT))

/-- The cases `JSON_OBJECT_CLOSE` and `JSON_ARRAY_CLOSE`. -/
def caseClose (m : Machine) : Machine :=
  { m with read := { m.read with
    ctx_stack := m.read.ctx_stack - 1
    level := if m.read.pItem.isSome = true then m.read.level - 1 else m.read.level } }

/-- The cases `JSON_OBJECT_OPEN` (`type = JB_OBJECT`, `ctx = JSON_OBJECT`) and
`JSON_ARRAY_OPEN`. -/
def caseOpen (m : Machine) (type : JBType) (ctx : eJSONCtx) : Except Stop Machine := do
  let m1 ← liftFault (step_value m type)
  let top ← liftFault m1.read.get_context
  m1.ctxOp (fun r => r.set_or_push_context ctx (decide (top = eJSONCtx.JSON_ARRAY)))

/-- The `switch (read.get_context())` of the main loop. -/
def contextSwitch (env : Env) (cfg : Config) (json : Bytes) (m : Machine) :
    Except Stop Machine := do
  let ctx ← liftFault m.read.get_context
  match ctx with
  | .JSON_GET_TAG => caseGetTag cfg json m
  | .JSON_NULL_TAG => do
    let m1 ← m.writeData (JBData.i 0)
    liftFault (step_value m1 JBType.JB_NULL)
  | .JSON_COLON => m.ctxOp (fun r => r.set_context eJSONCtx.JSON_VALUE)
  | .JSON_OBJECT_OPEN => caseOpen m JBType.JB_OBJECT eJSONCtx.JSON_OBJECT
  | .JSON_OBJECT_CLOSE => .ok (caseClose m)
  | .JSON_ARRAY_OPEN => caseOpen m JBType.JB_ARRAY eJSONCtx.JSON_ARRAY
  | .JSON_ARRAY_CLOSE => .ok (caseClose m)
  | .JSON_STRING_VALUE => caseStringValue json m
  | .JSON_NUMERIC_VALUE => caseNumericValue env cfg json m
  | .JSON_TRUE_VALUE => do
    let m1 ← m.writeData (JBData.b true)
    liftFault (step_value m1 JBType.JB_BOOL)
  | .JSON_FALSE_VALUE => do
    let m1 ← m.writeData (JBData.b false)
    liftFault (step_value m1 JBType.JB_BOOL)
  | .JSON_NULL_VALUE => do
    let m1 ← m.writeData (JBData.i 0)
    liftFault (step_value m1 JBType.JB_NULL_VALUE)
  | .JSON_COMMENT =>
    if cfg.allowCComments = true then
      .ok { m with read := { m.read with ctx_stack := m.read.ctx_stack - 1 } }
    else .ok m
  | _ => .ok m

/-- One round of `while (left && error == JBERR_NONE)`; the flag tells whether the round
ended in a `break`. -/
def parseRound (env : Env) (cfg : Config) (json : Bytes) (m : Machine) :
    Except Stop (Machine × Bool) := do
  let m1 := m.textSkip (getWhiteSpaceSize cfg json m.cursor m.left)
  let ctx ← liftFault m1.read.get_context
  match json.get? m1.cursor with
  | none => .error (Stop.fault Fault.inputRead)
  | some c =>
    let m2 : Machine := { m1 with cursor := m1.cursor + 1, left := u32 (m1.left + 4294967295) }
    let m3 ← tokenSwitch cfg json m2 ctx c
    let m4 := depthCheck m3
    if m4.error ≠ JBError.JBERR_NONE then .ok (m4, true)
    else do
      let m5 ← contextSwitch env cfg json m4
      let m6 := depthCheck m5
      .ok (m6, decide (m6.read.ctx_stack = 0))

/-- `while (left && error == JBERR_NONE) { ... }`.  Every round that goes on takes at
least one byte, so `size + 1` rounds always suffice. -/
def parseLoop (env : Env) (cfg : Config) (json : Bytes) : Nat → Machine → Except Stop Machine
  | 0, m =>
    if m.left ≠ 0 ∧ m.error = JBError.JBERR_NONE then .error (Stop.fault Fault.bound) else .ok m
  | fuel + 1, m =>
    if m.left ≠ 0 ∧ m.error = JBError.JBERR_NONE then
      match parseRound env cfg json m with
      | .ok (m1, true) => .ok m1
      | .ok (m1, false) => parseLoop env cfg json fuel m1
      | .error e => .error e
    else .ok m

/-! ## JSONBin -/

/-- `struct JBRet` -/
structure JBRet where
  bin_size : Nat
  bytes_read : Nat
  num_items : Nat
  text_size : Nat
  text_orig : Nat
  strings_count : Nat
  strings_orig : Nat
  error_code : JBError
  err_line : Int
  err_column : Int
deriving DecidableEq, Repr

/-- What a call of `JSONBin` with a `JBRet` record does. -/
inductive Outcome
  /-- it returns `ret` (`none` for a null pointer) and has filled the record -/
  | returned (ret : Option JBTree) (info : JBRet)
  /-- its behaviour is undefined -/
  | undefined (f : Fault)
  /-- it does not return -/
  | diverges
deriving DecidableEq, Repr

/-- The string counting loop at the head of `JSONBin`: `(numStrMax, string_size_orig)`.
When `quoteEnd` finds no end the round changes nothing and the loop never exits.  After
the skip of a comment, which is measured with a `left` that is too large by the bytes
before the comment, a `quote_left` that has wrapped makes the next `findChar` read behind
the buffer.  Every other round takes at least one byte. -/
def countStrings (cfg : Config) (json : Bytes) : Nat → Nat → Nat → Nat → Nat → Except Stop (Nat × Nat)
  | 0, _, _, _, _ => .error (Stop.fault Fault.bound)
  | fuel + 1, quote_str, quote_left, numStrMax, string_size_orig =>
    match (if cfg.allowCComments = true then findChar2 json 34 47 quote_str quote_left
        else findChar json 34 quote_str quote_left) with
    | none => .ok (numStrMax, string_size_orig)
    | some quote_next =>
      let quoted : Except Stop (Nat × Nat) :=
        let quote_left1 := quote_left - (quote_next - quote_str)
        match quoteEnd json quote_next quote_left1 with
        | some quote_end =>
          let quote_len := quote_end + 1 - quote_next
          countStrings cfg json fuel (quote_end + 1) (quote_left1 - quote_len) (numStrMax + 1)
            (u32 (string_size_orig + quote_len))
        | none => .error Stop.diverges
      if cfg.allowCComments = true ∧ peek json quote_next = 47 then
        match json.get? (quote_next + 1) with
        | none => .error (Stop.fault Fault.inputRead)
        | some b =>
          if b = 47 ∨ b = 42 then
            match commentSize json quote_next quote_left with
            | .ok size =>
              let skip := size + (quote_next - quote_str)
              if skip > quote_left then .error (Stop.fault Fault.inputRead)
              else countStrings cfg json fuel (quote_str + skip) (quote_left - skip) numStrMax
                string_size_orig
            | .error e => .error e
          else quoted
      else quoted

/-- `JB_HASH_COUNT_DIV` -/
def JB_HASH_COUNT_DIV : Nat := 4

/-- The string cache after the work memory has been set up. -/
def sStrCache.init (numStrMax : Nat) : sStrCache :=
  let hashTableSize := if numStrMax / JB_HASH_COUNT_DIV < 1024 then 1024 else numStrMax / JB_HASH_COUNT_DIV
  { hashTableSize := hashTableSize
    numStr := 0
    numStrMax := numStrMax
    aHashTable := List.replicate hashTableSize 0
    aHashLinks := List.replicate numStrMax ⟨0, 0⟩
    aStrLen := List.replicate numStrMax 0
    apStrings := List.replicate numStrMax 0
    apRetStr := [] }

/-- `getStrLen(ptr, left)` as `JSONBin` calls it: the `unsigned int` length of the cache
is converted to the parameter `int left`, and the loop is `while (left > 0)`, so a length
of 2^31 or more, which is negative as an `int`, gives 0. -/
def getStrLenInt (cfg : Config) (p : Bytes) (left : Int) : Nat :=
  if 0 < left then getStrLen cfg p left.toNat else 0

/-- `getChar(ptr, left, char_len)` for a negative `int left`: `getCode` takes a byte since
`left` is not 0, and after a backslash it calls `solidusCode` with `left - 1` (when that is
not 0), whose tests `left >= 5` and `left >= 11` fail for a negative value; the test
`left > char_len` of `getChar` fails, so no UTF-8 sequence is combined. -/
def getCharNegative (cfg : Config) (p : Bytes) (left : Int) : Nat × Nat :=
  let c := peek p 0
  if toInt32 (left - 1) ≠ 0 ∧ c = 92 then solidusCode cfg (p.drop 1) (toInt32 (left - 1)).toNat 1
  else (c, 1)

/-- `toEncoding(ptr, left, out)` as `JSONBin` calls it, with the `int left` converted from
the `unsigned int` length of the cache.  The loop is `while (left)`: it also runs for a
negative `left`, which `text_skip` counts down (as `unsigned int`) until it is positive.
From a `left` that is not negative the bytes are those of `toEncoding`.  The rounds with a
negative `left` are at most `left + 2^31 + 1`. -/
def toEncodingInt (cfg : Config) : Nat → Bytes → Int → Bytes → Except Fault Bytes
  | 0, _, _, _ => .error Fault.bound
  | fuel + 1, p, left, out =>
    if 0 ≤ left then .ok (toEncodingLoop cfg left.toNat p left.toNat out)
    else
      let c := getCharNegative cfg p left
      toEncodingInt cfg fuel (p.drop c.2) (toInt32 (left - (c.2 : Int))) (out ++ asEncoding c.1)

/-- The bytes written for the strings in `idx`, each with its terminator. -/
def encodeList (cfg : Config) (json : Bytes) (sc : sStrCache) : List Nat → Except Fault (List Bytes)
  | [] => .ok []
  | i :: idx => do
    let w ← toEncodingInt cfg (sc.aStrLen.getD i 0 + 1) (json.drop (sc.apStrings.getD i 0))
      (toInt32 (sc.aStrLen.getD i 0)) []
    let ws ← encodeList cfg json sc idx
    .ok ((w ++ [0]) :: ws)

/-- The encoded strings of the cache, each with its terminator, in the order of their
insertion: what the loop over `toEncoding` writes to the string blob. -/
def encodeStrings (cfg : Config) (json : Bytes) (sc : sStrCache) : Except Fault (List Bytes) :=
  encodeList cfg json sc (List.range sc.numStr)

/-- `string_offset` before each string of the blob. -/
def stringOffsets : List Bytes → Nat → List Nat
  | [], _ => []
  | b :: bs, offset => offset :: stringOffsets bs (offset + b.length)

/-- The sum of `getStrLen + 1` over the strings of the cache; `string_bytes`, an `int`, is
this sum converted to `int`. -/
def stringBytes (cfg : Config) (json : Bytes) (sc : sStrCache) : Nat :=
  ((List.range sc.numStr).map (fun i =>
    getStrLenInt cfg (json.drop (sc.apStrings.getD i 0)) (toInt32 (sc.aStrLen.getD i 0)) + 1)).sum

/-- The start of a pass: reset of the hierarchy, the root item, the cursor. -/
def startPass (m : Machine) (size : Nat) : Except Stop Machine :=
  let m1 : Machine := { m with
    read := { m.read with aHier := m.read.aHier.set 0 (m.read.pItem, none), items := 1, level := 0 }
    cursor := 0
    left := size }
  match m1.read.pItem with
  | some p => do
    let m2 ← liftFault (m1.writeItem p (fun it => { it with type := JBType.JB_ROOT }))
    .ok { m2 with read := { m2.read with pItem := some (p + 1) } }
  | none => .ok m1

/-- State at the end of the two passes. -/
structure Passes where
  m : Machine
  info : JBRet
  strings : Bytes
  /-- `pRet` is not null -/
  pRet : Bool
deriving DecidableEq, Repr

/-- The `for (int pass = 0; pass < 2 && error == JBERR_NONE; pass++)` loop, entered with
`error == JBERR_NONE`.  The block has `string_bytes` bytes behind the items: when the
strings written take more, the loop over `toEncoding` writes behind the end of the block. -/
def passes (env : Env) (cfg : Config) (json : Bytes) (sc : sStrCache) (info : JBRet) :
    Except Stop Passes := do
  let size := json.length
  let m0 ← startPass ⟨JBParse.zero, sc, [], 0, 0, JBError.JBERR_NONE⟩ size
  let m1 ← parseLoop env cfg json (size + 1) m0
  let string_bytes := stringBytes cfg json m1.strCache
  if env.callocRet = true then
    let n := m1.read.items.toNat
    let strPtrSize := 4 * m1.strCache.numStr
    if strPtrSize ≠ 0 ∧ ¬ (strPtrSize < env.ptrSize * (m1.strCache.numStrMax - m1.strCache.numStr))
        ∧ env.mallocRetStr = false then
      .ok ⟨m1.setError JBError.JBERR_OUT_OF_MEMORY, info, [], true⟩
    else
      let info1 : JBRet := { info with
        bin_size := u32 (sizeofJBItem * n + string_bytes)
        text_size := u32 string_bytes
        num_items := n
        strings_count := m1.strCache.numStr }
      let encoded ← liftFault (encodeStrings cfg json m1.strCache)
      if toInt32 string_bytes < encoded.flatten.length then .error (Stop.fault Fault.blobWrite)
      else
        let m2 : Machine := { m1 with
          strCache := { m1.strCache with apRetStr := stringOffsets encoded 0 }
          mem := List.replicate n JBItem.zero
          read := { m1.read with pItem := some 0, items := 0 } }
        if m2.error = JBError.JBERR_NONE then do
          let m3 ← startPass m2 size
          let m4 ← parseLoop env cfg json (size + 1) m3
          .ok ⟨m4, info1, encoded.flatten, true⟩
        else .ok ⟨m2, info1, encoded.flatten, true⟩
  else .ok ⟨m1.setError JBError.JBERR_OUT_OF_MEMORY, info, [], false⟩

/-- The error position: `(line, line_start)` after the scan of the first `n` bytes. -/
def lineScan (json : Bytes) : Nat → Int × Nat
  | 0 => (1, 0)
  | n + 1 =>
    if peek json n = 10 then ((lineScan json n).1 + 1, n + 1) else lineScan json n

/-- The end of `JSONBin`: release on error, and the record.  `err_line` and `err_column`
are `int` members: the line counter is an `int`, and the column is the pointer difference
converted by `int(cursor - line_start + 1)`. -/
def finish (json : Bytes) (ps : Passes) : Outcome :=
  let error := ps.m.error
  let ret : Option JBTree :=
    if error ≠ JBError.JBERR_NONE ∨ ps.pRet = false then none else some ⟨ps.m.mem, ps.strings⟩
  let info1 : JBRet := { ps.info with
    bytes_read := ps.m.cursor, err_line := 0, err_column := 0, error_code := error }
  if error ≠ JBError.JBERR_NONE then
    let info2 : JBRet := { info1 with
      bin_size := 0, num_items := 0, text_size := 0, text_orig := 0, strings_orig := 0
      strings_count := 0 }
    if error ≠ JBError.JBERR_OUT_OF_MEMORY then
      Outcome.returned ret { info2 with
        err_line := toInt32 (lineScan json ps.m.cursor).1
        err_column := toInt32 ((ps.m.cursor : Int) - ((lineScan json ps.m.cursor).2 : Int) + 1) }
    else Outcome.returned ret info2
  else Outcome.returned ret info1

/-- The input without a leading UTF-8 byte order mark (`JB_HANDLE_UTF8_BOM`). -/
def stripBom (cfg : Config) (json : Bytes) : Bytes :=
  if cfg.handleUtf8Bom = true ∧ json.length ≥ 3 ∧ peek json 0 = 0xef ∧ peek json 1 = 0xbb
      ∧ peek json 2 = 0xbf then json.drop 3
  else json

/-- How a stop of a loop shows as the outcome of the call. -/
def Outcome.ofStop : Stop → Outcome
  | Stop.fault f => Outcome.undefined f
  | Stop.diverges => Outcome.diverges

/-- `JSONBin(json, size, info)` with `info` not null: `json` holds the `size` bytes of the
input, `info` is the record as the caller passes it. -/
def JSONBin (env : Env) (cfg : Config) (json : Bytes) (info : JBRet) : Outcome :=
  let text := stripBom cfg json
  match countStrings cfg text (text.length + 1) 0 text.length 0 0 with
  | .error e => Outcome.ofStop e
  | .ok counts =>
    let info1 : JBRet := { info with text_orig := counts.2, strings_orig := counts.1 }
    if env.mallocWork = true then
      match passes env cfg text (sStrCache.init counts.1) info1 with
      | .error e => Outcome.ofStop e
      | .ok ps => finish text ps
    else
      finish text ⟨⟨JBParse.zero, sStrCache.init counts.1, [], 0, 0,
        JBError.JBERR_OUT_OF_MEMORY⟩, info1, [], false⟩

/-- A record as a caller may pass it (its content is overwritten). -/
def JBRet.zero : JBRet := ⟨0, 0, 0, 0, 0, 0, 0, JBError.JBERR_NONE, 0, 0⟩

/-! ## Definitions used to state the claims -/

/-- The value of a string of decimal digits, most significant digit first. -/
def decimalValue (ds : Bytes) : Nat := ds.foldl (fun n d => n * 10 + (d - 48)) 0

/-- A byte that is a decimal digit. -/
def isDigit (b : Nat) : Prop := 48 ≤ b ∧ b ≤ 57

/-- A byte with which the scan of an integer literal would go on: a digit, `.`, `e`
or `E`. -/
def continuesNumber (b : Nat) : Prop := isDigit b ∨ b = 46 ∨ b = 101 ∨ b = 69

/-- The first byte of a text that is not skipped as white space at the head of the
main loop, after the byte order mark: its outermost token. -/
def firstToken (cfg : Config) (json : Bytes) : Option Nat :=
  (stripBom cfg json).get?
    (getWhiteSpaceSize cfg (stripBom cfg json) 0 (stripBom cfg json).length)

/-- The integer that an optional sign byte and a digit string denote. -/
def literalValue (sign : Option Nat) (ds : Bytes) : Int :=
  if sign = some 45 then -(decimalValue ds : Int) else (decimalValue ds : Int)

/-- The hash of the item at index `i` (`i->getHash()`), when there is such an item. -/
def JBTree.hashAt (t : JBTree) (i : Nat) : Option Nat := (t.items.get? i).map JBItem.getHash

/-- The `for (i = getChild(); i; i = i->getSibling()) if (i->getHash() == hash) return i;`
loop of `findByHash`, over at most `fuel` items. -/
def JBTree.findByHashLoop (t : JBTree) (hash : Nat) : Nat → Option Nat → Option Nat
  | 0, _ => none
  | _ + 1, none => none
  | fuel + 1, some i =>
    if t.hashAt i = some hash then some i else t.findByHashLoop hash fuel (t.getSibling i)

/-- `JBItem::findByHash(hash)` of the item at index `idx`: the index of the child found,
`none` for `NULL`. -/
def JBTree.findByHash (t : JBTree) (idx : Nat) (hash : Nat) : Option Nat :=
  match t.items.get? idx with
  | none => none
  | some it =>
    if (it.type = JBType.JB_OBJECT ∨ it.type = JBType.JB_ROOT) ∧ it.data.asInt ≠ 0 then
      t.findByHashLoop hash t.items.length (t.getChild idx)
    else none

/-- `JBItem::getHash()` as it is compiled without `JB_KEY_HASH`:
`fnv1A(getName(), getNameLen())`, on the bytes of the name. -/
def hashOfName (name : Bytes) : Nat := fnv1A name name.length

/-- Whether the item at index `idx` is of type `JB_OBJECT` or `JB_ROOT`. -/
def JBTree.isObjectOrRoot (t : JBTree) (idx : Nat) : Bool :=
  match t.items.get? idx with
  | none => false
  | some it => decide (it.type = JBType.JB_OBJECT ∨ it.type = JBType.JB_ROOT)

/-- The tree JSONBin returns for `{"a":1,"b":[true,null,2.5],"a":"dup"}` (see C1). -/
def dupTree : JBTree :=
  ⟨[⟨0, .JB_ROOT, 0, 0, .i 3⟩, ⟨3826002220, .JB_INT, 1, 88, .i 1⟩,
    ⟨3876335077, .JB_ARRAY, 4, 74, .i 3⟩, ⟨0, .JB_BOOL, 1, 0, .b true⟩,
    ⟨0, .JB_NULL, 1, 0, .i 0⟩, ⟨0, .JB_FLOAT, 0, 0, .f ⟨false, 2, 5, 1, 0⟩⟩,
    ⟨3826002220, .JB_STRING, 0, 8, .s 8⟩], [97, 0, 98, 0, 100, 117, 112, 0]⟩

/-- The tree JSONBin returns for `[1,2,3]` (see C2). -/
def arrayTree : JBTree :=
  ⟨[⟨0, .JB_ARRAY, 0, 0, .i 3⟩, ⟨0, .JB_INT, 1, 0, .i 1⟩, ⟨0, .JB_INT, 1, 0, .i 2⟩,
    ⟨0, .JB_INT, 0, 0, .i 3⟩], []⟩

end jbin

/-! ## JSONOut: a shallow embedding of `jsonout/jsonout.cpp`

The output is kept as the bytes already passed to `fwrite` (`file`) and the bytes in the
file buffer (`buf`); the text a caller has produced is `file ++ buf`.  The source in
`jsonout.cpp` takes a `rootArray` flag in the constructor and in `reset` and depends on
the macro `JO_ALLOW_ROOT_ARRAY`; both are parameters here.  The text of a floating point
value is a parameter of `push_float` and `element_float`; `push_double_value` computes it
from the value, by `double2text` (with `JO_FAST_FRAC`) and `cleanfloatstr`. -/

namespace jout

open jbin (Bytes bytesOf)

inductive JSONOutError
  | ERR_NONE | ERR_NO_FILE | ERR_NOT_ARRAY | ERR_OPEN_ARRAY | ERR_OPEN_OBJECT | ERR_TOO_DEEP
  | ERR_ROOT_ARRAY
deriving DecidableEq

inductive AddType
  | JO_NONE | JO_OBJECT | JO_OBJECT_END | JO_ARRAY | JO_ARRAY_END | JO_STRING | JO_NUMBER
  | JO_BOOL | JO_NULL
deriving DecidableEq

def MAX_JSONOUT_DEPTH : Nat := 256
def JO_FILE_BUFFER_SIZE : Nat := 4096
def MAX_JSONOUT_ARRAY_LINE : Int := 200
def MAX_INDENT_LENGTH : Nat := 32

/-- `struct JSONOut`. -/
structure JSONOut where
  /-- `f` is not null -/
  f : Bool
  hier_depth : Int
  indent_len : Nat
  column : Int
  error_cause : JSONOutError
  prev_type : AddType
  /-- the bytes of `indent` from its start, as far as they have been assigned -/
  indent : Bytes
  /-- the bits of `hasValue`, by index (only `0 .. MAX_JSONOUT_DEPTH - 1` exist) -/
  hasValue : Int → Bool
  /-- the bits of `isArray`, by index -/
  isArray : Int → Bool
  /-- the bytes passed to `fwrite` so far -/
  file : Bytes
  /-- `aFileBuf[0 .. buf_cur - 1]` -/
  buf : Bytes
  /-- a bit set was accessed outside `0 .. MAX_JSONOUT_DEPTH - 1` (undefined behaviour) -/
  fault : Bool

/-- The text produced so far. -/
def JSONOut.text (o : JSONOut) : Bytes := o.file ++ o.buf

/-- An operation that returns a `bool`. -/
abbrev Op := JSONOut → Bool × JSONOut

/-- `a && b` on operations. -/
def Op.and (a b : Op) : Op := fun o => if (a o).1 = true then b (a o).2 else (false, (a o).2)

/-- `error(err)` -/
def error (err : JSONOutError) : Op := fun o => (false, { o with error_cause := err })

/-- `bits.set(i)` or `bits.clear(i)` -/
def setBit (bits : Int → Bool) (i : Int) (v : Bool) : Int → Bool :=
  fun j => if j = i then v else bits j

/-- Whether `i` is an index of a bit set. -/
def bitIndexOk (i : Int) : Bool := decide (0 ≤ i) && decide (i < MAX_JSONOUT_DEPTH)

/-- `hasValue[hier_depth]` -/
def JSONOut.hasValueAt (o : JSONOut) : Bool := o.hasValue o.hier_depth

/-- `isArray[hier_depth]`, also `inArray()` -/
def JSONOut.inArray (o : JSONOut) : Bool := o.isArray o.hier_depth

/-- Note an access to a bit at `i`. -/
def JSONOut.touch (o : JSONOut) (i : Int) : JSONOut :=
  if bitIndexOk i = true then o else { o with fault := true }

/-- `hasValue.set(i)` or `hasValue.clear(i)` -/
def JSONOut.setHasValue (o : JSONOut) (i : Int) (v : Bool) : JSONOut :=
  { o.touch i with hasValue := if bitIndexOk i = true then setBit o.hasValue i v else o.hasValue }

/-- `isArray.set(i)` or `isArray.clear(i)` -/
def JSONOut.setIsArray (o : JSONOut) (i : Int) (v : Bool) : JSONOut :=
  { o.touch i with isArray := if bitIndexOk i = true then setBit o.isArray i v else o.isArray }

/-- `write_buf()` -/
def write_buf : Op := fun o =>
  if o.f = true then (true, { o with file := o.file ++ o.buf, buf := [] })
  else error JSONOutError.ERR_NO_FILE o

/-- `aFileBuf[buf_cur++] = c; column++` behind the test of the buffer. -/
def put (c : Nat) : Op := fun o =>
  if o.buf.length ≥ JO_FILE_BUFFER_SIZE then
    if (write_buf o).1 = true then
      (true, { (write_buf o).2 with buf := (write_buf o).2.buf ++ [c], column := o.column + 1 })
    else (false, (write_buf o).2)
  else (true, { o with buf := o.buf ++ [c], column := o.column + 1 })

/-- `add_char(c)` -/
def add_char (c : Nat) : Op := put c

/-- `new_line()`: the column is reset whatever `add_char` returns. -/
def new_line : Op := fun o => ((add_char 10 o).1, { (add_char 10 o).2 with column := 0 })

/-- The loop of `add_indent`, `n` rounds to go. -/
def add_indent_loop : Nat → Op
  | 0 => fun o => (true, o)
  | n + 1 => fun o =>
    let step : Op := fun o1 =>
      (true, { o1 with buf := o1.buf ++ (List.range o1.indent_len).map (fun i => o1.indent.getD i 0) })
    if (o.buf.length : Int) ≥ (JO_FILE_BUFFER_SIZE : Int) - (o.indent_len : Int) then
      if (write_buf o).1 = true then add_indent_loop n (step (write_buf o).2).2
      else (false, (write_buf o).2)
    else add_indent_loop n (step o).2

/-- `add_indent()` -/
def add_indent : Op := fun o =>
  let r := add_indent_loop o.hier_depth.toNat o
  if r.1 = true then (true, { r.2 with column := r.2.column + o.hier_depth * (o.indent_len : Int) })
  else r

/-- `if (hasValue[hier_depth]) { if (!add_char(',')) return false; }` -/
def separator : Op := fun o =>
  if o.hasValueAt = true then add_char 44 (o.touch o.hier_depth) else (true, o.touch o.hier_depth)

/-- `next_line()` -/
def next_line : Op := Op.and separator new_line

/-- `next_line_indent()` -/
def next_line_indent : Op := Op.and separator (Op.and new_line add_indent)

/-- `next_element()` -/
def next_element : Op := Op.and separator (fun o =>
  if o.column < MAX_JSONOUT_ARRAY_LINE then add_char 32 o else Op.and new_line add_indent o)

/-- A hexadecimal digit of `"%04x"`. -/
def hexChar (d : Nat) : Nat := if d < 10 then 48 + d else 87 + d

/-- The bytes `add_string` writes for one byte of the string. -/
def escapeByte (c : Nat) : Bytes :=
  if c = 8 then [92, 98]
  else if c = 9 then [92, 116]
  else if c = 10 then [92, 110]
  else if c = 12 then [92, 102]
  else if c = 13 then [92, 114]
  else if c = 34 then [92, 34]
  else if c = 92 then [92, 92]
  else if c < 32 then [92, 117, 48, 48, hexChar (c / 16), hexChar (c % 16)]
  else [c]

/-- The `while (wl--)` loop of `add_string`: the bytes of `w`, each behind the test of the
buffer. -/
def putAll : Bytes → Op
  | [] => fun o => (true, o)
  | c :: w => Op.and (put c) (putAll w)

/-- The loops of `add_string` over the bytes of the string. -/
def add_string_loop : Bytes → Op
  | [] => fun o => (true, o)
  | c :: str => Op.and (putAll (escapeByte c)) (add_string_loop str)

/-- `add_string(str, len)`: the first `len` bytes of `str`. -/
def add_string (str : Bytes) (len : Nat) : Op := fun o =>
  add_string_loop (str.take len) { o with column := o.column + (len : Int) }

/-- `add_quote_str(str, len)` -/
def add_quote_str_len (str : Bytes) (len : Nat) : Op :=
  Op.and (add_char 34) (Op.and (add_string str len) (add_char 34))

/-- `add_quote_str(str)` for a zero terminated string, `none` for a null pointer. -/
def add_quote_str (str : Option Bytes) : Op :=
  match str with
  | some s => add_quote_str_len s s.length
  | none => add_quote_str_len [] 0

/-- `reset(rootArray)` -/
def reset (allowRootArray rootArray : Bool) (o : JSONOut) : JSONOut :=
  let o1 := ({ o with hier_depth := 1 }.setHasValue 0 false).setHasValue 1 false
  let o2 : JSONOut := { o1 with buf := [] }
  let o3 :=
    if rootArray = true then
      if allowRootArray = true then
        (add_char 91 ((o2.setIsArray 0 false).setIsArray 1 false)).2
      else (error JSONOutError.ERR_ROOT_ARRAY o2).2
    else (add_char 123 ((o2.setIsArray 0 false).setIsArray 1 false)).2
  { o3 with prev_type := AddType.JO_NONE }

/-- `JSONOut(FILE_out, rootArray)`: `column` and the bit sets are not initialised by the
constructor; their content at that point is `column0`, `bits0` and `bits1`. -/
def JSONOut.new (allowRootArray : Bool) (fileOut : Bool) (rootArray : Bool) (column0 : Int)
    (bits0 bits1 : Int → Bool) : JSONOut :=
  reset allowRootArray rootArray
    { f := fileOut, hier_depth := 0, indent_len := 2, column := column0
      error_cause := JSONOutError.ERR_NONE, prev_type := AddType.JO_NONE, indent := [32, 32]
      hasValue := bits0, isArray := bits1, file := [], buf := [], fault := false }

/-- The end of a successful push of a value: `hasValue.set(hier_depth); prev_type = t`. -/
def valueDone (t : AddType) (r : Bool × JSONOut) : Bool × JSONOut :=
  if r.1 = true then (true, { r.2.setHasValue r.2.hier_depth true with prev_type := t }) else r

/-- The common shape of the `push` functions for a value: in an array
`next_element() && value`, else `next_line_indent() && add_quote_str(name) &&
add_string(" : ", 3) && value`. -/
def pushValue (name : Option Bytes) (value : Op) (tArray tObject : AddType) : Op := fun o =>
  if o.error_cause ≠ JSONOutError.ERR_NONE then (false, o)
  else if o.inArray = true then
    valueDone tArray (Op.and next_element value (o.touch o.hier_depth))
  else
    valueDone tObject (Op.and next_line_indent (Op.and (add_quote_str name)
      (Op.and (add_string [32, 58, 32] 3) value)) (o.touch o.hier_depth))

/-- `push(name, value, length)` for a string value -/
def push_str (name : Option Bytes) (value : Bytes) (length : Nat) : Op :=
  pushValue name (add_quote_str_len value length) AddType.JO_STRING AddType.JO_STRING

/-- The text of `snprintf("%d")` or `snprintf("%lld")` for an integer. -/
def decimalText (v : Int) : Bytes :=
  (if v < 0 then [45] else []) ++ ((Nat.toDigits 10 v.natAbs).map Char.toNat)

/-- `push(name, value)` for an `int` or a `long long` value -/
def push_int (name : Option Bytes) (value : Int) : Op :=
  pushValue name (add_string (decimalText value) (decimalText value).length)
    AddType.JO_NUMBER AddType.JO_NUMBER

/-- `push(name, value)` for a `float` or `double` value whose text, after `double2text`
and `cleanfloatstr`, is `valstr`. -/
def push_float (name : Option Bytes) (valstr : Bytes) : Op :=
  pushValue name (add_string valstr valstr.length) AddType.JO_NUMBER AddType.JO_NUMBER

/-- `push(name, value)` for a `bool` value (in an array `prev_type` becomes
`JO_NUMBER`). -/
def push_bool (name : Option Bytes) (value : Bool) : Op :=
  pushValue name
    (if value = true then add_string (bytesOf "true") 4 else add_string (bytesOf "false") 5)
    AddType.JO_NUMBER AddType.JO_BOOL

/-- `push_null(name)` -/
def push_null_named (name : Option Bytes) : Op := fun o =>
  if o.error_cause ≠ JSONOutError.ERR_NONE then (false, o)
  else if o.inArray = true then
    valueDone AddType.JO_NULL
      (Op.and next_element (add_string (bytesOf "null") 4) (o.touch o.hier_depth))
  else
    valueDone AddType.JO_NULL (Op.and next_line_indent (Op.and
      (match name with
        | none => fun o1 => (true, o1)
        | some n => Op.and (add_quote_str (some n)) (add_string [32, 58, 32] 3))
      (add_string (bytesOf "null") 4)) (o.touch o.hier_depth))

/-- `push_null()` -/
def push_null : Op := fun o =>
  if o.error_cause ≠ JSONOutError.ERR_NONE then (false, o)
  else if o.inArray = true then
    valueDone AddType.JO_NULL
      (Op.and next_element (add_string (bytesOf "null") 4) (o.touch o.hier_depth))
  else
    valueDone AddType.JO_NULL
      (Op.and next_line_indent (add_string (bytesOf "null") 4) (o.touch o.hier_depth))

/-- The common end of `push_object`, `push_array`, `element_object`, `element_array`:
`hasValue.set(hier_depth); ++hier_depth;` the depth test, the bits of the new depth,
`prev_type`, and the opening text. -/
def openScope (array : Bool) (opening : Bytes) : Op := fun o =>
  let o1 := o.setHasValue o.hier_depth true
  let o2 : JSONOut := { o1 with hier_depth := o1.hier_depth + 1 }
  if o2.hier_depth ≥ MAX_JSONOUT_DEPTH then error JSONOutError.ERR_TOO_DEEP o2
  else
    let o3 := (o2.setIsArray o2.hier_depth array).setHasValue o2.hier_depth false
    let o4 : JSONOut := { o3 with prev_type := if array = true then AddType.JO_ARRAY else AddType.JO_OBJECT }
    if opening.length = 1 then add_char (opening.getD 0 0) o4
    else add_string opening opening.length o4

/-- `push_object(name)` -/
def push_object (name : Option Bytes) : Op := fun o =>
  if o.error_cause ≠ JSONOutError.ERR_NONE then (false, o)
  else if o.inArray = true then
    Op.and next_line_indent (openScope false [123]) (o.touch o.hier_depth)
  else
    Op.and (Op.and next_line_indent (add_quote_str name)) (openScope false (bytesOf " : \x7b"))
      (o.touch o.hier_depth)

/-- `push_array(name)` -/
def push_array (name : Option Bytes) : Op := fun o =>
  if o.error_cause ≠ JSONOutError.ERR_NONE then (false, o)
  else if o.inArray = true then
    Op.and next_line_indent (openScope true [91]) (o.touch o.hier_depth)
  else
    Op.and (Op.and next_line_indent (add_quote_str name)) (openScope true (bytesOf " : ["))
      (o.touch o.hier_depth)

/-- `scope_end()`, also `close_object()` and `close_array()` -/
def scope_end : Op := fun o =>
  if o.error_cause ≠ JSONOutError.ERR_NONE then (false, o)
  else
    let o1 := o.touch o.hier_depth
    let had := o1.hasValueAt
    let o2 : JSONOut := { o1 with hier_depth := o1.hier_depth - 1 }
    let ended : Bool := decide (o.prev_type = AddType.JO_ARRAY_END)
      || decide (o.prev_type = AddType.JO_OBJECT_END)
    if o.inArray = true then
      let r :=
        if (had && decide (o.column > MAX_JSONOUT_ARRAY_LINE)) || ended then
          Op.and new_line add_indent o2
        else add_char 32 o2
      if r.1 = true then add_char 93 { r.2 with prev_type := AddType.JO_ARRAY_END } else r
    else
      let r := if had || ended then Op.and new_line add_indent o2 else add_char 32 o2
      if r.1 = true then add_char 125 { r.2 with prev_type := AddType.JO_OBJECT_END } else r

/-- `finish()` -/
def finish (allowRootArray : Bool) : Op := fun o =>
  if o.f = false then (true, o)
  else if o.error_cause ≠ JSONOutError.ERR_NONE then (false, o)
  else if o.hier_depth ≠ 1 then
    error (if o.inArray = true then JSONOutError.ERR_OPEN_ARRAY else JSONOutError.ERR_OPEN_OBJECT)
      (o.touch o.hier_depth)
  else
    let r := Op.and new_line (Op.and
      (if allowRootArray = true ∧ o.isArray 0 = true then add_char 93 else add_char 125)
      new_line) o
    if r.1 = true then
      let w := write_buf r.2
      (w.1, { w.2.setHasValue 0 false with f := false, hier_depth := 0, prev_type := AddType.JO_NONE })
    else r

/-! ### Array elements, the indent and floating point text -/

/-- The common shape of the `element` functions for a value: the test of the error, the
test `if (!isArray[hier_depth]) return error(ERR_NOT_ARRAY);`, then
`next_element() && value`. -/
def elementValue (value : Op) (t : AddType) : Op := fun o =>
  if o.error_cause ≠ JSONOutError.ERR_NONE then (false, o)
  else if o.inArray = false then error JSONOutError.ERR_NOT_ARRAY (o.touch o.hier_depth)
  else valueDone t (Op.and next_element value (o.touch o.hier_depth))

/-- `element(value, length)` for a string value -/
def element_str (value : Bytes) (length : Nat) : Op :=
  elementValue (add_quote_str_len value length) AddType.JO_STRING

/-- `element(value)` for an `int` or a `long long` value -/
def element_int (value : Int) : Op :=
  elementValue (add_string (decimalText value) (decimalText value).length) AddType.JO_NUMBER

/-- `element(value)` for a `float` or `double` value whose text, after `double2text` and
`cleanfloatstr`, is `valstr`. -/
def element_float (valstr : Bytes) : Op :=
  elementValue (add_string valstr valstr.length) AddType.JO_NUMBER

/-- `element(value)` for a `bool` value -/
def element_bool (value : Bool) : Op :=
  elementValue
    (if value = true then add_string (bytesOf "true") 4 else add_string (bytesOf "false") 5)
    AddType.JO_BOOL

/-- `element_null()` -/
def element_null : Op := elementValue (add_string (bytesOf "null") 4) AddType.JO_NULL

/-- `element_object()` -/
def element_object : Op := fun o =>
  if o.error_cause ≠ JSONOutError.ERR_NONE then (false, o)
  else if o.inArray = false then error JSONOutError.ERR_NOT_ARRAY (o.touch o.hier_depth)
  else Op.and next_line_indent (openScope false [123]) (o.touch o.hier_depth)

/-- `element_array()` -/
def element_array : Op := fun o =>
  if o.error_cause ≠ JSONOutError.ERR_NONE then (false, o)
  else if o.inArray = false then error JSONOutError.ERR_NOT_ARRAY (o.touch o.hier_depth)
  else Op.and next_line_indent (openScope true [91]) (o.touch o.hier_depth)

/-- `set_indent(spacing)` for the zero terminated string `spacing`: at most
`MAX_INDENT_LENGTH - 1` bytes are copied to the start of `indent` and a 0 is stored behind
them; the bytes of `indent` further on stay, and `indent_len` is not assigned. -/
def set_indent (spacing : Bytes) (o : JSONOut) : JSONOut :=
  let len := min spacing.length (MAX_INDENT_LENGTH - 1)
  { o with indent := spacing.take len ++ (0 :: o.indent.drop (len + 1)) }

/-- The loop of `cleanfloatstr` over the text: the positions of the last `.`, of the last
`e` or `E`, and of the first `0` of the run of zeros at the end. -/
def cleanScan : Bytes → Nat → Option Nat → Option Nat → Option Nat →
    Option Nat × Option Nat × Option Nat
  | [], _, dot, e, last0 => (dot, e, last0)
  | c :: s, i, dot, e, last0 =>
    cleanScan s (i + 1) (if c = 46 then some i else dot)
      (if c ≠ 46 ∧ (c = 101 ∨ c = 69) then some i else e)
      (if c ≠ 48 then none else if last0 = none then some i else last0)

/-- `cleanfloatstr(buf)` on the text before the terminator of `buf`: the text left. -/
def cleanfloatstr (s : Bytes) : Bytes :=
  match cleanScan s 0 none none none with
  | (some dot, none, some last0) =>
    if last0 > dot then (if last0 = dot + 1 then s.take (last0 + 1) else s.take last0) else s
  | _ => s

/-- The text in `valstr` after `double2text(value, valstr, sizeof(valstr))`, whose result
the callers do not use: for a NaN the function returns the literal `"0.0"` at once and
`valstr` keeps what it held (`stack`, the bytes before the first 0 of the array that was
never assigned); for another value the function writes its digits, `digits`. -/
def double2text (nan : Bool) (digits : Bytes) (stack : Bytes) : Bytes :=
  if nan = true then stack else digits

/-- `push(name, value)` for a `double` or `float` value: `double2text`, `cleanfloatstr`,
then the text is added. -/
def push_double (name : Option Bytes) (nan : Bool) (digits stack : Bytes) : Op :=
  push_float name (cleanfloatstr (double2text nan digits stack))

/-- `element(value)` for a `double` or `float` value -/
def element_double (nan : Bool) (digits stack : Bytes) : Op :=
  element_float (cleanfloatstr (double2text nan digits stack))

/-- The operation fails on `o` with `ERR_NOT_ARRAY`: it returns false, adds nothing to the
output and keeps the depth. -/
def RejectsNotArray (op : Op) (o : JSONOut) : Prop :=
  (op o).1 = false ∧ (op o).2.error_cause = JSONOutError.ERR_NOT_ARRAY
  ∧ (op o).2.file = o.file ∧ (op o).2.buf = o.buf ∧ (op o).2.hier_depth = o.hier_depth

/-- The fields of the writer other than the output and the column. -/
structure Ctl where
  f : Bool
  hier_depth : Int
  indent_len : Nat
  error_cause : JSONOutError
  prev_type : AddType
  indent : Bytes
  hasValue : Int → Bool
  isArray : Int → Bool
  fault : Bool

/-- The fields of a writer other than the output and the column. -/
def JSONOut.ctl (o : JSONOut) : Ctl :=
  ⟨o.f, o.hier_depth, o.indent_len, o.error_cause, o.prev_type, o.indent, o.hasValue,
    o.isArray, o.fault⟩

/-- The operation succeeds on `o`, appends `w` to the text and leaves the other fields
(the column apart) as they are. -/
def Emits (op : Op) (o : JSONOut) (w : Bytes) : Prop :=
  (op o).1 = true ∧ (op o).2.text = o.text ++ w ∧ (op o).2.ctl = o.ctl

/-- The bytes one step of `add_indent` copies: `indent_len` bytes of `indent`. -/
def JSONOut.indentChunk (o : JSONOut) : Bytes :=
  (List.range o.indent_len).map (fun i => o.indent.getD i 0)

/-- A text without the `0` characters at its end. -/
def stripZeros (w : Bytes) : Bytes := (w.reverse.dropWhile (fun b => decide (b = 48))).reverse

/-- The digits after the `.` that a trim of the trailing zeros leaves: the digits without
the zeros at their end, but one digit at least. -/
def keptFraction (fp : Bytes) : Bytes := if stripZeros fp = [] then fp.take 1 else stripZeros fp

/-- The number that the digits `ip`, a `.` and the digits `fp` denote. -/
def fixedValue (ip fp : Bytes) : ℚ :=
  (jbin.decimalValue ip : ℚ) + (jbin.decimalValue fp : ℚ) / 10 ^ fp.length

/-- The calls of a list one after the other, as long as each returns true. -/
def runAll : List Op → Op
  | [] => fun o => (true, o)
  | op :: ops => Op.and op (runAll ops)

/-- The calls that add one member to the container that is open: a push of a value, an
element of an array, or the opening of a nested container followed by the calls for its
members and by `scope_end`. -/
inductive Member : Op → Prop
  | push_str (name : Option Bytes) (value : Bytes) (length : Nat) :
      Member (push_str name value length)
  | push_int (name : Option Bytes) (value : Int) : Member (push_int name value)
  | push_float (name : Option Bytes) (valstr : Bytes) : Member (push_float name valstr)
  | push_bool (name : Option Bytes) (value : Bool) : Member (push_bool name value)
  | push_null_named (name : Option Bytes) : Member (push_null_named name)
  | push_null : Member push_null
  | element_str (value : Bytes) (length : Nat) : Member (element_str value length)
  | element_int (value : Int) : Member (element_int value)
  | element_float (valstr : Bytes) : Member (element_float valstr)
  | element_bool (value : Bool) : Member (element_bool value)
  | element_null : Member element_null
  | push_object (name : Option Bytes) (inner : List Op) :
      (∀ op ∈ inner, Member op) → Member (runAll (push_object name :: inner ++ [scope_end]))
  | push_array (name : Option Bytes) (inner : List Op) :
      (∀ op ∈ inner, Member op) → Member (runAll (push_array name :: inner ++ [scope_end]))
  | element_object (inner : List Op) :
      (∀ op ∈ inner, Member op) → Member (runAll (element_object :: inner ++ [scope_end]))
  | element_array (inner : List Op) :
      (∀ op ∈ inner, Member op) → Member (runAll (element_array :: inner ++ [scope_end]))

/-- The calls that open a nested container. -/
inductive Opens : Op → Prop
  | push_object (name : Option Bytes) : Opens (push_object name)
  | push_array (name : Option Bytes) : Opens (push_array name)
  | element_object : Opens element_object
  | element_array : Opens element_array

/-- The call `op` on `o` has appended `w` to the text and has left the depth, the bit sets,
the indentation and `prev_type` as they were. -/
def Adds (op : Op) (o : JSONOut) (w : Bytes) : Prop :=
  (op o).2.text = o.text ++ w ∧ (op o).2.hier_depth = o.hier_depth
    ∧ (op o).2.hasValue = o.hasValue ∧ (op o).2.indentChunk = o.indentChunk
    ∧ (op o).2.isArray = o.isArray ∧ (op o).2.prev_type = o.prev_type

/-- A new line and the indentation of depth `d`: the text of `new_line()` and
`add_indent()`, `d` copies of the indent. -/
def lineBreak (chunk : Bytes) (d : Int) : Bytes := 10 :: (List.replicate d.toNat chunk).flatten

/-- The text of `add_quote_str`: the string with its escapes between two quotes. -/
def quoted (s : Bytes) : Bytes := 34 :: s.flatMap escapeByte ++ [34]

/-- The name of a member with the colon behind it, ` : ` between blanks: the text of
`add_quote_str(name)` and `add_string(" : ", 3)`.  In an array the calls write no name. -/
def nameText (arr : Bool) (name : Option Bytes) : Bytes :=
  if arr = true then [] else quoted (name.getD []) ++ [32, 58, 32]

/-- The text of a value behind the white space before it, for each call that pushes a value,
in an array (`arr`) or in an object: the name and the colon in an object, then the text of
the value.  The `element` calls succeed in an array only. -/
inductive ValueText : Bool → Op → Bytes → Prop
  | push_str (arr : Bool) (name : Option Bytes) (value : Bytes) (length : Nat) :
      ValueText arr (push_str name value length) (nameText arr name ++ quoted (value.take length))
  | push_int (arr : Bool) (name : Option Bytes) (value : Int) :
      ValueText arr (push_int name value) (nameText arr name ++ decimalText value)
  | push_float (arr : Bool) (name : Option Bytes) (valstr : Bytes) :
      ValueText arr (push_float name valstr) (nameText arr name ++ valstr.flatMap escapeByte)
  | push_bool (arr : Bool) (name : Option Bytes) (value : Bool) :
      ValueText arr (push_bool name value)
        (nameText arr name ++ (if value = true then bytesOf "true" else bytesOf "false"))
  | push_null_named (arr : Bool) (name : Option Bytes) :
      ValueText arr (push_null_named name)
        ((if name.isSome = true then nameText arr name else []) ++ bytesOf "null")
  | push_null (arr : Bool) : ValueText arr push_null (bytesOf "null")
  | element_str (value : Bytes) (length : Nat) :
      ValueText true (element_str value length) (quoted (value.take length))
  | element_int (value : Int) : ValueText true (element_int value) (decimalText value)
  | element_float (valstr : Bytes) :
      ValueText true (element_float valstr) (valstr.flatMap escapeByte)
  | element_bool (value : Bool) :
      ValueText true (element_bool value)
        (if value = true then bytesOf "true" else bytesOf "false")
  | element_null : ValueText true element_null (bytesOf "null")

/-- The white space before a value at depth `d`: a new line and the indentation, or in an
array (while the line is short) one blank. -/
def ValueGap (chunk : Bytes) (d : Int) (arr : Bool) (gap : Bytes) : Prop :=
  gap = lineBreak chunk d ∨ (arr = true ∧ gap = [32])

/-- The text of a call that opens a nested container, behind the new line and the
indentation, and whether the container is an array: the name and the colon in an object,
then the opening bracket. -/
inductive OpensText : Bool → Op → Bool → Bytes → Prop
  | push_object (arr : Bool) (name : Option Bytes) :
      OpensText arr (push_object name) false (nameText arr name ++ [123])
  | push_array (arr : Bool) (name : Option Bytes) :
      OpensText arr (push_array name) true (nameText arr name ++ [91])
  | element_object : OpensText true element_object false [123]
  | element_array : OpensText true element_array true [91]

/-- The white space before the closing bracket of a container that is a member at depth
`d`: one blank when the container has no member, a new line and the indentation when it is
an object with members, one of the two when it is an array with members. -/
def CloseGap (chunk : Bytes) (d : Int) (array : Bool) (inner : List Op) (gap : Bytes) : Prop :=
  (gap = [32] ∨ gap = lineBreak chunk d) ∧ (inner = [] → gap = [32])
    ∧ (inner ≠ [] → array = false → gap = lineBreak chunk d)

/-- The texts `bodies` one after the other, a comma before each but the first; before the
first one too when `first` is false. -/
def joinFrom (first : Bool) : List Bytes → Bytes
  | [] => []
  | b :: bs => (if first = true then [] else [44]) ++ b ++ joinFrom false bs

/-- The texts of the members of a container: a comma between two of them, none before the
first and none behind the last. -/
def commaJoin (bodies : List Bytes) : Bytes := joinFrom true bodies

mutual
/-- The text of one member of a container at depth `d`, without the comma before it: for a
value the white space, in an object the name and the colon, and the text of the value; for a
nested container a new line and the indentation, in an object the name and the colon, the
opening bracket, the texts of its members at depth `d + 1` with a comma between two of
them, white space and the closing bracket. -/
inductive MemberText (chunk : Bytes) : Int → Bool → Op → Bytes → Prop
  | value (d : Int) (arr : Bool) (op : Op) (gap w : Bytes) :
      ValueGap chunk d arr gap → ValueText arr op w → MemberText chunk d arr op (gap ++ w)
  | container (d : Int) (arr : Bool) (opn : Op) (array : Bool) (head : Bytes)
      (inner : List Op) (innerBodies : List Bytes) (gap : Bytes) :
      OpensText arr opn array head → SeqText chunk (d + 1) array inner innerBodies →
      CloseGap chunk d array inner gap →
      MemberText chunk d arr (runAll (opn :: inner ++ [scope_end]))
        (lineBreak chunk d ++ head ++ commaJoin innerBodies ++ gap
          ++ [if array = true then 93 else 125])
/-- The texts of the members that a list of calls adds to a container at depth `d`, one
text for each call. -/
inductive SeqText (chunk : Bytes) : Int → Bool → List Op → List Bytes → Prop
  | nil (d : Int) (arr : Bool) : SeqText chunk d arr [] []
  | cons (d : Int) (arr : Bool) (op : Op) (body : Bytes) (ops : List Op)
      (bodies : List Bytes) :
      MemberText chunk d arr op body → SeqText chunk d arr ops bodies →
      SeqText chunk d arr (op :: ops) (body :: bodies)
end

/-- The call `op` on `o`, made at the depth of a container, has added one member to it: it
has appended a comma when the container had a member already and then the text `body` of
the member; the depth is as before, the container now has a member, and the bits of the
containers around it, the kind of the container and the indentation are as before. -/
def AddsMember (op : Op) (o : JSONOut) (body : Bytes) : Prop :=
  (op o).2.text = o.text ++ (if o.hasValueAt = true then [44] else []) ++ body
    ∧ (op o).2.hier_depth = o.hier_depth ∧ (op o).2.hasValueAt = true
    ∧ (∀ j, j < o.hier_depth → (op o).2.hasValue j = o.hasValue j)
    ∧ (op o).2.indentChunk = o.indentChunk
    ∧ (∀ j, j ≤ o.hier_depth → (op o).2.isArray j = o.isArray j)

/-- What the opening of a nested container leaves: the container around it has a member, the
new container, one level deeper and of the kind `array`, has none. -/
def Opened (o o1 : JSONOut) (array : Bool) (w : Bytes) : Prop :=
  o1.text = o.text ++ w ∧ o1.hier_depth = o.hier_depth + 1
    ∧ bitIndexOk o1.hier_depth = true
    ∧ o1.hasValueAt = false ∧ o1.hasValue o.hier_depth = true
    ∧ (∀ j, j < o.hier_depth → o1.hasValue j = o.hasValue j)
    ∧ o1.indentChunk = o.indentChunk
    ∧ o1.inArray = array
    ∧ (∀ j, j ≤ o.hier_depth → o1.isArray j = o.isArray j)
    ∧ o1.prev_type = (if array = true then AddType.JO_ARRAY else AddType.JO_OBJECT)

/-- A call that adds one member, with the text of a member, whenever it is made at a depth
inside the bit sets and returns true. -/
def AddsOne (op : Op) : Prop :=
  ∀ o : JSONOut, bitIndexOk o.hier_depth = true → (op o).1 = true →
    ∃ body, MemberText o.indentChunk o.hier_depth o.inArray op body ∧ AddsMember op o body

/-- Three calls for members of the root: `"a" : 1`, the array `"b"` of 1 and 2, and
`"c" : true`. -/
def sampleMembers : List Op :=
  [push_int (some (bytesOf "a")) 1,
    runAll (push_array (some (bytesOf "b")) :: [element_int 1, element_int 2] ++ [scope_end]),
    push_bool (some (bytesOf "c")) true]

/-- A new writer to a valid sink, the fields that the constructor leaves uninitialised
holding zeros. -/
def newWriter : JSONOut := JSONOut.new false true false 0 (fun _ => false) (fun _ => false)

/-! ### The text of a `double`: `double2text` with `JO_FAST_FRAC` -/

/-- A value of the type `double` (IEEE 754 binary64): a finite value
`(-1)^neg * m * 2^e`, an infinity or a NaN. -/
inductive Dbl
  | finite (neg : Bool) (m : Nat) (e : Int)
  | inf (neg : Bool)
  | nan
deriving DecidableEq

/-- The position of the highest bit that is set in `n`, by halving (0 for `n ≤ 1`). -/
def topBit : Nat → Nat → Nat
  | 0, _ => 0
  | fuel + 1, n => if n ≤ 1 then 0 else topBit fuel (n / 2) + 1

/-- `isnan(v)` -/
def Dbl.isNaN : Dbl → Bool
  | .nan => true
  | _ => false

/-- The value `(-1)^neg * (n + s) * 2^e`, where `s` is 0, or lies strictly between 0 and 1
when `sticky` is set, rounded to the nearest `double`, ties to even: the result has at most
53 bits above the exponent `top - 52`, or `-1074` when that is larger. -/
def Dbl.round (neg : Bool) (n : Nat) (sticky : Bool) (e : Int) : Dbl :=
  if n = 0 then Dbl.finite neg 0 0
  else
    let top : Int := (topBit n n : Int) + e
    let q : Int := if top - 52 < -1074 then -1074 else top - 52
    if q ≤ e then
      if top ≥ 1024 then Dbl.inf neg else Dbl.finite neg (n * 2 ^ (e - q).toNat) q
    else
      let shift : Nat := (q - e).toNat
      let keep : Nat := n / 2 ^ shift
      let rest : Nat := n % 2 ^ shift
      let half : Nat := 2 ^ (shift - 1)
      let up : Bool := decide (rest > half)
        || (decide (rest = half) && (sticky || decide (keep % 2 = 1)))
      let m : Nat := if up = true then keep + 1 else keep
      if (topBit m m : Int) + q ≥ 1024 then Dbl.inf neg else Dbl.finite neg m q

/-- The conversion of an integer to `double`. -/
def Dbl.ofInt (v : Int) : Dbl := Dbl.round (decide (v < 0)) v.natAbs false 0

/-- `-v` -/
def Dbl.neg : Dbl → Dbl
  | .finite s m e => .finite (!s) m e
  | .inf s => .inf (!s)
  | .nan => .nan

/-- `fabs(v)` -/
def Dbl.abs : Dbl → Dbl
  | .finite _ m e => .finite false m e
  | .inf _ => .inf false
  | .nan => .nan

/-- The sum of two finite values as an integer times a power of two. -/
def Dbl.addExact (s1 : Bool) (m1 : Nat) (e1 : Int) (s2 : Bool) (m2 : Nat) (e2 : Int) :
    Int × Int :=
  let e := min e1 e2
  ((if s1 = true then -1 else 1) * ((m1 : Int) * 2 ^ (e1 - e).toNat)
    + (if s2 = true then -1 else 1) * ((m2 : Int) * 2 ^ (e2 - e).toNat), e)

/-- `a + b` -/
def Dbl.add : Dbl → Dbl → Dbl
  | .finite s1 m1 e1, .finite s2 m2 e2 =>
    let r := Dbl.addExact s1 m1 e1 s2 m2 e2
    Dbl.round (decide (r.1 < 0)) r.1.natAbs false r.2
  | .nan, _ => .nan
  | _, .nan => .nan
  | .inf s1, .inf s2 => if s1 = s2 then .inf s1 else .nan
  | .inf s1, .finite _ _ _ => .inf s1
  | .finite _ _ _, .inf s2 => .inf s2

/-- `a - b` -/
def Dbl.sub (a b : Dbl) : Dbl := Dbl.add a b.neg

/-- `a * b` -/
def Dbl.mul : Dbl → Dbl → Dbl
  | .finite s1 m1 e1, .finite s2 m2 e2 => Dbl.round (s1 != s2) (m1 * m2) false (e1 + e2)
  | .nan, _ => .nan
  | _, .nan => .nan
  | .inf s1, .inf s2 => .inf (s1 != s2)
  | .inf s1, .finite s2 m _ => if m = 0 then .nan else .inf (s1 != s2)
  | .finite s1 m _, .inf s2 => if m = 0 then .nan else .inf (s1 != s2)

/-- `a / b`: the quotient of the integers is taken with 64 bits or more, and what is left
over is the sticky bit of the rounding. -/
def Dbl.div : Dbl → Dbl → Dbl
  | .finite s1 m1 e1, .finite s2 m2 e2 =>
    if m2 = 0 then (if m1 = 0 then .nan else .inf (s1 != s2))
    else
      let k : Nat := 64 + topBit m2 m2
      Dbl.round (s1 != s2) (m1 * 2 ^ k / m2) (decide (m1 * 2 ^ k % m2 ≠ 0)) (e1 - e2 - (k : Int))
  | .nan, _ => .nan
  | _, .nan => .nan
  | .inf _, .inf _ => .nan
  | .inf s1, .finite s2 _ _ => .inf (s1 != s2)
  | .finite s1 _ _, .inf s2 => .finite (s1 != s2) 0 0

/-- `v < 0.0` -/
def Dbl.isNegative : Dbl → Bool
  | .finite s m _ => s && decide (m ≠ 0)
  | .inf s => s
  | .nan => false

/-- `fabs(v) > DBL_MIN`, where `DBL_MIN` is 2^-1022. -/
def Dbl.aboveMin : Dbl → Bool
  | .finite _ m e => decide (m ≠ 0) && decide ((topBit m m : Int) + e ≥ -1022)
      && !(decide (m = 2 ^ topBit m m) && decide ((topBit m m : Int) + e = -1022))
  | .inf _ => true
  | .nan => false

/-- The conversion of a `double` to `long long` or to `unsigned long long`: the whole part,
toward zero.  (For a value outside the range of the type, an infinity or a NaN the
conversion is undefined; the embedding gives the whole part, and 0.) -/
def Dbl.toInt : Dbl → Int
  | .finite s m e =>
    (if s = true then -1 else 1) * (if 0 ≤ e then (m : Int) * 2 ^ e.toNat else (m / 2 ^ (-e).toNat : Nat))
  | _ => 0

/-- What `double2text` takes from `<math.h>`. -/
structure FloatEnv where
  /-- `int(log10(x))` for a finite `x > DBL_MIN` -/
  intLog10 : Dbl → Int
  /-- `pow(10.0, k)` for an `int k` -/
  pow10 : Int → Dbl

/-- The number of decimal digits of `n` minus one, by the loop `while (n >= ncc)`. -/
def decimalTop : Nat → Nat → Nat → Nat
  | 0, _, _ => 0
  | fuel + 1, n, ncc => if n ≥ ncc then decimalTop fuel n (ncc * 10) + 1 else 0

/-- The whole part of the decimal logarithm of a positive value `m * 2^e`: for a value of
1 or more the number of digits of its whole part minus one, for a smaller value the
negated number of zeros behind the point. -/
def exactLog10 (m : Nat) (e : Int) : Int :=
  if 0 ≤ e then (decimalTop (m * 2 ^ e.toNat) (m * 2 ^ e.toNat) 10 : Int)
  else if m ≥ 2 ^ (-e).toNat then (decimalTop m (m / 2 ^ (-e).toNat) 10 : Int)
  else if m = 0 then 0
  else -(decimalTop (-e).toNat (2 ^ (-e).toNat / m) 10 : Int)

/-- A `<math.h>` that is exact where `double2text` uses it: `int(log10(x))` is the whole
part of the decimal logarithm, and `pow(10.0, k)` is the `double` nearest to `10^k`. -/
def okFloatEnv : FloatEnv :=
  { intLog10 := fun v =>
      match v with
      | .finite _ m e => exactLog10 m e
      | _ => 0
    pow10 := fun k =>
      if 0 ≤ k then Dbl.round false (10 ^ k.toNat) false 0
      else Dbl.div (Dbl.finite false 1 0) (Dbl.round false (10 ^ (-k).toNat) false 0) }

/-- The decimal digits of `n` in `nc` places, as the loops `buf[o] = (n % 10) + '0'; n /= 10`
store them. -/
def digitsOf : Nat → Nat → Bytes
  | 0, _ => []
  | nc + 1, n => digitsOf nc (n / 10) ++ [n % 10 + 48]

/-- Stores of the bytes `w` to `buf[pos .. ]`. -/
def storeAt (buf : Bytes) (pos : Nat) : Bytes → Bytes
  | [] => buf
  | c :: w => storeAt (buf.set pos c) (pos + 1) w

/-- The number of characters `nc` of a number: the loop `while (n >= ncc) { nc++; ncc *= 10; }`
from `nc = 1`, `ncc = 10`; `ncc` is an `unsigned long long`. -/
def countChars : Nat → Nat → Nat → Nat
  | 0, _, _ => 1
  | fuel + 1, n, ncc => if n ≥ ncc then countChars fuel n (ncc * 10 % 18446744073709551616) + 1 else 1

/-- The content of `buf` after `double2text(v, buf, buf_size, precision)` for a value that is
not a NaN; `buf` is the content before, `buf_size` its length.  The function returns
without a terminator when the digits do not fit. -/
def double2textBuf (fe : FloatEnv) (v0 : Dbl) (buf : Bytes) (precision : Int) : Bytes :=
  let neg := v0.isNegative
  let v := if neg = true then v0.neg else v0
  let exp0 : Int := if v.abs.aboveMin = true then fe.intLog10 v.abs else 0
  let big : Bool := decide (exp0 > precision - 2) || decide (exp0 < -2)
  let ve := if big = true then Dbl.div v (fe.pow10 exp0) else v
  let n : Nat := (ve.toInt % 18446744073709551616).toNat
  let f := Dbl.sub ve (Dbl.ofInt n)
  let frac : Int :=
    if big = true then precision
    else if precision - 1 - exp0 < 1 then 1
    else if precision - 1 - exp0 > precision + 1 then precision + 1
    else precision - 1 - exp0
  let exp : Int := if big = true then exp0 else 0
  let buf1 := if neg = true then buf.set 0 45 else buf
  let pos1 : Nat := if neg = true then 1 else 0
  let size1 : Nat := buf.length - pos1
  let nc := countChars 20 n 10
  if nc ≥ size1 then buf1
  else
    let buf2 := storeAt buf1 pos1 (digitsOf nc n)
    let pos2 := pos1 + nc
    let size2 := size1 - nc
    if frac > 0 ∧ size2 < (frac + 1).toNat % 4294967296 then buf2
    else
      let fn : Nat := ((Dbl.add (Dbl.mul f (fe.pow10 frac))
        (Dbl.div (Dbl.ofInt 49) (Dbl.ofInt 100))).toInt % 18446744073709551616).toNat
      let buf3 := if frac > 0 then storeAt buf2 pos2 (46 :: digitsOf frac.toNat fn) else buf2
      let pos3 := if frac > 0 then pos2 + 1 + frac.toNat else pos2
      let size3 := if frac > 0 then size2 - 1 - frac.toNat else size2
      if exp ≠ 0 ∧ size3 ≥ 2 then
        let buf4 := buf3.set pos3 101
        let buf5 := if exp < 0 then buf4.set (pos3 + 1) 45 else buf4
        let pos5 := if exp < 0 then pos3 + 2 else pos3 + 1
        let size5 := if exp < 0 then size3 - 2 else size3 - 1
        let ec := countChars 10 exp.natAbs 10
        if size5 < ec then buf5
        else
          let buf6 := storeAt buf5 pos5 (digitsOf ec exp.natAbs)
          if size5 - ec ≠ 0 then buf6.set (pos5 + ec) 0 else buf6
      else if size3 ≠ 0 then buf3.set pos3 0 else buf3

/-- The text in a buffer: the bytes before its first 0 (`strlen`). -/
def bufText (buf : Bytes) : Bytes := buf.takeWhile (fun b => b ≠ 0)

/-- `push(name, value)` for a `double` value: the text after `double2text` and
`cleanfloatstr` is added; `valstr` holds what the stack held. -/
def push_double_value (fe : FloatEnv) (name : Option Bytes) (v : Dbl) (valstr : Bytes) : Op :=
  push_double name v.isNaN (bufText (double2textBuf fe v valstr 17)) (bufText valstr)

/-- The `double` of the literal `3.14`: the value nearest to 314 / 100. -/
def literal314 : Dbl := Dbl.div (Dbl.ofInt 314) (Dbl.ofInt 100)

end jout

/-! ## The resave sample: `ExportJSON` of `samples/sample_resave.cpp`

The tree is walked by item index; `aStack` is a list whose head is `aStack[sp - 1]`.  The
text of a floating point item is a parameter (`floatText`). -/

namespace resave

open jbin (Bytes bytesOf JBTree JBItem JBType JSON_MAX_DEPTH)
open jout (JSONOut JSONOutError)

/-- How a run of `ExportJSON` ends. -/
inductive Export
  /-- `return ret` with the writer in state `o` -/
  | returned (ret : Bool) (o : JSONOut)
  /-- `aStack[sp++] = i` with `sp = JSON_MAX_DEPTH` (undefined behaviour) -/
  | stackIndex
  /-- an item outside the tree is read (undefined behaviour) -/
  | itemIndex
  /-- the loop has not ended after the rounds given -/
  | unfinished

/-- The value `ExportJSON` returns. -/
def Export.ret : Export → Option Bool
  | .returned r _ => some r
  | _ => none

/-- The bytes that have reached the file when `ExportJSON` returns. -/
def Export.written : Export → Option Bytes
  | .returned _ o => some o.file
  | _ => none

/-- The `switch (i->getType())` of `ExportJSON` on the item at `idx`: the writer after the
calls, and `children`. -/
def exportItem (floatText : JBItem → Bytes) (t : JBTree) (idx : Nat) (it : JBItem)
    (o : JSONOut) : JSONOut × Option Nat :=
  match it.getType with
  | .JB_ROOT | .JB_OBJECT =>
    let o1 := (jout.push_object (t.getName idx) o).2
    match t.getChild idx with
    | none => ((jout.scope_end o1).2, none)
    | some c => (o1, some c)
  | .JB_ARRAY =>
    let o1 := (jout.push_array (t.getName idx) o).2
    match t.getChild idx with
    | none => ((jout.scope_end o1).2, none)
    | some c => (o1, some c)
  | .JB_STRING =>
    ((jout.push_str (t.getName idx) ((t.getStr idx).getD []) ((t.getStr idx).getD []).length o).2,
      none)
  | .JB_INT => ((jout.push_int (t.getName idx) (it.getInt.getD 0) o).2, none)
  | .JB_FLOAT => ((jout.push_float (t.getName idx) (floatText it) o).2, none)
  | .JB_BOOL => ((jout.push_bool (t.getName idx) it.getBool o).2, none)
  | .JB_NULL => ((jout.push_null o).2, none)
  | .JB_NULL_VALUE => ((jout.push_null_named (t.getName idx) o).2, none)

/-- The `while (i || sp)` loop of `ExportJSON` followed by `o.finish(); return true;`. -/
def exportLoop (allowRootArray : Bool) (floatText : JBItem → Bytes) (t : JBTree) :
    Nat → Option Nat → List (Option Nat) → JSONOut → Export
  | 0, _, _, _ => .unfinished
  | _ + 1, none, [], o => .returned true (jout.finish allowRootArray o).2
  | fuel + 1, none, top :: rest, o =>
    exportLoop allowRootArray floatText t fuel top rest (jout.scope_end o).2
  | fuel + 1, some idx, stack, o =>
    match t.items.get? idx with
    | none => .itemIndex
    | some it =>
      let r := exportItem floatText t idx it o
      if r.1.error_cause ≠ JSONOutError.ERR_NONE then .returned false r.1
      else
        match r.2 with
        | some c =>
          if stack.length ≥ JSON_MAX_DEPTH then .stackIndex
          else exportLoop allowRootArray floatText t fuel (some c) (t.getSibling idx :: stack) r.1
        | none => exportLoop allowRootArray floatText t fuel (t.getSibling idx) stack r.1

/-- `ExportJSON(f, pJSON)` for the tree `t` (`pJSON` is item 0) and a valid file; every
round of the loop visits an item or closes a scope, so `2 * items + 1` rounds are enough
for a tree whose links go forward. -/
def ExportJSON (allowRootArray : Bool) (column0 : Int) (bits0 bits1 : Int → Bool)
    (floatText : JBItem → Bytes) (t : JBTree) : Export :=
  match t.items.get? 0 with
  | none => .itemIndex
  | some root =>
    exportLoop allowRootArray floatText t (2 * t.items.length + 1) (t.getChild 0) []
      (JSONOut.new allowRootArray true (decide (root.getType = JBType.JB_ARRAY)) column0
        bits0 bits1)

end resave

namespace jbin

/-- The tree JSONBin returns for `{"a":[{1],"a":5}` (see C14). -/
def slipTree : JBTree :=
  ⟨[⟨0, .JB_ROOT, 0, 0, .i 1⟩, ⟨3826002220, .JB_ARRAY, 0, 56, .i 2⟩,
    ⟨0, .JB_OBJECT, 2, 0, .i 1⟩, ⟨0, .JB_INT, 0, 0, .i 1⟩,
    ⟨3826002220, .JB_INT, 0, 8, .i 5⟩], [97, 0]⟩

/-- The tree JSONBin returns for `{null}` (see C14). -/
def nullTagTree : JBTree :=
  ⟨[⟨0, .JB_ROOT, 0, 0, .i 1⟩, ⟨0, .JB_NULL, 0, 0, .i 0⟩], []⟩

/-- The name reference `name.o` of the item at index `i`. -/
def JBTree.nameRef (t : JBTree) (i : Nat) : Option Nat := (t.items.get? i).map (fun it => it.name)

/-- The type of the item at index `i`. -/
def JBTree.typeAt (t : JBTree) (i : Nat) : Option JBType := (t.items.get? i).map JBItem.getType

/-- A byte that makes a literal a real number: `.`, `e` or `E`. -/
def isRealMark (b : Nat) : Prop := b = 46 ∨ b = 101 ∨ b = 69

/-- The bytes hold a `.`, an `e` or an `E`. -/
def hasRealMark (w : Bytes) : Prop := ∃ b ∈ w, isRealMark b

/-- A state of the filling pass inside an array: the array is item 0 and `pItem` points
at item 1, the next one to fill, with `left` bytes to read from the start of the text. -/
def inArrayMachine (left : Nat) : Machine :=
  ⟨⟨1, 1, 1, some 1, List.replicate JSON_MAX_CONTEXT eJSONCtx.JSON_ROOT,
      (List.replicate JSON_MAX_DEPTH (none, none)).set 1 (some 0, none)⟩,
    sStrCache.init 0, [⟨0, JBType.JB_ARRAY, 0, 0, JBData.i 0⟩, JBItem.zero], 0, left,
    JBError.JBERR_NONE⟩

/-- A continuation byte of UTF-8: `80 .. BF`. -/
def isCont (b : Nat) : Prop := 0x80 ≤ b ∧ b ≤ 0xbf

/-- The well-formed UTF-8 byte sequences (RFC 3629): one to four bytes per character, no
overlong form, no surrogate, nothing above U+10FFFF. -/
inductive ValidUtf8 : Bytes → Prop
  | nil : ValidUtf8 []
  | one (b : Nat) (rest : Bytes) : b < 0x80 → ValidUtf8 rest → ValidUtf8 (b :: rest)
  | two (b0 b1 : Nat) (rest : Bytes) : 0xc2 ≤ b0 → b0 ≤ 0xdf → isCont b1 → ValidUtf8 rest →
      ValidUtf8 (b0 :: b1 :: rest)
  | three (b0 b1 b2 : Nat) (rest : Bytes) : 0xe0 ≤ b0 → b0 ≤ 0xef → isCont b1 → isCont b2 →
      (b0 = 0xe0 → 0xa0 ≤ b1) → (b0 = 0xed → b1 ≤ 0x9f) → ValidUtf8 rest →
      ValidUtf8 (b0 :: b1 :: b2 :: rest)
  | four (b0 b1 b2 b3 : Nat) (rest : Bytes) : 0xf0 ≤ b0 → b0 ≤ 0xf4 → isCont b1 → isCont b2 →
      isCont b3 → (b0 = 0xf0 → 0x90 ≤ b1) → (b0 = 0xf4 → b1 ≤ 0x8f) → ValidUtf8 rest →
      ValidUtf8 (b0 :: b1 :: b2 :: b3 :: rest)

/-- The number of backslashes at the end of a text. -/
def trailingBackslashes (t : Bytes) : Nat :=
  (t.reverse.takeWhile (fun b => decide (b = 92))).length

/-- The text `1,1, ... 1]` with `j + 1` ones. -/
def onesTail (j : Nat) : Bytes := (List.replicate j [49, 44]).flatten ++ [49, 93]

/-- The text `[1,1, ... 1]`: an array of `n + 1` ones. -/
def onesArray (n : Nat) : Bytes := 91 :: onesTail n

/-- A parser state inside the root array of `onesArray n`, at the byte `cursor`, with
`items` items counted; in the filling pass `pItem` is at the item `items`, the root is the
parent and the elder is an item of the block. -/
def InOnes (n : Nat) (sc : sStrCache) (pass2 : Bool) (items cursor : Nat) (m : Machine) : Prop :=
  m.read.ctx_stack = 1 ∧ m.read.level = 0 ∧ m.read.items = (items : Int)
  ∧ m.read.context.length = 256
  ∧ m.read.context.getD 0 eJSONCtx.JSON_ROOT = eJSONCtx.JSON_ROOT
  ∧ m.read.context.getD 1 eJSONCtx.JSON_ROOT = eJSONCtx.JSON_ARRAY
  ∧ m.cursor = cursor ∧ m.left = 2 * n + 3 - cursor ∧ m.error = JBError.JBERR_NONE
  ∧ m.strCache = sc
  ∧ (if pass2 = true then
      m.read.pItem = some items ∧ m.mem.length = n + 2 ∧ m.read.aHier.length = 256
      ∧ (m.read.aHier.getD 0 (none, none)).1 = some 0
      ∧ (∀ e, (m.read.aHier.getD 0 (none, none)).2 = some e → e < n + 2)
    else m.read.pItem = none ∧ m.mem = [] ∧ m.read.aHier.length = 256)

/-- The parser state at the start of a pass over `onesArray n`, after `startPass`. -/
def OnesStart (n : Nat) (sc : sStrCache) (pass2 : Bool) (m : Machine) : Prop :=
  m.read.ctx_stack = 0 ∧ m.read.level = 0 ∧ m.read.items = 1
  ∧ m.read.context.length = 256
  ∧ m.read.context.getD 0 eJSONCtx.JSON_ROOT = eJSONCtx.JSON_ROOT
  ∧ m.cursor = 0 ∧ m.left = 2 * n + 3 ∧ m.error = JBError.JBERR_NONE ∧ m.strCache = sc
  ∧ (if pass2 = true then
      m.read.pItem = some 1 ∧ m.mem.length = n + 2 ∧ m.read.aHier.length = 256
      ∧ m.read.aHier.getD 0 (none, none) = (some 0, none)
    else m.read.pItem = none ∧ m.mem = [] ∧ m.read.aHier.length = 256)

/-- The parser state at the end of a pass over `onesArray n`. -/
def OnesDone (n : Nat) (sc : sStrCache) (pass2 : Bool) (m : Machine) : Prop :=
  m.read.ctx_stack = 0 ∧ m.read.items = (n : Int) + 2
  ∧ m.read.context.length = 256
  ∧ m.read.context.getD 0 eJSONCtx.JSON_ROOT = eJSONCtx.JSON_ROOT
  ∧ m.cursor = 2 * n + 3 ∧ m.error = JBError.JBERR_NONE ∧ m.strCache = sc
  ∧ (if pass2 = true then m.mem.length = n + 2 ∧ m.read.aHier.length = 256
      else m.read.pItem = none ∧ m.mem = [] ∧ m.read.aHier.length = 256)

/-- The offset of the first byte after the last newline of `w`, 0 when `w` has none. -/
def afterLastNewline (w : Bytes) : Nat :=
  w.length - (w.reverse.takeWhile (fun b => decide (b ≠ 10))).length

/-- The text of `n` blanks followed by a closing brace. -/
def blanksBrace (n : Nat) : Bytes := List.replicate n 32 ++ [125]

/-- The code point that the UTF-8 sequence at the start of `r` encodes, and the number of
bytes of that sequence (RFC 3629): the payload bits of the lead byte followed by the low
six bits of each continuation byte. -/
def utf8Head : Bytes → Nat × Nat
  | [] => (0, 0)
  | b0 :: rest =>
    if b0 < 0x80 then (b0, 1)
    else if b0 < 0xe0 then (b0 % 32 * 64 + rest.getD 0 0 % 64, 2)
    else if b0 < 0xf0 then (b0 % 16 * 4096 + rest.getD 0 0 % 64 * 64 + rest.getD 1 0 % 64, 3)
    else
      (b0 % 8 * 262144 + rest.getD 0 0 % 64 * 4096 + rest.getD 1 0 % 64 * 64
        + rest.getD 2 0 % 64, 4)

/-- The tree that a call returns, `none` when it returns a null pointer or does not
return. -/
def Outcome.tree : Outcome → Option JBTree
  | Outcome.returned ret _ => ret
  | _ => none

/-- The record that a call has filled when it returns. -/
def Outcome.info : Outcome → Option JBRet
  | Outcome.returned _ info => some info
  | _ => none

/-- The type and the `data` member, read as an integer, of each item of a tree. -/
def JBTree.typesAndData (t : JBTree) : List (JBType × Int) :=
  t.items.map (fun it => (it.type, it.data.asInt))

/-- The machine after `n` rounds of the main loop, whether or not one of them ends the
loop. -/
def afterRounds (env : Env) (cfg : Config) (json : Bytes) : Nat → Machine → Except Stop Machine
  | 0, m => .ok m
  | n + 1, m =>
    match parseRound env cfg json m with
    | .ok (m1, _) => afterRounds env cfg json n m1
    | .error e => .error e

/-- A text that `JSONBin` reads as an array of five values: `sameWord` takes the four bytes
`tru"` and the four bytes `tru\` for `true`, the third value is the string `"tru"`. -/
def nearWords : Bytes := bytesOf "[tru\"tru\\\"tru\"tru\",tru\"]"

/-- The machine with `k` more bytes of input behind the bytes that are left. -/
def Machine.more (m : Machine) (k : Nat) : Machine := { m with left := m.left + k }

/-- Two buffers of which the second is a start of the first that is longer than the
window of `left` bytes; the decoders of strings read at most one byte behind their
window. -/
def SameWindow (left : Nat) (p q : Bytes) : Prop :=
  left = 0 ∨ ∃ t, p = q ++ t ∧ left < q.length

/-- Every string of the cache lies inside the text, with the byte behind it. -/
def StringsInside (json : Bytes) (sc : sStrCache) : Prop :=
  sc.apStrings.length = sc.aStrLen.length
    ∧ ∀ i, sc.apStrings.getD i 0 + sc.aStrLen.getD i 0 < json.length

/-- The cursor and `left` of a machine add up to the size of the text, which together with
`k` more bytes is a size that an `unsigned int` holds; the context stack has its
`JSON_MAX_CONTEXT` entries, and the strings of the cache lie inside the text. -/
def Machine.Within (m : Machine) (json : Bytes) (k : Nat) : Prop :=
  m.cursor + m.left = json.length ∧ json.length + k < 4294967296
    ∧ m.read.context.length = JSON_MAX_CONTEXT ∧ StringsInside json m.strCache

/-- What the cases of the second `switch` of a round rely on: a number is scanned with a
byte left, a string is scanned behind its opening quote. -/
def Machine.TokenTaken (m : Machine) : Prop :=
  (m.read.get_context = .ok eJSONCtx.JSON_NUMERIC_VALUE → 1 ≤ m.left)
    ∧ (m.read.get_context = .ok eJSONCtx.JSON_GET_TAG
        ∨ m.read.get_context = .ok eJSONCtx.JSON_STRING_VALUE → 1 ≤ m.cursor)

/-- The first pass of `JSONBin` over a text, with work memory for `numStrMax` strings: the
machine at the end of the pass. -/
def firstPass (env : Env) (cfg : Config) (text : Bytes) (numStrMax : Nat) :
    Except Stop Machine := do
  let m0 ← startPass ⟨JBParse.zero, sStrCache.init numStrMax, [], 0, 0, JBError.JBERR_NONE⟩
    text.length
  parseLoop env cfg text (text.length + 1) m0

/-- The depth of the context stack at the end of the first pass and at the end of the last
pass, and the cursor at the end of the last pass. -/
def passEnds (env : Env) (cfg : Config) (text : Bytes) : Option (Int × Int × Nat) :=
  match countStrings cfg text (text.length + 1) 0 text.length 0 0 with
  | .ok counts =>
    match firstPass env cfg text counts.1,
      passes env cfg text (sStrCache.init counts.1) JBRet.zero with
    | .ok m1, .ok ps => some (m1.read.ctx_stack, ps.m.read.ctx_stack, ps.m.cursor)
    | _, _ => none
  | .error _ => none

/-- A complete document: the text, behind a byte order mark that is taken off, ends with a
closing bracket, and each pass ends behind that byte with an empty context stack, that is
with the `break` at the close of the root container. -/
def CompleteDoc (env : Env) (cfg : Config) (s : Bytes) : Prop :=
  ((stripBom cfg s).getLast? = some 125 ∨ (stripBom cfg s).getLast? = some 93)
    ∧ passEnds env cfg (stripBom cfg s) = some (0, 0, (stripBom cfg s).length)

/-- The text of an array of the empty string and of a string of `n` letters `a`:
`["","aa...a"]`. -/
def longStringDoc (n : Nat) : Bytes := [91, 34, 34, 44, 34] ++ List.replicate n 97 ++ [34, 93]

/-! ## Lemmas on the number scanner -/

theorem bind_ok {ε α β : Type} (x : Except ε α) (f : α → Except ε β) (b : β)
    (h : (x >>= f) = .ok b) : ∃ a, x = .ok a ∧ f a = .ok b := by
  cases x with
  | error e => cases h
  | ok a => exact ⟨a, rfl, h⟩

theorem liftFault_ok_inv {α : Type} (x : Except Fault α) (a : α) (h : liftFault x = .ok a) :
    x = .ok a := by
  cases x with
  | error e => cases h
  | ok b => simpa [liftFault] using h

theorem toOption_ok {ε α : Type} (x : Except ε α) (a : α) (h : x.toOption = some a) :
    x = .ok a := by
  cases x with
  | error e => cases h
  | ok b =>
    simp only [Except.toOption, Option.some.injEq] at h
    rw [h]

theorem getD_set_same {α : Type} (l : List α) (i : Nat) (a d : α) (h : i < l.length) :
    (l.set i a).getD i d = a := by
  simp [List.getD_eq_getElem?_getD, List.getElem?_set, h]

theorem getD_set_other {α : Type} (l : List α) (i j : Nat) (a d : α) (h : i ≠ j) :
    (l.set i a).getD j d = l.getD j d := by
  simp [List.getD_eq_getElem?_getD, List.getElem?_set, h]

theorem decimalValue_step (ds : Bytes) (n : Nat) :
    n ≤ ds.foldl (fun n d => n * 10 + (d - 48)) n := by
  induction ds generalizing n with
  | nil => simp
  | cons d ds ih =>
    simp only [List.foldl_cons]
    exact le_trans (by omega) (ih (n * 10 + (d - 48)))

theorem scanInt_stop (rest : Bytes) (n : Nat) (over : Bool)
    (hrest : ∀ b, rest.head? = some b → ¬ isDigit b) :
    scanInt rest n over = (n, over, rest) := by
  cases rest with
  | nil => rfl
  | cons b w =>
    have hb : ¬ (48 ≤ b ∧ b ≤ 57) := hrest b rfl
    simp [scanInt, hb]

theorem scanInt_digits (ds rest : Bytes) (n : Nat) (over : Bool)
    (hds : ∀ d ∈ ds, isDigit d)
    (hrest : ∀ b, rest.head? = some b → ¬ isDigit b)
    (hval : ds.foldl (fun n d => n * 10 + (d - 48)) n < max_int_add_digit) :
    scanInt (ds ++ rest) n over = (ds.foldl (fun n d => n * 10 + (d - 48)) n, over, rest) := by
  induction ds generalizing n with
  | nil => simpa using scanInt_stop rest n over hrest
  | cons d ds ih =>
    have hd : 48 ≤ d ∧ d ≤ 57 := hds d (List.mem_cons_self d ds)
    have hn : n < max_int_add_digit := by
      have h1 := decimalValue_step (d :: ds) n
      omega
    simp only [List.cons_append, scanInt, hd, and_self, if_true, hn, List.foldl_cons]
    exact ih (n * 10 + (d - 48)) (fun x hx => hds x (List.mem_cons_of_mem d hx)) hval

theorem skipSpaces_of_head (cfg : Config) (b : Nat) (w : Bytes) (h1 : 32 < b) (h2 : b < 128) :
    skipSpaces cfg (b :: w) = b :: w := by
  have : isSpaceByte cfg b = false := by
    simp [isSpaceByte]
    omega
  simp [skipSpaces, this]

theorem toInt32_of_small (v : Nat) (h : v < 2147483648) : toInt32 (v : Int) = (v : Int) := by
  unfold toInt32
  omega

theorem toInt32_neg_of_le (v : Nat) (h : v ≤ 2147483648) :
    toInt32 (-(toInt32 (v : Int))) = -(v : Int) := by
  unfold toInt32
  omega

/-! ## Scenarios and error paths of JSONBin (claims C1 to C8) -/

/-- C1. On the text `{"a":1,"b":[true,null,2.5],"a":"dup"}` JSONBin returns a tree with
`JBERR_NONE`; the root has child count 3, and the sibling links from its first child
visit the items 1, 2 and 6: `a` of type `JB_INT` with value 1, `b` of type `JB_ARRAY`
with child count 3, and `a` of type `JB_STRING` with value `dup`. -/
theorem C1_duplicate_keys_kept :
    ∃ t info, JSONBin okEnv defaultConfig
        (bytesOf "\x7b\"a\":1,\"b\":[true,null,2.5],\"a\":\"dup\"\x7d") JBRet.zero
        = Outcome.returned (some t) info
      ∧ info.error_code = JBError.JBERR_NONE
      ∧ (t.items.get? 0).map JBItem.getChildCount = some 3
      ∧ t.children 0 = [1, 2, 6]
      ∧ t.getName 1 = some (bytesOf "a")
      ∧ (t.items.get? 1).map JBItem.getType = some JBType.JB_INT
      ∧ (t.items.get? 1).bind JBItem.getInt = some 1
      ∧ t.getName 2 = some (bytesOf "b")
      ∧ (t.items.get? 2).map JBItem.getType = some JBType.JB_ARRAY
      ∧ (t.items.get? 2).map JBItem.getChildCount = some 3
      ∧ t.getName 6 = some (bytesOf "a")
      ∧ (t.items.get? 6).map JBItem.getType = some JBType.JB_STRING
      ∧ t.getStr 6 = some (bytesOf "dup") :=
  ⟨⟨[⟨0, .JB_ROOT, 0, 0, .i 3⟩, ⟨3826002220, .JB_INT, 1, 88, .i 1⟩,
      ⟨3876335077, .JB_ARRAY, 4, 74, .i 3⟩, ⟨0, .JB_BOOL, 1, 0, .b true⟩,
      ⟨0, .JB_NULL, 1, 0, .i 0⟩, ⟨0, .JB_FLOAT, 0, 0, .f ⟨false, 2, 5, 1, 0⟩⟩,
      ⟨3826002220, .JB_STRING, 0, 8, .s 8⟩], [97, 0, 98, 0, 100, 117, 112, 0]⟩,
    ⟨120, 37, 7, 8, 14, 3, 4, .JBERR_NONE, 0, 0⟩, by decide!⟩

/-- C3 (the code at the failing input). The 12 characters `\uD83D\uDE00` are decoded by
`getChar` as the lone code 0xD83D taking 6 characters, not as U+1F600 taking 12: after
`*ptr++` the test for the second escape looks one byte too far (`ptr[5]`, `ptr[6]`,
`ptr + 7`).  `toEncoding` stores six bytes, not F0 9F 98 80. -/
theorem C3_surrogate_pair_not_combined :
    getChar defaultConfig (bytesOf "\\uD83D\\uDE00") 12 = (0xD83D, 6)
      ∧ toEncoding defaultConfig (bytesOf "\\uD83D\\uDE00") 12
        = [0xED, 0xA0, 0xBD, 0xED, 0xB8, 0x80] := by decide!

/-- C4 (the code at the failing input). With C comments enabled, on `// comment`, a
newline and `{"x":1}` JSONBin returns a tree whose root has no child, and reports
`bytes_read` 10 of the 18 bytes: the pop of the comment context leaves `ctx_stack` 0,
which ends the parse. -/
theorem C4_leading_comment_ends_parse :
    JSONBin okEnv commentsConfig (bytesOf "// comment\n\x7b\"x\":1\x7d") JBRet.zero
      = Outcome.returned (some ⟨[⟨0, .JB_ROOT, 0, 0, .i 0⟩], []⟩)
          ⟨16, 10, 1, 0, 3, 0, 1, .JBERR_NONE, 0, 0⟩
      ∧ (bytesOf "// comment\n\x7b\"x\":1\x7d").length = 18 := by decide!

/-- C5 (the code at the failing input). On the 5 bytes `{"x":` JSONBin returns null with
`JBERR_UNEXPECTED_STRCOUNT`, `err_line` 1 and `err_column` 5. -/
theorem C5_truncated_reports_strcount :
    JSONBin okEnv defaultConfig (bytesOf "\x7b\"x\":") JBRet.zero
      = Outcome.returned none ⟨0, 4, 0, 0, 0, 0, 0, .JBERR_UNEXPECTED_STRCOUNT, 1, 5⟩ := by
  decide!

/-- C6 (the code at the failing input). On `{"a":1,"a":` the first pass ends at the end
of the input with the context stack not empty and without an error; the second pass
starts from that stack, takes the `{` as a nested object and writes behind the two
items that were counted. -/
theorem C6_truncated_overruns_items :
    JSONBin okEnv defaultConfig (bytesOf "\x7b\"a\":1,\"a\":") JBRet.zero
      = Outcome.undefined Fault.itemIndex := by decide!

/-- C7 (the code at the failing input). `{"x":1}` and `{"a":1,"b":2}` are rejected with
the internal error `JBERR_UNEXPECTED_STRCOUNT`: the test after `addString` is
`numStr >= numStrMax`, which holds once every counted string is stored. -/
theorem C7_strcount_reached :
    JSONBin okEnv defaultConfig (bytesOf "\x7b\"x\":1\x7d") JBRet.zero
      = Outcome.returned none ⟨0, 4, 0, 0, 0, 0, 0, .JBERR_UNEXPECTED_STRCOUNT, 1, 5⟩
    ∧ JSONBin okEnv defaultConfig (bytesOf "\x7b\"a\":1,\"b\":2\x7d") JBRet.zero
      = Outcome.returned none ⟨0, 10, 0, 0, 0, 0, 0, .JBERR_UNEXPECTED_STRCOUNT, 1, 11⟩ := by
  decide!

/-- C8 (the code at the failing input). On `{"x` JSONBin does not return: the string
counting loop finds the quote, `quoteEnd` finds no end, and the round changes nothing. -/
theorem C8_unterminated_quote_diverges :
    JSONBin okEnv defaultConfig (bytesOf "\x7b\"x") JBRet.zero = Outcome.diverges := by
  decide!

theorem passes_pRet (env : Env) (cfg : Config) (json : Bytes) (sc : sStrCache) (info : JBRet)
    (ps : Passes) (h : passes env cfg json sc info = .ok ps) (hp : ps.pRet = false) :
    ps.m.error = JBError.JBERR_OUT_OF_MEMORY := by
  unfold passes at h
  simp only [] at h
  obtain ⟨m0, h0, h⟩ := bind_ok _ _ _ h
  obtain ⟨m1, h1, h⟩ := bind_ok _ _ _ h
  by_cases hc : env.callocRet = true
  · rw [if_pos hc] at h
    split at h
    · cases h
      simp at hp
    · obtain ⟨enc, henc, h⟩ := bind_ok _ _ _ h
      split at h
      · cases h
      · split at h
        · obtain ⟨m3, h3, h⟩ := bind_ok _ _ _ h
          obtain ⟨m4, h4, h⟩ := bind_ok _ _ _ h
          cases h
          simp at hp
        · cases h
          simp at hp
  · rw [if_neg hc] at h
    cases h
    rfl

theorem finish_spec (json : Bytes) (ps : Passes) (ret : Option JBTree) (info : JBRet)
    (hp : ps.pRet = false → ps.m.error ≠ JBError.JBERR_NONE)
    (h : finish json ps = Outcome.returned ret info) :
    (ret = none ↔ info.error_code ≠ JBError.JBERR_NONE)
      ∧ (info.error_code ≠ JBError.JBERR_NONE →
          info.bin_size = 0 ∧ info.num_items = 0 ∧ info.text_size = 0 ∧ info.text_orig = 0
            ∧ info.strings_orig = 0 ∧ info.strings_count = 0)
      ∧ (info.error_code = JBError.JBERR_NONE → info.err_line = 0 ∧ info.err_column = 0) := by
  unfold finish at h
  by_cases he : ps.m.error = JBError.JBERR_NONE
  · have hp2 : ps.pRet = true := by
      cases hq : ps.pRet
      · exact absurd he (hp hq)
      · rfl
    simp [he, hp2] at h
    obtain ⟨h1, h2⟩ := h
    subst h1 h2
    simp
  · by_cases ho : ps.m.error = JBError.JBERR_OUT_OF_MEMORY
    · simp [he, ho] at h
      obtain ⟨h1, h2⟩ := h
      subst h1 h2
      simp
    · simp [he, ho] at h
      obtain ⟨h1, h2⟩ := h
      subst h1 h2
      simp [he]


/-- C9. Whenever JSONBin returns, it returns null exactly when `error_code` is not
`JBERR_NONE`; on an error `bin_size`, `num_items`, `text_size`, `text_orig`,
`strings_orig` and `strings_count` are 0, and without an error `err_line` and
`err_column` are 0. -/
theorem C9_null_iff_error (env : Env) (cfg : Config) (json : Bytes) (info0 : JBRet)
    (ret : Option JBTree) (info : JBRet)
    (h : JSONBin env cfg json info0 = Outcome.returned ret info) :
    (ret = none ↔ info.error_code ≠ JBError.JBERR_NONE)
      ∧ (info.error_code ≠ JBError.JBERR_NONE →
          info.bin_size = 0 ∧ info.num_items = 0 ∧ info.text_size = 0 ∧ info.text_orig = 0
            ∧ info.strings_orig = 0 ∧ info.strings_count = 0)
      ∧ (info.error_code = JBError.JBERR_NONE → info.err_line = 0 ∧ info.err_column = 0) := by
  unfold JSONBin at h
  dsimp only at h
  cases hc : countStrings cfg (stripBom cfg json) ((stripBom cfg json).length + 1) 0
      (stripBom cfg json).length 0 0 with
  | error e =>
    rw [hc] at h
    cases e <;> simp [Outcome.ofStop] at h
  | ok counts =>
    rw [hc] at h
    dsimp only at h
    by_cases hm : env.mallocWork = true
    · rw [if_pos hm] at h
      cases hps : passes env cfg (stripBom cfg json) (sStrCache.init counts.1)
          { info0 with text_orig := counts.2, strings_orig := counts.1 } with
      | error e =>
        rw [hps] at h
        cases e <;> simp [Outcome.ofStop] at h
      | ok ps =>
        rw [hps] at h
        exact finish_spec _ ps ret info
          (fun hp => by rw [passes_pRet _ _ _ _ _ ps hps hp]; decide) h
    · rw [if_neg hm] at h
      exact finish_spec _ _ ret info (fun _ => by simp) h

/-- C9 at the text `{"x":` (null, with an error) . -/
theorem C9_null_iff_error_witness :
    JSONBin okEnv defaultConfig (bytesOf "\x7b\"x\":") JBRet.zero
        = Outcome.returned none ⟨0, 4, 0, 0, 0, 0, 0, .JBERR_UNEXPECTED_STRCOUNT, 1, 5⟩
      ∧ ((none : Option JBTree) = none
          ↔ JBError.JBERR_UNEXPECTED_STRCOUNT ≠ JBError.JBERR_NONE) :=
  ⟨by decide!, (C9_null_iff_error okEnv defaultConfig (bytesOf "\x7b\"x\":") JBRet.zero none
    ⟨0, 4, 0, 0, 0, 0, 0, .JBERR_UNEXPECTED_STRCOUNT, 1, 5⟩ (by decide!)).1⟩

theorem scanInt_literal (ds rest : Bytes)
    (hds : ∀ d ∈ ds, isDigit d)
    (hrest : ∀ b, rest.head? = some b → ¬ continuesNumber b)
    (hv : decimalValue ds ≤ 2147483648) :
    scanInt (ds ++ rest) 0 false = (decimalValue ds, false, rest) := by
  apply scanInt_digits ds rest 0 false hds
  · intro b hb hd
    exact hrest b hb (Or.inl hd)
  · show decimalValue ds < max_int_add_digit
    unfold max_int_add_digit
    omega

theorem rest_head_facts (rest : Bytes) (hrest : ∀ b, rest.head? = some b → ¬ continuesNumber b) :
    rest.head? ≠ some 46 ∧ rest.head? ≠ some 101 ∧ rest.head? ≠ some 69 := by
  refine ⟨fun h => hrest 46 h ?_, fun h => hrest 101 h ?_, fun h => hrest 69 h ?_⟩
  · exact Or.inr (Or.inl rfl)
  · exact Or.inr (Or.inr (Or.inl rfl))
  · exact Or.inr (Or.inr (Or.inr rfl))

/-- The result of `getNumStr` on a window that, after an optional sign, consists of the
digits `ds` and a rest that does not continue the number. -/
theorem getNumStr_digits (env : Env) (cfg : Config) (p w1 ds rest : Bytes) (left : Nat)
    (hskip : skipSpaces cfg (p.take left) = w1)
    (hw : (if w1.head? = some 45 ∨ w1.head? = some 43 then w1.drop 1 else w1) = ds ++ rest)
    (hds : ∀ d ∈ ds, isDigit d)
    (hrest : ∀ b, rest.head? = some b → ¬ continuesNumber b)
    (hv : decimalValue ds ≤ 2147483648) :
    getNumStr env cfg p left = .ok
      ⟨⟨decide (w1.head? = some 45), decimalValue ds, 0, 0, 0⟩,
        some (if decide (w1.head? = some 45) = true then toInt32 (-(toInt32 (decimalValue ds)))
          else toInt32 (decimalValue ds)),
        (p.take left).length - rest.length, false, true⟩ := by
  obtain ⟨h46, h101, h69⟩ := rest_head_facts rest hrest
  have hscan := scanInt_literal ds rest hds hrest hv
  unfold getNumStr
  simp only [hskip, hw, hscan]
  simp only [h46, h101, h69, decide_False, false_or, if_false, Bool.false_eq_true]
  have hrep : (!false && decide (decimalValue ds ≤ INT_MAX_INT)) = true := by
    simp [INT_MAX_INT, hv]
  rw [if_pos hrep]

/-- The result of `getNumStr` on a literal made of an optional sign and one or more decimal
digits whose value lies in `-2^31 .. 2^31 - 1`, followed by nothing or by a byte that does
not continue a number. -/
theorem getNumStr_literal (env : Env) (cfg : Config) (sign : Option Nat)
    (ds rest p : Bytes) (left : Nat)
    (hsign : sign = none ∨ sign = some 45 ∨ sign = some 43)
    (hne : ds ≠ [])
    (hds : ∀ d ∈ ds, isDigit d)
    (hrest : ∀ b, rest.head? = some b → ¬ continuesNumber b)
    (hwin : p.take left = sign.toList ++ ds ++ rest)
    (hlo : -2147483648 ≤ literalValue sign ds) (hhi : literalValue sign ds ≤ 2147483647) :
    ∃ r, getNumStr env cfg p left = .ok r ∧ r.real = false ∧ r.representable = true
      ∧ r.num_len = (sign.toList ++ ds).length ∧ r.intnum = some (literalValue sign ds) := by
  obtain ⟨d, ds1, rfl⟩ := List.exists_cons_of_ne_nil hne
  have hd : 48 ≤ d ∧ d ≤ 57 := hds d (List.mem_cons_self d ds1)
  have hd45 : d ≠ 45 := by omega
  have hd43 : d ≠ 43 := by omega
  rcases hsign with rfl | rfl | rfl
  · -- no sign
    have hv : decimalValue (d :: ds1) < 2147483648 := by
      simp only [literalValue] at hhi
      simp at hhi
      omega
    have hwin1 : p.take left = d :: (ds1 ++ rest) := by simpa using hwin
    have hskip : skipSpaces cfg (p.take left) = d :: (ds1 ++ rest) := by
      rw [hwin1]
      exact skipSpaces_of_head cfg d _ (by omega) (by omega)
    have hw : (if (d :: (ds1 ++ rest)).head? = some 45 ∨ (d :: (ds1 ++ rest)).head? = some 43
        then (d :: (ds1 ++ rest)).drop 1 else d :: (ds1 ++ rest)) = (d :: ds1) ++ rest := by
      simp [hd45, hd43]
    have h := getNumStr_digits env cfg p _ (d :: ds1) rest left hskip hw hds hrest (le_of_lt hv)
    have hneg : decide ((d :: (ds1 ++ rest)).head? = some 45) = false := by simp [hd45]
    rw [hneg] at h
    refine ⟨_, h, rfl, rfl, ?_, ?_⟩
    · simp [hwin1]
      omega
    · simp [literalValue, toInt32_of_small _ hv]
  · -- minus sign
    have hv : decimalValue (d :: ds1) ≤ 2147483648 := by
      simp only [literalValue] at hlo
      simp at hlo
      omega
    have hwin1 : p.take left = 45 :: (d :: (ds1 ++ rest)) := by simpa using hwin
    have hskip : skipSpaces cfg (p.take left) = 45 :: (d :: (ds1 ++ rest)) := by
      rw [hwin1]
      exact skipSpaces_of_head cfg 45 _ (by omega) (by omega)
    have hw : (if (45 :: (d :: (ds1 ++ rest))).head? = some 45
        ∨ (45 :: (d :: (ds1 ++ rest))).head? = some 43
        then (45 :: (d :: (ds1 ++ rest))).drop 1 else 45 :: (d :: (ds1 ++ rest)))
          = (d :: ds1) ++ rest := by
      simp
    have h := getNumStr_digits env cfg p _ (d :: ds1) rest left hskip hw hds hrest hv
    have hneg : decide ((45 :: (d :: (ds1 ++ rest))).head? = some 45) = true := by simp
    rw [hneg] at h
    refine ⟨_, h, rfl, rfl, ?_, ?_⟩
    · simp [hwin1]
      omega
    · simp [literalValue, toInt32_neg_of_le _ hv]
  · -- plus sign
    have hv : decimalValue (d :: ds1) < 2147483648 := by
      simp only [literalValue] at hhi
      simp at hhi
      omega
    have hwin1 : p.take left = 43 :: (d :: (ds1 ++ rest)) := by simpa using hwin
    have hskip : skipSpaces cfg (p.take left) = 43 :: (d :: (ds1 ++ rest)) := by
      rw [hwin1]
      exact skipSpaces_of_head cfg 43 _ (by omega) (by omega)
    have hw : (if (43 :: (d :: (ds1 ++ rest))).head? = some 45
        ∨ (43 :: (d :: (ds1 ++ rest))).head? = some 43
        then (43 :: (d :: (ds1 ++ rest))).drop 1 else 43 :: (d :: (ds1 ++ rest)))
          = (d :: ds1) ++ rest := by
      simp
    have h := getNumStr_digits env cfg p _ (d :: ds1) rest left hskip hw hds hrest (le_of_lt hv)
    have hneg : decide ((43 :: (d :: (ds1 ++ rest))).head? = some 45) = false := by simp
    rw [hneg] at h
    refine ⟨_, h, rfl, rfl, ?_, ?_⟩
    · simp [hwin1]
      omega
    · simp [literalValue, toInt32_of_small _ hv]

end jbin

namespace jbin
/-! ## Numbers, hashes and lookup (claims C11, C12, C18, C19) -/

/-- C11 (the code at the failing input). For the literal `2147483648`, whose value is
outside `-2^31 .. 2^31 - 1`, `getNumStr` reports `representable = true` with
`intnum = -2147483648` (the bound `INT_MAX_INT = 1 << 31` is applied to the magnitude
whatever the sign), and JSONBin on `[2147483648]` returns a tree with that `JB_INT`
item and `JBERR_NONE`. -/
theorem C11_int_max_plus_one_accepted :
    (getNumStr okEnv defaultConfig (bytesOf "2147483648]") 11).toOption
        = some ⟨⟨false, 2147483648, 0, 0, 0⟩, some (-2147483648), 10, false, true⟩
      ∧ JSONBin okEnv defaultConfig (bytesOf "[2147483648]") JBRet.zero
        = Outcome.returned
            (some ⟨[⟨0, .JB_ARRAY, 0, 0, .i 1⟩, ⟨0, .JB_INT, 0, 0, .i (-2147483648)⟩], []⟩)
            ⟨32, 12, 2, 0, 0, 0, 0, .JBERR_NONE, 0, 0⟩ := by decide!

/-- C12 (the code at the failing input). For the key made of the euro sign (bytes
E2 82 AC) `toEncoding` gives back E2 82 AC, whose FNV-1a hash is 697271083, but
`hashJSONStr` gives 2360966795: for a code point from U+0800 on it hashes the lead byte
`0xc0 | (c >> 12)` where the encoding has `0xe0 | (c >> 12)`. -/
theorem C12_hash_of_euro_key :
    toEncoding defaultConfig [0xE2, 0x82, 0xAC] 3 = [0xE2, 0x82, 0xAC]
      ∧ hashOfName (toEncoding defaultConfig [0xE2, 0x82, 0xAC] 3) = 697271083
      ∧ hashJSONStr defaultConfig [0xE2, 0x82, 0xAC] 3 = 2360966795 := by decide!

/-- C18 (the code at the failing input). On `{1}` JSONBin returns a tree with
`JBERR_NONE` whose root has the unnamed `JB_INT` child 1: in OBJECT context the digit
replaces the context by NUMERIC_VALUE without a test.  On the bare document `1` the same
happens in ROOT context, `ctx_stack` becomes -1, and the second pass reads
`context[-1]`. -/
theorem C18_number_accepted_in_object :
    JSONBin okEnv defaultConfig (bytesOf "\x7b1\x7d") JBRet.zero
        = Outcome.returned
            (some ⟨[⟨0, .JB_ROOT, 0, 0, .i 1⟩, ⟨0, .JB_INT, 0, 0, .i 1⟩], []⟩)
            ⟨32, 2, 2, 0, 0, 0, 0, .JBERR_NONE, 0, 0⟩
      ∧ JSONBin okEnv defaultConfig (bytesOf "1") JBRet.zero
        = Outcome.undefined Fault.contextIndex := by decide!

theorem findByHashLoop_eq (t : JBTree) (hash : Nat) (fuel : Nat) (start : Option Nat) :
    t.findByHashLoop hash fuel start
      = (t.siblings fuel start).find? (fun i => decide (t.hashAt i = some hash)) := by
  induction fuel generalizing start with
  | zero => simp [JBTree.findByHashLoop, JBTree.siblings]
  | succ n ih =>
    cases start with
    | none => simp [JBTree.findByHashLoop, JBTree.siblings]
    | some i =>
      by_cases h : t.hashAt i = some hash
      · simp [JBTree.findByHashLoop, JBTree.siblings, h]
      · simp [JBTree.findByHashLoop, JBTree.siblings, h, ih]

/-- C19 (the claim as stated fails). The root of the tree of `[1,2,3]` is a container
of type `JB_ARRAY` whose first child has hash 0, and `findByHash(0)` returns null. -/
theorem C19_array_children_not_found :
    (arrayTree.items.get? 0).map JBItem.getType = some JBType.JB_ARRAY
      ∧ arrayTree.children 0 = [1, 2, 3]
      ∧ arrayTree.hashAt 1 = some 0
      ∧ arrayTree.findByHash 0 0 = none := by decide!

/-- C19 (amended). For an item of type `JB_OBJECT` or `JB_ROOT`, `findByHash(h)` returns
the first child in sibling order whose hash is `h`, and null exactly when no child has
that hash; for an item of any other type, `JB_ARRAY` included, it returns null.  In the
tree of `{"a":1,"b":[true,null,2.5],"a":"dup"}` the hash of `a` finds item 1, the
`JB_INT` item, not item 6. -/
theorem C19_findByHash_first_match (t : JBTree) (c h : Nat) :
    t.findByHash c h
        = (if t.isObjectOrRoot c = true then
            (t.children c).find? (fun i => decide (t.hashAt i = some h))
          else none)
      ∧ (t.isObjectOrRoot c = true →
          (t.findByHash c h = none ↔ ∀ i ∈ t.children c, t.hashAt i ≠ some h))
      ∧ dupTree.findByHash 0 3826002220 = some 1
      ∧ (dupTree.items.get? 1).map JBItem.getType = some JBType.JB_INT := by
  have key : t.findByHash c h
        = (if t.isObjectOrRoot c = true then
            (t.children c).find? (fun i => decide (t.hashAt i = some h))
          else none) := by
    unfold JBTree.findByHash JBTree.isObjectOrRoot JBTree.children
    cases hc : t.items.get? c with
    | none => simp
    | some it =>
      by_cases h1 : it.type = JBType.JB_OBJECT ∨ it.type = JBType.JB_ROOT
      · by_cases h2 : it.data.asInt ≠ 0
        · simp [h1, h2, findByHashLoop_eq]
        · have h2a : it.data.asInt = 0 := not_not.mp h2
          have h3 : t.getChild c = none := by
            simp only [JBTree.getChild, hc]
            simp [h2a]
          simp only [h1, h2, and_false, if_false, decide_True, if_true, h3]
          cases t.items.length <;> simp [JBTree.siblings]
      · simp [h1]
  refine ⟨key, ?_, by decide!, by decide!⟩
  intro hobj
  rw [key, if_pos hobj]
  simp [List.find?_eq_none]

/-- C17 (the code at the failing step). When `ctx_stack` is 255, which it is after 255
`[` of the text made of 256 `[` and 256 `]`, the next `[` (taken in ARRAY context) makes
`push_context` store into `context[256]`, behind the `JSON_MAX_CONTEXT` entries of the
array: the test `ctx_stack >= JSON_MAX_CONTEXT` of the main loop comes after the store.
At depth 20 the same text shape parses into 20 nested arrays. -/
theorem C17_push_at_full_stack (cfg : Config) (json : Bytes) (m : Machine) :
    tokenSwitch cfg json { m with read := { m.read with ctx_stack := 255 } }
        eJSONCtx.JSON_ARRAY 91 = .error (Stop.fault Fault.contextIndex)
      ∧ ∃ t info, JSONBin okEnv defaultConfig (List.replicate 20 91 ++ List.replicate 20 93)
          JBRet.zero = Outcome.returned (some t) info
        ∧ t.items.map JBItem.getType = List.replicate 20 JBType.JB_ARRAY
        ∧ t.items.map JBItem.getChildCount = List.replicate 19 1 ++ [0] := by
  refine ⟨?_, ⟨(⟨0, .JB_ARRAY, 0, 0, .i 1⟩ :: List.replicate 18 ⟨0, .JB_ARRAY, 0, 0, .i 1⟩)
      ++ [⟨0, .JB_ARRAY, 0, 0, .i 0⟩], []⟩, ⟨320, 40, 20, 0, 0, 0, 0, .JBERR_NONE, 0, 0⟩,
    by decide!⟩
  simp [tokenSwitch, Machine.ctxOp, JBParse.push_context, JBParse.set_context,
    JSON_MAX_CONTEXT]

/-! ## Names of children (claim C14) -/

/-- C14. Both halves fail.  On `{"a":[{1],"a":5}` JSONBin succeeds: the digit in the object
context of item 2 ends that context without closing the object, `]` then closes the array
of item 1 one level too deep, and the member `"a":5` that follows in the context of the
root object becomes item 4, a child of the array item 1 with a name reference and a hash.
Item 3, the integer 1, is a child of the object item 2 without a name.  On `{null}`
JSONBin succeeds with a `JB_NULL` child of the root that has no name. -/
theorem C14_children_names_not_kept :
    JSONBin okEnv defaultConfig (bytesOf "\x7b\"a\":[\x7b1],\"a\":5\x7d") JBRet.zero
        = Outcome.returned (some slipTree) ⟨82, 16, 5, 2, 6, 1, 2, .JBERR_NONE, 0, 0⟩
      ∧ slipTree.typeAt 1 = some JBType.JB_ARRAY
      ∧ slipTree.children 1 = [2, 4]
      ∧ slipTree.nameRef 4 = some 8
      ∧ slipTree.hashAt 4 = some 3826002220
      ∧ slipTree.getName 4 = some (bytesOf "a")
      ∧ slipTree.typeAt 2 = some JBType.JB_OBJECT
      ∧ slipTree.children 2 = [3]
      ∧ slipTree.nameRef 3 = some 0
      ∧ JSONBin okEnv defaultConfig (bytesOf "\x7bnull\x7d") JBRet.zero
        = Outcome.returned (some nullTagTree) ⟨32, 6, 2, 0, 0, 0, 0, .JBERR_NONE, 0, 0⟩
      ∧ nullTagTree.typeAt 0 = some JBType.JB_ROOT
      ∧ nullTagTree.children 0 = [1]
      ∧ nullTagTree.nameRef 1 = some 0 := by
  decide!

/-! ## The byte order mark (claim C27) -/

theorem stripBom_bom (cfg : Config) (s : Bytes) (h : cfg.handleUtf8Bom = true) :
    stripBom cfg ([0xef, 0xbb, 0xbf] ++ s) = s := by
  simp [stripBom, h, peek]

theorem stripBom_plain (cfg : Config) (s : Bytes)
    (hs : ¬ (s.length ≥ 3 ∧ peek s 0 = 0xef ∧ peek s 1 = 0xbb ∧ peek s 2 = 0xbf)) :
    stripBom cfg s = s := by
  unfold stripBom
  rw [if_neg]
  intro h
  exact hs h.2

/-- C27 (counterexample). For `s` = EF BB BF, with the default traits: on EF BB BF EF BB BF
only the first mark is taken off, the three bytes left are skipped as white space (plain
`char` is signed) and the byte behind the end of the input is read; on EF BB BF the mark is
taken off and the empty text gives a tree of one item.  With an unsigned plain `char` and
`s` = EF BB BF `[1]` the first call fails with an error and the second returns a tree. -/
theorem C27_second_mark_not_skipped :
    JSONBin okEnv defaultConfig [0xef, 0xbb, 0xbf, 0xef, 0xbb, 0xbf] JBRet.zero
      = Outcome.undefined Fault.inputRead
    ∧ JSONBin okEnv defaultConfig [0xef, 0xbb, 0xbf] JBRet.zero
      = Outcome.returned (some ⟨[JBItem.zero], []⟩) ⟨16, 0, 1, 0, 0, 0, 0, .JBERR_NONE, 0, 0⟩
    ∧ JSONBin okEnv ⟨false, true, true, true, false⟩
        ([0xef, 0xbb, 0xbf, 0xef, 0xbb, 0xbf] ++ bytesOf "[1]") JBRet.zero
      = Outcome.returned none ⟨0, 0, 0, 0, 0, 0, 0, .JBERR_UNEXPECTED_NULL, 1, 1⟩
    ∧ JSONBin okEnv ⟨false, true, true, true, false⟩
        ([0xef, 0xbb, 0xbf] ++ bytesOf "[1]") JBRet.zero
      = Outcome.returned (some ⟨[⟨0, .JB_ARRAY, 0, 0, .i 1⟩, ⟨0, .JB_INT, 0, 0, .i 1⟩], []⟩)
          ⟨32, 3, 2, 0, 0, 0, 0, .JBERR_NONE, 0, 0⟩ := by
  decide!

/-- C27 (amended). With `JB_HANDLE_UTF8_BOM`, for every input `s` that does not itself
start with EF BB BF, JSONBin on EF BB BF followed by `s` does exactly what it does on `s`:
the same outcome, tree and record. -/
theorem C27_bom_is_skipped (env : Env) (cfg : Config) (s : Bytes) (info : JBRet)
    (h : cfg.handleUtf8Bom = true)
    (hs : ¬ (s.length ≥ 3 ∧ peek s 0 = 0xef ∧ peek s 1 = 0xbb ∧ peek s 2 = 0xbf)) :
    JSONBin env cfg ([0xef, 0xbb, 0xbf] ++ s) info = JSONBin env cfg s info := by
  unfold JSONBin
  rw [stripBom_bom cfg s h, stripBom_plain cfg s hs]

/-- C27 (amended) at the text `[1]`. -/
theorem C27_bom_is_skipped_witness :
    JSONBin okEnv defaultConfig ([0xef, 0xbb, 0xbf] ++ bytesOf "[1]") JBRet.zero
      = JSONBin okEnv defaultConfig (bytesOf "[1]") JBRet.zero :=
  C27_bom_is_skipped okEnv defaultConfig (bytesOf "[1]") JBRet.zero rfl (by decide)

/-! ## The range test of real literals (claim C29) -/

/-- C29. The test of the range looks at the exponent before the size of the integer part:
for `100e37` and `1000000.0e33`, whose value 1e39 is above the largest finite single
precision value, `getNumStr` reports `representable = true`, and JSONBin on `[100e37]`
returns a tree with a `JB_FLOAT` item and `JBERR_NONE`.  (For `4e38` it reports
`representable = false`.) -/
theorem C29_large_integer_part_accepted :
    (getNumStr okEnv defaultConfig (bytesOf "100e37]") 7).toOption
        = some ⟨⟨false, 100, 0, 0, 37⟩, none, 6, true, true⟩
      ∧ (getNumStr okEnv defaultConfig (bytesOf "1000000.0e33]") 13).toOption
        = some ⟨⟨false, 1000000, 0, 1, 33⟩, none, 12, true, true⟩
      ∧ (getNumStr okEnv defaultConfig (bytesOf "4e38]") 5).toOption
        = some ⟨⟨false, 0, 0, 0, 0⟩, none, 4, true, false⟩
      ∧ JSONBin okEnv defaultConfig (bytesOf "[100e37]") JBRet.zero
        = Outcome.returned
            (some ⟨[⟨0, .JB_ARRAY, 0, 0, .i 1⟩, ⟨0, .JB_FLOAT, 0, 0, .f ⟨false, 100, 0, 0, 37⟩⟩], []⟩)
            ⟨32, 8, 2, 0, 0, 0, 0, .JBERR_NONE, 0, 0⟩ := by decide!

/-! ## The real flag of a number and the type stored (claim C28) -/

theorem skipSpaces_prefix (cfg : Config) (w : Bytes) :
    ∃ pre, w = pre ++ skipSpaces cfg w ∧ ∀ b ∈ pre, ¬ isRealMark b := by
  induction w with
  | nil => exact ⟨[], rfl, by simp⟩
  | cons b w ih =>
    unfold skipSpaces
    by_cases hb : isSpaceByte cfg b = true
    · obtain ⟨pre, h1, h2⟩ := ih
      rw [if_pos hb]
      refine ⟨b :: pre, by rw [List.cons_append, ← h1], ?_⟩
      intro x hx
      rcases List.mem_cons.mp hx with rfl | hx
      · unfold isSpaceByte at hb
        unfold isRealMark
        simp only [Bool.or_eq_true, decide_eq_true_eq, Bool.and_eq_true] at hb
        omega
      · exact h2 x hx
    · rw [if_neg hb]
      exact ⟨[], rfl, by simp⟩

theorem scanInt_prefix (w : Bytes) (n : Nat) (o : Bool) :
    ∃ pre, w = pre ++ (scanInt w n o).2.2 ∧ ∀ b ∈ pre, ¬ isRealMark b := by
  induction w generalizing n o with
  | nil => exact ⟨[], rfl, by simp⟩
  | cons b w ih =>
    unfold scanInt
    by_cases hb : 48 ≤ b ∧ b ≤ 57
    · rw [if_pos hb]
      have key : ∀ n1 o1, ∃ pre, b :: w = pre ++ (scanInt w n1 o1).2.2
          ∧ ∀ x ∈ pre, ¬ isRealMark x := by
        intro n1 o1
        obtain ⟨pre, h1, h2⟩ := ih n1 o1
        refine ⟨b :: pre, by rw [List.cons_append, ← h1], ?_⟩
        intro x hx
        rcases List.mem_cons.mp hx with rfl | hx
        · unfold isRealMark; omega
        · exact h2 x hx
      split
      · exact key _ _
      · exact key _ _
    · rw [if_neg hb]
      exact ⟨[], rfl, by simp⟩

theorem scanFrac_prefix (w : Bytes) (n k : Nat) :
    ∃ pre, w = pre ++ (scanFrac w n k).2.2 ∧ ∀ b ∈ pre, ¬ isRealMark b := by
  induction w generalizing n k with
  | nil => exact ⟨[], rfl, by simp⟩
  | cons b w ih =>
    unfold scanFrac
    by_cases hb : 48 ≤ b ∧ b ≤ 57
    · rw [if_pos hb]
      have key : ∀ n1 k1, ∃ pre, b :: w = pre ++ (scanFrac w n1 k1).2.2
          ∧ ∀ x ∈ pre, ¬ isRealMark x := by
        intro n1 k1
        obtain ⟨pre, h1, h2⟩ := ih n1 k1
        refine ⟨b :: pre, by rw [List.cons_append, ← h1], ?_⟩
        intro x hx
        rcases List.mem_cons.mp hx with rfl | hx
        · unfold isRealMark; omega
        · exact h2 x hx
      split
      · exact key _ _
      · exact key _ _
    · rw [if_neg hb]
      exact ⟨[], rfl, by simp⟩

theorem scanExp_prefix (w : Bytes) (n : Nat) :
    ∃ pre, w = pre ++ (scanExp w n).2 := by
  induction w generalizing n with
  | nil => exact ⟨[], rfl⟩
  | cons b w ih =>
    unfold scanExp
    by_cases hb : 48 ≤ b ∧ b ≤ 57
    · rw [if_pos hb]
      have key : ∀ n1, ∃ pre, b :: w = pre ++ (scanExp w n1).2 := by
        intro n1
        obtain ⟨pre, h1⟩ := ih n1
        exact ⟨b :: pre, by rw [List.cons_append, ← h1]⟩
      split
      · exact key _
      · exact key _
    · rw [if_neg hb]
      exact ⟨[], rfl⟩

theorem sign_prefix (w : Bytes) :
    ∃ pre, w = pre ++ (if w.head? = some 45 ∨ w.head? = some 43 then w.drop 1 else w)
      ∧ ∀ b ∈ pre, ¬ isRealMark b := by
  cases w with
  | nil => exact ⟨[], by simp, by simp⟩
  | cons b w =>
    by_cases hb : (b :: w).head? = some 45 ∨ (b :: w).head? = some 43
    · rw [if_pos hb]
      refine ⟨[b], by simp, ?_⟩
      intro x hx
      simp only [List.mem_singleton] at hx
      subst hx
      simp only [List.head?_cons, Option.some.injEq] at hb
      unfold isRealMark
      omega
    · rw [if_neg hb]
      exact ⟨[], rfl, by simp⟩

theorem head_cons_drop (w : Bytes) (b : Nat) (h : w.head? = some b) : w = b :: w.drop 1 := by
  cases w with
  | nil => simp at h
  | cons c w =>
    simp only [List.head?_cons, Option.some.injEq] at h
    subst h
    simp

theorem hasRealMark_of_mem (w : Bytes) (b : Nat) (hb : isRealMark b) (h : b ∈ w) :
    hasRealMark w := ⟨b, h, hb⟩

/-- The bytes `getNumStr` takes, and its flag `real`: the flag is set exactly when a `.`,
an `e` or an `E` is among the bytes taken. -/
theorem getNumStr_real (env : Env) (cfg : Config) (p : Bytes) (left : Nat) (num : NumStr)
    (h : getNumStr env cfg p left = .ok num) :
    ∃ consumed rest, p.take left = consumed ++ rest ∧ num.num_len = consumed.length
      ∧ (num.real = true ↔ hasRealMark consumed) := by
  unfold getNumStr at h
  lift_lets at h
  extract_lets w0 w1 neg w2 si w3 fracPart sf w4 repi intnum finish w5 at h
  obtain ⟨a1, e1, n1⟩ := skipSpaces_prefix cfg w0
  obtain ⟨a2, e2, n2⟩ := sign_prefix w1
  obtain ⟨a3, e3, n3⟩ := scanInt_prefix w2 0 false
  have e1' : w0 = a1 ++ w1 := e1
  have e2' : w1 = a2 ++ w2 := e2
  have e3' : w2 = a3 ++ w3 := e3
  have hpre : ∃ cf, w3 = cf ++ w4 ∧ (fracPart = true → 46 ∈ cf)
      ∧ (fracPart = false → cf = []) := by
    by_cases hf : fracPart = true
    · obtain ⟨a4, e4, _⟩ := scanFrac_prefix (w3.drop 1) 0 0
      have h46 : w3.head? = some 46 := by simpa [fracPart] using hf
      have hsf : w4 = (scanFrac (w3.drop 1) 0 0).2.2 := by
        show sf.2.2 = _
        simp only [sf, hf, if_true]
      refine ⟨46 :: a4, ?_, fun _ => List.mem_cons_self _ _, fun h0 => ?_⟩
      · rw [hsf, List.cons_append, ← e4]
        exact head_cons_drop w3 46 h46
      · rw [hf] at h0
        cases h0
    · have hsf : w4 = w3 := by
        show sf.2.2 = _
        simp only [sf, hf, if_false, Bool.false_eq_true]
      exact ⟨[], by rw [hsf]; rfl, fun h0 => absurd h0 hf, fun _ => rfl⟩
  obtain ⟨cf, e4, m1, m2⟩ := hpre
  have hw0 : w0 = (a1 ++ a2 ++ a3 ++ cf) ++ w4 := by
    rw [e1', e2', e3', e4]
    simp only [List.append_assoc]
  have hlen : ∀ (c r : Bytes), w0 = c ++ r → w0.length - r.length = c.length := by
    intro c r hc
    rw [hc]
    simp
  have hfin : ∀ (real : Bool) (n : Int) (wEnd : Bytes),
      (finish real n wEnd).real = real ∧ (finish real n wEnd).num_len = w0.length - wEnd.length := by
    intro real n wEnd
    simp only [finish]
    cases real <;> simp only [Bool.false_eq_true, if_false, if_true] <;> split <;> exact ⟨rfl, rfl⟩
  by_cases hexp : w4.head? = some 101 ∨ w4.head? = some 69
  · rw [if_pos hexp] at h
    obtain ⟨c, hc, hcm⟩ : ∃ c, w4.head? = some c ∧ isRealMark c := by
      rcases hexp with h1 | h1
      · exact ⟨101, h1, Or.inr (Or.inl rfl)⟩
      · exact ⟨69, h1, Or.inr (Or.inr rfl)⟩
    have e5 : w4 = c :: w5 := head_cons_drop w4 c hc
    cases hs : w5.head? with
    | none =>
      rw [hs] at h
      cases h
    | some s =>
      rw [hs] at h
      simp only [Except.ok.injEq] at h
      obtain ⟨a6, e6⟩ : ∃ a6, w5 = a6 ++ (if s = 45 ∨ s = 43 then w5.drop 1 else w5) := by
        by_cases hsg : s = 45 ∨ s = 43
        · rw [if_pos hsg]
          exact ⟨[s], head_cons_drop w5 s hs⟩
        · rw [if_neg hsg]
          exact ⟨[], rfl⟩
      obtain ⟨a7, e7⟩ := scanExp_prefix (if s = 45 ∨ s = 43 then w5.drop 1 else w5) 0
      have hall : w0 = (a1 ++ a2 ++ a3 ++ cf ++ [c] ++ a6 ++ a7)
          ++ (scanExp (if s = 45 ∨ s = 43 then w5.drop 1 else w5) 0).2 := by
        rw [hw0, e5]
        conv_lhs => rw [e6, e7]
        simp only [List.append_assoc, List.singleton_append, List.cons_append, List.nil_append]
      obtain ⟨f1, f2⟩ := hfin true
        (if decide (s = 45) = true then
          -((scanExp (if s = 45 ∨ s = 43 then w5.drop 1 else w5) 0).1 : Int)
        else ((scanExp (if s = 45 ∨ s = 43 then w5.drop 1 else w5) 0).1 : Int))
        (scanExp (if s = 45 ∨ s = 43 then w5.drop 1 else w5) 0).2
      rw [← h]
      refine ⟨_, _, hall, ?_, ?_⟩
      · exact f2.trans (hlen _ _ hall)
      · constructor
        · intro _
          exact hasRealMark_of_mem _ c hcm (by simp)
        · intro _
          exact f1
  · rw [if_neg hexp] at h
    simp only [Except.ok.injEq] at h
    obtain ⟨f1, f2⟩ := hfin fracPart 0 w4
    rw [← h]
    refine ⟨_, _, hw0, f2.trans (hlen _ _ hw0), ?_⟩
    rw [f1]
    constructor
    · intro hf
      exact hasRealMark_of_mem _ 46 (Or.inl rfl) (by simp [m1 hf])
    · intro ⟨b, hb, hm⟩
      by_contra hf
      have hcf := m2 (by simpa using hf)
      rw [hcf] at hb
      simp only [List.append_nil, List.mem_append] at hb
      rcases hb with (hb | hb) | hb
      · exact n1 b hb hm
      · exact n2 b hb hm
      · exact n3 b hb hm

theorem writeItem_same (m m1 : Machine) (p : Nat) (f : JBItem → JBItem)
    (h : m.writeItem p f = .ok m1) :
    m1.mem.getD p JBItem.zero = f (m.mem.getD p JBItem.zero) := by
  unfold Machine.writeItem at h
  by_cases hp : p < m.mem.length
  · rw [if_pos hp] at h
    cases h
    simp [List.getD_eq_getElem?_getD, hp]
  · rw [if_neg hp] at h
    cases h

/-- The tail of `step_value`: the type is written to the item, and a container gets its
count cleared. -/
theorem step_value_tail (m4 m1 : Machine) (ty : JBType) (p lv : Nat)
    (h : (do
        let m5 ← m4.writeItem p (fun it => { it with type := ty, sibling := 0 })
        if ty = JBType.JB_ARRAY ∨ ty = JBType.JB_OBJECT then do
          let m6 ← m5.writeItem p (fun it => { it with data := JBData.i 0 })
          if m6.read.level + 1 < JSON_MAX_DEPTH then
            .ok { m6 with read := { m6.read with
              level := m6.read.level + 1
              aHier := m6.read.aHier.set (lv + 1) (some p, none)
              pItem := some (p + 1) } }
          else .error Fault.hierIndex
        else .ok { m5 with read := { m5.read with pItem := some (p + 1) } }
        : Except Fault Machine) = .ok m1) :
    (m1.mem.getD p JBItem.zero).type = ty := by
  obtain ⟨m5, h5, h⟩ := bind_ok _ _ _ h
  have t5 := writeItem_same _ _ _ _ h5
  by_cases hc : ty = JBType.JB_ARRAY ∨ ty = JBType.JB_OBJECT
  · rw [if_pos hc] at h
    obtain ⟨m6, h6, h⟩ := bind_ok _ _ _ h
    have t6 := writeItem_same _ _ _ _ h6
    by_cases hl : m6.read.level + 1 < JSON_MAX_DEPTH
    · rw [if_pos hl] at h
      cases h
      show (m6.mem.getD p JBItem.zero).type = ty
      rw [t6, t5]
    · rw [if_neg hl] at h
      cases h
  · rw [if_neg hc] at h
    cases h
    show (m5.mem.getD p JBItem.zero).type = ty
    rw [t5]

/-- After `step_value(type)` the item `pItem` pointed at has the type `type`. -/
theorem step_value_type (m m1 : Machine) (ty : JBType) (p : Nat)
    (hp : m.read.pItem = some p) (h : step_value m ty = .ok m1) :
    (m1.mem.getD p JBItem.zero).type = ty := by
  unfold step_value at h
  simp only [hp] at h
  split at h
  · cases hpar : (m.read.aHier.getD (m.read.level).toNat (none, none)).1 with
    | none =>
      simp only [hpar] at h
      cases h
    | some parent =>
      simp only [hpar] at h
      obtain ⟨m2, h2, h⟩ := bind_ok _ _ _ h
      split at h
      · obtain ⟨m3, h3, h⟩ := bind_ok _ _ _ h
        exact step_value_tail _ m1 ty p _ h
      · exact step_value_tail _ m1 ty p _ h
  · cases h

theorem writeData_some (m m1 : Machine) (d : JBData) (p : Nat) (hp : m.read.pItem = some p)
    (h : m.writeData d = .ok m1) : m1.read = m.read := by
  unfold Machine.writeData at h
  simp only [hp] at h
  have h1 := liftFault_ok_inv _ _ h
  unfold Machine.writeItem at h1
  split at h1
  · cases h1
    rfl
  · cases h1

/-- C28. Whenever `getNumStr` returns for the text at the cursor, the bytes it took are a
prefix of the `left` bytes it was given, `num_len` is their number, and `real` is true if
and only if a `.`, an `e` or an `E` is among them.  The case `JSON_NUMERIC_VALUE` then
stores nothing and sets `JBERR_UNREPRESENTABLE` when `representable` is false; otherwise,
when it completes with `pItem` at item `p`, that item has the type `JB_FLOAT` if `real` is
true and `JB_INT` if not.  JSONBin of `[1e2,5.,100]` gives the items `JB_FLOAT`,
`JB_FLOAT`, `JB_INT`. -/
theorem C28_real_flag_and_item_type (env : Env) (cfg : Config) (json : Bytes) (m : Machine)
    (num : NumStr) (h : getNumStr env cfg (json.drop m.cursor) m.left = .ok num) :
    (∃ consumed rest, (json.drop m.cursor).take m.left = consumed ++ rest
        ∧ num.num_len = consumed.length ∧ (num.real = true ↔ hasRealMark consumed))
    ∧ (num.representable = false →
        caseNumericValue env cfg json m = .ok (m.setError JBError.JBERR_UNREPRESENTABLE))
    ∧ (num.representable = true → ∀ p m1, m.read.pItem = some p →
        caseNumericValue env cfg json m = .ok m1 →
        (m1.mem.getD p JBItem.zero).type
          = if num.real = true then JBType.JB_FLOAT else JBType.JB_INT)
    ∧ JSONBin okEnv defaultConfig (bytesOf "[1e2,5.,100]") JBRet.zero
      = Outcome.returned
          (some ⟨[⟨0, .JB_ARRAY, 0, 0, .i 3⟩, ⟨0, .JB_FLOAT, 1, 0, .f ⟨false, 1, 0, 0, 2⟩⟩,
            ⟨0, .JB_FLOAT, 1, 0, .f ⟨false, 5, 0, 0, 0⟩⟩, ⟨0, .JB_INT, 0, 0, .i 100⟩], []⟩)
          ⟨64, 12, 4, 0, 0, 0, 0, .JBERR_NONE, 0, 0⟩ := by
  refine ⟨getNumStr_real env cfg _ _ num h, ?_, ?_, by decide!⟩
  · intro hr
    unfold caseNumericValue
    rw [h]
    simp only [liftFault, bind, Except.bind, hr, if_true]
  · intro hr p m1 hp hc
    unfold caseNumericValue at hc
    rw [h] at hc
    have hr2 : ¬ (num.representable = false) := by simp [hr]
    simp only [liftFault, bind, Except.bind, if_neg hr2] at hc
    obtain ⟨m2, h2, hc⟩ := bind_ok _ _ _ hc
    have hread := writeData_some m m2 _ p hp h2
    have hp2 : (m2.textSkip num.num_len).read.pItem = some p := by
      show m2.read.pItem = some p
      rw [hread]
      exact hp
    have ht := step_value_type _ m1 _ p hp2 (liftFault_ok_inv _ _ hc)
    rw [ht]
    cases num.real <;> rfl

/-- C28 at the literal `1e2` in an array: the three bytes taken hold an `e`, and the item
filled is a `JB_FLOAT`. -/
theorem C28_real_flag_and_item_type_witness :
    getNumStr okEnv defaultConfig ((bytesOf "1e2]").drop (inArrayMachine 4).cursor)
        (inArrayMachine 4).left = .ok ⟨⟨false, 1, 0, 0, 2⟩, none, 3, true, true⟩
    ∧ (∃ m1, caseNumericValue okEnv defaultConfig (bytesOf "1e2]") (inArrayMachine 4) = .ok m1
        ∧ (m1.mem.getD 1 JBItem.zero).type = JBType.JB_FLOAT)
    ∧ (∃ consumed rest, ((bytesOf "1e2]").drop (inArrayMachine 4).cursor).take
          (inArrayMachine 4).left = consumed ++ rest
        ∧ 3 = consumed.length ∧ (true = true ↔ hasRealMark consumed)) :=
  have h := C28_real_flag_and_item_type okEnv defaultConfig (bytesOf "1e2]") (inArrayMachine 4)
    ⟨⟨false, 1, 0, 0, 2⟩, none, 3, true, true⟩ (toOption_ok _ _ (by decide!))
  ⟨toOption_ok _ _ (by decide!),
    ⟨⟨⟨0, 1, 2, some 2, List.replicate JSON_MAX_CONTEXT eJSONCtx.JSON_ROOT,
        ((List.replicate JSON_MAX_DEPTH (none, none)).set 1 (some 0, none)).set 1
          (some 0, some 1)⟩,
      sStrCache.init 0, [⟨0, JBType.JB_ARRAY, 0, 0, JBData.i 1⟩,
        ⟨0, JBType.JB_FLOAT, 0, 0, JBData.f ⟨false, 1, 0, 0, 2⟩⟩], 3, 1,
      JBError.JBERR_NONE⟩, toOption_ok _ _ (by decide!),
      h.2.2.1 rfl 1 _ rfl (toOption_ok _ _ (by decide!))⟩,
    h.1⟩

/-! ## The value stored for an integer literal (claim C10) -/

theorem writeItem_other (m m1 : Machine) (q p : Nat) (f : JBItem → JBItem) (hq : q ≠ p)
    (h : m.writeItem q f = .ok m1) :
    m1.mem.getD p JBItem.zero = m.mem.getD p JBItem.zero := by
  unfold Machine.writeItem at h
  by_cases hl : q < m.mem.length
  · rw [if_pos hl] at h
    cases h
    exact getD_set_other _ _ _ _ _ hq
  · rw [if_neg hl] at h
    cases h

/-- A write to an item that leaves `data` as it is leaves the `data` of every item. -/
theorem writeItem_data (m m1 : Machine) (q p : Nat) (f : JBItem → JBItem)
    (h : m.writeItem q f = .ok m1) (hf : ∀ it, (f it).data = it.data) :
    (m1.mem.getD p JBItem.zero).data = (m.mem.getD p JBItem.zero).data := by
  by_cases hq : q = p
  · subst hq
    rw [writeItem_same m m1 q f h, hf]
  · rw [writeItem_other m m1 q p f hq h]

/-- The call `step_value(type)` for a value that is not a container leaves the `data` of
the item `pItem` points at, when that item is not the parent of its level. -/
theorem step_value_data (m m1 : Machine) (ty : JBType) (p : Nat)
    (hp : m.read.pItem = some p) (ha : ty ≠ JBType.JB_ARRAY) (ho : ty ≠ JBType.JB_OBJECT)
    (hpar : (m.read.aHier.getD m.read.level.toNat (none, none)).1 ≠ some p)
    (h : step_value m ty = .ok m1) :
    (m1.mem.getD p JBItem.zero).data = (m.mem.getD p JBItem.zero).data := by
  unfold step_value at h
  simp only [hp] at h
  split at h
  · cases hpa : (m.read.aHier.getD (m.read.level).toNat (none, none)).1 with
    | none =>
      simp only [hpa] at h
      cases h
    | some parent =>
      simp only [hpa] at h
      have hne : parent ≠ p := fun e => hpar (by rw [hpa, e])
      obtain ⟨m2, h2, h⟩ := bind_ok _ _ _ h
      have d2 := writeItem_other _ m2 parent p _ hne h2
      have hc : ¬ (ty = JBType.JB_ARRAY ∨ ty = JBType.JB_OBJECT) := fun e => e.elim ha ho
      split at h
      · obtain ⟨m3, h3, h⟩ := bind_ok _ _ _ h
        have d3 := writeItem_data _ m3 _ p _ h3 (fun _ => rfl)
        obtain ⟨m5, h5, h⟩ := bind_ok _ _ _ h
        have d5 := writeItem_data _ m5 p p _ h5 (fun _ => rfl)
        rw [if_neg hc] at h
        cases h
        show (m5.mem.getD p JBItem.zero).data = _
        rw [d5]
        show (m3.mem.getD p JBItem.zero).data = _
        rw [d3, d2]
      · obtain ⟨m3, h3, h⟩ := bind_ok _ _ _ h
        cases h3
        obtain ⟨m5, h5, h⟩ := bind_ok _ _ _ h
        have d5 := writeItem_data _ m5 p p _ h5 (fun _ => rfl)
        rw [if_neg hc] at h
        cases h
        show (m5.mem.getD p JBItem.zero).data = _
        rw [d5]
        show (m2.mem.getD p JBItem.zero).data = _
        rw [d2]
  · cases h

/-- The case `JSON_NUMERIC_VALUE` in the filling pass: the item `pItem` points at gets the
value of the literal as `data` and the type by `real`. -/
theorem caseNumericValue_item (env : Env) (cfg : Config) (json : Bytes) (m m1 : Machine)
    (num : NumStr) (p : Nat)
    (hnum : getNumStr env cfg (json.drop m.cursor) m.left = .ok num)
    (hrep : num.representable = true) (hp : m.read.pItem = some p)
    (hpar : (m.read.aHier.getD m.read.level.toNat (none, none)).1 ≠ some p)
    (h : caseNumericValue env cfg json m = .ok m1) :
    (m1.mem.getD p JBItem.zero).type
        = (if num.real = false then JBType.JB_INT else JBType.JB_FLOAT)
      ∧ (m1.mem.getD p JBItem.zero).data
        = (if num.real = false then JBData.i (num.intnum.getD 0) else JBData.f num.value) := by
  unfold caseNumericValue at h
  rw [hnum] at h
  have hr2 : ¬ (num.representable = false) := by simp [hrep]
  simp only [liftFault, bind, Except.bind, if_neg hr2] at h
  obtain ⟨m2, h2, h⟩ := bind_ok _ _ _ h
  have hread := writeData_some m m2 _ p hp h2
  have hp2 : (m2.textSkip num.num_len).read.pItem = some p := by
    show m2.read.pItem = some p
    rw [hread]
    exact hp
  have hs := liftFault_ok_inv _ _ h
  have ht := step_value_type _ m1 _ p hp2 hs
  have hty : ∀ b : Bool, (if b = false then JBType.JB_INT else JBType.JB_FLOAT) ≠ JBType.JB_ARRAY
      ∧ (if b = false then JBType.JB_INT else JBType.JB_FLOAT) ≠ JBType.JB_OBJECT := by
    intro b
    cases b <;> exact ⟨by decide, by decide⟩
  have hd := step_value_data _ m1 _ p hp2 (hty num.real).1 (hty num.real).2
    (by
      show (m2.read.aHier.getD m2.read.level.toNat (none, none)).1 ≠ some p
      rw [hread]
      exact hpar) hs
  refine ⟨ht, ?_⟩
  rw [hd]
  show (m2.mem.getD p JBItem.zero).data = _
  unfold Machine.writeData at h2
  simp only [hp] at h2
  have h3 := liftFault_ok_inv _ _ h2
  rw [writeItem_same m m2 p _ h3]

/-- C10. In the 32 bit configuration, for a literal made of an optional sign and one or
more decimal digits whose value `x` satisfies `-2^31 <= x <= 2^31 - 1`, followed by
nothing or by a byte that does not continue a number, `getNumStr` reports `real = false`,
`representable = true`, `num_len` the length of the literal and `intnum = x`.  When the
case `JSON_NUMERIC_VALUE` of the filling pass completes on such a literal at the cursor,
the item `pItem` pointed at (an item that is not the parent of its level) has the type
`JB_INT` and the data `x`, and its `getInt()` returns `x`.  JSONBin of
`[-2147483648,007,+2147483647]` gives the `JB_INT` items -2147483648, 7 and 2147483647. -/
theorem C10_integer_literal_exact (env : Env) (cfg : Config) (sign : Option Nat)
    (ds rest p : Bytes) (left : Nat)
    (hsign : sign = none ∨ sign = some 45 ∨ sign = some 43)
    (hne : ds ≠ [])
    (hds : ∀ d ∈ ds, isDigit d)
    (hrest : ∀ b, rest.head? = some b → ¬ continuesNumber b)
    (hwin : p.take left = sign.toList ++ ds ++ rest)
    (hlo : -2147483648 ≤ literalValue sign ds) (hhi : literalValue sign ds ≤ 2147483647) :
    (∃ r, getNumStr env cfg p left = .ok r ∧ r.real = false ∧ r.representable = true
      ∧ r.num_len = (sign.toList ++ ds).length ∧ r.intnum = some (literalValue sign ds)
      ∧ ∀ (json : Bytes) (m m1 : Machine) (q : Nat), json.drop m.cursor = p → m.left = left →
          m.read.pItem = some q →
          (m.read.aHier.getD m.read.level.toNat (none, none)).1 ≠ some q →
          caseNumericValue env cfg json m = .ok m1 →
          (m1.mem.getD q JBItem.zero).type = JBType.JB_INT
            ∧ (m1.mem.getD q JBItem.zero).data = JBData.i (literalValue sign ds)
            ∧ (m1.mem.getD q JBItem.zero).getInt = some (literalValue sign ds))
      ∧ JSONBin okEnv defaultConfig (bytesOf "[-2147483648,007,+2147483647]") JBRet.zero
        = Outcome.returned
            (some ⟨[⟨0, .JB_ARRAY, 0, 0, .i 3⟩, ⟨0, .JB_INT, 1, 0, .i (-2147483648)⟩,
              ⟨0, .JB_INT, 1, 0, .i 7⟩, ⟨0, .JB_INT, 0, 0, .i 2147483647⟩], []⟩)
            ⟨64, 29, 4, 0, 0, 0, 0, .JBERR_NONE, 0, 0⟩ := by
  refine ⟨?_, by decide!⟩
  obtain ⟨r, h1, h2, h3, h4, h5⟩ :=
    getNumStr_literal env cfg sign ds rest p left hsign hne hds hrest hwin hlo hhi
  refine ⟨r, h1, h2, h3, h4, h5, ?_⟩
  intro json m m1 q hj hl hq hpar hc
  rw [← hj, ← hl] at h1
  obtain ⟨t, d⟩ := caseNumericValue_item env cfg json m m1 r q h1 h3 hq hpar hc
  rw [h2] at t d
  rw [h5] at d
  simp only [if_true, Option.getD_some] at t d
  refine ⟨t, d, ?_⟩
  unfold JBItem.getInt
  rw [t, d]
  rfl

/-- C10 at the literal `-2147483648` followed by `]`, in an array of the filling pass. -/
theorem C10_integer_literal_exact_witness :
    ((some 45 : Option Nat) = none ∨ (some 45 : Option Nat) = some 45 ∨ (some 45 : Option Nat) = some 43)
      ∧ (bytesOf "-2147483648]").take 12 = (some 45).toList ++ bytesOf "2147483648" ++ [93]
      ∧ ∃ r, getNumStr okEnv defaultConfig (bytesOf "-2147483648]") 12 = .ok r ∧ r.real = false
        ∧ r.representable = true
        ∧ r.num_len = ((some 45).toList ++ bytesOf "2147483648").length
        ∧ r.intnum = some (literalValue (some 45) (bytesOf "2147483648"))
        ∧ ∃ m1, caseNumericValue okEnv defaultConfig (bytesOf "-2147483648]") (inArrayMachine 12)
              = .ok m1
          ∧ (m1.mem.getD 1 JBItem.zero).type = JBType.JB_INT
          ∧ (m1.mem.getD 1 JBItem.zero).data = JBData.i (-2147483648)
          ∧ (m1.mem.getD 1 JBItem.zero).getInt = some (-2147483648) := by
  have hw : (bytesOf "-2147483648]").take 12
      = (some 45).toList ++ bytesOf "2147483648" ++ [93] := by decide
  obtain ⟨⟨r, h1, h2, h3, h4, h5, h6⟩, _⟩ :=
    C10_integer_literal_exact okEnv defaultConfig (some 45) (bytesOf "2147483648") [93]
      (bytesOf "-2147483648]") 12 (Or.inr (Or.inl rfl)) (by decide)
      (by
        intro d hd
        simp [bytesOf] at hd
        unfold isDigit
        omega)
      (by
        intro b hb
        simp at hb
        subst hb
        unfold continuesNumber isDigit
        omega)
      hw (by decide) (by decide)
  refine ⟨Or.inr (Or.inl rfl), hw, r, h1, h2, h3, h4, h5, ?_⟩
  have hok : (caseNumericValue okEnv defaultConfig (bytesOf "-2147483648]")
      (inArrayMachine 12)).toOption.isSome = true := by decide!
  cases hc : caseNumericValue okEnv defaultConfig (bytesOf "-2147483648]") (inArrayMachine 12) with
  | error e =>
    rw [hc] at hok
    cases hok
  | ok m1 =>
    have h7 := h6 (bytesOf "-2147483648]") (inArrayMachine 12) m1 1 rfl rfl rfl (by decide) hc
    have hv : literalValue (some 45) (bytesOf "2147483648") = -2147483648 := by decide
    rw [hv] at h7
    exact ⟨m1, rfl, h7⟩

/-! ## The escaped text of the writer read back (claim C24) -/

open jout (escapeByte hexChar)

theorem and_low_mask (x n : Nat) : x &&& (2 ^ n - 1) = x % 2 ^ n :=
  Nat.and_pow_two_sub_one_eq_mod x n

theorem clear_bit (c k : Nat) (hk : k < 32) (hc : c < 2 ^ (k + 1)) :
    c &&& (4294967295 ^^^ 2 ^ k) = c % 2 ^ k := by
  apply Nat.eq_of_testBit_eq
  intro i
  have h32 : (4294967295 : Nat) = 2 ^ 32 - 1 := by norm_num
  rw [Nat.testBit_and, Nat.testBit_xor, h32, Nat.testBit_two_pow_sub_one, Nat.testBit_two_pow,
    Nat.testBit_mod_two_pow]
  by_cases h1 : i < k
  · have : i < 32 := by omega
    have : k ≠ i := by omega
    simp [*]
  · by_cases h2 : i = k
    · subst h2
      simp [hk]
    · have hi : k + 1 ≤ i := by omega
      have : c.testBit i = false :=
        Nat.testBit_lt_two_pow (lt_of_lt_of_le hc (Nat.pow_le_pow_right (by norm_num) hi))
      simp [this, h1]

theorem test_bit_ne_zero (c k : Nat) (hc : c < 2 ^ (k + 1)) :
    (2 ^ k &&& c ≠ 0) ↔ 2 ^ k ≤ c := by
  constructor
  · intro h
    by_contra hlt
    apply h
    apply Nat.eq_of_testBit_eq
    intro i
    rw [Nat.testBit_and, Nat.testBit_two_pow, Nat.zero_testBit]
    by_cases hi : k = i
    · subst hi
      simp [Nat.testBit_lt_two_pow (not_le.mp hlt)]
    · simp [hi]
  · intro h hz
    have h1 : (2 ^ k &&& c).testBit k = false := by rw [hz]; simp
    rw [Nat.testBit_and, Nat.testBit_two_pow_self, Bool.true_and] at h1
    have h2 : c.testBit k = true := by
      rw [Nat.testBit_to_div_mod]
      have hd : c / 2 ^ k = 1 := by
        apply Nat.div_eq_of_lt_le
        · simpa using h
        · simpa [pow_succ, Nat.mul_comm] using hc
      simp [hd]
    rw [h2] at h1
    cases h1

theorem or_low (a b i : Nat) (hb : b < 2 ^ i) : a * 2 ^ i ||| b = a * 2 ^ i + b := by
  rw [Nat.mul_comm]
  exact (Nat.mul_add_lt_is_or hb a).symm

theorem getUCode_four (a b c d : Nat) (rest : Bytes) :
    getUCode (a :: b :: c :: d :: rest)
      = ((((((hexDigit a % 65536) <<< 4 ||| hexDigit b) % 65536) <<< 4 ||| hexDigit c) % 65536)
          <<< 4 ||| hexDigit d) % 65536 := by
  simp [getUCode, List.range, List.range.loop, peek]

theorem getChar_escape_u (cfg : Config) (b : Nat) (hb : b < 32) (rest : Bytes) (n : Nat) :
    getChar cfg ([92, 117, 48, 48, hexChar (b / 16), hexChar (b % 16)] ++ rest) (6 + n)
      = (b, 6) := by
  have hu : getUCode (48 :: 48 :: hexChar (b / 16) :: hexChar (b % 16) :: rest) = b := by
    rw [getUCode_four]
    interval_cases b <;> decide
  have h6 : 6 + n - 1 = 5 + n := by omega
  have h5 : 5 + n ≥ 5 := by omega
  simp only [getChar, getCode, peek, List.cons_append, List.nil_append, List.getD_cons_zero,
    List.drop_succ_cons, List.drop_zero, solidusCode, toLower, h6]
  simp only [hu]
  have hb1 : ¬ (b ≥ 0xd800) := by omega
  have hb2 : ¬ (b ≥ 0xc0) := by omega
  simp [h5, hb1, hb2]

theorem getChar_escape_two (cfg : Config) (x code : Nat) (rest : Bytes) (n : Nat)
    (h : (x = 98 ∧ code = 8) ∨ (x = 116 ∧ code = 9) ∨ (x = 110 ∧ code = 10)
      ∨ (x = 102 ∧ code = 12) ∨ (x = 114 ∧ code = 13) ∨ (x = 34 ∧ code = 34)
      ∨ (x = 92 ∧ code = 92)) :
    getChar cfg ([92, x] ++ rest) (2 + n) = (code, 2) := by
  have h2 : 2 + n - 1 = 1 + n := by omega
  have h1 : 1 + n ≠ 0 := by omega
  rcases h with h | h | h | h | h | h | h <;> obtain ⟨rfl, rfl⟩ := h <;>
  simp [getChar, getCode, peek, solidusCode, toLower, h2, h1]

theorem getChar_plain (cfg : Config) (b : Nat) (hb : b < 0xc0) (h92 : b ≠ 92) (rest : Bytes)
    (n : Nat) : getChar cfg (b :: rest) (1 + n) = (b, 1) := by
  have h1 : 1 + n ≠ 0 := by omega
  have hc : ¬ (b ≥ 0xc0) := by omega
  simp [getChar, getCode, peek, h92, h1, hc]

/-- The decoder on the bytes the writer gives for a byte below 0x80. -/
theorem getChar_escapeByte (cfg : Config) (b : Nat) (hb : b < 0x80) (rest : Bytes) (n : Nat) :
    getChar cfg (escapeByte b ++ rest) ((escapeByte b).length + n)
      = (b, (escapeByte b).length) := by
  unfold escapeByte
  by_cases h8 : b = 8
  · subst h8
    exact getChar_escape_two cfg 98 8 rest n (by simp)
  by_cases h9 : b = 9
  · subst h9
    exact getChar_escape_two cfg 116 9 rest n (by simp)
  by_cases h10 : b = 10
  · subst h10
    exact getChar_escape_two cfg 110 10 rest n (by simp)
  by_cases h12 : b = 12
  · subst h12
    exact getChar_escape_two cfg 102 12 rest n (by simp)
  by_cases h13 : b = 13
  · subst h13
    exact getChar_escape_two cfg 114 13 rest n (by simp)
  by_cases h34 : b = 34
  · subst h34
    exact getChar_escape_two cfg 34 34 rest n (by simp)
  by_cases h92 : b = 92
  · subst h92
    exact getChar_escape_two cfg 92 92 rest n (by simp)
  rw [if_neg h8, if_neg h9, if_neg h10, if_neg h12, if_neg h13, if_neg h34, if_neg h92]
  by_cases h32 : b < 32
  · rw [if_pos h32]
    exact getChar_escape_u cfg b h32 rest n
  · rw [if_neg h32]
    exact getChar_plain cfg b (by omega) h92 rest n

theorem asEncoding_ascii (b : Nat) (hb : b < 0x80) : asEncoding b = [b] := by
  unfold asEncoding
  rw [if_pos hb, Nat.mod_eq_of_lt (by omega)]

theorem and_63 (x : Nat) : x &&& 63 = x % 64 := and_low_mask x 6
theorem and_7 (x : Nat) : x &&& 7 = x % 8 := and_low_mask x 3
theorem and_127 (x : Nat) : x &&& 127 = x % 128 := and_low_mask x 7

theorem or_128 (x : Nat) (h : x < 64) : 128 ||| x = 128 + x := or_low 2 x 6 h
theorem or_192 (x : Nat) (h : x < 64) : 192 ||| x = 192 + x := or_low 3 x 6 h
theorem or_224 (x : Nat) (h : x < 32) : 224 ||| x = 224 + x := or_low 7 x 5 h
theorem or_240 (x : Nat) (h : x < 16) : 240 ||| x = 240 + x := or_low 15 x 4 h

theorem getCharLoop_stop (cfg : Config) (fuel : Nat) (p : Bytes) (left m c8 total : Nat)
    (hm : m &&& c8 = 0) : getCharLoop cfg fuel p left m c8 total = some (c8, total) := by
  cases fuel with
  | zero => rfl
  | succ fuel =>
    unfold getCharLoop
    rw [if_neg]
    intro h
    exact h.1 hm

theorem getCharLoop_step (cfg : Config) (fuel b : Nat) (rest : Bytes) (n m c8 total : Nat)
    (hb1 : 0x80 ≤ b) (hb2 : b < 0xc0) (hm : m &&& c8 ≠ 0) :
    getCharLoop cfg (fuel + 1) (b :: rest) (n + 1) m c8 total
      = getCharLoop cfg fuel rest n (u32 (m <<< 5))
          (u32 ((c8 &&& (4294967295 ^^^ m)) <<< 6) ||| (b &&& 0x3f)) (total + 1) := by
  have hc : getCode cfg (b :: rest) (n + 1) = (b, 1) := by
    have h92 : b ≠ 92 := by omega
    simp [getCode, peek, h92]
  have h1 : ¬ (b < 0x80 ∨ b ≥ 0xc0) := by omega
  rw [getCharLoop]
  simp only [hc, if_neg h1]
  rw [if_pos ⟨hm, by omega⟩]
  simp

/-- One round of the loop of `getChar` in numbers: the marker bit `2 ^ k` is taken off and
six bits of the continuation byte are appended. -/
theorem loop_arith (k c8 b : Nat) (hk : k ≤ 20) (h1 : 2 ^ k ≤ c8) (h2 : c8 < 2 ^ (k + 1))
    (hb1 : 128 ≤ b) (hb2 : b < 192) :
    (u32 ((c8 &&& (4294967295 ^^^ 2 ^ k)) <<< 6) ||| (b &&& 0x3f))
      = (c8 - 2 ^ k) * 64 + (b - 128) := by
  rw [clear_bit c8 k (by omega) h2, and_63, Nat.shiftLeft_eq]
  have hmod : c8 % 2 ^ k = c8 - 2 ^ k := by
    rw [Nat.mod_eq_sub_mod h1, Nat.mod_eq_of_lt]
    rw [pow_succ] at h2
    omega
  have hb : b % 64 = b - 128 := by omega
  have hlt : (c8 - 2 ^ k) * 2 ^ 6 < 4294967296 := by
    have h3 : c8 - 2 ^ k < 2 ^ k := by
      rw [pow_succ] at h2
      omega
    have h4 : 2 ^ k ≤ 2 ^ 20 := Nat.pow_le_pow_right (by norm_num) hk
    have h5 : (2 : Nat) ^ 20 = 1048576 := by norm_num
    omega
  rw [hmod, hb, u32, Nat.mod_eq_of_lt hlt]
  exact or_low (c8 - 2 ^ k) (b - 128) 6 (by omega)

theorem getCharLoop_round (cfg : Config) (fuel b : Nat) (rest : Bytes) (n k c8 total : Nat)
    (hk : k ≤ 20) (hb1 : 128 ≤ b) (hb2 : b < 192) (h1 : 2 ^ k ≤ c8) (h2 : c8 < 2 ^ (k + 1)) :
    getCharLoop cfg (fuel + 1) (b :: rest) (n + 1) (2 ^ k) c8 total
      = getCharLoop cfg fuel rest n (2 ^ (k + 5)) ((c8 - 2 ^ k) * 64 + (b - 128))
          (total + 1) := by
  rw [getCharLoop_step cfg fuel b rest n (2 ^ k) c8 total hb1 hb2
    ((test_bit_ne_zero c8 k h2).mpr h1), loop_arith k c8 b hk h1 h2 hb1 hb2]
  have hm : u32 (2 ^ k <<< 5) = 2 ^ (k + 5) := by
    rw [Nat.shiftLeft_eq, ← pow_add, u32, Nat.mod_eq_of_lt]
    calc 2 ^ (k + 5) ≤ 2 ^ 25 := Nat.pow_le_pow_right (by norm_num) (by omega)
      _ < 4294967296 := by norm_num
  rw [hm]

theorem getCharLoop_end (cfg : Config) (fuel : Nat) (p : Bytes) (left k c8 total : Nat)
    (h : c8 < 2 ^ k) : getCharLoop cfg fuel p left (2 ^ k) c8 total = some (c8, total) := by
  apply getCharLoop_stop
  by_contra hne
  have h2 : c8 < 2 ^ (k + 1) := by
    rw [pow_succ]
    omega
  have := (test_bit_ne_zero c8 k h2).mp hne
  omega

theorem getChar_lead (cfg : Config) (b0 : Nat) (rest : Bytes) (n : Nat) (h1 : 0xc0 ≤ b0)
    (h2 : b0 < 0x100) :
    getChar cfg (b0 :: rest) (n + 2)
      = match getCharLoop cfg 7 rest (n + 1) (2 ^ 6) (b0 - 128) 1 with
        | none => (b0, 1)
        | some r => r := by
  have hc : getCode cfg (b0 :: rest) (n + 2) = (b0, 1) := by
    have h92 : b0 ≠ 92 := by omega
    simp [getCode, peek, h92]
  have hcond : b0 ≥ 0xc0 ∧ b0 < 0x100 ∧ n + 2 > 1 := ⟨h1, h2, by omega⟩
  have h7 : b0 &&& 0x7f = b0 - 128 := by
    rw [and_127]
    omega
  unfold getChar
  simp only [hc, if_pos hcond, h7]
  rfl

theorem getChar_two (cfg : Config) (b0 b1 : Nat) (rest : Bytes) (n : Nat)
    (h0 : 0xc0 ≤ b0) (h0' : b0 ≤ 0xdf) (h1 : 0x80 ≤ b1) (h1' : b1 ≤ 0xbf) :
    getChar cfg (b0 :: b1 :: rest) (n + 2) = ((b0 - 192) * 64 + (b1 - 128), 2) := by
  rw [getChar_lead cfg b0 _ n h0 (by omega),
    getCharLoop_round cfg 6 b1 rest n 6 (b0 - 128) 1 (by omega) h1 (by omega)
      (by norm_num; omega) (by norm_num; omega),
    getCharLoop_end cfg 6 rest n 11 _ 2 (by norm_num; omega)]
  norm_num
  omega

theorem getChar_three (cfg : Config) (b0 b1 b2 : Nat) (rest : Bytes) (n : Nat)
    (h0 : 0xe0 ≤ b0) (h0' : b0 ≤ 0xef) (h1 : 0x80 ≤ b1) (h1' : b1 ≤ 0xbf)
    (h2 : 0x80 ≤ b2) (h2' : b2 ≤ 0xbf) :
    getChar cfg (b0 :: b1 :: b2 :: rest) (n + 3)
      = (((b0 - 224) * 64 + (b1 - 128)) * 64 + (b2 - 128), 3) := by
  rw [show n + 3 = (n + 1) + 2 from rfl, getChar_lead cfg b0 _ (n + 1) (by omega) (by omega),
    getCharLoop_round cfg 6 b1 _ (n + 1) 6 (b0 - 128) 1 (by omega) h1 (by omega)
      (by norm_num; omega) (by norm_num; omega),
    getCharLoop_round cfg 5 b2 rest n 11 _ 2 (by omega) h2 (by omega)
      (by norm_num; omega) (by norm_num; omega),
    getCharLoop_end cfg 5 rest n 16 _ 3 (by norm_num; omega)]
  norm_num
  omega

theorem getChar_four (cfg : Config) (b0 b1 b2 b3 : Nat) (rest : Bytes) (n : Nat)
    (h0 : 0xf0 ≤ b0) (h0' : b0 ≤ 0xf7) (h1 : 0x80 ≤ b1) (h1' : b1 ≤ 0xbf)
    (h2 : 0x80 ≤ b2) (h2' : b2 ≤ 0xbf) (h3 : 0x80 ≤ b3) (h3' : b3 ≤ 0xbf) :
    getChar cfg (b0 :: b1 :: b2 :: b3 :: rest) (n + 4)
      = ((((b0 - 240) * 64 + (b1 - 128)) * 64 + (b2 - 128)) * 64 + (b3 - 128), 4) := by
  rw [show n + 4 = (n + 2) + 2 from rfl, getChar_lead cfg b0 _ (n + 2) (by omega) (by omega),
    getCharLoop_round cfg 6 b1 _ (n + 2) 6 (b0 - 128) 1 (by omega) h1 (by omega)
      (by norm_num; omega) (by norm_num; omega),
    getCharLoop_round cfg 5 b2 _ (n + 1) 11 _ 2 (by omega) h2 (by omega)
      (by norm_num; omega) (by norm_num; omega),
    getCharLoop_round cfg 4 b3 rest n 16 _ 3 (by omega) h3 (by omega)
      (by norm_num; omega) (by norm_num; omega),
    getCharLoop_end cfg 4 rest n 21 _ 4 (by norm_num; omega)]
  norm_num
  omega

theorem asEncoding_two (b0 b1 : Nat) (h0 : 0xc2 ≤ b0) (h0' : b0 ≤ 0xdf) (h1 : 0x80 ≤ b1)
    (h1' : b1 ≤ 0xbf) : asEncoding ((b0 - 192) * 64 + (b1 - 128)) = [b0, b1] := by
  have hx : ∃ c, c = (b0 - 192) * 64 + (b1 - 128) := ⟨_, rfl⟩
  obtain ⟨c, hc⟩ := hx
  rw [← hc]
  unfold asEncoding
  rw [if_neg (by omega), if_pos (by omega), Nat.shiftRight_eq_div_pow, and_63,
    or_192 _ (by norm_num; omega), or_128 _ (by omega)]
  norm_num
  constructor <;> omega

theorem asEncoding_three (b0 b1 b2 : Nat) (h0 : 0xe0 ≤ b0) (h0' : b0 ≤ 0xef) (h1 : 0x80 ≤ b1)
    (h1' : b1 ≤ 0xbf) (h2 : 0x80 ≤ b2) (h2' : b2 ≤ 0xbf) (hlow : b0 = 0xe0 → 0xa0 ≤ b1) :
    asEncoding (((b0 - 224) * 64 + (b1 - 128)) * 64 + (b2 - 128)) = [b0, b1, b2] := by
  have hx : ∃ c, c = ((b0 - 224) * 64 + (b1 - 128)) * 64 + (b2 - 128) := ⟨_, rfl⟩
  obtain ⟨c, hc⟩ := hx
  rw [← hc]
  unfold asEncoding
  rw [if_neg (by omega), if_neg (by omega), if_pos (by omega), Nat.shiftRight_eq_div_pow,
    Nat.shiftRight_eq_div_pow, and_63, and_63,
    or_224 _ (by norm_num; omega), or_128 _ (by omega), or_128 _ (by omega)]
  norm_num
  refine ⟨?_, ?_, ?_⟩ <;> omega

theorem asEncoding_four (b0 b1 b2 b3 : Nat) (h0 : 0xf0 ≤ b0) (h0' : b0 ≤ 0xf7)
    (h1 : 0x80 ≤ b1) (h1' : b1 ≤ 0xbf) (h2 : 0x80 ≤ b2) (h2' : b2 ≤ 0xbf) (h3 : 0x80 ≤ b3)
    (h3' : b3 ≤ 0xbf) (hlow : b0 = 0xf0 → 0x90 ≤ b1) :
    asEncoding ((((b0 - 240) * 64 + (b1 - 128)) * 64 + (b2 - 128)) * 64 + (b3 - 128))
      = [b0, b1, b2, b3] := by
  have hx : ∃ c, c = (((b0 - 240) * 64 + (b1 - 128)) * 64 + (b2 - 128)) * 64 + (b3 - 128) :=
    ⟨_, rfl⟩
  obtain ⟨c, hc⟩ := hx
  rw [← hc]
  unfold asEncoding
  rw [if_neg (by omega), if_neg (by omega), if_neg (by omega), Nat.shiftRight_eq_div_pow,
    Nat.shiftRight_eq_div_pow, Nat.shiftRight_eq_div_pow, and_63, and_63, and_63, and_7,
    or_240 _ (by norm_num; omega), or_128 _ (by omega), or_128 _ (by omega), or_128 _ (by omega)]
  norm_num
  refine ⟨?_, ?_, ?_, ?_⟩ <;> omega

theorem escapeByte_high (b : Nat) (h : 0x80 ≤ b) : escapeByte b = [b] := by
  have hb : b ≠ 8 ∧ b ≠ 9 ∧ b ≠ 10 ∧ b ≠ 12 ∧ b ≠ 13 ∧ b ≠ 34 ∧ b ≠ 92 ∧ ¬ b < 32 := by omega
  obtain ⟨c8, c9, c10, c12, c13, c34, c92, c32⟩ := hb
  unfold escapeByte
  rw [if_neg c8, if_neg c9, if_neg c10, if_neg c12, if_neg c13, if_neg c34, if_neg c92,
    if_neg c32]

theorem escapeByte_length_pos (b : Nat) : 1 ≤ (escapeByte b).length := by
  unfold escapeByte
  split_ifs <;> simp

theorem toEncodingLoop_zero (cfg : Config) (fuel : Nat) (p out : Bytes) :
    toEncodingLoop cfg fuel p 0 out = out := by
  cases fuel <;> simp [toEncodingLoop]

/-- One round of the loop of `toEncoding` over a chunk `e` of the text that `getChar` takes
as one character `c`. -/
theorem toEncodingLoop_chunk (cfg : Config) (fuel : Nat) (e rest out : Bytes) (n c : Nat)
    (he : 1 ≤ e.length) (hc : getChar cfg (e ++ rest) (e.length + n) = (c, e.length)) :
    toEncodingLoop cfg (fuel + 1) (e ++ rest) (e.length + n) out
      = toEncodingLoop cfg fuel rest n (out ++ asEncoding c) := by
  rw [toEncodingLoop, if_pos (by omega)]
  simp only [hc, List.drop_left, Nat.add_sub_cancel_left]

/-- The decoder gives back a well-formed UTF-8 string from its escaped form. -/
theorem toEncodingLoop_escape (cfg : Config) (s : Bytes) (hv : ValidUtf8 s) :
    ∀ (tail out : Bytes) (fuel : Nat), (s.flatMap escapeByte).length ≤ fuel →
      toEncodingLoop cfg fuel (s.flatMap escapeByte ++ tail) (s.flatMap escapeByte).length out
        = out ++ s := by
  induction hv with
  | nil =>
    intro tail out fuel _
    simp [toEncodingLoop_zero]
  | one b rest hb _ ih =>
    intro tail out fuel hf
    have hp := escapeByte_length_pos b
    rw [List.flatMap_cons, List.length_append] at hf
    obtain ⟨f, rfl⟩ : ∃ f, fuel = f + 1 := ⟨fuel - 1, by omega⟩
    rw [List.flatMap_cons, List.length_append, List.append_assoc,
      toEncodingLoop_chunk cfg f _ _ out _ b hp (getChar_escapeByte cfg b hb _ _),
      asEncoding_ascii b hb, ih tail _ f (by omega)]
    simp
  | two b0 b1 rest h0 h0' h1 _ ih =>
    intro tail out fuel hf
    have e : (b0 :: b1 :: rest).flatMap escapeByte = [b0, b1] ++ rest.flatMap escapeByte := by
      simp [List.flatMap_cons, escapeByte_high b0 (by omega), escapeByte_high b1 h1.1]
    rw [e, List.length_append] at hf
    obtain ⟨f, rfl⟩ : ∃ f, fuel = f + 1 := ⟨fuel - 1, by simp only [List.length_cons, List.length_nil] at hf; omega⟩
    rw [e, List.length_append, List.append_assoc,
      toEncodingLoop_chunk cfg f _ _ out _ _ (by simp)
        (by
          rw [show [b0, b1].length + (rest.flatMap escapeByte).length
            = (rest.flatMap escapeByte).length + 2 by simp; omega]
          exact getChar_two cfg b0 b1 _ _ (by omega) h0' h1.1 h1.2),
      asEncoding_two b0 b1 h0 h0' h1.1 h1.2, ih tail _ f (by simp only [List.length_cons, List.length_nil] at hf; omega)]
    simp
  | three b0 b1 b2 rest h0 h0' h1 h2 hlow _ _ ih =>
    intro tail out fuel hf
    have e : (b0 :: b1 :: b2 :: rest).flatMap escapeByte
        = [b0, b1, b2] ++ rest.flatMap escapeByte := by
      simp [List.flatMap_cons, escapeByte_high b0 (by omega), escapeByte_high b1 h1.1,
        escapeByte_high b2 h2.1]
    rw [e, List.length_append] at hf
    obtain ⟨f, rfl⟩ : ∃ f, fuel = f + 1 := ⟨fuel - 1, by simp only [List.length_cons, List.length_nil] at hf; omega⟩
    rw [e, List.length_append, List.append_assoc,
      toEncodingLoop_chunk cfg f _ _ out _ _ (by simp)
        (by
          rw [show [b0, b1, b2].length + (rest.flatMap escapeByte).length
            = (rest.flatMap escapeByte).length + 3 by simp; omega]
          exact getChar_three cfg b0 b1 b2 _ _ h0 h0' h1.1 h1.2 h2.1 h2.2),
      asEncoding_three b0 b1 b2 h0 h0' h1.1 h1.2 h2.1 h2.2 hlow, ih tail _ f (by simp only [List.length_cons, List.length_nil] at hf; omega)]
    simp
  | four b0 b1 b2 b3 rest h0 h0' h1 h2 h3 hlow _ _ ih =>
    intro tail out fuel hf
    have e : (b0 :: b1 :: b2 :: b3 :: rest).flatMap escapeByte
        = [b0, b1, b2, b3] ++ rest.flatMap escapeByte := by
      simp [List.flatMap_cons, escapeByte_high b0 (by omega), escapeByte_high b1 h1.1,
        escapeByte_high b2 h2.1, escapeByte_high b3 h3.1]
    rw [e, List.length_append] at hf
    obtain ⟨f, rfl⟩ : ∃ f, fuel = f + 1 := ⟨fuel - 1, by simp only [List.length_cons, List.length_nil] at hf; omega⟩
    rw [e, List.length_append, List.append_assoc,
      toEncodingLoop_chunk cfg f _ _ out _ _ (by simp)
        (by
          rw [show [b0, b1, b2, b3].length + (rest.flatMap escapeByte).length
            = (rest.flatMap escapeByte).length + 4 by simp; omega]
          exact getChar_four cfg b0 b1 b2 b3 _ _ h0 (by omega) h1.1 h1.2 h2.1 h2.2 h3.1 h3.2),
      asEncoding_four b0 b1 b2 b3 h0 (by omega) h1.1 h1.2 h2.1 h2.2 h3.1 h3.2 hlow,
      ih tail _ f (by simp only [List.length_cons, List.length_nil] at hf; omega)]
    simp

theorem toEncoding_escape (cfg : Config) (s tail : Bytes) (hv : ValidUtf8 s) :
    toEncoding cfg (s.flatMap escapeByte ++ tail) (s.flatMap escapeByte).length = s := by
  unfold toEncoding
  rw [toEncodingLoop_escape cfg s hv tail [] _ (le_refl _)]
  rfl

theorem trailing_snoc (t : Bytes) (x : Nat) :
    trailingBackslashes (t ++ [x]) = if x = 92 then trailingBackslashes t + 1 else 0 := by
  unfold trailingBackslashes
  by_cases h : x = 92
  · simp [h, List.takeWhile_cons]
  · simp [h, List.takeWhile_cons]

theorem trailing_nil : trailingBackslashes [] = 0 := rfl

theorem trailing_end (t u : Bytes) (x : Nat) (h : x ≠ 92) :
    trailingBackslashes (t ++ (u ++ [x])) = 0 := by
  rw [← List.append_assoc, trailing_snoc, if_neg h]

theorem peek_append_right (a r : Bytes) (i : Nat) : peek (a ++ r) (a.length + i) = peek r i := by
  unfold peek
  simp [List.getD_eq_getElem?_getD, List.getElem?_append_right]

theorem peek_at (a r : Bytes) (x : Nat) : peek (a ++ x :: r) a.length = x := by
  have := peek_append_right a (x :: r) 0
  simpa [peek] using this

/-- The search for a byte passes over a text that does not hold it. -/
theorem findChar_skip (c : Nat) (t : Bytes) (ht : c ∉ t) :
    ∀ (a r : Bytes) (k : Nat),
      findChar (a ++ t ++ c :: r) c a.length (t.length + 1 + k) = some (a.length + t.length) := by
  induction t with
  | nil =>
    intro a r k
    rw [List.append_nil, show [].length + 1 + k = k + 1 from by simp; omega, findChar,
      peek_at]
    simp
  | cons x t ih =>
    intro a r k
    have hx : x ≠ c := fun h => ht (by simp [h])
    have ht2 : c ∉ t := fun h => ht (List.mem_cons_of_mem _ h)
    have e : a ++ x :: t ++ c :: r = (a ++ [x]) ++ t ++ c :: r := by simp
    have hp : peek (a ++ x :: t ++ c :: r) a.length = x := by
      rw [List.append_assoc]
      exact peek_at a _ x
    rw [show (x :: t).length + 1 + k = (t.length + 1 + k) + 1 from by simp; omega, findChar,
      hp, if_pos hx, e]
    have := ih ht2 (a ++ [x]) r k
    simp only [List.length_append, List.length_cons, List.length_nil] at this ⊢
    rw [this]
    congr 1
    omega

/-- Looking back over a text `t`, `countBack` counts the backslashes at its end. -/
theorem countBack_trailing (c : Nat) (hc : c = 92) (t : Bytes) :
    ∀ (a r : Bytes), countBack (a ++ t ++ r) c (a.length + t.length) t.length
      = trailingBackslashes t := by
  induction t using List.reverseRecOn with
  | nil =>
    intro a r
    cases h : a.length <;> simp [countBack, trailing_nil]
  | append_singleton t x ih =>
    intro a r
    have e : a ++ (t ++ [x]) ++ r = a ++ t ++ (x :: r) := by simp
    have hp : peek (a ++ t ++ (x :: r)) (a.length + t.length) = x := by
      have := peek_at (a ++ t) r x
      simpa using this
    rw [trailing_snoc, e, show (t ++ [x]).length = t.length + 1 from by simp,
      show a.length + (t.length + 1) = (a.length + t.length) + 1 from by omega, countBack, hp,
      ih a (x :: r), hc]

theorem hexChar_ne (d : Nat) (hd : d < 16) : hexChar d ≠ 92 ∧ hexChar d ≠ 34 ∧ 32 ≤ hexChar d := by
  unfold hexChar
  split_ifs <;> omega

/-- The forms of the bytes written for one byte: the escape of a quote, or bytes that
hold no quote and do not end a run of backslashes on an odd count. -/
theorem escapeByte_cases (c : Nat) :
    (c = 34 ∧ escapeByte c = [92, 34])
    ∨ (c = 92 ∧ escapeByte c = [92, 92])
    ∨ (c ≠ 34 ∧ 34 ∉ escapeByte c ∧ ∃ u x, escapeByte c = u ++ [x] ∧ x ≠ 92) := by
  unfold escapeByte
  by_cases h8 : c = 8
  · subst h8
    exact Or.inr (Or.inr ⟨by decide, by decide, [92], 98, rfl, by decide⟩)
  by_cases h9 : c = 9
  · subst h9
    exact Or.inr (Or.inr ⟨by decide, by decide, [92], 116, rfl, by decide⟩)
  by_cases h10 : c = 10
  · subst h10
    exact Or.inr (Or.inr ⟨by decide, by decide, [92], 110, rfl, by decide⟩)
  by_cases h12 : c = 12
  · subst h12
    exact Or.inr (Or.inr ⟨by decide, by decide, [92], 102, rfl, by decide⟩)
  by_cases h13 : c = 13
  · subst h13
    exact Or.inr (Or.inr ⟨by decide, by decide, [92], 114, rfl, by decide⟩)
  by_cases h34 : c = 34
  · subst h34
    exact Or.inl ⟨rfl, rfl⟩
  by_cases h92 : c = 92
  · subst h92
    exact Or.inr (Or.inl ⟨rfl, rfl⟩)
  rw [if_neg h8, if_neg h9, if_neg h10, if_neg h12, if_neg h13, if_neg h34, if_neg h92]
  by_cases h32 : c < 32
  · rw [if_pos h32]
    have g1 := hexChar_ne (c / 16) (by omega)
    have g2 := hexChar_ne (c % 16) (by omega)
    refine Or.inr (Or.inr ⟨h34, ?_, [92, 117, 48, 48, hexChar (c / 16)], hexChar (c % 16), rfl,
      g2.1⟩)
    intro hm
    simp only [List.mem_cons, List.mem_singleton, List.not_mem_nil, or_false] at hm
    rcases hm with h | h | h | h | h | h
    · omega
    · omega
    · omega
    · omega
    · exact g1.2.1 h.symm
    · exact g2.2.1 h.symm
  · rw [if_neg h32]
    refine Or.inr (Or.inr ⟨h34, ?_, [], c, rfl, h92⟩)
    simpa using fun h => h34 h.symm

/-- The scan for the closing quote over escaped text: `t` is the text passed since the
last quote found, with an even run of backslashes at its end. -/
theorem quoteEndLoop_escape (s : Bytes) :
    ∀ (a t r : Bytes) (fuel : Nat), 34 ∉ t → trailingBackslashes t % 2 = 0 →
      (s.flatMap escapeByte).length + 1 ≤ fuel →
      quoteEndLoop (a ++ t ++ s.flatMap escapeByte ++ 34 :: r) fuel a.length
          (t.length + (s.flatMap escapeByte).length + 1 + r.length)
        = some (a.length + t.length + (s.flatMap escapeByte).length) := by
  induction s with
  | nil =>
    intro a t r fuel ht he hf
    obtain ⟨f, rfl⟩ : ∃ f, fuel = f + 1 := ⟨fuel - 1, by omega⟩
    simp only [List.flatMap_nil, List.append_nil, List.length_nil, Nat.add_zero]
    rw [quoteEndLoop, findChar_skip 34 t ht a r r.length]
    simp only [Nat.add_sub_cancel_left]
    rw [countBack_trailing 92 rfl t a (34 :: r), if_pos he]
  | cons c s ih =>
    intro a t r fuel ht he hf
    rw [List.flatMap_cons, List.length_append] at hf
    rcases escapeByte_cases c with ⟨_, hc⟩ | ⟨_, hc⟩ | ⟨_, hno, u, x, hc, hx⟩
    · -- an escaped quote: the scan stops at it and goes on behind it
      rw [hc] at hf
      obtain ⟨f, rfl⟩ : ∃ f, fuel = f + 1 := ⟨fuel - 1, by omega⟩
      have ht92 : 34 ∉ t ++ [92] := by
        simp only [List.mem_append, List.mem_singleton, not_or]
        exact ⟨ht, by decide⟩
      have e1 : a ++ t ++ (c :: s).flatMap escapeByte ++ 34 :: r
          = a ++ (t ++ [92]) ++ 34 :: (s.flatMap escapeByte ++ 34 :: r) := by
        simp [List.flatMap_cons, hc]
      have e2 : a ++ t ++ (c :: s).flatMap escapeByte ++ 34 :: r
          = (a ++ t ++ [92, 34]) ++ [] ++ s.flatMap escapeByte ++ 34 :: r := by
        simp [List.flatMap_cons, hc]
      have hl : t.length + ((c :: s).flatMap escapeByte).length + 1 + r.length
          = (t ++ [92]).length + 1 + ((s.flatMap escapeByte).length + 1 + r.length) := by
        simp [List.flatMap_cons, hc]
        omega
      have hodd : ¬ ((trailingBackslashes t + 1) % 2 = 0) := by omega
      rw [quoteEndLoop, hl]
      rw [e1, findChar_skip 34 (t ++ [92]) ht92 a _ _]
      simp only [Nat.add_sub_cancel_left]
      rw [countBack_trailing 92 rfl (t ++ [92]) a _, trailing_snoc, if_pos rfl, if_neg hodd]
      rw [← e1, e2]
      have := ih (a ++ t ++ [92, 34]) [] r f (by simp) (by simp [trailing_nil]) (by
        simp only [List.length_cons, List.length_nil] at hf
        omega)
      simp only [List.length_append, List.length_cons, List.length_nil, Nat.zero_add,
        Nat.add_zero] at this ⊢
      rw [show a.length + (t.length + 1) + 1 = a.length + t.length + (1 + 1) by omega, this]
      simp only [List.flatMap_cons, hc, List.length_append, List.length_cons, List.length_nil]
      congr 1
      omega
    · -- two backslashes
      have e1 : a ++ t ++ (c :: s).flatMap escapeByte ++ 34 :: r
          = a ++ (t ++ [92, 92]) ++ s.flatMap escapeByte ++ 34 :: r := by
        simp [List.flatMap_cons, hc]
      have h2 : trailingBackslashes (t ++ [92, 92]) % 2 = 0 := by
        rw [show t ++ [92, 92] = (t ++ [92]) ++ [92] by simp, trailing_snoc, trailing_snoc]
        simp
        omega
      have hno : 34 ∉ t ++ [92, 92] := by
        simp only [List.mem_append, not_or]
        exact ⟨ht, by decide⟩
      have := ih a (t ++ [92, 92]) r fuel hno h2 (by rw [hc] at hf; simp only [List.length_cons, List.length_nil] at hf; omega)
      rw [e1]
      simp only [List.flatMap_cons, hc, List.length_append, List.length_cons, List.length_nil]
        at this ⊢
      rw [show t.length + (0 + 1 + 1 + (s.flatMap escapeByte).length) + 1 + r.length
          = t.length + (0 + 1 + 1) + (s.flatMap escapeByte).length + 1 + r.length by omega, this]
      congr 1
      omega
    · -- bytes without a quote that end in a byte other than the backslash
      have e1 : a ++ t ++ (c :: s).flatMap escapeByte ++ 34 :: r
          = a ++ (t ++ escapeByte c) ++ s.flatMap escapeByte ++ 34 :: r := by
        simp [List.flatMap_cons]
      have h2 : trailingBackslashes (t ++ escapeByte c) % 2 = 0 := by
        rw [hc, trailing_end t u x hx]
      have hno2 : 34 ∉ t ++ escapeByte c := by
        simp only [List.mem_append, not_or]
        exact ⟨ht, hno⟩
      have := ih a (t ++ escapeByte c) r fuel hno2 h2 (by
        have := escapeByte_length_pos c
        omega)
      rw [e1]
      simp only [List.flatMap_cons, List.length_append] at this ⊢
      rw [show t.length + ((escapeByte c).length + (s.flatMap escapeByte).length) + 1 + r.length
          = t.length + (escapeByte c).length + (s.flatMap escapeByte).length + 1 + r.length
          by omega, this]
      congr 1
      omega

theorem escapeByte_ge (c : Nat) : ∀ b ∈ escapeByte c, 32 ≤ b := by
  intro b hb
  unfold escapeByte at hb
  have g1 := hexChar_ne (c / 16 % 16) (Nat.mod_lt _ (by norm_num))
  have g2 := hexChar_ne (c % 16) (Nat.mod_lt _ (by norm_num))
  split_ifs at hb with h1 h2 h3 h4 h5 h6 h7 h8 <;>
    simp only [List.mem_cons, List.mem_singleton, List.not_mem_nil, or_false] at hb
  all_goals first
    | omega
    | (have hd : c / 16 % 16 = c / 16 := Nat.mod_eq_of_lt (by omega)
       rw [hd] at g1
       rcases hb with h | h | h | h | h | h <;> omega)

theorem escaped_ge (s : Bytes) : ∀ b ∈ s.flatMap escapeByte, 32 ≤ b := by
  intro b hb
  rw [List.mem_flatMap] at hb
  obtain ⟨c, _, hc⟩ := hb
  exact escapeByte_ge c b hc

theorem split_after (u v pre post : Bytes) (x : Nat) (hu : x ∉ u)
    (h : u ++ v = pre ++ x :: post) : ∃ p, pre = u ++ p ∧ v = p ++ x :: post := by
  induction u generalizing pre with
  | nil => exact ⟨pre, rfl, h⟩
  | cons y u ih =>
    cases pre with
    | nil =>
      simp only [List.cons_append, List.nil_append, List.cons.injEq] at h
      exact absurd (by simp [h.1]) hu
    | cons z pre =>
      simp only [List.cons_append, List.cons.injEq] at h
      obtain ⟨p, hp1, hp2⟩ := ih pre (fun hx => hu (List.mem_cons_of_mem _ hx)) h.2
      exact ⟨p, by rw [h.1, hp1]; rfl, hp2⟩

/-- Every quote in escaped text has an odd number of backslashes before it; `t` is the
text before, with an even run of backslashes at its end. -/
theorem escaped_quotes (s : Bytes) :
    ∀ (t pre post : Bytes), trailingBackslashes t % 2 = 0 →
      s.flatMap escapeByte = pre ++ 34 :: post → trailingBackslashes (t ++ pre) % 2 = 1 := by
  induction s with
  | nil =>
    intro t pre post _ h
    simp at h
  | cons c s ih =>
    intro t pre post he h
    rw [List.flatMap_cons] at h
    rcases escapeByte_cases c with ⟨_, hc⟩ | ⟨_, hc⟩ | ⟨_, hno, u, x, hc, hx⟩
    · rw [hc] at h
      match pre, h with
      | [], h => simp at h
      | [y], h =>
        simp only [List.cons_append, List.nil_append, List.cons.injEq] at h
        rw [← h.1, trailing_snoc, if_pos rfl]
        omega
      | y :: z :: p, h =>
        simp only [List.cons_append, List.nil_append, List.cons.injEq] at h
        have := ih (t ++ [92, 34]) p post
          (by rw [show t ++ [92, 34] = t ++ ([92] ++ [34]) by simp]
              rw [trailing_end t [92] 34 (by decide)]) h.2.2
        rw [← h.1, ← h.2.1]
        simpa using this
    · rw [hc] at h
      obtain ⟨p, hp1, hp2⟩ := split_after [92, 92] _ pre post 34 (by decide) h
      have h2 : trailingBackslashes (t ++ [92, 92]) % 2 = 0 := by
        rw [show t ++ [92, 92] = (t ++ [92]) ++ [92] by simp, trailing_snoc, trailing_snoc]
        simp
        omega
      have := ih (t ++ [92, 92]) p post h2 hp2
      rw [hp1]
      simpa using this
    · obtain ⟨p, hp1, hp2⟩ := split_after (escapeByte c) _ pre post 34 hno h
      have h2 : trailingBackslashes (t ++ escapeByte c) % 2 = 0 := by
        rw [hc, trailing_end t u x hx]
      have := ih (t ++ escapeByte c) p post h2 hp2
      rw [hp1]
      simpa using this

theorem quoteEnd_escape (s : Bytes) :
    quoteEnd ([34] ++ s.flatMap escapeByte ++ [34]) 0 ((s.flatMap escapeByte).length + 2)
      = some ((s.flatMap escapeByte).length + 1) := by
  have := quoteEndLoop_escape s [34] [] [] ((s.flatMap escapeByte).length + 2) (by simp)
    (by simp [trailing_nil]) (by omega)
  unfold quoteEnd
  simp only [List.append_nil, List.length_cons, List.length_nil, Nat.zero_add, Nat.add_zero]
    at this ⊢
  rw [show (s.flatMap escapeByte).length + 2 - 1 = (s.flatMap escapeByte).length + 1 by omega,
    this]
  congr 1
  omega

/-! ## The sizes of the returned block (claim C30) -/

theorem asEncoding_length (c : Nat) :
    (asEncoding c).length = 1 + (if c ≥ 0x80 then 1 else 0) + (if c ≥ 0x800 then 1 else 0)
      + (if c ≥ 0x10000 then 1 else 0) := by
  unfold asEncoding
  by_cases h1 : c < 0x80
  · rw [if_pos h1, if_neg (by omega), if_neg (by omega), if_neg (by omega)]
    rfl
  by_cases h2 : c < 0x800
  · rw [if_neg h1, if_pos h2, if_pos (by omega), if_neg (by omega), if_neg (by omega)]
    rfl
  by_cases h3 : c < 0x10000
  · rw [if_neg h1, if_neg h2, if_pos h3, if_pos (by omega), if_pos (by omega), if_neg (by omega)]
    rfl
  · rw [if_neg h1, if_neg h2, if_neg h3, if_pos (by omega), if_pos (by omega), if_pos (by omega)]
    rfl

theorem toEncodingLoop_length (cfg : Config) (fuel : Nat) :
    ∀ (p : Bytes) (left : Nat) (out : Bytes),
      (toEncodingLoop cfg fuel p left out).length = getStrLenLoop cfg fuel p left out.length := by
  induction fuel with
  | zero =>
    intro p left out
    rfl
  | succ fuel ih =>
    intro p left out
    unfold toEncodingLoop getStrLenLoop
    by_cases h : left = 0
    · rw [if_neg (by simpa using h), if_neg (by omega)]
    · rw [if_pos h, if_pos (by omega)]
      simp only []
      rw [ih, List.length_append, asEncoding_length]
      congr 1
      omega

/-- What `toEncoding` writes before the terminator has the length `getStrLen` computes. -/
theorem toEncoding_length (cfg : Config) (p : Bytes) (left : Nat) :
    (toEncoding cfg p left).length = getStrLen cfg p left := by
  unfold toEncoding getStrLen
  rw [toEncodingLoop_length]
  rfl

theorem ite_snd_pos (c : Prop) [Decidable c] (a b : Nat × Nat) (ha : 1 ≤ a.2) (hb : 1 ≤ b.2) :
    1 ≤ (if c then a else b).2 := by
  split <;> assumption

theorem solidusCode_len_pos (cfg : Config) (p : Bytes) (left : Nat) :
    1 ≤ (solidusCode cfg p left 1).2 := by
  unfold solidusCode
  dsimp only
  repeat (first | apply ite_snd_pos | exact le_refl 1 | exact Nat.le_add_left 1 _)

theorem getCode_len_pos (cfg : Config) (p : Bytes) (left : Nat) (h : left ≠ 0) :
    1 ≤ (getCode cfg p left).2 := by
  unfold getCode
  rw [if_pos h]
  simp only []
  split_ifs
  · exact solidusCode_len_pos cfg _ _
  · exact le_refl 1

theorem getCharLoop_total_le (cfg : Config) (fuel : Nat) :
    ∀ (p : Bytes) (left m c8 total : Nat) (r : Nat × Nat),
      getCharLoop cfg fuel p left m c8 total = some r → total ≤ r.2 := by
  induction fuel with
  | zero =>
    intro p left m c8 total r h
    simp only [getCharLoop, Option.some.injEq] at h
    rw [← h]
  | succ fuel ih =>
    intro p left m c8 total r h
    unfold getCharLoop at h
    simp only [] at h
    split_ifs at h with h1 h2
    · have := ih _ _ _ _ _ r h
      have := getCode_len_pos cfg p left h1.2
      omega
    · simp only [Option.some.injEq] at h
      rw [← h]

/-- Every call of `getChar` with bytes left takes at least one byte. -/
theorem getChar_len_pos (cfg : Config) (p : Bytes) (left : Nat) (h : left ≠ 0) :
    1 ≤ (getChar cfg p left).2 := by
  have hc := getCode_len_pos cfg p left h
  unfold getChar
  simp only []
  split_ifs
  · split
    · exact hc
    · rename_i r hr
      have := getCharLoop_total_le cfg 7 _ _ _ _ _ r hr
      omega
  · exact hc

/-- The loop of `toEncoding` ends by itself: more rounds than `left` change nothing. -/
theorem toEncodingLoop_fuel (cfg : Config) (f : Nat) :
    ∀ (p : Bytes) (left : Nat) (out : Bytes), left ≤ f →
      toEncodingLoop cfg (f + 1) p left out = toEncodingLoop cfg f p left out := by
  induction f with
  | zero =>
    intro p left out h
    have h0 : left = 0 := by omega
    subst h0
    simp [toEncodingLoop]
  | succ f ih =>
    intro p left out h
    rw [toEncodingLoop]
    conv_rhs => rw [toEncodingLoop]
    by_cases h0 : left = 0
    · simp [h0]
    · rw [if_pos h0, if_pos h0]
      have := getChar_len_pos cfg p left h0
      exact ih _ _ _ (by omega)

/-- The loop of `getStrLen` ends by itself as well. -/
theorem getStrLenLoop_fuel (cfg : Config) (f : Nat) :
    ∀ (p : Bytes) (left len : Nat), left ≤ f →
      getStrLenLoop cfg (f + 1) p left len = getStrLenLoop cfg f p left len := by
  induction f with
  | zero =>
    intro p left len h
    have h0 : left = 0 := by omega
    subst h0
    simp [getStrLenLoop]
  | succ f ih =>
    intro p left len h
    rw [getStrLenLoop]
    conv_rhs => rw [getStrLenLoop]
    by_cases h0 : left > 0
    · rw [if_pos h0, if_pos h0]
      have := getChar_len_pos cfg p left (by omega)
      exact ih _ _ _ (by omega)
    · simp [h0]

theorem ofStop_ne (e : Stop) (r : Option JBTree) (i : JBRet) :
    Outcome.ofStop e ≠ Outcome.returned r i := by
  cases e <;> simp [Outcome.ofStop]

/-- A tree comes out of `finish` only without an error, and the sizes of the record are
then those set after the first pass. -/
theorem finish_some (text : Bytes) (ps : Passes) (t : JBTree) (info : JBRet)
    (h : finish text ps = Outcome.returned (some t) info) :
    ps.m.error = JBError.JBERR_NONE ∧ ps.pRet = true ∧ t = ⟨ps.m.mem, ps.strings⟩
      ∧ info.bin_size = ps.info.bin_size ∧ info.text_size = ps.info.text_size
      ∧ info.num_items = ps.info.num_items ∧ info.strings_count = ps.info.strings_count := by
  unfold finish at h
  by_cases he : ps.m.error = JBError.JBERR_NONE
  · by_cases hp : ps.pRet = true
    · simp [he, hp] at h
      obtain ⟨h1, h2⟩ := h
      subst h2
      exact ⟨he, hp, h1.symm, rfl, rfl, rfl, rfl⟩
    · simp [he, hp] at h
  · simp only [he, ne_eq, not_false_eq_true, true_or, if_true] at h
    split_ifs at h <;> simp at h

theorem setError_error (m : Machine) (e : JBError) : (m.setError e).error = e := rfl

theorem onesTail_zero : onesTail 0 = [49, 93] := rfl

theorem onesTail_succ (j : Nat) : onesTail (j + 1) = 49 :: 44 :: onesTail j := by
  simp [onesTail, List.replicate_succ]

theorem onesTail_length (j : Nat) : (onesTail j).length = 2 * j + 2 := by
  induction j with
  | zero => rfl
  | succ j ih =>
    rw [onesTail_succ, List.length_cons, List.length_cons, ih]
    omega

theorem onesArray_length (n : Nat) : (onesArray n).length = 2 * n + 3 := by
  rw [onesArray, List.length_cons, onesTail_length]

theorem onesTail_drop (n k : Nat) (h : k ≤ n) : (onesTail n).drop (2 * k) = onesTail (n - k) := by
  induction k generalizing n with
  | zero => rfl
  | succ k ih =>
    obtain ⟨m, rfl⟩ : ∃ m, n = m + 1 := ⟨n - 1, by omega⟩
    rw [onesTail_succ, show 2 * (k + 1) = 2 * k + 1 + 1 by omega, List.drop_succ_cons,
      List.drop_succ_cons, ih m (by omega)]
    congr 1
    omega

theorem onesArray_drop (n k : Nat) (h : k ≤ n) :
    (onesArray n).drop (1 + 2 * k) = onesTail (n - k) := by
  rw [onesArray, Nat.add_comm, List.drop_succ_cons, onesTail_drop n k h]

theorem onesTail_no_quote (j : Nat) : 34 ∉ onesTail j := by
  induction j with
  | zero => decide
  | succ j ih =>
    rw [onesTail_succ]
    simp only [List.mem_cons, not_or]
    exact ⟨by decide, by decide, ih⟩

theorem onesArray_no_quote (n : Nat) : 34 ∉ onesArray n := by
  rw [onesArray]
  simp only [List.mem_cons, not_or]
  exact ⟨by decide, onesTail_no_quote n⟩

theorem peek_of_drop (json : Bytes) (i b : Nat) (rest : Bytes) (h : json.drop i = b :: rest) :
    peek json i = b ∧ json.get? i = some b ∧ peek json (i + 1) = rest.headD 0
      ∧ json.drop (i + 1) = rest := by
  have h1 : json.get? i = some b := by
    have := List.head?_drop json i
    rw [h] at this
    simpa using this.symm
  have h2 : json.drop (i + 1) = rest := by
    rw [← List.drop_drop, h]
    rfl
  refine ⟨?_, h1, ?_, h2⟩
  · unfold peek
    rw [List.getD_eq_getElem?_getD]
    simp only [List.get?_eq_getElem?] at h1
    rw [h1]
    rfl
  · unfold peek
    rw [List.getD_eq_getElem?_getD]
    have := List.head?_drop json (i + 1)
    rw [h2] at this
    rw [← this]
    cases rest <;> rfl

theorem findChar_none (json : Bytes) (c : Nat) (hc : c ≠ 0) (h : c ∉ json) :
    ∀ (left str : Nat), findChar json c str left = none := by
  intro left
  induction left with
  | zero =>
    intro str
    rfl
  | succ left ih =>
    intro str
    have hp : peek json str ≠ c := by
      unfold peek
      rw [List.getD_eq_getElem?_getD]
      cases hg : json[str]? with
      | none => simpa using hc.symm
      | some b =>
        have : b ∈ json := by
          obtain ⟨hl, hb⟩ := List.getElem?_eq_some_iff.mp hg
          exact hb ▸ List.getElem_mem hl
        simp only [Option.getD_some]
        intro hb
        exact h (hb ▸ this)
    rw [findChar, if_pos hp]
    exact ih (str + 1)

theorem whiteSpace_zero (cfg : Config) (json : Bytes) (pos left : Nat)
    (h : isSpaceByte cfg (peek json pos) = false) : getWhiteSpaceSize cfg json pos left = 0 := by
  cases left with
  | zero => rfl
  | succ l => simp [getWhiteSpaceSize, h]

theorem isSpaceByte_token (cfg : Config) (b : Nat) (h1 : 32 < b) (h2 : b < 128) :
    isSpaceByte cfg b = false := by
  simp [isSpaceByte]
  omega

/-- The head of a round at a byte that is not white space. -/
theorem parseRound_token (env : Env) (cfg : Config) (json : Bytes) (m : Machine) (c : Nat)
    (ctx : eJSONCtx) (rest : Bytes) (hd : json.drop m.cursor = c :: rest) (h1 : 32 < c)
    (h2 : c < 128) (hl : m.left ≠ 0) (hl2 : m.left < 4294967296)
    (hctx : m.read.get_context = .ok ctx) :
    parseRound env cfg json m
      = (do
          let m3 ← tokenSwitch cfg json { m with cursor := m.cursor + 1, left := m.left - 1 } ctx c
          let m4 := depthCheck m3
          if m4.error ≠ JBError.JBERR_NONE then .ok (m4, true)
          else do
            let m5 ← contextSwitch env cfg json m4
            let m6 := depthCheck m5
            .ok (m6, decide (m6.read.ctx_stack = 0))) := by
  obtain ⟨hp, hg, _, _⟩ := peek_of_drop json m.cursor c rest hd
  have hw : getWhiteSpaceSize cfg json m.cursor m.left = 0 :=
    whiteSpace_zero cfg json _ _ (by rw [hp]; exact isSpaceByte_token cfg c h1 h2)
  have hs : m.textSkip 0 = m := by
    have hu0 : u32 (m.left + 4294967296 - u32 0) = m.left := by
      unfold u32
      omega
    unfold Machine.textSkip
    rw [hu0]
    rfl
  have hu : u32 (m.left + 4294967295) = m.left - 1 := by
    unfold u32
    omega
  unfold parseRound
  simp only [hw, hs, hctx, hg, liftFault, hu]
  rfl

theorem get_context_at (r : JBParse) (i : Nat) (h : r.ctx_stack = (i : Int)) (hi : i < 256) :
    r.get_context = .ok (r.context.getD i eJSONCtx.JSON_ROOT) := by
  unfold JBParse.get_context
  rw [h, if_pos ⟨by omega, by simp [JSON_MAX_CONTEXT]; omega⟩]
  simp

theorem depthCheck_ok (m : Machine) (h1 : m.read.ctx_stack < 256) (h2 : m.read.level < 256) :
    depthCheck m = m := by
  unfold depthCheck
  rw [if_neg]
  simp only [JSON_MAX_CONTEXT, JSON_MAX_DEPTH, ge_iff_le, not_or, not_le]
  exact ⟨by exact_mod_cast h1, by exact_mod_cast h2⟩

/-- The round at a comma between two elements. -/
theorem round_comma (env : Env) (cfg : Config) (n k : Nat) (sc : sStrCache) (p2 : Bool)
    (m : Machine) (hk : k < n) (hn : 2 * n + 3 < 4294967296)
    (h : InOnes n sc p2 (k + 2) (2 + 2 * k) m) :
    ∃ m1, parseRound env cfg (onesArray n) m = .ok (m1, false)
      ∧ InOnes n sc p2 (k + 2) (1 + 2 * (k + 1)) m1 := by
  obtain ⟨h1, h2, h3, h4, h5, h6, h7, h8, h9, h10, h11⟩ := h
  have hd : (onesArray n).drop m.cursor = 44 :: onesTail (n - (k + 1)) := by
    rw [h7, show 2 + 2 * k = (1 + 2 * k) + 1 by omega]
    have := onesArray_drop n k (by omega)
    rw [show n - k = (n - (k + 1)) + 1 by omega, onesTail_succ] at this
    exact (peek_of_drop _ _ _ _ this).2.2.2
  have hctx := get_context_at m.read 1 (by rw [h1]; rfl) (by norm_num)
  rw [h6] at hctx
  rw [parseRound_token env cfg _ m 44 _ _ hd (by norm_num) (by norm_num) (by omega) (by omega)
    hctx]
  refine ⟨{ m with cursor := m.cursor + 1, left := m.left - 1 }, ?_, ?_⟩
  · have ht : tokenSwitch cfg (onesArray n) { m with cursor := m.cursor + 1, left := m.left - 1 }
        eJSONCtx.JSON_ARRAY 44 = .ok { m with cursor := m.cursor + 1, left := m.left - 1 } := by
      simp [tokenSwitch]
    have hdc : depthCheck { m with cursor := m.cursor + 1, left := m.left - 1 }
        = { m with cursor := m.cursor + 1, left := m.left - 1 } :=
      depthCheck_ok _ (by show m.read.ctx_stack < 256; rw [h1]; norm_num)
        (by show m.read.level < 256; rw [h2]; norm_num)
    have hcs : contextSwitch env cfg (onesArray n)
        { m with cursor := m.cursor + 1, left := m.left - 1 }
        = .ok { m with cursor := m.cursor + 1, left := m.left - 1 } := by
      unfold contextSwitch
      have : ({ m with cursor := m.cursor + 1, left := m.left - 1 } : Machine).read.get_context
          = .ok eJSONCtx.JSON_ARRAY := hctx
      simp only [this, liftFault]
      rfl
    have he : ¬ (({ m with cursor := m.cursor + 1, left := m.left - 1 } : Machine).error
        ≠ JBError.JBERR_NONE) := by
      simp [h9]
    rw [ht]
    simp only [bind, Except.bind]
    rw [hdc, if_neg he, hcs]
    simp only [hdc]
    simp [h1]
  · refine ⟨h1, h2, h3, h4, h5, h6, ?_, ?_, h9, h10, h11⟩
    · show m.cursor + 1 = _
      omega
    · show m.left - 1 = _
      omega

theorem writeItem_ok (m : Machine) (p : Nat) (f : JBItem → JBItem) (h : p < m.mem.length) :
    m.writeItem p f = .ok { m with mem := m.mem.set p (f (m.mem.getD p JBItem.zero)) } := by
  unfold Machine.writeItem
  rw [if_pos h]

/-- The call `step_value(type)` for a value that is not a container, at level 0 of the
filling pass: the counters move on, the item becomes the elder, the block keeps its size. -/
theorem step_value_leaf (m : Machine) (ty : JBType) (p parent : Nat)
    (hp : m.read.pItem = some p) (hl : m.read.level = 0)
    (hpar : (m.read.aHier.getD 0 (none, none)).1 = some parent)
    (hpl : parent < m.mem.length)
    (hel : ∀ e, (m.read.aHier.getD 0 (none, none)).2 = some e → e < m.mem.length)
    (hpm : p < m.mem.length) (hty : ¬ (ty = JBType.JB_ARRAY ∨ ty = JBType.JB_OBJECT)) :
    ∃ m1, step_value m ty = .ok m1
      ∧ m1.read.ctx_stack = m.read.ctx_stack - 1 ∧ m1.read.level = 0
      ∧ m1.read.items = m.read.items + 1 ∧ m1.read.context = m.read.context
      ∧ m1.read.pItem = some (p + 1)
      ∧ m1.read.aHier = m.read.aHier.set 0 (some parent, some p)
      ∧ m1.mem.length = m.mem.length ∧ m1.strCache = m.strCache ∧ m1.cursor = m.cursor
      ∧ m1.left = m.left ∧ m1.error = m.error := by
  unfold step_value
  simp only [hp, hl]
  rw [if_pos ⟨le_refl 0, by simp [JSON_MAX_DEPTH]⟩]
  simp only [Int.toNat_zero, hpar]
  cases he : (m.read.aHier.getD 0 (none, none)).2 with
  | none =>
    simp only [Machine.writeItem, bind, Except.bind, List.length_set, hpl, hpm, if_true,
      if_neg hty]
    exact ⟨_, rfl, rfl, rfl, rfl, rfl, rfl, rfl, by simp, rfl, rfl, rfl, rfl⟩
  | some e =>
    have hE := hel e he
    simp only [Machine.writeItem, bind, Except.bind, List.length_set, hpl, hpm, hE, if_true,
      if_neg hty]
    exact ⟨_, rfl, rfl, rfl, rfl, rfl, rfl, rfl, by simp, rfl, rfl, rfl, rfl⟩

/-- The call `step_value(type)` in the counting pass. -/
theorem step_value_count (m : Machine) (ty : JBType) (hp : m.read.pItem = none) :
    step_value m ty = .ok { m with read := { m.read with
      items := m.read.items + 1, ctx_stack := m.read.ctx_stack - 1 } } := by
  unfold step_value
  simp only [hp]

/-- The literal `1` in front of a comma or a closing bracket. -/
theorem getNumStr_one (env : Env) (cfg : Config) (p rest : Bytes) (b left : Nat)
    (hp : p = 49 :: b :: rest) (hb : b = 44 ∨ b = 93) (hl : left = p.length) :
    getNumStr env cfg p left = .ok ⟨⟨false, 1, 0, 0, 0⟩, some 1, 1, false, true⟩ := by
  have htake : p.take left = 49 :: b :: rest := by
    rw [hl, List.take_length, hp]
  have h := getNumStr_digits env cfg p (49 :: b :: rest) [49] (b :: rest) left
    (by rw [htake]; exact skipSpaces_of_head cfg 49 _ (by norm_num) (by norm_num))
    (by simp)
    (by
      intro d hd
      simp only [List.mem_singleton] at hd
      subst hd
      unfold isDigit
      omega)
    (by
      intro x hx
      simp only [List.head?_cons, Option.some.injEq] at hx
      subst hx
      unfold continuesNumber isDigit
      omega)
    (by decide)
  rw [h, htake]
  simp [decimalValue, toInt32]

theorem textSkip_one (m : Machine) (h1 : m.left ≠ 0) (h2 : m.left < 4294967296) :
    m.textSkip 1 = { m with cursor := m.cursor + 1, left := m.left - 1 } := by
  have hu : u32 (m.left + 4294967296 - u32 1) = m.left - 1 := by
    unfold u32
    omega
  unfold Machine.textSkip
  rw [hu]

/-- The case `JSON_NUMERIC_VALUE` at a literal `1` in the counting pass. -/
theorem caseNumeric_count (env : Env) (cfg : Config) (json : Bytes) (m : Machine) (rest : Bytes)
    (b : Nat) (hd : json.drop m.cursor = 49 :: b :: rest) (hb : b = 44 ∨ b = 93)
    (hl : m.left = (json.drop m.cursor).length) (hl2 : m.left < 4294967296)
    (hp : m.read.pItem = none) :
    caseNumericValue env cfg json m
      = .ok { m with cursor := m.cursor + 1, left := m.left - 1, read := { m.read with
          items := m.read.items + 1, ctx_stack := m.read.ctx_stack - 1 } } := by
  have hnum := getNumStr_one env cfg _ rest b m.left hd hb hl
  have hl0 : m.left ≠ 0 := by
    rw [hl, hd]
    simp
  unfold caseNumericValue
  rw [hnum]
  simp only [liftFault, bind, Except.bind, Bool.true_eq_false, if_false, Machine.writeData, hp]
  rw [textSkip_one m hl0 hl2, step_value_count _ _ (by exact hp)]
  simp [hp]

theorem liftFault_pure {α : Type} (a : α) : liftFault (Except.ok a : Except Fault α) = .ok a :=
  rfl

theorem step_after_skip (x : Machine) (p : Nat) (hl0 : x.left ≠ 0) (hl2 : x.left < 4294967296)
    (hp : x.read.pItem = some p) (hlv : x.read.level = 0)
    (hpar : (x.read.aHier.getD 0 (none, none)).1 = some 0)
    (hel : ∀ e, (x.read.aHier.getD 0 (none, none)).2 = some e → e < x.mem.length)
    (hpm : p < x.mem.length) :
    ∃ m1, liftFault (step_value (x.textSkip 1) JBType.JB_INT) = .ok m1
      ∧ m1.read.ctx_stack = x.read.ctx_stack - 1 ∧ m1.read.level = 0
      ∧ m1.read.items = x.read.items + 1 ∧ m1.read.context = x.read.context
      ∧ m1.read.pItem = some (p + 1)
      ∧ m1.read.aHier = x.read.aHier.set 0 (some 0, some p)
      ∧ m1.mem.length = x.mem.length ∧ m1.strCache = x.strCache ∧ m1.cursor = x.cursor + 1
      ∧ m1.left = x.left - 1 ∧ m1.error = x.error := by
  have h0 : 0 < x.mem.length := by omega
  rw [textSkip_one x hl0 hl2]
  obtain ⟨m1, e1, g⟩ := step_value_leaf
    { x with cursor := x.cursor + 1, left := x.left - 1 } JBType.JB_INT p 0 hp hlv hpar h0 hel hpm
    (by decide)
  exact ⟨m1, by rw [e1]; rfl, g⟩

/-- The case `JSON_NUMERIC_VALUE` at a literal `1` in the filling pass, with the root as
the parent. -/
theorem caseNumeric_fill (env : Env) (cfg : Config) (json : Bytes) (m : Machine) (rest : Bytes)
    (b p : Nat) (hd : json.drop m.cursor = 49 :: b :: rest) (hb : b = 44 ∨ b = 93)
    (hl : m.left = (json.drop m.cursor).length) (hl2 : m.left < 4294967296)
    (hp : m.read.pItem = some p) (hlv : m.read.level = 0)
    (hpar : (m.read.aHier.getD 0 (none, none)).1 = some 0)
    (hel : ∀ e, (m.read.aHier.getD 0 (none, none)).2 = some e → e < m.mem.length)
    (hpm : p < m.mem.length) :
    ∃ m1, caseNumericValue env cfg json m = .ok m1
      ∧ m1.read.ctx_stack = m.read.ctx_stack - 1 ∧ m1.read.level = 0
      ∧ m1.read.items = m.read.items + 1 ∧ m1.read.context = m.read.context
      ∧ m1.read.pItem = some (p + 1)
      ∧ m1.read.aHier = m.read.aHier.set 0 (some 0, some p)
      ∧ m1.mem.length = m.mem.length ∧ m1.strCache = m.strCache ∧ m1.cursor = m.cursor + 1
      ∧ m1.left = m.left - 1 ∧ m1.error = m.error := by
  have hnum := getNumStr_one env cfg _ rest b m.left hd hb hl
  have hl0 : m.left ≠ 0 := by
    rw [hl, hd]
    simp
  unfold caseNumericValue
  rw [hnum]
  simp only [liftFault_pure, bind, Except.bind, Bool.true_eq_false, if_false, Machine.writeData,
    hp]
  rw [writeItem_ok m p _ hpm]
  simp only [liftFault_pure, if_true]
  generalize hq : m.mem.set p _ = mem1
  have hlen : mem1.length = m.mem.length := by rw [← hq, List.length_set]
  obtain ⟨m1, e1, g⟩ := step_after_skip ⟨m.read, m.strCache, mem1, m.cursor, m.left, m.error⟩ p
    hl0 hl2 hp hlv hpar (by rw [hlen]; exact hel) (by rw [hlen]; exact hpm)
  refine ⟨m1, e1, ?_⟩
  rw [← hlen]
  exact g

theorem textBack_after_step (m : Machine) (hl : m.left ≠ 0) (hl2 : m.left < 4294967296) :
    Machine.textBack { m with cursor := m.cursor + 1, left := m.left - 1 } = m := by
  have hu : u32 (m.left - 1 + 1) = m.left := by
    unfold u32
    omega
  unfold Machine.textBack
  simp only [hu, Nat.add_sub_cancel]

/-- The token `1` in an array: the context `JSON_NUMERIC_VALUE` is pushed. -/
theorem tokenSwitch_one (cfg : Config) (json : Bytes) (m : Machine) (hl : m.left ≠ 0)
    (hl2 : m.left < 4294967296) (hc : m.read.ctx_stack = 1) :
    tokenSwitch cfg json { m with cursor := m.cursor + 1, left := m.left - 1 }
        eJSONCtx.JSON_ARRAY 49
      = .ok { m with read := { m.read with
          ctx_stack := 2, context := m.read.context.set 2 eJSONCtx.JSON_NUMERIC_VALUE } } := by
  unfold tokenSwitch
  simp only [show (49 : Nat) ≠ 123 by decide, show (49 : Nat) ≠ 125 by decide,
    show (49 : Nat) ≠ 91 by decide, show (49 : Nat) ≠ 93 by decide,
    show (49 : Nat) ≠ 34 by decide, show (49 : Nat) ≠ 58 by decide,
    show (49 : Nat) ≠ 44 by decide, show (49 : Nat) ≠ 47 by decide, if_false]
  rw [textBack_after_step m hl hl2]
  simp [Machine.ctxOp, JBParse.set_or_push_context, JBParse.push_context, JBParse.set_context, hc,
    JSON_MAX_CONTEXT]

theorem contextSwitch_numeric (env : Env) (cfg : Config) (json : Bytes) (m : Machine)
    (h : m.read.get_context = .ok eJSONCtx.JSON_NUMERIC_VALUE) :
    contextSwitch env cfg json m = caseNumericValue env cfg json m := by
  unfold contextSwitch
  rw [h]
  rfl

theorem contextSwitch_array (env : Env) (cfg : Config) (json : Bytes) (m : Machine)
    (h : m.read.get_context = .ok eJSONCtx.JSON_ARRAY) :
    contextSwitch env cfg json m = .ok m := by
  unfold contextSwitch
  rw [h]
  rfl

/-- The end of a round whose token and context cases have been worked out. -/
theorem parseRound_finish (env : Env) (cfg : Config) (json : Bytes) (m m3 m5 : Machine)
    (c : Nat) (ctx : eJSONCtx) (rest : Bytes) (hd : json.drop m.cursor = c :: rest)
    (h1 : 32 < c) (h2 : c < 128) (hl : m.left ≠ 0) (hl2 : m.left < 4294967296)
    (hctx : m.read.get_context = .ok ctx)
    (ht : tokenSwitch cfg json { m with cursor := m.cursor + 1, left := m.left - 1 } ctx c
      = .ok m3)
    (hd3 : m3.read.ctx_stack < 256 ∧ m3.read.level < 256) (he3 : m3.error = JBError.JBERR_NONE)
    (hc : contextSwitch env cfg json m3 = .ok m5)
    (hd5 : m5.read.ctx_stack < 256 ∧ m5.read.level < 256) :
    parseRound env cfg json m = .ok (m5, decide (m5.read.ctx_stack = 0)) := by
  rw [parseRound_token env cfg json m c ctx rest hd h1 h2 hl hl2 hctx, ht]
  simp only [bind, Except.bind]
  rw [depthCheck_ok m3 hd3.1 hd3.2, if_neg (by simp [he3]), hc]
  simp only []
  rw [depthCheck_ok m5 hd5.1 hd5.2]

/-- The round at an element `1` of the array. -/
theorem round_one (env : Env) (cfg : Config) (n k : Nat) (sc : sStrCache) (p2 : Bool)
    (m : Machine) (hk : k ≤ n) (hn : 2 * n + 3 < 4294967296)
    (h : InOnes n sc p2 (k + 1) (1 + 2 * k) m) :
    ∃ m1, parseRound env cfg (onesArray n) m = .ok (m1, false)
      ∧ InOnes n sc p2 (k + 2) (2 + 2 * k) m1 := by
  obtain ⟨h1, h2, h3, h4, h5, h6, h7, h8, h9, h10, h11⟩ := h
  obtain ⟨b, rest, hd, hb⟩ : ∃ b rest, (onesArray n).drop m.cursor = 49 :: b :: rest
      ∧ (b = 44 ∨ b = 93) := by
    rw [h7, onesArray_drop n k hk]
    by_cases hkn : k = n
    · subst hkn
      exact ⟨93, [], by simp [onesTail_zero], Or.inr rfl⟩
    · rw [show n - k = (n - k - 1) + 1 by omega, onesTail_succ]
      exact ⟨44, _, rfl, Or.inl rfl⟩
  have hlen : m.left = ((onesArray n).drop m.cursor).length := by
    rw [h8, h7, List.length_drop, onesArray_length]
  have hl0 : m.left ≠ 0 := by omega
  have hl2 : m.left < 4294967296 := by omega
  have hctx := get_context_at m.read 1 (by rw [h1]; rfl) (by norm_num)
  rw [h6] at hctx
  have ht := tokenSwitch_one cfg (onesArray n) m hl0 hl2 h1
  have hg3 : JBParse.get_context { m.read with
      ctx_stack := 2, context := m.read.context.set 2 eJSONCtx.JSON_NUMERIC_VALUE }
      = .ok eJSONCtx.JSON_NUMERIC_VALUE := by
    have := get_context_at { m.read with
      ctx_stack := 2, context := m.read.context.set 2 eJSONCtx.JSON_NUMERIC_VALUE } 2 rfl
      (by norm_num)
    rw [this]
    simp only []
    rw [getD_set_same _ _ _ _ (by omega)]
  cases p2 with
  | false =>
    simp only [Bool.false_eq_true, if_false] at h11
    have hc := caseNumeric_count env cfg (onesArray n)
      { m with read := { m.read with
          ctx_stack := 2, context := m.read.context.set 2 eJSONCtx.JSON_NUMERIC_VALUE } }
      rest b hd hb hlen hl2 h11.1
    have hr := parseRound_finish env cfg (onesArray n) m _ _ 49 _ _ hd (by norm_num)
      (by norm_num) hl0 hl2 hctx ht ⟨by simp, by simp [h2]⟩ h9
      ((contextSwitch_numeric env cfg _ _ hg3).trans hc) ⟨by simp, by simp [h2]⟩
    refine ⟨_, hr, ?_⟩
    refine ⟨by simp, h2, by simp [h3]; omega, by simp [h4], ?_, ?_, ?_, ?_, h9, h10, ?_⟩
    · simp only []
      rw [getD_set_other _ _ _ _ _ (by decide)]
      exact h5
    · simp only []
      rw [getD_set_other _ _ _ _ _ (by decide)]
      exact h6
    · simp only []
      omega
    · simp only []
      omega
    · simp only [Bool.false_eq_true, if_false]
      exact h11
  | true =>
    simp only [if_true] at h11
    obtain ⟨g1, g2, g3, g4, g5⟩ := h11
    obtain ⟨m5, hc, c1, c2, c3, c4, c5, c6, c7, c8, c9, c10, c11⟩ :=
      caseNumeric_fill env cfg (onesArray n)
        { m with read := { m.read with
          ctx_stack := 2, context := m.read.context.set 2 eJSONCtx.JSON_NUMERIC_VALUE } }
        rest b (k + 1) hd hb hlen hl2 g1 h2 g4 (by rw [g2]; exact g5) (by rw [g2]; omega)
    simp only [] at c1 c3 c4 c6 c7 c8 c9 c10 c11
    have hr := parseRound_finish env cfg (onesArray n) m _ m5 49 _ _ hd (by norm_num)
      (by norm_num) hl0 hl2 hctx ht ⟨by simp, by simp [h2]⟩ h9
      ((contextSwitch_numeric env cfg _ _ hg3).trans hc)
      ⟨by rw [c1]; norm_num, by rw [c2]; norm_num⟩
    have hf : decide (m5.read.ctx_stack = 0) = false := by
      rw [c1]
      decide
    rw [hf] at hr
    refine ⟨m5, hr, ?_⟩
    refine ⟨by rw [c1]; norm_num, c2, by rw [c3, h3]; push_cast; ring, by rw [c4]; simp [h4],
      ?_, ?_, by rw [c9, h7]; omega, by rw [c10, h8]; omega, by rw [c11]; exact h9,
      by rw [c8]; exact h10, ?_⟩
    · rw [c4, getD_set_other _ _ _ _ _ (by decide)]
      exact h5
    · rw [c4, getD_set_other _ _ _ _ _ (by decide)]
      exact h6
    · simp only [if_true]
      refine ⟨c5, by rw [c7]; exact g2, by rw [c6]; simp [g3], ?_, ?_⟩
      · rw [c6, getD_set_same _ _ _ _ (by omega)]
      · intro e he
        rw [c6, getD_set_same _ _ _ _ (by omega)] at he
        simp only [Option.some.injEq] at he
        omega

theorem contextSwitch_close (env : Env) (cfg : Config) (json : Bytes) (m : Machine)
    (h : m.read.get_context = .ok eJSONCtx.JSON_ARRAY_CLOSE) :
    contextSwitch env cfg json m = .ok (caseClose m) := by
  unfold contextSwitch
  rw [h]
  rfl

/-- The round at the closing bracket: the loop ends. -/
theorem round_close (env : Env) (cfg : Config) (n : Nat) (sc : sStrCache) (p2 : Bool)
    (m : Machine) (hn : 2 * n + 3 < 4294967296)
    (h : InOnes n sc p2 (n + 2) (2 + 2 * n) m) :
    ∃ m1, parseRound env cfg (onesArray n) m = .ok (m1, true) ∧ OnesDone n sc p2 m1 := by
  obtain ⟨h1, h2, h3, h4, h5, h6, h7, h8, h9, h10, h11⟩ := h
  have hd : (onesArray n).drop m.cursor = [93] := by
    rw [h7, show 2 + 2 * n = (1 + 2 * n) + 1 by omega]
    have := onesArray_drop n n (le_refl n)
    rw [Nat.sub_self, onesTail_zero] at this
    exact (peek_of_drop _ _ _ _ this).2.2.2
  have hl0 : m.left ≠ 0 := by omega
  have hl2 : m.left < 4294967296 := by omega
  have hctx := get_context_at m.read 1 (by rw [h1]; rfl) (by norm_num)
  rw [h6] at hctx
  have ht : tokenSwitch cfg (onesArray n) { m with cursor := m.cursor + 1, left := m.left - 1 }
      eJSONCtx.JSON_ARRAY 93
      = .ok { m with cursor := m.cursor + 1, left := m.left - 1, read := { m.read with
          context := m.read.context.set 1 eJSONCtx.JSON_ARRAY_CLOSE } } := by
    unfold tokenSwitch
    simp [Machine.ctxOp, JBParse.set_context, h1, JSON_MAX_CONTEXT]
  have hg3 : JBParse.get_context { m.read with
      context := m.read.context.set 1 eJSONCtx.JSON_ARRAY_CLOSE }
      = .ok eJSONCtx.JSON_ARRAY_CLOSE := by
    have := get_context_at { m.read with
      context := m.read.context.set 1 eJSONCtx.JSON_ARRAY_CLOSE } 1 (by simp [h1]) (by norm_num)
    rw [this]
    simp only []
    rw [getD_set_same _ _ _ _ (by omega)]
  have hlv : (if m.read.pItem.isSome = true then m.read.level - 1 else m.read.level) < 256 := by
    rw [h2]
    split <;> norm_num
  have hr := parseRound_finish env cfg (onesArray n) m _ _ 93 _ _ hd (by norm_num)
    (by norm_num) hl0 hl2 hctx ht ⟨by simp [h1], by simp [h2]⟩ h9
    (contextSwitch_close env cfg _ _ hg3) ⟨by simp [caseClose, h1], by simpa [caseClose] using hlv⟩
  have hf : ∀ x : Machine, x.read.ctx_stack = 1 →
      decide ((caseClose x).read.ctx_stack = 0) = true := by
    intro x hx
    simp [caseClose, hx]
  rw [hf _ (by simp [h1])] at hr
  refine ⟨_, hr, ?_⟩
  refine ⟨by simp [caseClose, h1], by simp [caseClose, h3], by simp [caseClose, h4], ?_,
    by simp [caseClose, h7]; omega, by simp [caseClose, h9], by simp [caseClose, h10], ?_⟩
  · simp only [caseClose]
    rw [getD_set_other _ _ _ _ _ (by decide)]
    exact h5
  · cases p2 with
    | false =>
      simp only [Bool.false_eq_true, if_false] at h11 ⊢
      exact ⟨by simp [caseClose, h11.1], by simp [caseClose, h11.2.1],
        by simp [caseClose, h11.2.2]⟩
    | true =>
      simp only [if_true] at h11 ⊢
      exact ⟨by simp [caseClose, h11.2.1], by simp [caseClose, h11.2.2.1]⟩

/-- The round at the opening bracket of the root array. -/
theorem round_open (env : Env) (cfg : Config) (n : Nat) (sc : sStrCache) (p2 : Bool)
    (m : Machine) (hcfg : cfg.allowRootArray = true) (hn : 2 * n + 3 < 4294967296)
    (h : OnesStart n sc p2 m) :
    ∃ m1, parseRound env cfg (onesArray n) m = .ok (m1, false) ∧ InOnes n sc p2 1 1 m1 := by
  obtain ⟨h1, h2, h3, h4, h5, h7, h8, h9, h10, h11⟩ := h
  have hd : (onesArray n).drop m.cursor = 91 :: onesTail n := by
    rw [h7]
    rfl
  have hl0 : m.left ≠ 0 := by omega
  have hl2 : m.left < 4294967296 := by omega
  have hctx := get_context_at m.read 0 (by rw [h1]; rfl) (by norm_num)
  rw [h5] at hctx
  have hg : ∀ r : JBParse, r.ctx_stack = 1 → r.context = m.read.context.set 1 eJSONCtx.JSON_ARRAY →
      r.get_context = .ok eJSONCtx.JSON_ARRAY := by
    intro r hr1 hr2
    rw [get_context_at r 1 (by rw [hr1]; rfl) (by norm_num), hr2,
      getD_set_same _ _ _ _ (by omega)]
  cases p2 with
  | false =>
    simp only [Bool.false_eq_true, if_false] at h11
    have ht : tokenSwitch cfg (onesArray n) { m with cursor := m.cursor + 1, left := m.left - 1 }
        eJSONCtx.JSON_ROOT 91
        = .ok { m with cursor := m.cursor + 1, left := m.left - 1, read := { m.read with
            ctx_stack := 1, context := m.read.context.set 1 eJSONCtx.JSON_ARRAY } } := by
      unfold tokenSwitch
      simp [Machine.ctxOp, JBParse.push_context, JBParse.set_context, h1, JSON_MAX_CONTEXT, hcfg,
        h11.2.1, bind, Except.bind]
    have hr := parseRound_finish env cfg (onesArray n) m _ _ 91 _ _ hd (by norm_num)
      (by norm_num) hl0 hl2 hctx ht ⟨by simp, by simp [h2]⟩ h9
      (contextSwitch_array env cfg _ _ (hg _ rfl rfl)) ⟨by simp, by simp [h2]⟩
    refine ⟨_, hr, ?_⟩
    refine ⟨rfl, h2, by simp [h3], by simp [h4], ?_, ?_, by simp [h7], by simp [h8], h9,
      h10, ?_⟩
    · simp only []
      rw [getD_set_other _ _ _ _ _ (by decide)]
      exact h5
    · simp only []
      rw [getD_set_same _ _ _ _ (by omega)]
    · simp only [Bool.false_eq_true, if_false]
      exact h11
  | true =>
    simp only [if_true] at h11
    obtain ⟨g1, g2, g3, g4⟩ := h11
    have hne : m.mem ≠ [] := by
      intro hm
      rw [hm] at g2
      simp at g2
    obtain ⟨mem1, hm1, ht⟩ : ∃ mem1 : List JBItem, mem1.length = m.mem.length
        ∧ tokenSwitch cfg (onesArray n) { m with cursor := m.cursor + 1, left := m.left - 1 }
          eJSONCtx.JSON_ROOT 91
        = .ok ⟨{ m.read with
              ctx_stack := 1, context := m.read.context.set 1 eJSONCtx.JSON_ARRAY },
            m.strCache, mem1, m.cursor + 1, m.left - 1, m.error⟩ := by
      refine ⟨m.mem.set 0 ⟨(m.mem.getD 0 JBItem.zero).hash, JBType.JB_ARRAY,
        (m.mem.getD 0 JBItem.zero).sibling, (m.mem.getD 0 JBItem.zero).name,
        (m.mem.getD 0 JBItem.zero).data⟩, List.length_set _ _ _, ?_⟩
      unfold tokenSwitch
      simp [Machine.ctxOp, JBParse.push_context, JBParse.set_context, h1, JSON_MAX_CONTEXT, hcfg,
        hne, Machine.writeItem, g2, liftFault, bind, Except.bind]
    have hr := parseRound_finish env cfg (onesArray n) m _ _ 91 _ _ hd (by norm_num)
      (by norm_num) hl0 hl2 hctx ht ⟨by simp, by simp [h2]⟩ h9
      (contextSwitch_array env cfg _ _ (hg _ rfl rfl)) ⟨by simp, by simp [h2]⟩
    refine ⟨_, hr, ?_⟩
    refine ⟨rfl, h2, by simp [h3], by simp [h4], ?_, ?_, by simp [h7], by simp [h8], h9,
      h10, ?_⟩
    · simp only []
      rw [getD_set_other _ _ _ _ _ (by decide)]
      exact h5
    · simp only []
      rw [getD_set_same _ _ _ _ (by omega)]
    · simp only [if_true]
      refine ⟨g1, by simp [hm1, g2], g3, by rw [g4], ?_⟩
      intro e he
      rw [g4] at he
      cases he

/-- The loop from an element of the array to the end of the pass. -/
theorem parseLoop_ones (env : Env) (cfg : Config) (n : Nat) (sc : sStrCache) (p2 : Bool)
    (hn : 2 * n + 3 < 4294967296) :
    ∀ (j k : Nat) (m : Machine) (fuel : Nat), k + j = n → 2 * j + 2 ≤ fuel →
      InOnes n sc p2 (k + 1) (1 + 2 * k) m →
      ∃ m1, parseLoop env cfg (onesArray n) fuel m = .ok m1 ∧ OnesDone n sc p2 m1 := by
  intro j
  induction j with
  | zero =>
    intro k m fuel hk hf h
    have hkn : k = n := by omega
    subst hkn
    obtain ⟨f, rfl⟩ : ∃ f, fuel = f + 2 := ⟨fuel - 2, by omega⟩
    obtain ⟨m1, r1, i1⟩ := round_one env cfg k k sc p2 m (le_refl k) hn h
    obtain ⟨m2, r2, i2⟩ := round_close env cfg k sc p2 m1 hn
      (by rw [show k + 2 = k + 2 from rfl]; exact i1)
    have c0 : m.left ≠ 0 ∧ m.error = JBError.JBERR_NONE := by
      obtain ⟨_, _, _, _, _, _, _, h8, h9, _⟩ := h
      exact ⟨by omega, h9⟩
    have c1 : m1.left ≠ 0 ∧ m1.error = JBError.JBERR_NONE := by
      obtain ⟨_, _, _, _, _, _, _, h8, h9, _⟩ := i1
      exact ⟨by omega, h9⟩
    refine ⟨m2, ?_, i2⟩
    rw [parseLoop, if_pos c0, r1]
    simp only []
    rw [parseLoop, if_pos c1, r2]
  | succ j ih =>
    intro k m fuel hk hf h
    obtain ⟨f, rfl⟩ : ∃ f, fuel = f + 2 := ⟨fuel - 2, by omega⟩
    obtain ⟨m1, r1, i1⟩ := round_one env cfg n k sc p2 m (by omega) hn h
    obtain ⟨m2, r2, i2⟩ := round_comma env cfg n k sc p2 m1 (by omega) hn i1
    obtain ⟨m3, r3, i3⟩ := ih (k + 1) m2 f (by omega) (by omega) i2
    have c0 : m.left ≠ 0 ∧ m.error = JBError.JBERR_NONE := by
      obtain ⟨_, _, _, _, _, _, _, h8, h9, _⟩ := h
      exact ⟨by omega, h9⟩
    have c1 : m1.left ≠ 0 ∧ m1.error = JBError.JBERR_NONE := by
      obtain ⟨_, _, _, _, _, _, _, h8, h9, _⟩ := i1
      exact ⟨by omega, h9⟩
    refine ⟨m3, ?_, i3⟩
    rw [parseLoop, if_pos c0, r1]
    simp only []
    rw [parseLoop, if_pos c1, r2]
    simp only []
    exact r3

/-- A whole pass over `onesArray n`. -/
theorem pass_ones (env : Env) (cfg : Config) (n : Nat) (sc : sStrCache) (p2 : Bool)
    (m : Machine) (hcfg : cfg.allowRootArray = true) (hn : 2 * n + 3 < 4294967296)
    (h : OnesStart n sc p2 m) :
    ∃ m1, parseLoop env cfg (onesArray n) ((onesArray n).length + 1) m = .ok m1
      ∧ OnesDone n sc p2 m1 := by
  obtain ⟨m1, r1, i1⟩ := round_open env cfg n sc p2 m hcfg hn h
  obtain ⟨m2, r2, i2⟩ := parseLoop_ones env cfg n sc p2 hn n 0 m1 (2 * n + 3) (by omega)
    (by omega) i1
  have c0 : m.left ≠ 0 ∧ m.error = JBError.JBERR_NONE := by
    obtain ⟨_, _, _, _, _, _, h8, h9, _⟩ := h
    exact ⟨by omega, h9⟩
  refine ⟨m2, ?_, i2⟩
  rw [onesArray_length, parseLoop, if_pos c0, r1]
  simp only []
  exact r2

theorem zero_context_length : JBParse.zero.context.length = 256 :=
  List.length_replicate _ _

theorem zero_aHier_length : JBParse.zero.aHier.length = 256 :=
  List.length_replicate _ _

theorem zero_context_root : JBParse.zero.context.getD 0 eJSONCtx.JSON_ROOT = eJSONCtx.JSON_ROOT :=
  rfl

theorem startPass_count (n : Nat) (sc : sStrCache) :
    ∃ m0, startPass ⟨JBParse.zero, sc, [], 0, 0, JBError.JBERR_NONE⟩ (2 * n + 3) = .ok m0
      ∧ OnesStart n sc false m0 := by
  refine ⟨_, rfl, ?_⟩
  refine ⟨rfl, rfl, rfl, zero_context_length, zero_context_root, rfl, rfl, rfl, rfl, ?_⟩
  rw [if_neg (by decide)]
  refine ⟨rfl, rfl, ?_⟩
  show (JBParse.zero.aHier.set 0 _).length = 256
  rw [List.length_set, zero_aHier_length]

theorem startPass_fill (n : Nat) (m : Machine) (h1 : m.read.ctx_stack = 0)
    (h2 : m.read.context.length = 256)
    (h3 : m.read.context.getD 0 eJSONCtx.JSON_ROOT = eJSONCtx.JSON_ROOT)
    (h4 : m.read.aHier.length = 256) (h5 : m.read.pItem = some 0) (h6 : m.mem.length = n + 2)
    (h7 : m.error = JBError.JBERR_NONE) :
    ∃ m0, startPass m (2 * n + 3) = .ok m0 ∧ OnesStart n m.strCache true m0 := by
  unfold startPass
  simp only [h5, Machine.writeItem, h6, Nat.zero_lt_succ, if_true, liftFault, bind, Except.bind]
  refine ⟨_, rfl, ?_⟩
  refine ⟨h1, rfl, rfl, h2, h3, rfl, rfl, h7, rfl, ?_⟩
  simp only [if_true]
  refine ⟨trivial, by simp [h6], by simp [h4], ?_⟩
  rw [getD_set_same _ _ _ _ (by omega)]

theorem init_numStr : (sStrCache.init 0).numStr = 0 := rfl

theorem stringBytes_none (cfg : Config) (json : Bytes) (sc : sStrCache) (h : sc.numStr = 0) :
    stringBytes cfg json sc = 0 := by
  unfold stringBytes
  rw [h]
  rfl

theorem encodeStrings_none (cfg : Config) (json : Bytes) (sc : sStrCache) (h : sc.numStr = 0) :
    encodeStrings cfg json sc = .ok [] := by
  unfold encodeStrings
  rw [h]
  rfl

/-- A block without strings holds what is written to it. -/
theorem blob_none : ¬ toInt32 ((0 : Nat) : Int) < ((([] : List Bytes).flatten.length : Nat) : Int) := by
  decide

/-- The two passes over `onesArray n`. -/
theorem passes_ones (env : Env) (cfg : Config) (n : Nat) (info : JBRet)
    (hcfg : cfg.allowRootArray = true) (henv : env.callocRet = true)
    (hn : 2 * n + 3 < 4294967296) :
    ∃ m4, passes env cfg (onesArray n) (sStrCache.init 0) info
        = .ok ⟨m4, { info with
            bin_size := u32 (sizeofJBItem * (n + 2) + 0), text_size := u32 0
            num_items := n + 2, strings_count := 0 }, [], true⟩
      ∧ m4.error = JBError.JBERR_NONE ∧ m4.cursor = 2 * n + 3 ∧ m4.mem.length = n + 2 := by
  obtain ⟨m0, s0, i0⟩ := startPass_count n (sStrCache.init 0)
  obtain ⟨m1, p1, d1⟩ := pass_ones env cfg n (sStrCache.init 0) false m0 hcfg hn i0
  obtain ⟨e1, e2, e3, e4, e5, e6, e7, e8⟩ := d1
  rw [if_neg (by decide)] at e8
  have hns : m1.strCache.numStr = 0 := by rw [e7]; rfl
  have hit : m1.read.items.toNat = n + 2 := by
    rw [e2]
    omega
  unfold passes
  simp only [onesArray_length] at p1 ⊢
  rw [s0]
  simp only [bind, Except.bind]
  rw [p1]
  simp only [henv, if_true, hns, Nat.mul_zero, ne_eq, not_true_eq_false, false_and, if_false,
    stringBytes_none cfg _ _ hns, encodeStrings_none cfg _ _ hns, hit, Machine.setError,
    liftFault]
  rw [if_neg blob_none, if_pos e6]
  obtain ⟨m3, s3, i3⟩ := startPass_fill n
    { m1 with
      strCache := { m1.strCache with apRetStr := stringOffsets [] 0 }
      mem := List.replicate (n + 2) JBItem.zero
      read := { m1.read with pItem := some 0, items := 0 } }
    e1 e3 e4 e8.2.2 rfl (List.length_replicate _ _) e6
  obtain ⟨m4, p4, d4⟩ := pass_ones env cfg n _ true m3 hcfg hn i3
  obtain ⟨_, _, _, _, f5, f6, _, f8⟩ := d4
  rw [if_pos rfl] at f8
  simp only [onesArray_length] at p4
  refine ⟨m4, ?_, f6, f5, f8.1⟩
  simp only [hns] at s3
  rw [s3]
  simp only []
  rw [p4]
  rfl

theorem stripBom_ones (cfg : Config) (n : Nat) : stripBom cfg (onesArray n) = onesArray n := by
  unfold stripBom
  rw [if_neg]
  intro h
  have : peek (onesArray n) 0 = 91 := rfl
  rw [this] at h
  exact absurd h.2.2.1 (by decide)

theorem countStrings_ones (cfg : Config) (n : Nat) (hcc : cfg.allowCComments = false) :
    countStrings cfg (onesArray n) ((onesArray n).length + 1) 0 (onesArray n).length 0 0
      = .ok (0, 0) := by
  rw [countStrings]
  simp only [hcc, Bool.false_eq_true, if_false,
    findChar_none (onesArray n) 34 (by decide) (onesArray_no_quote n)]

/-- JSONBin on an array of `n + 1` ones: the tree has `n + 2` items and no string, and
the sizes of the record are 32 bit values. -/
theorem JSONBin_ones (env : Env) (cfg : Config) (n : Nat) (hcfg : cfg.allowRootArray = true)
    (hcc : cfg.allowCComments = false) (hw : env.mallocWork = true)
    (hc : env.callocRet = true) (hn : 2 * n + 3 < 4294967296) :
    ∃ t, JSONBin env cfg (onesArray n) JBRet.zero
        = Outcome.returned (some t)
            ⟨u32 (sizeofJBItem * (n + 2) + 0), 2 * n + 3, n + 2, u32 0, 0, 0, 0,
              JBError.JBERR_NONE, 0, 0⟩
      ∧ t.items.length = n + 2 ∧ t.strings = [] := by
  obtain ⟨m4, p4, e4, c4, l4⟩ := passes_ones env cfg n
    { JBRet.zero with text_orig := 0, strings_orig := 0 } hcfg hc hn
  refine ⟨⟨m4.mem, []⟩, ?_, l4, rfl⟩
  unfold JSONBin
  simp only [stripBom_ones, countStrings_ones cfg n hcc, hw, if_true]
  rw [p4]
  simp only [finish, e4, c4, ne_eq, not_true_eq_false, false_or, Bool.true_eq_false, if_false]

/-- Sanity check of the general statement at a small instance. -/
theorem JSONBin_ones_small :
    JSONBin okEnv defaultConfig (bytesOf "[1,1,1]") JBRet.zero
      = Outcome.returned (some ⟨[⟨0, .JB_ARRAY, 0, 0, .i 3⟩, ⟨0, .JB_INT, 1, 0, .i 1⟩,
          ⟨0, .JB_INT, 1, 0, .i 1⟩, ⟨0, .JB_INT, 0, 0, .i 1⟩], []⟩)
          ⟨64, 7, 4, 0, 0, 0, 0, .JBERR_NONE, 0, 0⟩ := by decide!

/-- The field `bin_size` is an `unsigned int`: for the text `[1,1, ... ,1]` with 268435455
ones (536870911 bytes) JSONBin returns a tree of 268435456 items without an error and
reports `bin_size = 0`, where `num_items * sizeof(JBItem) + text_size` is 4294967296. -/
theorem bin_size_wraps :
    ∃ t info, JSONBin okEnv defaultConfig (onesArray 268435454) JBRet.zero
        = Outcome.returned (some t) info
      ∧ info.error_code = JBError.JBERR_NONE ∧ t.items.length = 268435456
      ∧ info.num_items = 268435456 ∧ info.text_size = 0 ∧ info.bin_size = 0
      ∧ info.bin_size ≠ info.num_items * sizeofJBItem + info.text_size := by
  obtain ⟨t, h, h1, _⟩ := JSONBin_ones okEnv defaultConfig 268435454 rfl rfl rfl rfl (by norm_num)
  exact ⟨t, _, h, rfl, h1, rfl, rfl, rfl, by decide⟩

/-! ### Strings of 2^31 bytes or more -/

theorem toInt32_toNat_le (u : Nat) : (toInt32 (u : Int)).toNat ≤ u := by
  unfold toInt32
  omega

theorem ite_snd_le (c : Prop) [Decidable c] (a b : Nat × Nat) (n : Nat) (ha : a.2 ≤ n)
    (hb : b.2 ≤ n) : (if c then a else b).2 ≤ n := by
  split <;> assumption

theorem solidusCode_len_le (cfg : Config) (p : Bytes) (left : Nat) :
    (solidusCode cfg p left 1).2 ≤ 12 := by
  have h1 : 1 ≤ 12 := by decide
  have h2 : 2 ≤ 12 := by decide
  have h6 : 6 ≤ 12 := by decide
  unfold solidusCode
  dsimp only
  repeat (first | apply ite_snd_le | exact h2 | exact le_refl 12 | exact h6 | exact h1)

theorem getCharNegative_len (cfg : Config) (p : Bytes) (left : Int) :
    1 ≤ (getCharNegative cfg p left).2 ∧ (getCharNegative cfg p left).2 ≤ 12 := by
  unfold getCharNegative
  simp only []
  split
  · exact ⟨solidusCode_len_pos cfg _ _, solidusCode_len_le cfg _ _⟩
  · exact ⟨le_refl 1, (by decide : 1 ≤ 12)⟩

theorem getStrLenLoop_ge (cfg : Config) (fuel : Nat) :
    ∀ (p : Bytes) (left len : Nat), len ≤ getStrLenLoop cfg fuel p left len := by
  induction fuel with
  | zero => intro p left len; exact le_refl _
  | succ fuel ih =>
    intro p left len
    rw [getStrLenLoop]
    split
    · exact le_trans (by omega) (ih _ _ _)
    · exact le_refl _

theorem toInt32_le_self (n : Nat) : toInt32 (n : Int) ≤ (n : Int) := by
  unfold toInt32
  omega

/-- The loop of `toEncoding` from the `int` that holds the bits `u` ends; from a negative
`left` it stores at least one byte. -/
theorem toEncodingInt_ok (cfg : Config) :
    ∀ (fuel u : Nat) (p out : Bytes), u < 4294967296 → 1 ≤ fuel →
      (u < 2147483648 ∨ u + 2 ≤ fuel + 2147483648) →
      ∃ w, toEncodingInt cfg fuel p (toInt32 (u : Int)) out = .ok w
        ∧ out.length ≤ w.length
        ∧ (2147483648 ≤ u → out.length + 1 ≤ w.length)
        ∧ (u < 2147483648 → w = toEncodingLoop cfg u p u out) := by
  intro fuel
  induction fuel with
  | zero => intro u p out _ h; omega
  | succ fuel ih =>
    intro u p out hu _ hf
    rw [toEncodingInt]
    by_cases hs : 0 ≤ toInt32 (u : Int)
    · rw [if_pos hs]
      have hlt : u < 2147483648 := by
        unfold toInt32 at hs
        omega
      have e : (toInt32 (u : Int)).toNat = u := by
        unfold toInt32
        omega
      rw [e]
      refine ⟨_, rfl, ?_, fun h => by omega, fun _ => rfl⟩
      rw [toEncodingLoop_length]
      exact getStrLenLoop_ge cfg _ _ _ _
    · rw [if_neg hs]
      have hneg : 2147483648 ≤ u := by
        unfold toInt32 at hs
        omega
      have hb := getCharNegative_len cfg p (toInt32 (u : Int))
      have e2 : toInt32 (toInt32 (u : Int) - ((getCharNegative cfg p (toInt32 (u : Int))).2 : Int))
          = toInt32 ((u - (getCharNegative cfg p (toInt32 (u : Int))).2 : Nat) : Int) := by
        generalize (getCharNegative cfg p (toInt32 (u : Int))).2 = c at hb
        unfold toInt32
        omega
      simp only []
      rw [e2]
      obtain ⟨w, hw, hl, _, _⟩ := ih (u - (getCharNegative cfg p (toInt32 (u : Int))).2)
        (p.drop (getCharNegative cfg p (toInt32 (u : Int))).2)
        (out ++ asEncoding (getCharNegative cfg p (toInt32 (u : Int))).1)
        (by omega) (by omega) (by omega)
      have ha : 1 ≤ (asEncoding (getCharNegative cfg p (toInt32 (u : Int))).1).length := by
        rw [asEncoding_length]
        omega
      rw [List.length_append] at hl
      exact ⟨w, hw, by omega, fun _ => by omega, fun h => by omega⟩

/-- The bytes written for a list of strings of the cache are at least the bytes counted for
them, and more when one of the lengths is 2^31 or more. -/
theorem encodeList_ok (cfg : Config) (json : Bytes) (sc : sStrCache)
    (hu : ∀ j, sc.aStrLen.getD j 0 < 4294967296) :
    ∀ idx : List Nat, ∃ ws, encodeList cfg json sc idx = .ok ws
      ∧ (idx.map (fun i => getStrLenInt cfg (json.drop (sc.apStrings.getD i 0))
            (toInt32 (sc.aStrLen.getD i 0 : Int)) + 1)).sum ≤ ws.flatten.length
      ∧ ((∃ i ∈ idx, 2147483648 ≤ sc.aStrLen.getD i 0) →
          (idx.map (fun i => getStrLenInt cfg (json.drop (sc.apStrings.getD i 0))
            (toInt32 (sc.aStrLen.getD i 0 : Int)) + 1)).sum < ws.flatten.length) := by
  intro idx
  induction idx with
  | nil => exact ⟨[], rfl, le_refl _, fun ⟨i, hi, _⟩ => by simp at hi⟩
  | cons i idx ih =>
    obtain ⟨ws, hws, hle, hlt⟩ := ih
    obtain ⟨w, hw, _, hneg, hpos⟩ := toEncodingInt_ok cfg (sc.aStrLen.getD i 0 + 1)
      (sc.aStrLen.getD i 0) (json.drop (sc.apStrings.getD i 0)) [] (hu i) (by omega) (by omega)
    refine ⟨(w ++ [0]) :: ws, ?_, ?_, ?_⟩
    · rw [encodeList, hw]
      simp only [bind, Except.bind]
      rw [hws]
    · simp only [List.map_cons, List.sum_cons, List.flatten_cons, List.length_append,
        List.length_singleton]
      have h1 : getStrLenInt cfg (json.drop (sc.apStrings.getD i 0))
          (toInt32 (sc.aStrLen.getD i 0 : Int)) ≤ w.length := by
        unfold getStrLenInt
        by_cases hp : 0 < toInt32 (sc.aStrLen.getD i 0 : Int)
        · rw [if_pos hp]
          have hlt2 : sc.aStrLen.getD i 0 < 2147483648 := by
            have := hu i
            unfold toInt32 at hp
            omega
          have e : (toInt32 (sc.aStrLen.getD i 0 : Int)).toNat = sc.aStrLen.getD i 0 := by
            unfold toInt32
            omega
          rw [e, hpos hlt2, ← toEncoding_length]
          rfl
        · rw [if_neg hp]
          exact Nat.zero_le _
      omega
    · intro ⟨k, hk, hkl⟩
      simp only [List.map_cons, List.sum_cons, List.flatten_cons, List.length_append,
        List.length_singleton]
      have h1 : getStrLenInt cfg (json.drop (sc.apStrings.getD i 0))
          (toInt32 (sc.aStrLen.getD i 0 : Int)) ≤ w.length := by
        unfold getStrLenInt
        by_cases hp : 0 < toInt32 (sc.aStrLen.getD i 0 : Int)
        · rw [if_pos hp]
          have hlt2 : sc.aStrLen.getD i 0 < 2147483648 := by
            have := hu i
            unfold toInt32 at hp
            omega
          have e : (toInt32 (sc.aStrLen.getD i 0 : Int)).toNat = sc.aStrLen.getD i 0 := by
            unfold toInt32
            omega
          rw [e, hpos hlt2, ← toEncoding_length]
          rfl
        · rw [if_neg hp]
          exact Nat.zero_le _
      rcases List.mem_cons.mp hk with rfl | hk2
      · have h0 : getStrLenInt cfg (json.drop (sc.apStrings.getD k 0))
            (toInt32 (sc.aStrLen.getD k 0 : Int)) = 0 := by
          unfold getStrLenInt
          rw [if_neg]
          have := hu k
          unfold toInt32
          omega
        have := hneg hkl
        simp only [List.length_nil] at this
        omega
      · have := hlt ⟨k, hk2, hkl⟩
        omega

theorem stringBytes_eq_map (cfg : Config) (json : Bytes) (sc : sStrCache) :
    stringBytes cfg json sc
      = ((List.range sc.numStr).map (fun i => getStrLenInt cfg (json.drop (sc.apStrings.getD i 0))
            (toInt32 (sc.aStrLen.getD i 0 : Int)) + 1)).sum := rfl

/-- A string of 2^31 bytes or more in the cache is counted with no byte but written: when
the first pass has ended with such a string in the cache and the allocations succeed, the
strings written take more than the `string_bytes` the block was sized with. -/
theorem long_string_overruns (env : Env) (cfg : Config) (json : Bytes)
    (sc : sStrCache) (info : JBRet) (m0 m1 : Machine) (i : Nat)
    (h0 : startPass ⟨JBParse.zero, sc, [], 0, 0, JBError.JBERR_NONE⟩ json.length = .ok m0)
    (h1 : parseLoop env cfg json (json.length + 1) m0 = .ok m1)
    (hcal : env.callocRet = true) (hstr : env.mallocRetStr = true)
    (hu : ∀ j, m1.strCache.aStrLen.getD j 0 < 4294967296)
    (hi : i < m1.strCache.numStr) (hlen : 2147483648 ≤ m1.strCache.aStrLen.getD i 0) :
    getStrLenInt cfg (json.drop (m1.strCache.apStrings.getD i 0))
        (toInt32 (m1.strCache.aStrLen.getD i 0 : Int)) = 0
      ∧ (∃ w, toEncodingInt cfg (m1.strCache.aStrLen.getD i 0 + 1)
            (json.drop (m1.strCache.apStrings.getD i 0))
            (toInt32 (m1.strCache.aStrLen.getD i 0 : Int)) [] = .ok w ∧ 1 ≤ w.length)
      ∧ (∃ ws, encodeStrings cfg json m1.strCache = .ok ws
          ∧ stringBytes cfg json m1.strCache < ws.flatten.length)
      ∧ passes env cfg json sc info = .error (Stop.fault Fault.blobWrite) := by
  have hui := hu i
  have g1 : getStrLenInt cfg (json.drop (m1.strCache.apStrings.getD i 0))
      (toInt32 (m1.strCache.aStrLen.getD i 0 : Int)) = 0 := by
    unfold getStrLenInt
    rw [if_neg]
    unfold toInt32
    omega
  obtain ⟨w, hw, _, hneg, _⟩ := toEncodingInt_ok cfg (m1.strCache.aStrLen.getD i 0 + 1)
    (m1.strCache.aStrLen.getD i 0) (json.drop (m1.strCache.apStrings.getD i 0)) [] hui
    (by omega) (by omega)
  obtain ⟨ws, hws, _, hlt⟩ := encodeList_ok cfg json m1.strCache hu (List.range m1.strCache.numStr)
  have hwr : stringBytes cfg json m1.strCache < ws.flatten.length := by
    rw [stringBytes_eq_map]
    exact hlt ⟨i, List.mem_range.mpr hi, hlen⟩
  refine ⟨g1, ⟨w, hw, by simpa using hneg hlen⟩, ⟨ws, hws, hwr⟩, ?_⟩
  unfold passes
  simp only []
  rw [h0]
  simp only [bind, Except.bind]
  rw [h1]
  simp only []
  rw [if_pos hcal, if_neg (by
    intro h
    rw [hstr] at h
    exact absurd h.2.2 (by decide))]
  have henc : encodeStrings cfg json m1.strCache = .ok ws := hws
  rw [henc]
  simp only [liftFault]
  rw [if_pos]
  have := toInt32_le_self (stringBytes cfg json m1.strCache)
  omega

theorem longStringDoc_length (n : Nat) : (longStringDoc n).length = n + 7 := by
  simp [longStringDoc]

theorem longStringDoc_tail (n : Nat) :
    (longStringDoc n).drop (n + 5) = [34, 93] := by
  unfold longStringDoc
  have e : n + 5 = ([91, 34, 34, 44, 34] ++ List.replicate n 97 : Bytes).length := by
    simp
  rw [e, List.drop_left]

theorem replicate_no_quote (n : Nat) : (34 : Nat) ∉ List.replicate n 97 := by
  intro h
  have := List.eq_of_mem_replicate h
  exact absurd this (by decide)

/-- The quote that ends the empty string. -/
theorem quoteEnd_empty (n : Nat) : quoteEnd (longStringDoc n) 1 (n + 6) = some 2 := by
  have hf : findChar (longStringDoc n) 34 2 (n + 5) = some 2 := by
    have := findChar_skip 34 [] (by simp) [91, 34] (44 :: 34 :: (List.replicate n 97 ++ [34, 93]))
      (n + 4)
    simp only [List.append_nil, List.length_nil, List.length_cons] at this
    rw [show 0 + 1 + (n + 4) = n + 5 by omega] at this
    have e : ([91, 34] : Bytes) ++ 34 :: 44 :: 34 :: (List.replicate n 97 ++ [34, 93])
        = longStringDoc n := by
      simp [longStringDoc]
    rw [e] at this
    exact this
  unfold quoteEnd
  rw [show n + 6 - 1 = n + 5 by omega, show n + 6 = (n + 5) + 1 by omega, quoteEndLoop, hf]
  simp [countBack]

/-- The quote that ends the long string. -/
theorem quoteEnd_long (n : Nat) (hn : 1 ≤ n) :
    quoteEnd (longStringDoc n) 4 (n + 3) = some (n + 5) := by
  have hf : findChar (longStringDoc n) 34 5 (n + 2) = some (n + 5) := by
    have := findChar_skip 34 (List.replicate n 97) (replicate_no_quote n) [91, 34, 34, 44, 34]
      [93] 1
    simp only [List.length_replicate, List.length_cons, List.length_nil] at this
    rw [show 0 + 1 + 1 + 1 + 1 + 1 + n = n + 5 by omega] at this
    exact this
  have hp : peek (longStringDoc n) (n + 4) = 97 := by
    unfold longStringDoc
    rw [List.append_assoc, show n + 4 = ([91, 34, 34, 44, 34] : Bytes).length + (n - 1) by
      simp; omega, peek_append_right]
    unfold peek
    rw [List.getD_eq_getElem?_getD, List.getElem?_append_left (by simp; omega),
      List.getElem?_replicate, if_pos (by omega)]
    rfl
  have hc : countBack (longStringDoc n) 92 (n + 5) (n + 5 - 5) = 0 := by
    obtain ⟨k, rfl⟩ : ∃ k, n = k + 1 := ⟨n - 1, by omega⟩
    rw [show k + 1 + 5 - 5 = k + 1 by omega, show k + 1 + 5 = (k + 1 + 4) + 1 by omega,
      countBack, hp, if_neg (by decide)]
  unfold quoteEnd
  rw [show n + 3 - 1 = n + 2 by omega, show n + 3 = (n + 2) + 1 by omega, quoteEndLoop, hf]
  simp only [hc]
  rfl

/-- The string counting loop finds the two strings. -/
theorem countStrings_long (cfg : Config) (n : Nat) (hcc : cfg.allowCComments = false)
    (hn : 1 ≤ n) :
    countStrings cfg (longStringDoc n) ((longStringDoc n).length + 1) 0 (longStringDoc n).length
        0 0
      = .ok (2, u32 (u32 (0 + 2) + (n + 2))) := by
  have f1 : findChar (longStringDoc n) 34 0 (n + 7) = some 1 := by
    have := findChar_skip 34 [91] (by decide) [] (34 :: 44 :: 34 :: (List.replicate n 97
      ++ [34, 93])) (n + 5)
    simp only [List.length_nil, List.length_cons, List.nil_append] at this
    rw [show 0 + 1 + 1 + (n + 5) = n + 7 by omega] at this
    exact this
  have f2 : findChar (longStringDoc n) 34 3 (n + 4) = some 4 := by
    have := findChar_skip 34 [44] (by decide) [91, 34, 34] (List.replicate n 97 ++ [34, 93])
      (n + 2)
    simp only [List.length_nil, List.length_cons] at this
    rw [show 0 + 1 + 1 + (n + 2) = n + 4 by omega] at this
    have e : ([91, 34, 34] : Bytes) ++ [44] ++ 34 :: (List.replicate n 97 ++ [34, 93])
        = longStringDoc n := by
      simp [longStringDoc]
    rw [e] at this
    exact this
  have f3 : findChar (longStringDoc n) 34 (n + 6) 1 = none := by
    have hp := (peek_of_drop _ _ _ _ (longStringDoc_tail n)).2.2.1
    rw [findChar, show n + 5 + 1 = n + 6 from rfl] at *
    rw [hp]
    rfl
  rw [longStringDoc_length, show n + 7 + 1 = (n + 5) + 3 by omega, countStrings]
  simp only [hcc, Bool.false_eq_true, if_false, f1, false_and]
  rw [show n + 7 - (1 - 0) = n + 6 by omega, quoteEnd_empty]
  simp only []
  rw [countStrings]
  simp only [hcc, Bool.false_eq_true, if_false, false_and]
  rw [show 2 + 1 = 3 from rfl, show n + 6 - (2 + 1 - 1) = n + 4 by omega, f2]
  simp only []
  rw [show n + 4 - (4 - 3) = n + 3 by omega, quoteEnd_long n hn]
  simp only []
  rw [countStrings]
  simp only [hcc, Bool.false_eq_true, if_false, false_and]
  rw [show n + 5 + 1 = n + 6 from rfl, show n + 3 - (n + 6 - 4) = 1 by omega, f3]
  have e : n + 6 - 4 = n + 2 := by omega
  simp only [e]

/-- The case of a string value while the items are counted: the string is added to the
cache unless it is empty, and the value is counted. -/
theorem caseStringValue_count (json : Bytes) (m : Machine) (e : Nat) (sc1 : sStrCache)
    (hq : quoteEnd json m.textBack.cursor m.textBack.left = some e)
    (hp : m.read.pItem = none)
    (hadd : e - (m.textBack.cursor + 1) ≠ 0 →
      m.strCache.addString json (m.textBack.cursor + 1) (e - (m.textBack.cursor + 1)) = .ok sc1
        ∧ sc1.numStr < sc1.numStrMax)
    (hemp : e - (m.textBack.cursor + 1) = 0 → sc1 = m.strCache) :
    caseStringValue json m
      = .ok { m.textBack.textSkip (e - m.textBack.cursor + 1) with
          strCache := sc1
          read := { m.read with items := m.read.items + 1, ctx_stack := m.read.ctx_stack - 1 } } := by
  unfold caseStringValue
  simp only [hq]
  have hp2 : (m.textBack.textSkip (e - m.textBack.cursor + 1)).read.pItem = none := hp
  simp only [hp2]
  by_cases hz : e - (m.textBack.cursor + 1) = 0
  · have hs := hemp hz
    subst hs
    simp only [hz, ne_eq, not_true_eq_false, if_false, bind, Except.bind]
    rw [step_value_count _ _ hp2]
    rfl
  · obtain ⟨ha, hn⟩ := hadd hz
    have ha2 : (m.textBack.textSkip (e - m.textBack.cursor + 1)).strCache.addString json
        (m.textBack.cursor + 1) (e - (m.textBack.cursor + 1)) = .ok sc1 := ha
    simp only [hz, ne_eq, not_false_eq_true, if_true, ha2, liftFault, bind, Except.bind]
    rw [if_neg (by omega)]
    rw [step_value_count _ _ (by exact hp)]
    rfl

theorem contextSwitch_string (env : Env) (cfg : Config) (json : Bytes) (m : Machine)
    (h : m.read.get_context = .ok eJSONCtx.JSON_STRING_VALUE) :
    contextSwitch env cfg json m = caseStringValue json m := by
  unfold contextSwitch
  rw [h]
  rfl

/-- The round at the opening bracket of a root array while the items are counted. -/
theorem round_open_root (env : Env) (cfg : Config) (json : Bytes) (m : Machine) (rest : Bytes)
    (hcfg : cfg.allowRootArray = true) (hd : json.drop m.cursor = 91 :: rest)
    (hs : m.read.ctx_stack = 0)
    (hc : m.read.context.getD 0 eJSONCtx.JSON_ROOT = eJSONCtx.JSON_ROOT)
    (hlen : 1 < m.read.context.length) (hm : m.mem = []) (hlv : m.read.level < 256)
    (he : m.error = JBError.JBERR_NONE) (hl : m.left ≠ 0) (hl2 : m.left < 4294967296) :
    parseRound env cfg json m
      = .ok ({ m with cursor := m.cursor + 1, left := m.left - 1, read := { m.read with
          ctx_stack := 1, context := m.read.context.set 1 eJSONCtx.JSON_ARRAY } }, false) := by
  have hctx := get_context_at m.read 0 (by rw [hs]; rfl) (by norm_num)
  rw [hc] at hctx
  have ht : tokenSwitch cfg json { m with cursor := m.cursor + 1, left := m.left - 1 }
      eJSONCtx.JSON_ROOT 91
      = .ok { m with cursor := m.cursor + 1, left := m.left - 1, read := { m.read with
          ctx_stack := 1, context := m.read.context.set 1 eJSONCtx.JSON_ARRAY } } := by
    unfold tokenSwitch
    simp [Machine.ctxOp, JBParse.push_context, JBParse.set_context, hs, JSON_MAX_CONTEXT, hcfg,
      hm, bind, Except.bind]
  have hg : JBParse.get_context { m.read with
      ctx_stack := 1, context := m.read.context.set 1 eJSONCtx.JSON_ARRAY }
      = .ok eJSONCtx.JSON_ARRAY := by
    rw [get_context_at _ 1 rfl (by norm_num)]
    simp only []
    rw [getD_set_same _ _ _ _ hlen]
  have hr := parseRound_finish env cfg json m _ _ 91 _ _ hd (by norm_num)
    (by norm_num) hl hl2 hctx ht ⟨by simp, by simpa using hlv⟩ he
    (contextSwitch_array env cfg _ _ hg) ⟨by simp, by simpa using hlv⟩
  rw [hr]
  rfl

/-- The round at a comma between two elements of an array. -/
theorem round_comma_array (env : Env) (cfg : Config) (json : Bytes) (m : Machine) (rest : Bytes)
    (hd : json.drop m.cursor = 44 :: rest) (hs : m.read.ctx_stack = 1)
    (hc : m.read.context.getD 1 eJSONCtx.JSON_ROOT = eJSONCtx.JSON_ARRAY)
    (hlv : m.read.level < 256)
    (he : m.error = JBError.JBERR_NONE) (hl : m.left ≠ 0) (hl2 : m.left < 4294967296) :
    parseRound env cfg json m
      = .ok ({ m with cursor := m.cursor + 1, left := m.left - 1 }, false) := by
  have hctx := get_context_at m.read 1 (by rw [hs]; rfl) (by norm_num)
  rw [hc] at hctx
  have ht : tokenSwitch cfg json { m with cursor := m.cursor + 1, left := m.left - 1 }
      eJSONCtx.JSON_ARRAY 44 = .ok { m with cursor := m.cursor + 1, left := m.left - 1 } := by
    simp [tokenSwitch]
  have hr := parseRound_finish env cfg json m _ _ 44 _ _ hd (by norm_num)
    (by norm_num) hl hl2 hctx ht ⟨by simp [hs], by simpa using hlv⟩ he
    (contextSwitch_array env cfg _ _ hctx) ⟨by simp [hs], by simpa using hlv⟩
  rw [hr]
  simp [hs]

/-- The round at the closing bracket of the root array while the items are counted: the
loop ends. -/
theorem round_close_array (env : Env) (cfg : Config) (json : Bytes) (m : Machine) (rest : Bytes)
    (hd : json.drop m.cursor = 93 :: rest) (hs : m.read.ctx_stack = 1)
    (hc : m.read.context.getD 1 eJSONCtx.JSON_ROOT = eJSONCtx.JSON_ARRAY)
    (hlen : 1 < m.read.context.length) (hp : m.read.pItem = none) (hlv : m.read.level < 256)
    (he : m.error = JBError.JBERR_NONE) (hl : m.left ≠ 0) (hl2 : m.left < 4294967296) :
    parseRound env cfg json m
      = .ok ({ m with cursor := m.cursor + 1, left := m.left - 1, read := { m.read with
          ctx_stack := 0, context := m.read.context.set 1 eJSONCtx.JSON_ARRAY_CLOSE } },
          true) := by
  have hctx := get_context_at m.read 1 (by rw [hs]; rfl) (by norm_num)
  rw [hc] at hctx
  have ht : tokenSwitch cfg json { m with cursor := m.cursor + 1, left := m.left - 1 }
      eJSONCtx.JSON_ARRAY 93
      = .ok { m with cursor := m.cursor + 1, left := m.left - 1, read := { m.read with
          context := m.read.context.set 1 eJSONCtx.JSON_ARRAY_CLOSE } } := by
    unfold tokenSwitch
    simp [Machine.ctxOp, JBParse.set_context, hs, JSON_MAX_CONTEXT]
  have hg3 : JBParse.get_context { m.read with
      context := m.read.context.set 1 eJSONCtx.JSON_ARRAY_CLOSE }
      = .ok eJSONCtx.JSON_ARRAY_CLOSE := by
    rw [get_context_at _ 1 (by simp [hs]) (by norm_num)]
    simp only []
    rw [getD_set_same _ _ _ _ hlen]
  have hr := parseRound_finish env cfg json m _ _ 93 _ _ hd (by norm_num)
    (by norm_num) hl hl2 hctx ht ⟨by simp [hs], by simpa using hlv⟩ he
    (contextSwitch_close env cfg _ _ hg3)
    ⟨by simp [caseClose, hs], by simpa [caseClose, hp] using hlv⟩
  rw [hr]
  simp [caseClose, hs, hp]

/-- The round at a string in an array while the items are counted: the string that ends at
`e` is added to the cache unless it is empty, and the value is counted. -/
theorem round_string_array (env : Env) (cfg : Config) (json : Bytes) (m : Machine)
    (rest : Bytes) (e : Nat) (sc1 : sStrCache)
    (hd : json.drop m.cursor = 34 :: rest) (hs : m.read.ctx_stack = 1)
    (hc : m.read.context.getD 1 eJSONCtx.JSON_ROOT = eJSONCtx.JSON_ARRAY)
    (hlen : 2 < m.read.context.length) (hp : m.read.pItem = none) (hlv : m.read.level < 256)
    (he : m.error = JBError.JBERR_NONE) (hl : m.left ≠ 0) (hl2 : m.left < 4294967296)
    (hq : quoteEnd json m.cursor m.left = some e) (he1 : m.cursor < e)
    (he2 : e < m.cursor + m.left)
    (hadd : e - (m.cursor + 1) ≠ 0 →
      m.strCache.addString json (m.cursor + 1) (e - (m.cursor + 1)) = .ok sc1
        ∧ sc1.numStr < sc1.numStrMax)
    (hemp : e - (m.cursor + 1) = 0 → sc1 = m.strCache) :
    parseRound env cfg json m
      = .ok (⟨{ m.read with
            items := m.read.items + 1
            context := m.read.context.set 2 eJSONCtx.JSON_STRING_VALUE },
          sc1, m.mem, e + 1, m.left - (e + 1 - m.cursor), m.error⟩, false) := by
  have hctx := get_context_at m.read 1 (by rw [hs]; rfl) (by norm_num)
  rw [hc] at hctx
  have ht : tokenSwitch cfg json { m with cursor := m.cursor + 1, left := m.left - 1 }
      eJSONCtx.JSON_ARRAY 34
      = .ok { m with cursor := m.cursor + 1, left := m.left - 1, read := { m.read with
          ctx_stack := 2, context := m.read.context.set 2 eJSONCtx.JSON_STRING_VALUE } } := by
    unfold tokenSwitch
    simp [Machine.ctxOp, JBParse.push_context, JBParse.set_context, hs, JSON_MAX_CONTEXT]
  have hg : JBParse.get_context { m.read with
      ctx_stack := 2, context := m.read.context.set 2 eJSONCtx.JSON_STRING_VALUE }
      = .ok eJSONCtx.JSON_STRING_VALUE := by
    rw [get_context_at _ 2 rfl (by norm_num)]
    simp only []
    rw [getD_set_same _ _ _ _ hlen]
  have hb : Machine.textBack { m with cursor := m.cursor + 1, left := m.left - 1, read :=
      { m.read with
        ctx_stack := 2, context := m.read.context.set 2 eJSONCtx.JSON_STRING_VALUE } }
      = { m with read := { m.read with
        ctx_stack := 2, context := m.read.context.set 2 eJSONCtx.JSON_STRING_VALUE } } := by
    have hu : u32 (m.left - 1 + 1) = m.left := by
      unfold u32
      omega
    unfold Machine.textBack
    simp only [hu, Nat.add_sub_cancel]
  have hcase := caseStringValue_count json
    { m with cursor := m.cursor + 1, left := m.left - 1, read :=
      { m.read with
        ctx_stack := 2, context := m.read.context.set 2 eJSONCtx.JSON_STRING_VALUE } } e sc1
    (by rw [hb]; exact hq) hp (by rw [hb]; exact hadd) (by rw [hb]; exact hemp)
  rw [hb] at hcase
  have hskip : u32 (m.left + 4294967296 - u32 (e - m.cursor + 1)) = m.left - (e + 1 - m.cursor) := by
    unfold u32
    omega
  have hcur : m.cursor + (e - m.cursor + 1) = e + 1 := by omega
  have hr := parseRound_finish env cfg json m _ _ 34 _ _ hd (by norm_num)
    (by norm_num) hl hl2 hctx ht ⟨by simp, by simpa using hlv⟩ he
    ((contextSwitch_string env cfg _ _ hg).trans hcase)
    ⟨by simp [Machine.textSkip], by simpa [Machine.textSkip] using hlv⟩
  rw [hr]
  simp [Machine.textSkip, hskip, hcur, hs]

theorem getD_replicate_zero (k i : Nat) : (List.replicate k 0).getD i 0 = 0 := by
  rw [List.getD_eq_getElem?_getD, List.getElem?_replicate]
  split <;> rfl

/-- The first string that is added to a new cache takes the entry 0. -/
theorem addString_first (json : Bytes) (str len k : Nat) (hk : 0 < k) :
    ∃ sc1, (sStrCache.init k).addString json str len = .ok sc1
      ∧ sc1.numStr = 1 ∧ sc1.numStrMax = k
      ∧ sc1.aStrLen = (List.replicate k 0).set 0 len
      ∧ sc1.apStrings = (List.replicate k 0).set 0 str := by
  have hf : (sStrCache.init k).findHash (fnv1A (json.drop str) len) = 0 := by
    unfold sStrCache.findHash sStrCache.init
    simp only [getD_replicate_zero]
    rfl
  have hs : (sStrCache.init k).findStr json str len (fnv1A (json.drop str) len)
      ((sStrCache.init k).numStr + 1) 0 = 0 := rfl
  unfold sStrCache.addString
  simp only [hf, hs, if_true]
  rw [if_pos (by exact hk)]
  exact ⟨_, rfl, rfl, rfl, rfl, rfl⟩

/-- The parser state of the first pass over `longStringDoc n`: the stack of contexts has
`stack` entries above the root, `items` items are counted. -/
theorem pass_long_rounds (env : Env) (cfg : Config) (n : Nat) (hcfg : cfg.allowRootArray = true)
    (hn1 : 1 ≤ n) (hn : n + 7 < 4294967296) (H : List (Option Nat × Option Nat))
    (sc1 : sStrCache)
    (a1 : (sStrCache.init 2).addString (longStringDoc n) 5 n = .ok sc1)
    (a2 : sc1.numStr = 1) (a3 : sc1.numStrMax = 2) :
    parseLoop env cfg (longStringDoc n) (n + 3 + 5)
        ⟨⟨0, 0, 1, none, JBParse.zero.context, H⟩, sStrCache.init 2, [], 0, n + 7,
          JBError.JBERR_NONE⟩
      = .ok ⟨⟨0, 0, 3, none,
          ((((JBParse.zero.context.set 1 eJSONCtx.JSON_ARRAY).set 2
            eJSONCtx.JSON_STRING_VALUE).set 2 eJSONCtx.JSON_STRING_VALUE).set 1
              eJSONCtx.JSON_ARRAY_CLOSE), H⟩, sc1, [], n + 7, 0, JBError.JBERR_NONE⟩ := by
  have hc0 : JBParse.zero.context.length = 256 := zero_context_length
  have d0 : (longStringDoc n).drop 0
      = 91 :: ([34, 34, 44, 34] ++ List.replicate n 97 ++ [34, 93]) := rfl
  have d1 : (longStringDoc n).drop 1
      = 34 :: ([34, 44, 34] ++ List.replicate n 97 ++ [34, 93]) := rfl
  have d3 : (longStringDoc n).drop 3 = 44 :: ([34] ++ List.replicate n 97 ++ [34, 93]) := rfl
  have d4 : (longStringDoc n).drop 4 = 34 :: (List.replicate n 97 ++ [34, 93]) := rfl
  have d6 : (longStringDoc n).drop (n + 6) = [93] :=
    (peek_of_drop _ _ _ _ (longStringDoc_tail n)).2.2.2
  have r1 := round_open_root env cfg (longStringDoc n)
    ⟨⟨0, 0, 1, none, JBParse.zero.context, H⟩, sStrCache.init 2, [], 0, n + 7,
      JBError.JBERR_NONE⟩ _ hcfg d0 rfl zero_context_root (by rw [hc0]; decide) rfl
    (by show (0 : Int) < 256; decide) rfl (by show n + 7 ≠ 0; omega) hn
  have g1 : (JBParse.zero.context.set 1 eJSONCtx.JSON_ARRAY).getD 1 eJSONCtx.JSON_ROOT
      = eJSONCtx.JSON_ARRAY := getD_set_same _ _ _ _ (by rw [hc0]; decide)
  have r2 := round_string_array env cfg (longStringDoc n)
    ⟨⟨1, 0, 1, none, JBParse.zero.context.set 1 eJSONCtx.JSON_ARRAY, H⟩, sStrCache.init 2, [],
      1, n + 6, JBError.JBERR_NONE⟩ _ 2 (sStrCache.init 2) d1 rfl g1
    (by rw [List.length_set, hc0]; decide) rfl (by show (0 : Int) < 256; decide) rfl (by show n + 6 ≠ 0; omega)
    (by show n + 6 < 4294967296; omega) (quoteEnd_empty n) (by show (1 : Nat) < 2; decide)
    (by show 2 < 1 + (n + 6); omega) (fun h => absurd rfl h) (fun _ => rfl)
  have g2 : ((JBParse.zero.context.set 1 eJSONCtx.JSON_ARRAY).set 2
      eJSONCtx.JSON_STRING_VALUE).getD 1 eJSONCtx.JSON_ROOT = eJSONCtx.JSON_ARRAY := by
    rw [getD_set_other _ _ _ _ _ (by decide)]
    exact g1
  have r3 := round_comma_array env cfg (longStringDoc n)
    ⟨⟨1, 0, 2, none, (JBParse.zero.context.set 1 eJSONCtx.JSON_ARRAY).set 2
      eJSONCtx.JSON_STRING_VALUE, H⟩, sStrCache.init 2, [], 3, n + 4, JBError.JBERR_NONE⟩ _
    d3 rfl g2 (by show (0 : Int) < 256; decide) rfl (by show n + 4 ≠ 0; omega) (by show n + 4 < 4294967296; omega)
  have r4 := round_string_array env cfg (longStringDoc n)
    ⟨⟨1, 0, 2, none, (JBParse.zero.context.set 1 eJSONCtx.JSON_ARRAY).set 2
      eJSONCtx.JSON_STRING_VALUE, H⟩, sStrCache.init 2, [], 4, n + 3, JBError.JBERR_NONE⟩ _
    (n + 5) sc1 d4 rfl g2 (by rw [List.length_set, List.length_set, hc0]; decide) rfl
    (by show (0 : Int) < 256; decide) rfl (by show n + 3 ≠ 0; omega) (by show n + 3 < 4294967296; omega)
    (quoteEnd_long n hn1) (by show 4 < n + 5; omega) (by show n + 5 < 4 + (n + 3); omega)
    (fun _ => ⟨by
      show (sStrCache.init 2).addString (longStringDoc n) (4 + 1) (n + 5 - (4 + 1)) = _
      rw [show n + 5 - (4 + 1) = n by omega]
      exact a1, by rw [a2, a3]; decide⟩)
    (fun h => by
      exfalso
      have h2 : n + 5 - (4 + 1) = 0 := h
      omega)
  have g4 : (((JBParse.zero.context.set 1 eJSONCtx.JSON_ARRAY).set 2
      eJSONCtx.JSON_STRING_VALUE).set 2 eJSONCtx.JSON_STRING_VALUE).getD 1 eJSONCtx.JSON_ROOT
      = eJSONCtx.JSON_ARRAY := by
    rw [getD_set_other _ _ _ _ _ (by decide)]
    exact g2
  have r5 := round_close_array env cfg (longStringDoc n)
    ⟨⟨1, 0, 3, none, ((JBParse.zero.context.set 1 eJSONCtx.JSON_ARRAY).set 2
      eJSONCtx.JSON_STRING_VALUE).set 2 eJSONCtx.JSON_STRING_VALUE, H⟩, sc1, [], n + 6, 1,
      JBError.JBERR_NONE⟩ _ d6 rfl g4
    (by rw [List.length_set, List.length_set, List.length_set, hc0]; decide) rfl
    (by show (0 : Int) < 256; decide) rfl (by show (1 : Nat) ≠ 0; decide) (by show (1 : Nat) < 4294967296; decide)
  rw [parseLoop, if_pos ⟨by show n + 7 ≠ 0; omega, rfl⟩, r1]
  simp only []
  rw [show n + 3 + 4 = (n + 3 + 3) + 1 from rfl, parseLoop,
    if_pos ⟨by show n + 7 - 1 ≠ 0; omega, rfl⟩]
  rw [show n + 7 - 1 = n + 6 by omega, show 0 + 1 = 1 from rfl, r2]
  simp only []
  rw [parseLoop, if_pos ⟨by show n + 6 - (2 + 1 - 1) ≠ 0; omega, rfl⟩]
  rw [show n + 6 - (2 + 1 - 1) = n + 4 by omega, show 2 + 1 = 3 from rfl,
    show (1 : Int) + 1 = 2 from rfl, r3]
  simp only []
  rw [parseLoop, if_pos ⟨by show n + 4 - 1 ≠ 0; omega, rfl⟩]
  rw [show n + 4 - 1 = n + 3 by omega, show 3 + 1 = 4 from rfl, r4]
  simp only []
  rw [parseLoop, if_pos ⟨by show n + 3 - (n + 5 + 1 - 4) ≠ 0; omega, rfl⟩]
  rw [show n + 3 - (n + 5 + 1 - 4) = 1 by omega, show n + 5 + 1 = n + 6 from rfl,
    show (2 : Int) + 1 = 3 from rfl, r5]
  rfl

/-- The first pass over `longStringDoc n`, from the start of `JSONBin`: it ends without an
error behind the text, and the cache holds one string, the `n` letters at offset 5. -/
theorem pass_long (env : Env) (cfg : Config) (n : Nat) (hcfg : cfg.allowRootArray = true)
    (hn1 : 1 ≤ n) (hn : n + 7 < 4294967296) :
    ∃ m0 m1, startPass ⟨JBParse.zero, sStrCache.init 2, [], 0, 0, JBError.JBERR_NONE⟩
          (longStringDoc n).length = .ok m0
      ∧ parseLoop env cfg (longStringDoc n) ((longStringDoc n).length + 1) m0 = .ok m1
      ∧ m1.strCache.numStr = 1 ∧ m1.strCache.aStrLen = [n, 0]
      ∧ m1.strCache.apStrings = [5, 0] ∧ m1.error = JBError.JBERR_NONE
      ∧ m1.cursor = n + 7 ∧ m1.left = 0 ∧ m1.read.items = 3 := by
  obtain ⟨sc1, a1, a2, a3, a4, a5⟩ := addString_first (longStringDoc n) 5 n 2 (by decide)
  have hr := pass_long_rounds env cfg n hcfg hn1 hn (JBParse.zero.aHier.set 0 (none, none)) sc1
    a1 a2 a3
  refine ⟨⟨⟨0, 0, 1, none, JBParse.zero.context, JBParse.zero.aHier.set 0 (none, none)⟩,
    sStrCache.init 2, [], 0, n + 7, JBError.JBERR_NONE⟩,
    ⟨⟨0, 0, 3, none,
          ((((JBParse.zero.context.set 1 eJSONCtx.JSON_ARRAY).set 2
            eJSONCtx.JSON_STRING_VALUE).set 2 eJSONCtx.JSON_STRING_VALUE).set 1
              eJSONCtx.JSON_ARRAY_CLOSE), JBParse.zero.aHier.set 0 (none, none)⟩, sc1, [],
      n + 7, 0, JBError.JBERR_NONE⟩, ?_, ?_, a2, ?_, ?_, rfl, rfl, rfl, rfl⟩
  · rw [longStringDoc_length]
    rfl
  · rw [longStringDoc_length]
    exact hr
  · rw [a4]
    rfl
  · rw [a5]
    rfl

theorem stripBom_long (cfg : Config) (n : Nat) : stripBom cfg (longStringDoc n) = longStringDoc n := by
  unfold stripBom
  rw [if_neg]
  intro h
  have : peek (longStringDoc n) 0 = 91 := rfl
  rw [this] at h
  exact absurd h.2.2.1 (by decide)

/-- `JSONBin` on `["","aa...a"]` with 2^31 letters or more: the loop over `toEncoding`
writes the string behind the end of the block, which was sized for its terminator only. -/
theorem JSONBin_long_string (env : Env) (cfg : Config) (n : Nat)
    (hcfg : cfg.allowRootArray = true) (hcc : cfg.allowCComments = false)
    (hw : env.mallocWork = true) (hc : env.callocRet = true) (hs : env.mallocRetStr = true)
    (hn1 : 2147483648 ≤ n) (hn : n + 7 < 4294967296) :
    JSONBin env cfg (longStringDoc n) JBRet.zero = Outcome.undefined Fault.blobWrite := by
  obtain ⟨m0, m1, h0, h1, e1, e2, _, _⟩ := pass_long env cfg n hcfg (by omega) hn
  have hu : ∀ j, m1.strCache.aStrLen.getD j 0 < 4294967296 := by
    intro j
    rw [e2]
    rcases j with _ | _ | j
    · show n < 4294967296
      omega
    · show 0 < 4294967296
      decide
    · show 0 < 4294967296
      decide
  have hp := (long_string_overruns env cfg (longStringDoc n) (sStrCache.init 2)
    { JBRet.zero with text_orig := u32 (u32 (0 + 2) + (n + 2)), strings_orig := 2 } m0 m1 0 h0
    h1 hc hs hu (by rw [e1]; decide) (by rw [e2]; exact hn1)).2.2.2
  unfold JSONBin
  simp only [stripBom_long, countStrings_long cfg n hcc (by omega), hw, if_true]
  rw [hp]
  rfl

/-- C30. A string of 2^31 bytes or more in the cache is counted with no byte but written:
`getStrLen` and `toEncoding` take the length as `int left`, negative here; `getStrLen`
loops `while (left > 0)` and returns 0, `toEncoding` loops `while (left)` and stores at
least one byte before the terminator.  So when the first pass has ended with such a string
in the cache and the allocations succeed, the strings written take more than the
`string_bytes` the block was sized with: the loop over `toEncoding` writes behind the end
of the block, where the claim says the size computed equals what is written and no write
goes past the end of the allocation.  The text `["","aa...a"]` with `n` letters is such an
input for every `n` from 2^31 on that keeps the text below 4 GiB: `JSONBin` writes behind
the block, whereas with three letters it returns the tree and `text_size = 4`. -/
theorem C30_long_string_overruns_blob (env : Env) (cfg : Config) (json : Bytes)
    (sc : sStrCache) (info : JBRet) (m0 m1 : Machine) (i : Nat)
    (h0 : startPass ⟨JBParse.zero, sc, [], 0, 0, JBError.JBERR_NONE⟩ json.length = .ok m0)
    (h1 : parseLoop env cfg json (json.length + 1) m0 = .ok m1)
    (hcal : env.callocRet = true) (hstr : env.mallocRetStr = true)
    (hu : ∀ j, m1.strCache.aStrLen.getD j 0 < 4294967296)
    (hi : i < m1.strCache.numStr) (hlen : 2147483648 ≤ m1.strCache.aStrLen.getD i 0) :
    getStrLenInt cfg (json.drop (m1.strCache.apStrings.getD i 0))
        (toInt32 (m1.strCache.aStrLen.getD i 0 : Int)) = 0
      ∧ (∃ w, toEncodingInt cfg (m1.strCache.aStrLen.getD i 0 + 1)
            (json.drop (m1.strCache.apStrings.getD i 0))
            (toInt32 (m1.strCache.aStrLen.getD i 0 : Int)) [] = .ok w ∧ 1 ≤ w.length)
      ∧ (∃ ws, encodeStrings cfg json m1.strCache = .ok ws
          ∧ stringBytes cfg json m1.strCache < ws.flatten.length)
      ∧ passes env cfg json sc info = .error (Stop.fault Fault.blobWrite)
      ∧ (∀ n : Nat, 2147483648 ≤ n → n + 7 < 4294967296 →
          JSONBin okEnv defaultConfig (longStringDoc n) JBRet.zero
            = Outcome.undefined Fault.blobWrite)
      ∧ JSONBin okEnv defaultConfig (longStringDoc 3) JBRet.zero
          = Outcome.returned (some ⟨[⟨0, .JB_ARRAY, 0, 0, .i 2⟩, ⟨0, .JB_STRING, 1, 0, .i 0⟩,
              ⟨0, .JB_STRING, 0, 0, .s 4⟩], [97, 97, 97, 0]⟩)
              ⟨52, 10, 3, 4, 7, 1, 2, .JBERR_NONE, 0, 0⟩ := by
  obtain ⟨g1, g2, g3, g4⟩ :=
    long_string_overruns env cfg json sc info m0 m1 i h0 h1 hcal hstr hu hi hlen
  exact ⟨g1, g2, g3, g4,
    fun n hn1 hn => JSONBin_long_string okEnv defaultConfig n rfl rfl rfl rfl rfl hn1 hn,
    by decide!⟩

/-- C30 at the text `["","aa...a"]` with 2^31 letters: the first pass of `JSONBin` ends
with the string of 2^31 bytes in the cache, so the hypotheses hold; `getStrLen` of it is 0,
the passes end in the write behind the block, and so does `JSONBin`. -/
theorem C30_long_string_overruns_blob_witness :
    ∃ m0 m1 : Machine,
      startPass ⟨JBParse.zero, sStrCache.init 2, [], 0, 0, JBError.JBERR_NONE⟩
          (longStringDoc 2147483648).length = .ok m0
      ∧ parseLoop okEnv defaultConfig (longStringDoc 2147483648)
          ((longStringDoc 2147483648).length + 1) m0 = .ok m1
      ∧ okEnv.callocRet = true ∧ okEnv.mallocRetStr = true
      ∧ (∀ j, m1.strCache.aStrLen.getD j 0 < 4294967296)
      ∧ 0 < m1.strCache.numStr ∧ 2147483648 ≤ m1.strCache.aStrLen.getD 0 0
      ∧ getStrLenInt defaultConfig
          ((longStringDoc 2147483648).drop (m1.strCache.apStrings.getD 0 0))
          (toInt32 (m1.strCache.aStrLen.getD 0 0 : Int)) = 0
      ∧ passes okEnv defaultConfig (longStringDoc 2147483648) (sStrCache.init 2) JBRet.zero
          = .error (Stop.fault Fault.blobWrite)
      ∧ JSONBin okEnv defaultConfig (longStringDoc 2147483648) JBRet.zero
          = Outcome.undefined Fault.blobWrite := by
  obtain ⟨m0, m1, h0, h1, e1, e2, _, _⟩ :=
    pass_long okEnv defaultConfig 2147483648 rfl (by decide) (by decide)
  have hu : ∀ j, m1.strCache.aStrLen.getD j 0 < 4294967296 := by
    intro j
    rw [e2]
    rcases j with _ | _ | j
    · show 2147483648 < 4294967296
      decide
    · show 0 < 4294967296
      decide
    · show 0 < 4294967296
      decide
  have hi : 0 < m1.strCache.numStr := by
    rw [e1]
    decide
  have hl : 2147483648 ≤ m1.strCache.aStrLen.getD 0 0 := by
    rw [e2]
    exact le_refl _
  obtain ⟨g1, _, _, g4, g5, _⟩ := C30_long_string_overruns_blob okEnv defaultConfig (longStringDoc 2147483648)
    (sStrCache.init 2) JBRet.zero m0 m1 0 h0 h1 rfl rfl hu hi hl
  exact ⟨m0, m1, h0, h1, rfl, rfl, hu, hi, hl, g1, g4, g5 2147483648 (le_refl _) (by decide)⟩

/-! ## The position of an error (claim C31) -/

theorem afterLastNewline_snoc_newline (w : Bytes) : afterLastNewline (w ++ [10]) = w.length + 1 := by
  simp [afterLastNewline]

theorem afterLastNewline_snoc (w : Bytes) (b : Nat) (hb : b ≠ 10) :
    afterLastNewline (w ++ [b]) = afterLastNewline w := by
  simp [afterLastNewline, List.takeWhile_cons, hb]

theorem afterLastNewline_le (w : Bytes) : afterLastNewline w ≤ w.length := by
  unfold afterLastNewline
  omega

/-- The scan of the error position: after `n` bytes the line is 1 plus the number of
newlines among them, and the line starts behind the last of these newlines. -/
theorem lineScan_eq (json : Bytes) (n : Nat) :
    lineScan json n
      = (1 + ((json.take n).count 10 : Int), afterLastNewline (json.take n)) := by
  induction n with
  | zero => simp [lineScan, afterLastNewline]
  | succ n ih =>
    unfold lineScan
    by_cases hlt : n < json.length
    · have ht : json.take (n + 1) = json.take n ++ [json[n]] := by
        rw [List.take_succ]
        simp [List.getElem?_eq_getElem hlt]
      have hp : peek json n = json[n] := by
        unfold peek
        rw [List.getD_eq_getElem?_getD, List.getElem?_eq_getElem hlt]
        rfl
      rw [hp, ht]
      by_cases h10 : json[n] = 10
      · have hc : List.count 10 [json[n]] = 1 := by rw [h10]; rfl
        rw [if_pos h10, ih, List.count_append, hc, h10, afterLastNewline_snoc_newline,
          List.length_take, Nat.min_eq_left (le_of_lt hlt)]
        simp only [Prod.mk.injEq, and_true]
        push_cast
        ring
      · have hc : List.count 10 [json[n]] = 0 :=
          List.count_eq_zero.2 (by simpa using fun h => h10 h.symm)
        rw [if_neg h10, ih, List.count_append, hc, afterLastNewline_snoc _ _ h10, Nat.add_zero]
    · have hp : peek json n = 0 := by
        unfold peek
        rw [List.getD_eq_getElem?_getD, List.getElem?_eq_none (by omega)]
        rfl
      have ht : json.take (n + 1) = json.take n := by
        rw [List.take_of_length_le (by omega), List.take_of_length_le (by omega)]
      rw [hp, if_neg (by decide), ih, ht]

/-- What `finish` writes about the position of an error. -/
theorem finish_position (text : Bytes) (ps : Passes) (ret : Option JBTree) (r : JBRet)
    (h : finish text ps = Outcome.returned ret r) (he : r.error_code ≠ JBError.JBERR_NONE) :
    ret = none ∧ r.bytes_read = ps.m.cursor
      ∧ (r.error_code ≠ JBError.JBERR_OUT_OF_MEMORY →
          r.err_line = toInt32 (lineScan text ps.m.cursor).1
          ∧ r.err_column
            = toInt32 ((ps.m.cursor : Int) - ((lineScan text ps.m.cursor).2 : Int) + 1))
      ∧ (r.error_code = JBError.JBERR_OUT_OF_MEMORY → r.err_line = 0 ∧ r.err_column = 0) := by
  unfold finish at h
  by_cases hn : ps.m.error = JBError.JBERR_NONE
  · simp only [hn, ne_eq, not_true_eq_false, false_or, if_false] at h
    injection h with h1 h2
    rw [← h2] at he
    exact absurd rfl he
  · simp only [hn, ne_eq, not_false_eq_true, true_or, if_true] at h
    by_cases ho : ps.m.error = JBError.JBERR_OUT_OF_MEMORY
    · simp only [ho, not_true_eq_false, if_false] at h
      injection h with h1 h2
      subst h2
      exact ⟨h1.symm, rfl, fun hx => absurd rfl hx, fun _ => ⟨rfl, rfl⟩⟩
    · simp only [ho, not_false_eq_true, if_true] at h
      injection h with h1 h2
      subst h2
      exact ⟨h1.symm, rfl, fun _ => ⟨rfl, rfl⟩, fun hx => absurd hx ho⟩

/-- A call of JSONBin that returns ends in `finish`. -/
theorem JSONBin_returned (env : Env) (cfg : Config) (json : Bytes) (info : JBRet)
    (ret : Option JBTree) (r : JBRet) (h : JSONBin env cfg json info = Outcome.returned ret r) :
    ∃ ps, finish (stripBom cfg json) ps = Outcome.returned ret r := by
  unfold JSONBin at h
  simp only [] at h
  split at h
  · exact absurd h (ofStop_ne _ _ _)
  · split_ifs at h with hm
    · split at h
      · exact absurd h (ofStop_ne _ _ _)
      · exact ⟨_, h⟩
    · exact ⟨_, h⟩

theorem count_le_of_take (w : Bytes) (n : Nat) : (w.take n).count 10 ≤ n := by
  have h1 := List.count_le_length 10 (w.take n)
  have h2 : (w.take n).length ≤ n := by
    rw [List.length_take]
    exact Nat.min_le_left _ _
  omega

theorem afterLastNewline_take_le (w : Bytes) (n : Nat) : afterLastNewline (w.take n) ≤ n := by
  have h1 := afterLastNewline_le (w.take n)
  have h2 : (w.take n).length ≤ n := by
    rw [List.length_take]
    exact Nat.min_le_left _ _
  omega

/-- C31 (amended). When JSONBin returns with an error other than
`JBERR_OUT_OF_MEMORY`, it returns a null pointer, `err_line` is 1 plus the number of
newline bytes among the first `bytes_read` bytes of the input behind the byte order mark,
and `err_column` is `bytes_read` minus the offset of the first byte behind the last of
these newlines (0 when there is none) plus 1, both converted to `int`; they are these
numbers themselves when `bytes_read` is below `2^31 - 1`.  With `JBERR_OUT_OF_MEMORY` both
are 0. -/
theorem C31_error_position (env : Env) (cfg : Config) (json : Bytes) (info : JBRet)
    (ret : Option JBTree) (r : JBRet)
    (h : JSONBin env cfg json info = Outcome.returned ret r)
    (he : r.error_code ≠ JBError.JBERR_NONE) :
    ret = none
      ∧ (r.error_code ≠ JBError.JBERR_OUT_OF_MEMORY →
          r.err_line = toInt32 (1 + (((stripBom cfg json).take r.bytes_read).count 10 : Int))
          ∧ r.err_column = toInt32 ((r.bytes_read : Int)
              - (afterLastNewline ((stripBom cfg json).take r.bytes_read) : Int) + 1)
          ∧ (r.bytes_read < 2147483647 →
              r.err_line = 1 + (((stripBom cfg json).take r.bytes_read).count 10 : Int)
              ∧ r.err_column = (r.bytes_read : Int)
                - (afterLastNewline ((stripBom cfg json).take r.bytes_read) : Int) + 1))
      ∧ (r.error_code = JBError.JBERR_OUT_OF_MEMORY → r.err_line = 0 ∧ r.err_column = 0) := by
  obtain ⟨ps, hf⟩ := JSONBin_returned env cfg json info ret r h
  obtain ⟨h1, h2, h3, h4⟩ := finish_position _ ps ret r hf he
  refine ⟨h1, ?_, h4⟩
  intro ho
  obtain ⟨hl, hc⟩ := h3 ho
  rw [lineScan_eq, ← h2] at hl hc
  refine ⟨hl, hc, ?_⟩
  intro hb
  have c1 := count_le_of_take (stripBom cfg json) r.bytes_read
  have c2 := afterLastNewline_take_le (stripBom cfg json) r.bytes_read
  rw [hl, hc]
  constructor
  · unfold toInt32
    omega
  · unfold toInt32
    omega

/-- C31 (amended) at the text `{`, newline, `]`: the error is met after 3 bytes, on line 2
at column 2. -/
theorem C31_error_position_witness :
    (none : Option JBTree) = none
      ∧ (JBError.JBERR_UNEXPECTED_CLOSE_BRACKET ≠ JBError.JBERR_OUT_OF_MEMORY →
          (2 : Int) = toInt32 (1 + (((stripBom defaultConfig (bytesOf "\x7b\n]")).take 3).count 10 : Int))
          ∧ (2 : Int) = toInt32 (((3 : Nat) : Int)
              - (afterLastNewline ((stripBom defaultConfig (bytesOf "\x7b\n]")).take 3) : Int) + 1)
          ∧ (3 < 2147483647 →
              (2 : Int) = 1 + (((stripBom defaultConfig (bytesOf "\x7b\n]")).take 3).count 10 : Int)
              ∧ (2 : Int) = ((3 : Nat) : Int)
                - (afterLastNewline ((stripBom defaultConfig (bytesOf "\x7b\n]")).take 3) : Int) + 1))
      ∧ (JBError.JBERR_UNEXPECTED_CLOSE_BRACKET = JBError.JBERR_OUT_OF_MEMORY →
          (2 : Int) = 0 ∧ (2 : Int) = 0) :=
  C31_error_position okEnv defaultConfig (bytesOf "\x7b\n]") JBRet.zero none
    ⟨0, 3, 0, 0, 0, 0, 0, .JBERR_UNEXPECTED_CLOSE_BRACKET, 2, 2⟩ (by decide!) (by decide)

theorem peek_blank (n pos : Nat) (h : pos < n) : peek (blanksBrace n) pos = 32 := by
  unfold peek blanksBrace
  rw [List.getD_eq_getElem?_getD, List.getElem?_append_left (by simpa using h)]
  simp [List.getElem?_replicate, h]

theorem get_brace (n : Nat) : (blanksBrace n).get? n = some 125 := by
  unfold blanksBrace
  rw [List.get?_eq_getElem?, List.getElem?_append_right (by simp)]
  simp

theorem peek_brace (n : Nat) : peek (blanksBrace n) n = 125 := by
  have h := get_brace n
  unfold peek
  rw [List.getD_eq_getElem?_getD]
  rw [List.get?_eq_getElem?] at h
  rw [h]
  rfl

theorem blanksBrace_length (n : Nat) : (blanksBrace n).length = n + 1 := by
  simp [blanksBrace]

theorem blanksBrace_mem (n b : Nat) (h : b ∈ blanksBrace n) : b = 32 ∨ b = 125 := by
  unfold blanksBrace at h
  rcases List.mem_append.1 h with h | h
  · exact Or.inl (List.eq_of_mem_replicate h)
  · exact Or.inr (by simpa using h)

theorem whiteSpace_blanks (cfg : Config) (n : Nat) :
    ∀ (k pos : Nat), pos + k = n → getWhiteSpaceSize cfg (blanksBrace n) pos (k + 1) = k := by
  intro k
  induction k with
  | zero =>
    intro pos hp
    have : pos = n := by omega
    subst this
    unfold getWhiteSpaceSize
    rw [peek_brace]
    simp [isSpaceByte]
  | succ k ih =>
    intro pos hp
    unfold getWhiteSpaceSize
    rw [peek_blank n pos (by omega)]
    have hs : isSpaceByte cfg 32 = true := by simp [isSpaceByte]
    rw [if_pos hs, ih (pos + 1) (by omega)]

theorem stripBom_blanks (cfg : Config) (n : Nat) : stripBom cfg (blanksBrace n) = blanksBrace n := by
  unfold stripBom
  rw [if_neg]
  intro h
  have h0 := h.2.2.1
  by_cases hn : 0 < n
  · rw [peek_blank n 0 hn] at h0
    omega
  · have : n = 0 := by omega
    subst this
    rw [peek_brace 0] at h0
    omega

theorem lineScan_blanks (n k : Nat) : lineScan (blanksBrace n) k = (1, 0) := by
  induction k with
  | zero => rfl
  | succ k ih =>
    unfold lineScan
    have hp : peek (blanksBrace n) k ≠ 10 := by
      unfold peek
      rw [List.getD_eq_getElem?_getD]
      cases hg : (blanksBrace n)[k]? with
      | none => simp
      | some b =>
        have hm : b ∈ blanksBrace n := by
          obtain ⟨hlt, hget⟩ := List.getElem?_eq_some_iff.1 hg
          rw [← hget]
          exact List.getElem_mem _
        rcases blanksBrace_mem n b hm with h | h <;> simp [h]
    rw [if_neg hp, ih]

/-- The one round of the first pass over `blanksBrace n`: the blanks are skipped, and the
closing brace in the context of the root sets `JBERR_UNEXPECTED_CLOSE_BRACE`. -/
theorem parseRound_blanks (env : Env) (cfg : Config) (n : Nat) (sc : sStrCache)
    (aHier : List (Option Nat × Option Nat)) (hn : n + 1 < 4294967296) :
    parseRound env cfg (blanksBrace n)
        ⟨⟨0, 0, 1, none, JBParse.zero.context, aHier⟩, sc, [], 0, n + 1, JBError.JBERR_NONE⟩
      = .ok (⟨⟨0, 0, 1, none, JBParse.zero.context, aHier⟩, sc, [], n + 1, 0,
          JBError.JBERR_UNEXPECTED_CLOSE_BRACE⟩, true) := by
  unfold parseRound
  have hw : getWhiteSpaceSize cfg (blanksBrace n) 0 (n + 1) = n := whiteSpace_blanks cfg n n 0 (by omega)
  simp only [hw]
  have hu : u32 (n + 1 + 4294967296 - u32 n) = 1 := by
    unfold u32
    omega
  have hctx : (⟨0, 0, 1, none, JBParse.zero.context, aHier⟩ : JBParse).get_context
      = .ok eJSONCtx.JSON_ROOT := by
    rw [get_context_at _ 0 rfl (by decide)]
    exact congrArg _ zero_context_root
  unfold Machine.textSkip
  simp only [Nat.zero_add, hu, hctx, liftFault, bind, Except.bind, get_brace]
  have hu2 : u32 (1 + 4294967295) = 0 := by decide
  rw [hu2]
  have ht : tokenSwitch cfg (blanksBrace n)
      ⟨⟨0, 0, 1, none, JBParse.zero.context, aHier⟩, sc, [], n + 1, 0, JBError.JBERR_NONE⟩
      eJSONCtx.JSON_ROOT 125
      = .ok ⟨⟨0, 0, 1, none, JBParse.zero.context, aHier⟩, sc, [], n + 1, 0,
          JBError.JBERR_UNEXPECTED_CLOSE_BRACE⟩ := by
    unfold tokenSwitch
    rw [if_neg (by decide), if_pos rfl, if_neg (by decide)]
    rfl
  rw [ht]
  simp only []
  rw [depthCheck_ok _ (show (0 : Int) < 256 by decide) (show (0 : Int) < 256 by decide)]
  rw [if_pos (show JBError.JBERR_UNEXPECTED_CLOSE_BRACE ≠ JBError.JBERR_NONE by decide)]

theorem countStrings_blanks (n : Nat) :
    countStrings defaultConfig (blanksBrace n) ((blanksBrace n).length + 1) 0 (blanksBrace n).length 0 0
      = .ok (0, 0) := by
  unfold countStrings
  have hf : findChar (blanksBrace n) 34 0 (blanksBrace n).length = none :=
    findChar_none _ 34 (by decide) (fun h => by
      rcases blanksBrace_mem n 34 h with h | h <;> omega) _ _
  rw [if_neg (by decide), hf]

theorem startPass_zero (sc : sStrCache) (size : Nat) :
    startPass ⟨JBParse.zero, sc, [], 0, 0, JBError.JBERR_NONE⟩ size
      = .ok ⟨⟨0, 0, 1, none, JBParse.zero.context, JBParse.zero.aHier.set 0 (none, none)⟩, sc, [],
          0, size, JBError.JBERR_NONE⟩ := rfl

theorem parseLoop_blanks (env : Env) (cfg : Config) (n fuel : Nat) (sc : sStrCache)
    (aHier : List (Option Nat × Option Nat)) (hn : n + 1 < 4294967296) :
    parseLoop env cfg (blanksBrace n) (fuel + 1)
        ⟨⟨0, 0, 1, none, JBParse.zero.context, aHier⟩, sc, [], 0, n + 1, JBError.JBERR_NONE⟩
      = .ok ⟨⟨0, 0, 1, none, JBParse.zero.context, aHier⟩, sc, [], n + 1, 0,
          JBError.JBERR_UNEXPECTED_CLOSE_BRACE⟩ := by
  unfold parseLoop
  rw [if_pos ⟨by simp, rfl⟩, parseRound_blanks env cfg n sc aHier hn]

theorem passes_blanks (n : Nat) (info : JBRet) (hn : n + 1 < 4294967296) :
    ∃ ps, passes okEnv defaultConfig (blanksBrace n) (sStrCache.init 0) info = .ok ps
      ∧ ps.m.error = JBError.JBERR_UNEXPECTED_CLOSE_BRACE ∧ ps.m.cursor = n + 1 := by
  unfold passes
  simp only [blanksBrace_length, startPass_zero, bind, Except.bind]
  rw [parseLoop_blanks okEnv defaultConfig n (n + 1) _ _ hn]
  simp only []
  rw [if_pos (show okEnv.callocRet = true from rfl)]
  have h0 : 4 * (sStrCache.init 0).numStr = 0 := rfl
  rw [if_neg (by rw [h0]; simp)]
  have h1 : encodeStrings defaultConfig (blanksBrace n) (sStrCache.init 0) = .ok [] :=
    encodeStrings_none _ _ _ rfl
  have h2 : stringBytes defaultConfig (blanksBrace n) (sStrCache.init 0) = 0 :=
    stringBytes_none _ _ _ rfl
  simp only [h1, h2, liftFault]
  rw [if_neg blob_none,
    if_neg (show ¬ JBError.JBERR_UNEXPECTED_CLOSE_BRACE = JBError.JBERR_NONE by decide)]
  exact ⟨_, rfl, rfl, rfl⟩

/-- JSONBin on `n` blanks and a closing brace: `JBERR_UNEXPECTED_CLOSE_BRACE` after
`n + 1` bytes, on line 1, with the column `n + 2` converted to `int`. -/
theorem JSONBin_blanks (n : Nat) (hn : n + 1 < 4294967296) :
    JSONBin okEnv defaultConfig (blanksBrace n) JBRet.zero
      = Outcome.returned none ⟨0, n + 1, 0, 0, 0, 0, 0, .JBERR_UNEXPECTED_CLOSE_BRACE, 1,
          toInt32 ((n : Int) + 2)⟩ := by
  unfold JSONBin
  simp only [stripBom_blanks, countStrings_blanks]
  rw [if_pos (show okEnv.mallocWork = true from rfl)]
  obtain ⟨ps, hps, he, hc⟩ := passes_blanks n
    { JBRet.zero with text_orig := 0, strings_orig := 0 } hn
  rw [hps]
  simp only []
  unfold finish
  simp only [he, hc, lineScan_blanks, ne_eq, not_false_eq_true, true_or, if_true,
    show ¬ JBError.JBERR_UNEXPECTED_CLOSE_BRACE = JBError.JBERR_NONE by decide,
    show ¬ JBError.JBERR_UNEXPECTED_CLOSE_BRACE = JBError.JBERR_OUT_OF_MEMORY by decide]
  have e1 : toInt32 1 = 1 := by decide
  have e2 : ((n + 1 : Nat) : Int) - ((0 : Nat) : Int) + 1 = (n : Int) + 2 := by
    push_cast
    ring
  rw [e1, e2]

/-- C31 (counterexample). On the text of 2147483647 blanks and a closing brace JSONBin fails
with `JBERR_UNEXPECTED_CLOSE_BRACE` after 2147483648 bytes, none of them a newline, with
`err_line = 1` and `err_column = -2147483647`: the column `bytes_read - 0 + 1 = 2147483649`
does not fit the `int` it is converted to. -/
theorem C31_column_wraps :
    JSONBin okEnv defaultConfig (blanksBrace 2147483647) JBRet.zero
        = Outcome.returned none ⟨0, 2147483648, 0, 0, 0, 0, 0, .JBERR_UNEXPECTED_CLOSE_BRACE, 1,
            -2147483647⟩
      ∧ (blanksBrace 2147483647).length = 2147483648
      ∧ ((blanksBrace 2147483647).take 2147483648).count 10 = 0
      ∧ afterLastNewline ((blanksBrace 2147483647).take 2147483648) = 0 := by
  have h := JSONBin_blanks 2147483647 (by norm_num)
  have hl := lineScan_blanks 2147483647 2147483648
  rw [lineScan_eq] at hl
  have h1 := congrArg Prod.fst hl
  have h2 := congrArg Prod.snd hl
  simp only at h1 h2
  refine ⟨h, blanksBrace_length _, ?_, h2⟩
  omega

/-! ## Comments (claim C32) -/

/-- C32. The loop of `commentSize` over `findChar(body, body_left, '*')` changes neither
`body` nor `body_left`: for the block comment `/* a * b */` of the claim, whose first `*`
in the body is followed by a blank, no round returns and the call does not end, and
JSONBin with C comments enabled does not return on `[/* a * b */1]`.  (Where the first `*`
of the body starts the `*/`, as in `/* ab */` and `/**/`, the call returns the size of the
comment, 8 and 4; for the line comment of `//ab` followed by a newline it returns 4.) -/
theorem C32_star_in_block_comment_never_ends :
    commentSize (bytesOf "/* a * b */") 0 11 = .error Stop.diverges
      ∧ findChar (bytesOf "/* a * b */") 42 2 9 = some 5
      ∧ peek (bytesOf "/* a * b */") 6 = 32
      ∧ commentSize (bytesOf "/***/") 0 5 = .error Stop.diverges
      ∧ JSONBin okEnv commentsConfig (bytesOf "[/* a * b */1]") JBRet.zero = Outcome.diverges
      ∧ commentSize (bytesOf "/* ab */ x") 0 10 = .ok 8
      ∧ commentSize (bytesOf "/**/") 0 4 = .ok 4
      ∧ commentSize (bytesOf "//ab\ncd") 0 7 = .ok 4 :=
  ⟨rfl, by decide!, by decide!, rfl, by decide!, rfl, rfl, rfl⟩

/-! ## Integers written by JSONOut and read by `getNumStr` (claim C33) -/

open jout (decimalText push_int JSONOut)

theorem digitChar_toNat (d : Nat) (h : d < 10) : (Nat.digitChar d).toNat = 48 + d := by
  interval_cases d <;> rfl

theorem decimalValue_append (a b : Bytes) (n : Nat) :
    (a ++ b).foldl (fun n d => n * 10 + (d - 48)) n
      = b.foldl (fun n d => n * 10 + (d - 48)) (a.foldl (fun n d => n * 10 + (d - 48)) n) := by
  simp [List.foldl_append]

/-- The digits `Nat.toDigits` gives for base ten, as bytes: all are decimal digits, and
their value behind the digits of `ds` is the number. -/
theorem toDigitsCore_value (fuel n : Nat) (ds : List Char) (h : n < fuel) :
    ∃ pre : List Char, Nat.toDigitsCore 10 fuel n ds = pre ++ ds
      ∧ pre ≠ []
      ∧ (∀ c ∈ pre, isDigit c.toNat)
      ∧ decimalValue (pre.map Char.toNat) = n := by
  induction fuel generalizing n ds with
  | zero => omega
  | succ fuel ih =>
    have hd : (Nat.digitChar (n % 10)).toNat = 48 + n % 10 :=
      digitChar_toNat (n % 10) (Nat.mod_lt n (by decide))
    unfold Nat.toDigitsCore
    by_cases h0 : n / 10 = 0
    · refine ⟨[Nat.digitChar (n % 10)], ?_, by simp, ?_, ?_⟩
      · simp [h0]
      · intro c hc
        simp only [List.mem_singleton] at hc
        subst hc
        unfold isDigit
        omega
      · simp only [List.map_cons, List.map_nil, decimalValue, List.foldl_cons, List.foldl_nil, hd]
        omega
    · obtain ⟨pre, hpre, _, hdig, hval⟩ :=
        ih (n / 10) (Nat.digitChar (n % 10) :: ds) (by omega)
      refine ⟨pre ++ [Nat.digitChar (n % 10)], ?_, by simp, ?_, ?_⟩
      · simp only [h0, if_false]
        rw [hpre]
        simp
      · intro c hc
        rcases List.mem_append.1 hc with hc | hc
        · exact hdig c hc
        · simp only [List.mem_singleton] at hc
          subst hc
          unfold isDigit
          omega
      · simp only [decimalValue] at hval ⊢
        rw [List.map_append, decimalValue_append, hval]
        simp only [List.map_cons, List.map_nil, List.foldl_cons, List.foldl_nil, hd]
        omega

theorem toDigits_value (n : Nat) :
    (Nat.toDigits 10 n) ≠ []
      ∧ (∀ d ∈ (Nat.toDigits 10 n).map Char.toNat, isDigit d)
      ∧ decimalValue ((Nat.toDigits 10 n).map Char.toNat) = n := by
  obtain ⟨pre, hpre, hne, hdig, hval⟩ := toDigitsCore_value (n + 1) n [] (by omega)
  have : Nat.toDigits 10 n = pre := by
    unfold Nat.toDigits
    rw [hpre]
    simp
  rw [this]
  refine ⟨hne, ?_, hval⟩
  intro d hd
  obtain ⟨c, hc, rfl⟩ := List.mem_map.1 hd
  exact hdig c hc

theorem scanInt_digits_wide (ds rest : Bytes) (n : Nat) (over : Bool)
    (hds : ∀ d ∈ ds, isDigit d)
    (hrest : ∀ b, rest.head? = some b → ¬ isDigit b)
    (hval : ds.foldl (fun n d => n * 10 + (d - 48)) n / 10 < max_int_add_digit) :
    scanInt (ds ++ rest) n over = (ds.foldl (fun n d => n * 10 + (d - 48)) n, over, rest) := by
  induction ds generalizing n with
  | nil => simpa using scanInt_stop rest n over hrest
  | cons d ds ih =>
    have hd : 48 ≤ d ∧ d ≤ 57 := hds d (List.mem_cons_self d ds)
    have hn : n < max_int_add_digit := by
      have h1 := decimalValue_step ds (n * 10 + (d - 48))
      simp only [List.foldl_cons] at hval
      omega
    simp only [List.cons_append, scanInt, hd, and_self, if_true, hn, List.foldl_cons]
    exact ih (n * 10 + (d - 48)) (fun x hx => hds x (List.mem_cons_of_mem d hx)) hval

/-- The result of `getNumStr` on a window that, after an optional sign, consists of the
digits `ds` of a number below `2^64 - 6` and a rest that does not continue the number. -/
theorem getNumStr_digits_wide (env : Env) (cfg : Config) (p w1 ds rest : Bytes) (left : Nat)
    (hskip : skipSpaces cfg (p.take left) = w1)
    (hw : (if w1.head? = some 45 ∨ w1.head? = some 43 then w1.drop 1 else w1) = ds ++ rest)
    (hds : ∀ d ∈ ds, isDigit d)
    (hrest : ∀ b, rest.head? = some b → ¬ continuesNumber b)
    (hv : decimalValue ds / 10 < max_int_add_digit) :
    getNumStr env cfg p left = .ok
      (if decimalValue ds ≤ 2147483648 then
        ⟨⟨decide (w1.head? = some 45), decimalValue ds, 0, 0, 0⟩,
          some (if decide (w1.head? = some 45) = true then toInt32 (-(toInt32 (decimalValue ds)))
            else toInt32 (decimalValue ds)),
          (p.take left).length - rest.length, false, true⟩
      else ⟨⟨false, 0, 0, 0, 0⟩, some 0, (p.take left).length - rest.length, false, false⟩) := by
  obtain ⟨h46, h101, h69⟩ := rest_head_facts rest hrest
  have hscan : scanInt (ds ++ rest) 0 false = (decimalValue ds, false, rest) :=
    scanInt_digits_wide ds rest 0 false hds (fun b hb hd => hrest b hb (Or.inl hd)) hv
  unfold getNumStr
  simp only [hskip, hw, hscan]
  simp only [h46, h101, h69, decide_False, false_or, if_false, Bool.false_eq_true]
  by_cases hle : decimalValue ds ≤ 2147483648
  · have hrep : (!false && decide (decimalValue ds ≤ INT_MAX_INT)) = true := by
      simp [INT_MAX_INT, hle]
    rw [if_pos hrep, if_pos hle]
  · have hrep : ¬ (!false && decide (decimalValue ds ≤ INT_MAX_INT)) = true := by
      simp [INT_MAX_INT, hle]
    rw [if_neg hrep, if_neg hle]

/-- The text of `"%d"` or `"%lld"` read by `getNumStr`, for a value of 64 bits followed by a
byte that does not continue a number. -/
theorem getNumStr_decimalText (env : Env) (cfg : Config) (v : Int) (rest : Bytes)
    (hlo : -9223372036854775808 ≤ v) (hhi : v ≤ 9223372036854775807)
    (hrest : ∀ b, rest.head? = some b → ¬ continuesNumber b) :
    getNumStr env cfg (decimalText v ++ rest) (decimalText v ++ rest).length = .ok
      (if v.natAbs ≤ 2147483648 then
        ⟨⟨decide (v < 0), v.natAbs, 0, 0, 0⟩,
          some (if v < 0 then toInt32 (-(toInt32 (v.natAbs : Int))) else toInt32 (v.natAbs : Int)),
          (decimalText v).length, false, true⟩
      else ⟨⟨false, 0, 0, 0, 0⟩, some 0, (decimalText v).length, false, false⟩) := by
  obtain ⟨hne, hdig, hval⟩ := toDigits_value v.natAbs
  obtain ⟨c, cs, hcs⟩ := List.exists_cons_of_ne_nil hne
  set ds := (Nat.toDigits 10 v.natAbs).map Char.toNat with hdsdef
  have hds0 : ds = c.toNat :: cs.map Char.toNat := by rw [hdsdef, hcs]; rfl
  have hc : 48 ≤ c.toNat ∧ c.toNat ≤ 57 := hdig c.toNat (by rw [hds0]; exact List.mem_cons_self _ _)
  have hv : decimalValue ds / 10 < max_int_add_digit := by
    rw [hval]
    unfold max_int_add_digit
    omega
  have htake : (decimalText v ++ rest).take (decimalText v ++ rest).length = decimalText v ++ rest :=
    List.take_length _
  by_cases hneg : v < 0
  · have htext : decimalText v = 45 :: ds := by
      unfold decimalText
      rw [if_pos hneg]
      rfl
    have hskip : skipSpaces cfg ((decimalText v ++ rest).take (decimalText v ++ rest).length)
        = 45 :: (ds ++ rest) := by
      rw [htake, htext]
      exact skipSpaces_of_head cfg 45 _ (by omega) (by omega)
    have hw : (if (45 :: (ds ++ rest)).head? = some 45 ∨ (45 :: (ds ++ rest)).head? = some 43
        then (45 :: (ds ++ rest)).drop 1 else 45 :: (ds ++ rest)) = ds ++ rest := by
      simp
    have h := getNumStr_digits_wide env cfg _ _ ds rest _ hskip hw hdig hrest hv
    rw [h, hval, htake]
    have e1 : decide ((45 :: (ds ++ rest)).head? = some 45) = true := by simp
    have e2 : decide (v < 0) = true := by simp [hneg]
    have e3 : (decimalText v ++ rest).length - rest.length = (decimalText v).length := by
      simp
    rw [e1, e2, e3]
    simp [hneg]
  · have htext : decimalText v = ds := by
      unfold decimalText
      rw [if_neg hneg]
      rfl
    have hskip : skipSpaces cfg ((decimalText v ++ rest).take (decimalText v ++ rest).length)
        = c.toNat :: (cs.map Char.toNat ++ rest) := by
      rw [htake, htext, hds0]
      exact skipSpaces_of_head cfg c.toNat _ (by omega) (by omega)
    have hw : (if (c.toNat :: (cs.map Char.toNat ++ rest)).head? = some 45
          ∨ (c.toNat :: (cs.map Char.toNat ++ rest)).head? = some 43
        then (c.toNat :: (cs.map Char.toNat ++ rest)).drop 1
        else c.toNat :: (cs.map Char.toNat ++ rest)) = ds ++ rest := by
      have h45 : c.toNat ≠ 45 := by omega
      have h43 : c.toNat ≠ 43 := by omega
      simp [h45, h43, hds0]
    have h := getNumStr_digits_wide env cfg _ _ ds rest _ hskip hw hdig hrest hv
    rw [h, hval, htake]
    have e1 : decide ((c.toNat :: (cs.map Char.toNat ++ rest)).head? = some 45) = false := by
      have h45 : c.toNat ≠ 45 := by omega
      simp [h45]
    have e2 : decide (v < 0) = false := by simp [hneg]
    have e3 : (decimalText v ++ rest).length - rest.length = (decimalText v).length := by
      simp
    rw [e1, e2, e3]
    simp [hneg]

/-- C33. The text `"%d"` or `"%lld"` gives for an integer, followed by a byte that does not
continue a number, is read by `getNumStr` as follows.  For every `v` with
`-2^31 <= v <= 2^31 - 1` the result has `real = false`, `representable = true` and
`intnum = v`.  For every 64 bit `v` below `-2^31` or above `2^31` it has
`representable = false`.  For `v = 2147483648`, which is outside the 32 bit range, it has
`representable = true` and `intnum = -2147483648`: the text `2147483648` that
`push(name, (long long)2147483648)` writes is read back as another number. -/
theorem C33_long_long_2147483648_read_back_negative :
    (∀ (env : Env) (cfg : Config) (v : Int) (rest : Bytes),
        -2147483648 ≤ v → v ≤ 2147483647 →
        (∀ b, rest.head? = some b → ¬ continuesNumber b) →
        ∃ r, getNumStr env cfg (decimalText v ++ rest) (decimalText v ++ rest).length = .ok r
          ∧ r.real = false ∧ r.representable = true ∧ r.intnum = some v
          ∧ r.num_len = (decimalText v).length)
      ∧ (∀ (env : Env) (cfg : Config) (v : Int) (rest : Bytes),
        -9223372036854775808 ≤ v → v ≤ 9223372036854775807 →
        (v < -2147483648 ∨ 2147483648 < v) →
        (∀ b, rest.head? = some b → ¬ continuesNumber b) →
        ∃ r, getNumStr env cfg (decimalText v ++ rest) (decimalText v ++ rest).length = .ok r
          ∧ r.real = false ∧ r.representable = false
          ∧ r.num_len = (decimalText v).length)
      ∧ (∀ (env : Env) (cfg : Config) (rest : Bytes),
        (∀ b, rest.head? = some b → ¬ continuesNumber b) →
        getNumStr env cfg (decimalText 2147483648 ++ rest) (decimalText 2147483648 ++ rest).length
          = .ok ⟨⟨false, 2147483648, 0, 0, 0⟩, some (-2147483648), 10, false, true⟩)
      ∧ (push_int (some (bytesOf "a")) 2147483648
          (JSONOut.new false true false 0 (fun _ => false) (fun _ => false))).2.text
          = bytesOf "\x7b\n  \"a\" : 2147483648"
      ∧ decimalText 9223372036854775807 = bytesOf "9223372036854775807" := by
  refine ⟨?_, ?_, ?_, by decide, by decide⟩
  · intro env cfg v rest hlo hhi hrest
    have h := getNumStr_decimalText env cfg v rest (by omega) (by omega) hrest
    have hle : v.natAbs ≤ 2147483648 := by omega
    rw [if_pos hle] at h
    refine ⟨_, h, rfl, rfl, ?_, rfl⟩
    show some _ = some v
    congr 1
    by_cases hneg : v < 0
    · rw [if_pos hneg, toInt32_neg_of_le _ hle]
      omega
    · rw [if_neg hneg, toInt32_of_small _ (by omega)]
      omega
  · intro env cfg v rest hlo hhi hout hrest
    have h := getNumStr_decimalText env cfg v rest hlo hhi hrest
    have hle : ¬ v.natAbs ≤ 2147483648 := by omega
    rw [if_neg hle] at h
    exact ⟨_, h, rfl, rfl, rfl⟩
  · intro env cfg rest hrest
    have h := getNumStr_decimalText env cfg 2147483648 rest (by decide) (by decide) hrest
    rw [h]
    rfl

/-! ## White space before the end of the input (claim C37) -/

/-- C37. The byte at the cursor is taken at the head of the main loop without a test of
`left` after the skip of the white space.  On `{` followed by a blank the second round
skips the blank, which leaves `left = 0` with the cursor at the end of the input, and
then reads the byte there, outside the input (`left` wraps to `0xFFFFFFFF`): the round
does not keep the cursor inside the input.  The same holds for `[` followed by a blank and
for a text that is one blank. -/
theorem C37_blank_before_end_reads_outside :
    JSONBin okEnv defaultConfig (bytesOf "\x7b ") JBRet.zero = Outcome.undefined Fault.inputRead
      ∧ getWhiteSpaceSize defaultConfig (bytesOf "\x7b ") 1 1 = 1
      ∧ (bytesOf "\x7b ").get? 2 = none
      ∧ JSONBin okEnv defaultConfig (bytesOf "[ ") JBRet.zero = Outcome.undefined Fault.inputRead
      ∧ JSONBin okEnv defaultConfig (bytesOf " ") JBRet.zero = Outcome.undefined Fault.inputRead
      := by decide!

/-! ## Well-formed UTF-8 through the decoder (claim C34) -/

/-- The decoder at the start of a well-formed UTF-8 text without a backslash. -/
theorem getChar_utf8Head (cfg : Config) (suf tail : Bytes) (hv : ValidUtf8 suf) (hne : suf ≠ [])
    (h92 : 92 ∉ suf) :
    getChar cfg (suf ++ tail) suf.length = utf8Head suf
      ∧ 1 ≤ (utf8Head suf).2 ∧ (utf8Head suf).2 ≤ suf.length := by
  cases hv with
  | nil => exact absurd rfl hne
  | one b rest hb _ =>
    have hb92 : b ≠ 92 := fun h => h92 (by simp [h])
    have e : utf8Head (b :: rest) = (b, 1) := by
      simp only [utf8Head]
      rw [if_pos hb]
    rw [e, List.cons_append, List.length_cons, Nat.add_comm,
      getChar_plain cfg b (by omega) hb92 _ _]
    exact ⟨rfl, le_refl 1, by omega⟩
  | two b0 b1 rest h0 h0' h1 _ =>
    obtain ⟨h1a, h1b⟩ := h1
    have e : utf8Head (b0 :: b1 :: rest) = ((b0 - 192) * 64 + (b1 - 128), 2) := by
      simp only [utf8Head, List.getD_cons_zero]
      rw [if_neg (by omega), if_pos (by omega)]
      simp only [Prod.mk.injEq, and_true]
      omega
    rw [e, List.cons_append, List.cons_append, List.length_cons, List.length_cons,
      getChar_two cfg b0 b1 _ _ (by omega) h0' h1a h1b]
    exact ⟨rfl, by omega, by omega⟩
  | three b0 b1 b2 rest h0 h0' h1 h2 _ _ _ =>
    obtain ⟨h1a, h1b⟩ := h1
    obtain ⟨h2a, h2b⟩ := h2
    have e : utf8Head (b0 :: b1 :: b2 :: rest)
        = (((b0 - 224) * 64 + (b1 - 128)) * 64 + (b2 - 128), 3) := by
      simp only [utf8Head, List.getD_cons_zero, List.getD_cons_succ]
      rw [if_neg (by omega), if_neg (by omega), if_pos (by omega)]
      simp only [Prod.mk.injEq, and_true]
      omega
    rw [e, List.cons_append, List.cons_append, List.cons_append, List.length_cons,
      List.length_cons, List.length_cons,
      getChar_three cfg b0 b1 b2 _ _ h0 h0' h1a h1b h2a h2b]
    exact ⟨rfl, by omega, by omega⟩
  | four b0 b1 b2 b3 rest h0 h0' h1 h2 h3 _ _ _ =>
    obtain ⟨h1a, h1b⟩ := h1
    obtain ⟨h2a, h2b⟩ := h2
    obtain ⟨h3a, h3b⟩ := h3
    have e : utf8Head (b0 :: b1 :: b2 :: b3 :: rest)
        = ((((b0 - 240) * 64 + (b1 - 128)) * 64 + (b2 - 128)) * 64 + (b3 - 128), 4) := by
      simp only [utf8Head, List.getD_cons_zero, List.getD_cons_succ]
      rw [if_neg (by omega), if_neg (by omega), if_neg (by omega)]
      simp only [Prod.mk.injEq, and_true]
      omega
    rw [e, List.cons_append, List.cons_append, List.cons_append, List.cons_append,
      List.length_cons, List.length_cons, List.length_cons, List.length_cons,
      getChar_four cfg b0 b1 b2 b3 _ _ h0 (by omega) h1a h1b h2a h2b h3a h3b]
    exact ⟨rfl, by omega, by omega⟩

/-- The loop of `toEncoding` over a well-formed UTF-8 text without a backslash gives the
text back. -/
theorem toEncodingLoop_utf8 (cfg : Config) (s : Bytes) (hv : ValidUtf8 s) :
    ∀ (tail out : Bytes) (fuel : Nat), 92 ∉ s → s.length ≤ fuel →
      toEncodingLoop cfg fuel (s ++ tail) s.length out = out ++ s := by
  induction hv with
  | nil =>
    intro tail out fuel _ _
    simp [toEncodingLoop_zero]
  | one b rest hb hrest ih =>
    intro tail out fuel h92 hf
    have hb92 : b ≠ 92 := fun h => h92 (by simp [h])
    have hr92 : 92 ∉ rest := fun h => h92 (List.mem_cons_of_mem _ h)
    obtain ⟨f, rfl⟩ : ∃ f, fuel = f + 1 := ⟨fuel - 1, by simp only [List.length_cons] at hf; omega⟩
    have e : (b :: rest) ++ tail = [b] ++ (rest ++ tail) := rfl
    have el : (b :: rest).length = [b].length + rest.length := by simp; omega
    rw [e, el, toEncodingLoop_chunk cfg f [b] _ out _ b (le_refl 1)
        (by
          show getChar cfg (b :: (rest ++ tail)) (1 + rest.length) = (b, 1)
          exact getChar_plain cfg b (by omega) hb92 _ _),
      asEncoding_ascii b hb, ih tail _ f hr92 (by simp only [List.length_cons] at hf; omega)]
    simp
  | two b0 b1 rest h0 h0' h1 hrest ih =>
    intro tail out fuel h92 hf
    have hr92 : 92 ∉ rest := fun h => h92 (List.mem_cons_of_mem _ (List.mem_cons_of_mem _ h))
    obtain ⟨f, rfl⟩ : ∃ f, fuel = f + 1 := ⟨fuel - 1, by simp only [List.length_cons] at hf; omega⟩
    have e : (b0 :: b1 :: rest) ++ tail = [b0, b1] ++ (rest ++ tail) := rfl
    have el : (b0 :: b1 :: rest).length = [b0, b1].length + rest.length := by simp; omega
    rw [e, el, toEncodingLoop_chunk cfg f [b0, b1] _ out _ _ (by simp)
        (by
          rw [show [b0, b1].length + rest.length = rest.length + 2 by simp; omega]
          exact getChar_two cfg b0 b1 _ _ (by omega) h0' h1.1 h1.2),
      asEncoding_two b0 b1 h0 h0' h1.1 h1.2,
      ih tail _ f hr92 (by simp only [List.length_cons] at hf; omega)]
    simp
  | three b0 b1 b2 rest h0 h0' h1 h2 hlow _ hrest ih =>
    intro tail out fuel h92 hf
    have hr92 : 92 ∉ rest := fun h =>
      h92 (List.mem_cons_of_mem _ (List.mem_cons_of_mem _ (List.mem_cons_of_mem _ h)))
    obtain ⟨f, rfl⟩ : ∃ f, fuel = f + 1 := ⟨fuel - 1, by simp only [List.length_cons] at hf; omega⟩
    have e : (b0 :: b1 :: b2 :: rest) ++ tail = [b0, b1, b2] ++ (rest ++ tail) := rfl
    have el : (b0 :: b1 :: b2 :: rest).length = [b0, b1, b2].length + rest.length := by
      simp; omega
    rw [e, el, toEncodingLoop_chunk cfg f [b0, b1, b2] _ out _ _ (by simp)
        (by
          rw [show [b0, b1, b2].length + rest.length = rest.length + 3 by simp; omega]
          exact getChar_three cfg b0 b1 b2 _ _ h0 h0' h1.1 h1.2 h2.1 h2.2),
      asEncoding_three b0 b1 b2 h0 h0' h1.1 h1.2 h2.1 h2.2 hlow,
      ih tail _ f hr92 (by simp only [List.length_cons] at hf; omega)]
    simp
  | four b0 b1 b2 b3 rest h0 h0' h1 h2 h3 hlow _ hrest ih =>
    intro tail out fuel h92 hf
    have hr92 : 92 ∉ rest := fun h =>
      h92 (List.mem_cons_of_mem _ (List.mem_cons_of_mem _ (List.mem_cons_of_mem _
        (List.mem_cons_of_mem _ h))))
    obtain ⟨f, rfl⟩ : ∃ f, fuel = f + 1 := ⟨fuel - 1, by simp only [List.length_cons] at hf; omega⟩
    have e : (b0 :: b1 :: b2 :: b3 :: rest) ++ tail = [b0, b1, b2, b3] ++ (rest ++ tail) := rfl
    have el : (b0 :: b1 :: b2 :: b3 :: rest).length = [b0, b1, b2, b3].length + rest.length := by
      simp; omega
    rw [e, el, toEncodingLoop_chunk cfg f [b0, b1, b2, b3] _ out _ _ (by simp)
        (by
          rw [show [b0, b1, b2, b3].length + rest.length = rest.length + 4 by simp; omega]
          exact getChar_four cfg b0 b1 b2 b3 _ _ h0 (by omega) h1.1 h1.2 h2.1 h2.2 h3.1 h3.2),
      asEncoding_four b0 b1 b2 b3 h0 (by omega) h1.1 h1.2 h2.1 h2.2 h3.1 h3.2 hlow,
      ih tail _ f hr92 (by simp only [List.length_cons] at hf; omega)]
    simp

/-- C34. For a well-formed UTF-8 text `r` without a backslash, followed in the buffer by
any bytes `tail`: at each place where a character of `r` starts (`r = pre ++ suf` with
both parts well formed and `suf` not empty) `getChar`, called with the bytes of `r` left,
returns the code point of the sequence there and its number of bytes, and `toEncoding`
gives back `r` byte for byte. -/
theorem C34_utf8_decode_encode (cfg : Config) (r tail : Bytes) (hv : ValidUtf8 r)
    (h92 : 92 ∉ r) :
    (∀ pre suf : Bytes, r = pre ++ suf → ValidUtf8 pre → ValidUtf8 suf → suf ≠ [] →
        getChar cfg ((r ++ tail).drop pre.length) (r.length - pre.length) = utf8Head suf
          ∧ 1 ≤ (utf8Head suf).2 ∧ (utf8Head suf).2 ≤ suf.length)
      ∧ toEncoding cfg (r ++ tail) r.length = r := by
  constructor
  · intro pre suf hr _ hsuf hne
    have hs92 : 92 ∉ suf := fun h => h92 (by rw [hr]; exact List.mem_append_right _ h)
    have h := getChar_utf8Head cfg suf tail hsuf hne hs92
    have e1 : (r ++ tail).drop pre.length = suf ++ tail := by
      rw [hr, List.append_assoc, List.drop_left]
    have e2 : r.length - pre.length = suf.length := by
      rw [hr, List.length_append]
      omega
    rw [e1, e2]
    exact h
  · unfold toEncoding
    rw [toEncodingLoop_utf8 cfg r hv tail [] _ h92 (le_refl _)]
    rfl

/-- C34 at the text of the four characters U+0061, U+00E9, U+20AC and U+1F600, followed by a
quote. -/
theorem C34_utf8_decode_encode_witness :
    (∀ pre suf : Bytes,
        [0x61, 0xc3, 0xa9, 0xe2, 0x82, 0xac, 0xf0, 0x9f, 0x98, 0x80] = pre ++ suf →
        ValidUtf8 pre → ValidUtf8 suf → suf ≠ [] →
        getChar defaultConfig
            (([0x61, 0xc3, 0xa9, 0xe2, 0x82, 0xac, 0xf0, 0x9f, 0x98, 0x80] ++ [34]).drop pre.length)
            ([0x61, 0xc3, 0xa9, 0xe2, 0x82, 0xac, 0xf0, 0x9f, 0x98, 0x80].length - pre.length)
          = utf8Head suf
          ∧ 1 ≤ (utf8Head suf).2 ∧ (utf8Head suf).2 ≤ suf.length)
      ∧ toEncoding defaultConfig ([0x61, 0xc3, 0xa9, 0xe2, 0x82, 0xac, 0xf0, 0x9f, 0x98, 0x80] ++ [34])
          [0x61, 0xc3, 0xa9, 0xe2, 0x82, 0xac, 0xf0, 0x9f, 0x98, 0x80].length
        = [0x61, 0xc3, 0xa9, 0xe2, 0x82, 0xac, 0xf0, 0x9f, 0x98, 0x80] :=
  C34_utf8_decode_encode defaultConfig [0x61, 0xc3, 0xa9, 0xe2, 0x82, 0xac, 0xf0, 0x9f, 0x98, 0x80]
    [34]
    (ValidUtf8.one 0x61 _ (by decide)
      (ValidUtf8.two 0xc3 0xa9 _ (by decide) (by decide) ⟨by decide, by decide⟩
        (ValidUtf8.three 0xe2 0x82 0xac _ (by decide) (by decide) ⟨by decide, by decide⟩
          ⟨by decide, by decide⟩ (by decide) (by decide)
          (ValidUtf8.four 0xf0 0x9f 0x98 0x80 _ (by decide) (by decide) ⟨by decide, by decide⟩
            ⟨by decide, by decide⟩ ⟨by decide, by decide⟩ (by decide) (by decide)
            ValidUtf8.nil))))
    (by decide)

theorem utf8Head_examples :
    utf8Head [0xe2, 0x82, 0xac, 0xf0, 0x9f, 0x98, 0x80] = (0x20ac, 3)
      ∧ utf8Head [0xf0, 0x9f, 0x98, 0x80] = (0x1f600, 4) ∧ utf8Head [0xc3, 0xa9] = (0xe9, 2) := by
  decide

/-! ## Commas and the count of the strings (claim C40) -/

/-- C40. A comma put where the main loop accepts one can change what `JSONBin` does, since
the string counting loop at the head of `JSONBin` pairs the quotes without regard to the
tokens.  `JSONBin` succeeds on `nearWords` with an array of five values, and after three
rounds of the first pass the main loop stands at offset 9 in the context `JSON_ARRAY`,
where a comma is accepted.  The byte before offset 9 is a backslash that `sameWord` took
as the last letter of `true`, and for the counting loop it escapes the quote at offset 9.
With a comma put in at offset 9 the quote is not escaped any more, the counting loop finds
five quotes instead of four, the last of them has no end, and `JSONBin` does not return. -/
theorem C40_comma_behind_backslash_never_returns :
    (JSONBin okEnv defaultConfig nearWords JBRet.zero).tree.map JBTree.typesAndData
        = some [(JBType.JB_ARRAY, 5), (JBType.JB_BOOL, 1), (JBType.JB_BOOL, 1),
            (JBType.JB_STRING, 36), (JBType.JB_BOOL, 1), (JBType.JB_BOOL, 1)]
      ∧ (startPass ⟨JBParse.zero, sStrCache.init 2, [], 0, 0, JBError.JBERR_NONE⟩
              nearWords.length
            >>= afterRounds okEnv defaultConfig nearWords 3).toOption.map
          (fun m => (m.cursor, m.read.get_context.toOption, m.error))
        = some (9, some eJSONCtx.JSON_ARRAY, JBError.JBERR_NONE)
      ∧ nearWords.take 9 ++ 44 :: nearWords.drop 9 = bytesOf "[tru\"tru\\,\"tru\"tru\",tru\"]"
      ∧ (countStrings defaultConfig nearWords (nearWords.length + 1) 0 nearWords.length 0
          0).toOption.map Prod.fst = some 2
      ∧ countBack nearWords 92 9 4 = 1
      ∧ countBack (nearWords.take 9 ++ 44 :: nearWords.drop 9) 92 10 5 = 0
      ∧ JSONBin okEnv defaultConfig (nearWords.take 9 ++ 44 :: nearWords.drop 9) JBRet.zero
          = Outcome.diverges := by
  decide!

/-! ## Text behind the root container (claim C39) -/

/-- C39. With `JB_ALLOW_C_COMMENTS` the text behind the close of the root container is not
ignored: the string counting loop at the head of `JSONBin` goes through the whole input and
stops at every `/` as well.  `JSONBin` succeeds on the complete document of an opening and
a closing brace and reads two bytes.  Followed by the block comment `/* a * b */`, which
has no quote, `JSONBin` does not return, and followed by a single `/` it reads the byte
behind the end of the input. -/
theorem C39_comment_behind_root_is_scanned :
    (JSONBin okEnv commentsConfig (bytesOf "\x7b\x7d") JBRet.zero).tree.map JBTree.typesAndData
        = some [(JBType.JB_ROOT, 0)]
      ∧ (JSONBin okEnv commentsConfig (bytesOf "\x7b\x7d") JBRet.zero).info.map
          (fun r => (r.error_code, r.bytes_read)) = some (JBError.JBERR_NONE, 2)
      ∧ 34 ∉ bytesOf "/* a * b */"
      ∧ JSONBin okEnv commentsConfig (bytesOf "\x7b\x7d" ++ bytesOf "/* a * b */") JBRet.zero
          = Outcome.diverges
      ∧ 34 ∉ bytesOf "/"
      ∧ JSONBin okEnv commentsConfig (bytesOf "\x7b\x7d" ++ bytesOf "/") JBRet.zero
          = Outcome.undefined Fault.inputRead := by
  decide!

/-! ### Without comments: a run over a document, and a run over it with text behind it

The second run is the first one with `left` larger by the length of the text behind the
document (`Machine.more`); every scanner stops at or before the closing bracket. -/

theorem peek_append_left (a r : Bytes) (i : Nat) (h : i < a.length) :
    peek (a ++ r) i = peek a i := by
  unfold peek
  simp [List.getD_eq_getElem?_getD, List.getElem?_append_left h]

theorem get_append_left (a r : Bytes) (i : Nat) (h : i < a.length) :
    (a ++ r).get? i = a.get? i := by
  simp [List.getElem?_append_left h]

theorem whiteSpace_le (cfg : Config) (json : Bytes) :
    ∀ (left pos : Nat), getWhiteSpaceSize cfg json pos left ≤ left := by
  intro left
  induction left with
  | zero => intro pos; simp [getWhiteSpaceSize]
  | succ left ih =>
    intro pos
    rw [getWhiteSpaceSize]
    split
    · have := ih (pos + 1)
      omega
    · omega

/-- White space that ends inside the text is measured alike when more text follows. -/
theorem whiteSpace_append (cfg : Config) (json t : Bytes) (k : Nat) :
    ∀ (left pos : Nat), pos + left ≤ json.length →
      getWhiteSpaceSize cfg json pos left < left →
      getWhiteSpaceSize cfg (json ++ t) pos (left + k) = getWhiteSpaceSize cfg json pos left := by
  intro left
  induction left with
  | zero => intro pos _ h; omega
  | succ left ih =>
    intro pos hp h
    have hpos : pos < json.length := by omega
    rw [show left + 1 + k = (left + k) + 1 from by omega, getWhiteSpaceSize,
      peek_append_left _ _ _ hpos]
    rw [getWhiteSpaceSize] at h ⊢
    by_cases hs : isSpaceByte cfg (peek json pos) = true
    · rw [if_pos hs] at h
      rw [if_pos hs, if_pos hs, ih (pos + 1) (by omega) (by omega)]
    · rw [if_neg hs, if_neg hs]

theorem findChar_bound (json : Bytes) (c : Nat) :
    ∀ (left str e : Nat), findChar json c str left = some e →
      str ≤ e ∧ e < str + left ∧ peek json e = c := by
  intro left
  induction left with
  | zero => intro str e h; simp [findChar] at h
  | succ left ih =>
    intro str e h
    rw [findChar] at h
    by_cases hp : peek json str ≠ c
    · rw [if_pos hp] at h
      have := ih (str + 1) e h
      omega
    · rw [if_neg hp] at h
      simp only [Option.some.injEq] at h
      subst h
      exact ⟨le_refl _, by omega, by simpa using hp⟩

/-- A byte that is found inside the text is found alike when more text follows. -/
theorem findChar_append (json t : Bytes) (c k : Nat) :
    ∀ (left str e : Nat), str + left ≤ json.length → findChar json c str left = some e →
      findChar (json ++ t) c str (left + k) = some e := by
  intro left
  induction left with
  | zero => intro str e _ h; simp [findChar] at h
  | succ left ih =>
    intro str e hp h
    have hpos : str < json.length := by omega
    rw [show left + 1 + k = (left + k) + 1 from by omega, findChar,
      peek_append_left _ _ _ hpos]
    rw [findChar] at h
    by_cases hc : peek json str ≠ c
    · rw [if_pos hc] at h ⊢
      exact ih (str + 1) e (by omega) h
    · rw [if_neg hc] at h ⊢
      exact h

theorem findChar_behind (json t : Bytes) (c : Nat) (hc : c ≠ 0) (ht : c ∉ t) :
    ∀ (n i : Nat), findChar (json ++ t) c (json.length + i) n = none := by
  intro n
  induction n with
  | zero => intro i; rfl
  | succ n ih =>
    intro i
    have hp : peek (json ++ t) (json.length + i) ≠ c := by
      rw [peek_append_right]
      unfold peek
      rw [List.getD_eq_getElem?_getD]
      cases hg : t[i]? with
      | none => simpa using hc.symm
      | some b =>
        have : b ∈ t := by
          obtain ⟨hl, hb⟩ := List.getElem?_eq_some_iff.mp hg
          exact hb ▸ List.getElem_mem hl
        simp only [Option.getD_some]
        intro hb
        exact ht (hb ▸ this)
    rw [findChar, if_pos hp]
    exact ih (i + 1)

/-- A byte that is not found up to the end of the text is not found in what follows
either, when that holds no such byte. -/
theorem findChar_append_none (json t : Bytes) (c : Nat) (hc : c ≠ 0) (ht : c ∉ t) :
    ∀ (left str : Nat), str + left = json.length → findChar json c str left = none →
      findChar (json ++ t) c str (left + t.length) = none := by
  intro left
  induction left with
  | zero =>
    intro str hs _
    have := findChar_behind json t c hc ht (0 + t.length) 0
    rw [Nat.add_zero] at hs
    rw [hs]
    simpa using this
  | succ left ih =>
    intro str hs h
    have hpos : str < json.length := by omega
    rw [show left + 1 + t.length = (left + t.length) + 1 from by omega, findChar,
      peek_append_left _ _ _ hpos]
    rw [findChar] at h
    by_cases hp : peek json str ≠ c
    · rw [if_pos hp] at h ⊢
      exact ih (str + 1) (by omega) h
    · rw [if_neg hp] at h
      cases h

theorem countBack_append (json t : Bytes) (c : Nat) :
    ∀ (left str : Nat), str ≤ json.length →
      countBack (json ++ t) c str left = countBack json c str left := by
  intro left
  induction left with
  | zero => intro str _; cases str <;> rfl
  | succ left ih =>
    intro str hs
    cases str with
    | zero => rfl
    | succ str =>
      rw [countBack, countBack, peek_append_left _ _ _ (by omega), ih str (by omega)]

theorem quoteEndLoop_bound (json : Bytes) :
    ∀ (fuel str left e : Nat), quoteEndLoop json fuel str left = some e →
      str ≤ e ∧ e < str + left := by
  intro fuel
  induction fuel with
  | zero => intro str left e h; simp [quoteEndLoop] at h
  | succ fuel ih =>
    intro str left e h
    rw [quoteEndLoop] at h
    cases hf : findChar json 34 str left with
    | none => rw [hf] at h; cases h
    | some e0 =>
      rw [hf] at h
      obtain ⟨b1, b2, _⟩ := findChar_bound json 34 left str e0 hf
      simp only at h
      by_cases hev : countBack json 92 e0 (e0 - str) % 2 = 0
      · rw [if_pos hev] at h
        simp only [Option.some.injEq] at h
        subst h
        exact ⟨b1, b2⟩
      · rw [if_neg hev] at h
        have := ih _ _ e h
        omega

/-- The end of a quoted string that lies inside the text is found alike when more text
follows. -/
theorem quoteEndLoop_append (json t : Bytes) (k : Nat) :
    ∀ (fuel str left e fuel1 : Nat), str + left ≤ json.length →
      quoteEndLoop json fuel str left = some e → fuel ≤ fuel1 →
      quoteEndLoop (json ++ t) fuel1 str (left + k) = some e := by
  intro fuel
  induction fuel with
  | zero => intro str left e fuel1 _ h; simp [quoteEndLoop] at h
  | succ fuel ih =>
    intro str left e fuel1 hp h hf1
    obtain ⟨f1, rfl⟩ : ∃ f1, fuel1 = f1 + 1 := ⟨fuel1 - 1, by omega⟩
    rw [quoteEndLoop] at h ⊢
    cases hf : findChar json 34 str left with
    | none => rw [hf] at h; cases h
    | some e0 =>
      rw [hf] at h
      obtain ⟨b1, b2, _⟩ := findChar_bound json 34 left str e0 hf
      rw [findChar_append json t 34 k left str e0 hp hf]
      simp only at h ⊢
      rw [countBack_append json t 92 _ e0 (by omega)]
      by_cases hev : countBack json 92 e0 (e0 - str) % 2 = 0
      · rw [if_pos hev] at h ⊢
        exact h
      · rw [if_neg hev] at h ⊢
        rw [show left + k - (e0 - str + 1) = (left - (e0 - str + 1)) + k from by omega]
        exact ih _ _ e f1 (by omega) h (by omega)

theorem quoteEnd_bound (json : Bytes) (str left e : Nat) (h : quoteEnd json str left = some e) :
    str + 1 ≤ e ∧ e < str + left ∧ 1 ≤ left := by
  unfold quoteEnd at h
  have h0 : left ≠ 0 := by
    intro h0
    subst h0
    simp [quoteEndLoop] at h
  have := quoteEndLoop_bound json left (str + 1) (left - 1) e h
  omega

theorem quoteEnd_append (json t : Bytes) (k str left e : Nat) (hp : str + left ≤ json.length)
    (h : quoteEnd json str left = some e) :
    quoteEnd (json ++ t) str (left + k) = some e := by
  have hb := quoteEnd_bound json str left e h
  unfold quoteEnd at h ⊢
  rw [show left + k - 1 = (left - 1) + k from by omega]
  exact quoteEndLoop_append json t k left (str + 1) (left - 1) e (left + k) (by omega) h
    (by omega)

theorem sameWord_true_length :
    ∀ (word a : Bytes) (l : Nat), sameWord a word l = true → word.length ≤ l := by
  intro word
  induction word with
  | nil => intro a l _; simp
  | cons c cs ih =>
    intro a l h
    cases l with
    | zero => simp [sameWord] at h
    | succ l =>
      rw [sameWord] at h
      by_cases hm : toLower (peek a 0) = c
      · rw [if_pos hm] at h
        have := ih _ _ h
        simp only [List.length_cons]
        omega
      · rw [if_neg hm] at h
        have : cs = [] := by simpa using h
        subst this
        simp

/-- A word compared with a text that ends in a byte which is no letter of the word: the
result does not change when more text follows. -/
theorem sameWord_append (b : Nat) (t : Bytes) (k : Nat) :
    ∀ (y word : Bytes), toLower b ∉ word →
      sameWord (y ++ [b] ++ t) word (y.length + 1 + k) = sameWord (y ++ [b]) word (y.length + 1) := by
  intro y
  induction y with
  | nil =>
    intro word hb
    cases word with
    | nil => simp [sameWord]
    | cons c cs =>
      have hc : toLower b ≠ c := fun h => hb (by simp [h])
      rw [show ([] : Bytes).length + 1 + k = k + 1 from by simp; omega,
        show ([] : Bytes).length + 1 = 0 + 1 from rfl, sameWord, sameWord]
      have p1 : peek ([] ++ [b] ++ t) 0 = b := rfl
      have p2 : peek ([] ++ [b]) 0 = b := rfl
      rw [p1, p2, if_neg hc, if_neg hc]
  | cons x y ih =>
    intro word hb
    cases word with
    | nil => simp [sameWord]
    | cons c cs =>
      have hcs : toLower b ∉ cs := fun h => hb (List.mem_cons_of_mem _ h)
      rw [show (x :: y).length + 1 + k = (y.length + 1 + k) + 1 from by simp; omega,
        show (x :: y).length + 1 = (y.length + 1) + 1 from by simp, sameWord, sameWord]
      have p1 : peek (x :: y ++ [b] ++ t) 0 = x := rfl
      have p2 : peek (x :: y ++ [b]) 0 = x := rfl
      rw [p1, p2]
      by_cases hm : toLower x = c
      · rw [if_pos hm, if_pos hm]
        exact ih cs hcs
      · rw [if_neg hm, if_neg hm]

theorem head_snoc_append (y : Bytes) (b : Nat) (t : Bytes) :
    (y ++ [b] ++ t).head? = (y ++ [b]).head? := by
  cases y <;> simp

theorem dropIf_snoc (b : Nat) (t y : Bytes) (P : Prop) [Decidable P]
    (hP : P → (y ++ [b]).head? ≠ some b) :
    ∃ y2, (if P then (y ++ [b]).drop 1 else y ++ [b]) = y2 ++ [b]
      ∧ (if P then (y ++ [b] ++ t).drop 1 else y ++ [b] ++ t) = y2 ++ [b] ++ t := by
  by_cases h : P
  · rw [if_pos h, if_pos h]
    cases y with
    | nil => exact absurd rfl (hP h)
    | cons x y => exact ⟨y, by simp, by simp⟩
  · rw [if_neg h, if_neg h]
    exact ⟨y, rfl, rfl⟩

theorem skipSpaces_snoc (cfg : Config) (b : Nat) (hb : isSpaceByte cfg b = false) (t : Bytes) :
    ∀ (y : Bytes), ∃ y1, skipSpaces cfg (y ++ [b]) = y1 ++ [b]
      ∧ skipSpaces cfg (y ++ [b] ++ t) = y1 ++ [b] ++ t := by
  intro y
  induction y with
  | nil =>
    refine ⟨[], ?_, ?_⟩
    · simp [skipSpaces, hb]
    · simp [skipSpaces, hb]
  | cons x y ih =>
    obtain ⟨y1, h1, h2⟩ := ih
    by_cases hx : isSpaceByte cfg x = true
    · refine ⟨y1, ?_, ?_⟩
      · rw [List.cons_append, skipSpaces, if_pos hx, h1]
      · rw [List.cons_append, List.cons_append, skipSpaces, if_pos hx, h2]
    · refine ⟨x :: y, ?_, ?_⟩
      · rw [List.cons_append, skipSpaces, if_neg hx]
      · rw [List.cons_append, List.cons_append, skipSpaces, if_neg hx]

theorem scanInt_snoc (b : Nat) (hb : ¬ (48 ≤ b ∧ b ≤ 57)) (t : Bytes) :
    ∀ (y : Bytes) (n : Nat) (o : Bool), ∃ n1 o1 y1, scanInt (y ++ [b]) n o = (n1, o1, y1 ++ [b])
      ∧ scanInt (y ++ [b] ++ t) n o = (n1, o1, y1 ++ [b] ++ t) := by
  intro y
  induction y with
  | nil =>
    intro n o
    refine ⟨n, o, [], ?_, ?_⟩
    · simp [scanInt, hb]
    · simp [scanInt, hb]
  | cons x y ih =>
    intro n o
    by_cases hx : 48 ≤ x ∧ x ≤ 57
    · by_cases hn : n < max_int_add_digit
      · obtain ⟨n1, o1, y1, h1, h2⟩ := ih (n * 10 + (x - 48)) o
        refine ⟨n1, o1, y1, ?_, ?_⟩
        · rw [List.cons_append, scanInt, if_pos hx, if_pos hn, h1]
        · rw [List.cons_append, List.cons_append, scanInt, if_pos hx, if_pos hn, h2]
      · obtain ⟨n1, o1, y1, h1, h2⟩ := ih n true
        refine ⟨n1, o1, y1, ?_, ?_⟩
        · rw [List.cons_append, scanInt, if_pos hx, if_neg hn, h1]
        · rw [List.cons_append, List.cons_append, scanInt, if_pos hx, if_neg hn, h2]
    · refine ⟨n, o, x :: y, ?_, ?_⟩
      · rw [List.cons_append, scanInt, if_neg hx]
      · rw [List.cons_append, List.cons_append, scanInt, if_neg hx]

theorem scanFrac_snoc (b : Nat) (hb : ¬ (48 ≤ b ∧ b ≤ 57)) (t : Bytes) :
    ∀ (y : Bytes) (n k : Nat), ∃ n1 k1 y1, scanFrac (y ++ [b]) n k = (n1, k1, y1 ++ [b])
      ∧ scanFrac (y ++ [b] ++ t) n k = (n1, k1, y1 ++ [b] ++ t) := by
  intro y
  induction y with
  | nil =>
    intro n k
    refine ⟨n, k, [], ?_, ?_⟩
    · simp [scanFrac, hb]
    · simp [scanFrac, hb]
  | cons x y ih =>
    intro n k
    by_cases hx : 48 ≤ x ∧ x ≤ 57
    · by_cases hn : n < 18446744073709551615 / 10
      · obtain ⟨n1, k1, y1, h1, h2⟩ := ih (n * 10 + (x - 48)) (k + 1)
        refine ⟨n1, k1, y1, ?_, ?_⟩
        · rw [List.cons_append, scanFrac, if_pos hx, if_pos hn, h1]
        · rw [List.cons_append, List.cons_append, scanFrac, if_pos hx, if_pos hn, h2]
      · obtain ⟨n1, k1, y1, h1, h2⟩ := ih n k
        refine ⟨n1, k1, y1, ?_, ?_⟩
        · rw [List.cons_append, scanFrac, if_pos hx, if_neg hn, h1]
        · rw [List.cons_append, List.cons_append, scanFrac, if_pos hx, if_neg hn, h2]
    · refine ⟨n, k, x :: y, ?_, ?_⟩
      · rw [List.cons_append, scanFrac, if_neg hx]
      · rw [List.cons_append, List.cons_append, scanFrac, if_neg hx]

theorem scanExp_snoc (b : Nat) (hb : ¬ (48 ≤ b ∧ b ≤ 57)) (t : Bytes) :
    ∀ (y : Bytes) (n : Nat), ∃ n1 y1, scanExp (y ++ [b]) n = (n1, y1 ++ [b])
      ∧ scanExp (y ++ [b] ++ t) n = (n1, y1 ++ [b] ++ t) := by
  intro y
  induction y with
  | nil =>
    intro n
    refine ⟨n, [], ?_, ?_⟩
    · simp [scanExp, hb]
    · simp [scanExp, hb]
  | cons x y ih =>
    intro n
    by_cases hx : 48 ≤ x ∧ x ≤ 57
    · by_cases hn : n < max_exp
      · obtain ⟨n1, y1, h1, h2⟩ := ih (n * 10 + (x - 48))
        refine ⟨n1, y1, ?_, ?_⟩
        · rw [List.cons_append, scanExp, if_pos hx, if_pos hn, h1]
        · rw [List.cons_append, List.cons_append, scanExp, if_pos hx, if_pos hn, h2]
      · obtain ⟨n1, y1, h1, h2⟩ := ih n
        refine ⟨n1, y1, ?_, ?_⟩
        · rw [List.cons_append, scanExp, if_pos hx, if_neg hn, h1]
        · rw [List.cons_append, List.cons_append, scanExp, if_pos hx, if_neg hn, h2]
    · refine ⟨n, x :: y, ?_, ?_⟩
      · rw [List.cons_append, scanExp, if_neg hx]
      · rw [List.cons_append, List.cons_append, scanExp, if_neg hx]

theorem snoc_head (y : Bytes) (b x : Nat) (h : (y ++ [b]).head? = some x) (hx : x ≠ b) :
    ∃ y1, y = x :: y1 := by
  cases y with
  | nil => simp at h; exact absurd h.symm hx
  | cons c y => simp at h; exact ⟨y, by rw [h]⟩

/-- A number scanned in a text that ends in a closing bracket: the result does not change
when more text follows the bracket. -/
theorem getNumStr_append (env : Env) (cfg : Config) (y t : Bytes) (b : Nat)
    (hb : b = 125 ∨ b = 93) :
    getNumStr env cfg (y ++ [b] ++ t) (y ++ [b] ++ t).length
      = getNumStr env cfg (y ++ [b]) (y ++ [b]).length := by
  have hsp : isSpaceByte cfg b = false := by
    rcases hb with rfl | rfl <;> simp [isSpaceByte]
  have hdig : ¬ (48 ≤ b ∧ b ≤ 57) := by omega
  obtain ⟨y1, h1, h1t⟩ := skipSpaces_snoc cfg b hsp t y
  obtain ⟨y2, h2, h2t⟩ := dropIf_snoc b t y1
    ((y1 ++ [b]).head? = some 45 ∨ (y1 ++ [b]).head? = some 43)
    (by
      intro hP hh
      rw [hh] at hP
      simp only [Option.some.injEq] at hP
      omega)
  obtain ⟨n3, o3, y3, h3, h3t⟩ := scanInt_snoc b hdig t y2 0 false
  simp only [getNumStr, List.take_length]
  rw [h1t, h1]
  simp only [head_snoc_append]
  rw [h2t, h2, h3t, h3]
  simp only [head_snoc_append]
  obtain ⟨n4, k4, y4, h4, h4t⟩ : ∃ n4 k4 y4,
      (if decide ((y3 ++ [b]).head? = some 46) = true then scanFrac (List.drop 1 (y3 ++ [b])) 0 0
        else (0, 0, y3 ++ [b])) = (n4, k4, y4 ++ [b])
      ∧ (if decide ((y3 ++ [b]).head? = some 46) = true then
          scanFrac (List.drop 1 (y3 ++ [b] ++ t)) 0 0
        else (0, 0, y3 ++ [b] ++ t)) = (n4, k4, y4 ++ [b] ++ t) := by
    by_cases hf : (y3 ++ [b]).head? = some 46
    · obtain ⟨y5, rfl⟩ := snoc_head y3 b 46 hf (by omega)
      obtain ⟨n4, k4, y4, e1, e2⟩ := scanFrac_snoc b hdig t y5 0 0
      refine ⟨n4, k4, y4, ?_, ?_⟩
      · rw [if_pos (decide_eq_true hf)]
        simpa using e1
      · rw [if_pos (decide_eq_true hf)]
        simpa using e2
    · refine ⟨0, 0, y3, ?_, ?_⟩
      · rw [if_neg (fun h => hf (of_decide_eq_true h))]
      · rw [if_neg (fun h => hf (of_decide_eq_true h))]
  rw [h4t, h4]
  simp only [head_snoc_append]
  have hlen : ∀ (z : Bytes), (y ++ [b] ++ t).length - (z ++ [b] ++ t).length
      = (y ++ [b]).length - (z ++ [b]).length := by
    intro z
    simp only [List.length_append, List.length_cons, List.length_nil]
    omega
  by_cases he : (y4 ++ [b]).head? = some 101 ∨ (y4 ++ [b]).head? = some 69
  · rw [if_pos he, if_pos he]
    obtain ⟨c, hc, hcb⟩ : ∃ c, (y4 ++ [b]).head? = some c ∧ c ≠ b := by
      rcases he with h | h
      · exact ⟨101, h, by omega⟩
      · exact ⟨69, h, by omega⟩
    obtain ⟨y5, rfl⟩ := snoc_head y4 b c hc hcb
    simp only [List.cons_append, List.drop_succ_cons, List.drop_zero]
    simp only [head_snoc_append]
    cases hs : (y5 ++ [b]).head? with
    | none => rfl
    | some s =>
      simp only []
      obtain ⟨y6, h6, h6t⟩ := dropIf_snoc b t y5 (s = 45 ∨ s = 43)
        (by
          intro hP hh
          rw [hh] at hs
          simp only [Option.some.injEq] at hs
          omega)
      obtain ⟨n7, y7, h7, h7t⟩ := scanExp_snoc b hdig t y6 0
      rw [h6t, h6, h7t, h7]
      simp only [hlen]
  · rw [if_neg he, if_neg he]
    simp only [hlen]

theorem getUCode_append (x t : Bytes) (h : 4 ≤ x.length) : getUCode (x ++ t) = getUCode x := by
  unfold getUCode
  have e : List.range 4 = [0, 1, 2, 3] := by decide
  simp only [e, List.foldl]
  rw [peek_append_left x t 0 (by omega), peek_append_left x t 1 (by omega),
    peek_append_left x t 2 (by omega), peek_append_left x t 3 (by omega)]

theorem solidusCode_append (cfg : Config) (x t : Bytes) (left cl : Nat) (h : left < x.length) :
    solidusCode cfg (x ++ t) left cl = solidusCode cfg x left cl := by
  unfold solidusCode
  have e0 : peek (x ++ t) 0 = peek x 0 := peek_append_left x t 0 (by omega)
  have ed : (x ++ t).drop 1 = x.drop 1 ++ t := List.drop_append_of_le_length (by omega)
  simp only [e0, ed]
  by_cases h5 : left ≥ 5
  · have eu : getUCode (x.drop 1 ++ t) = getUCode (x.drop 1) :=
      getUCode_append _ _ (by simp only [List.length_drop]; omega)
    simp only [eu]
    by_cases h11 : left ≥ 11
    · have e5 : peek (x.drop 1 ++ t) 5 = peek (x.drop 1) 5 :=
        peek_append_left _ _ 5 (by simp only [List.length_drop]; omega)
      have e6 : peek (x.drop 1 ++ t) 6 = peek (x.drop 1) 6 :=
        peek_append_left _ _ 6 (by simp only [List.length_drop]; omega)
      have e7 : (x.drop 1 ++ t).drop 7 = (x.drop 1).drop 7 ++ t :=
        List.drop_append_of_le_length (by simp only [List.length_drop]; omega)
      have eu7 : getUCode ((x.drop 1).drop 7 ++ t) = getUCode ((x.drop 1).drop 7) :=
        getUCode_append _ _ (by simp only [List.length_drop]; omega)
      simp only [e5, e6, e7, eu7]
    · simp only [h11, false_and, and_false, if_false]
  · simp only [h5, if_false]

theorem getCode_window (cfg : Config) (left : Nat) (p q : Bytes) (h : SameWindow left p q) :
    getCode cfg p left = getCode cfg q left := by
  unfold getCode
  rcases h with h | ⟨t, rfl, h⟩
  · simp [h]
  · by_cases h0 : left ≠ 0
    · rw [if_pos h0, if_pos h0]
      have e0 : peek (q ++ t) 0 = peek q 0 := peek_append_left q t 0 (by omega)
      have ed : (q ++ t).drop 1 = q.drop 1 ++ t := List.drop_append_of_le_length (by omega)
      simp only [e0, ed]
      by_cases h1 : left - 1 ≠ 0 ∧ peek q 0 = 92
      · rw [if_pos h1, if_pos h1]
        exact solidusCode_append cfg _ t _ 1 (by simp only [List.length_drop]; omega)
      · rw [if_neg h1, if_neg h1]
    · rw [if_neg h0, if_neg h0]

theorem sameWindow_drop (left n : Nat) (p q : Bytes) (h : SameWindow left p q) :
    SameWindow (left - n) (p.drop n) (q.drop n) := by
  rcases h with h | ⟨t, rfl, h⟩
  · exact Or.inl (by omega)
  · by_cases hn : n < left
    · refine Or.inr ⟨t, List.drop_append_of_le_length (by omega), ?_⟩
      simp only [List.length_drop]
      omega
    · exact Or.inl (by omega)

theorem getCharLoop_window (cfg : Config) :
    ∀ (fuel left : Nat) (p q : Bytes) (m c8 total : Nat), SameWindow left p q →
      getCharLoop cfg fuel p left m c8 total = getCharLoop cfg fuel q left m c8 total := by
  intro fuel
  induction fuel with
  | zero => intro left p q m c8 total _; rfl
  | succ fuel ih =>
    intro left p q m c8 total h
    rw [getCharLoop, getCharLoop, getCode_window cfg left p q h]
    simp only [ih _ _ _ _ _ _ (sameWindow_drop left _ p q h)]

theorem getChar_window (cfg : Config) (left : Nat) (p q : Bytes) (h : SameWindow left p q) :
    getChar cfg p left = getChar cfg q left := by
  unfold getChar
  rw [getCode_window cfg left p q h]
  simp only [getCharLoop_window cfg _ _ _ _ _ _ _ (sameWindow_drop left _ p q h)]

theorem hashJSONStrLoop_window (cfg : Config) :
    ∀ (fuel left : Nat) (p q : Bytes) (hash : Nat), SameWindow left p q →
      hashJSONStrLoop cfg fuel p left hash = hashJSONStrLoop cfg fuel q left hash := by
  intro fuel
  induction fuel with
  | zero => intro left p q hash _; rfl
  | succ fuel ih =>
    intro left p q hash h
    rw [hashJSONStrLoop, hashJSONStrLoop, getChar_window cfg left p q h]
    simp only [ih _ _ _ _ (sameWindow_drop left _ p q h)]

theorem getStrLenLoop_window (cfg : Config) :
    ∀ (fuel left : Nat) (p q : Bytes) (len : Nat), SameWindow left p q →
      getStrLenLoop cfg fuel p left len = getStrLenLoop cfg fuel q left len := by
  intro fuel
  induction fuel with
  | zero => intro left p q len _; rfl
  | succ fuel ih =>
    intro left p q len h
    rw [getStrLenLoop, getStrLenLoop, getChar_window cfg left p q h]
    simp only [ih _ _ _ _ (sameWindow_drop left _ p q h)]

theorem toEncodingLoop_window (cfg : Config) :
    ∀ (fuel left : Nat) (p q : Bytes) (out : Bytes), SameWindow left p q →
      toEncodingLoop cfg fuel p left out = toEncodingLoop cfg fuel q left out := by
  intro fuel
  induction fuel with
  | zero => intro left p q out _; rfl
  | succ fuel ih =>
    intro left p q out h
    rw [toEncodingLoop, toEncodingLoop, getChar_window cfg left p q h]
    simp only [ih _ _ _ _ (sameWindow_drop left _ p q h)]

/-- A string that ends inside the text, with the byte behind it: the three decoders give
the same when more text follows. -/
theorem string_append (cfg : Config) (json t : Bytes) (a len : Nat) (h : a + len < json.length) :
    hashJSONStr cfg ((json ++ t).drop a) len = hashJSONStr cfg (json.drop a) len
      ∧ getStrLen cfg ((json ++ t).drop a) len = getStrLen cfg (json.drop a) len
      ∧ toEncoding cfg ((json ++ t).drop a) len = toEncoding cfg (json.drop a) len
      ∧ fnv1A ((json ++ t).drop a) len = fnv1A (json.drop a) len
      ∧ ((json ++ t).drop a).take len = (json.drop a).take len := by
  have hw : SameWindow len ((json ++ t).drop a) (json.drop a) :=
    Or.inr ⟨t, List.drop_append_of_le_length (by omega), by simp only [List.length_drop]; omega⟩
  have ht : ((json ++ t).drop a).take len = (json.drop a).take len := by
    rw [List.drop_append_of_le_length (by omega), List.take_append_of_le_length]
    simp only [List.length_drop]
    omega
  refine ⟨hashJSONStrLoop_window cfg _ _ _ _ _ hw, getStrLenLoop_window cfg _ _ _ _ _ hw,
    toEncodingLoop_window cfg _ _ _ _ _ hw, ?_, ht⟩
  unfold fnv1A
  rw [ht]

theorem take_drop_append (json t : Bytes) (a len : Nat) (h : a + len ≤ json.length) :
    ((json ++ t).drop a).take len = (json.drop a).take len := by
  rw [List.drop_append_of_le_length (by omega), List.take_append_of_le_length]
  simp only [List.length_drop]
  omega

theorem fnv1A_append (json t : Bytes) (a len : Nat) (h : a + len ≤ json.length) :
    fnv1A ((json ++ t).drop a) len = fnv1A (json.drop a) len := by
  unfold fnv1A
  rw [take_drop_append json t a len h]

theorem checkStr_append (sc : sStrCache) (json t : Bytes) (str len index : Nat)
    (hs : StringsInside json sc) (h : str + len < json.length) :
    sc.checkStr (json ++ t) str len index = sc.checkStr json str len index := by
  unfold sStrCache.checkStr
  by_cases hl : len ≠ sc.aStrLen.getD index 0
  · rw [if_pos hl, if_pos hl]
  · rw [if_neg hl, if_neg hl]
    have hl2 : len = sc.aStrLen.getD index 0 := by simpa using hl
    have h2 := hs.2 index
    rw [← hl2] at h2
    rw [take_drop_append json t _ len (by omega), take_drop_append json t str len (by omega)]

theorem findStr_append (sc : sStrCache) (json t : Bytes) (str len hash : Nat)
    (hs : StringsInside json sc) (h : str + len < json.length) :
    ∀ (fuel element : Nat), sc.findStr (json ++ t) str len hash fuel element
      = sc.findStr json str len hash fuel element := by
  intro fuel
  induction fuel with
  | zero => intro element; rfl
  | succ fuel ih =>
    intro element
    rw [sStrCache.findStr, sStrCache.findStr, checkStr_append sc json t str len _ hs h, ih]

theorem getStringIndex_append (sc : sStrCache) (json t : Bytes) (str len : Nat)
    (hs : StringsInside json sc) (h : str + len < json.length) :
    sc.getStringIndex (json ++ t) str len = sc.getStringIndex json str len := by
  unfold sStrCache.getStringIndex
  rw [fnv1A_append json t str len (by omega)]
  simp only [findStr_append sc json t str len _ hs h]

theorem addString_append (sc : sStrCache) (json t : Bytes) (str len : Nat)
    (hs : StringsInside json sc) (h : str + len < json.length) :
    sc.addString (json ++ t) str len = sc.addString json str len := by
  unfold sStrCache.addString
  rw [fnv1A_append json t str len (by omega)]
  simp only [findStr_append sc json t str len _ hs h]

theorem getD_set_le {α : Type} (l : List α) (i j : Nat) (a d : α) :
    (l.set i a).getD j d = if i = j ∧ i < l.length then a else l.getD j d := by
  by_cases h : i = j
  · subst h
    by_cases hl : i < l.length
    · rw [getD_set_same l i a d hl, if_pos ⟨rfl, hl⟩]
    · rw [if_neg (fun h => hl h.2)]
      have hn : l[i]? = none := List.getElem?_eq_none (by omega)
      simp [List.getD_eq_getElem?_getD, List.getElem?_set, hl, hn]
  · rw [getD_set_other l i j a d h, if_neg (fun h1 => h h1.1)]

/-- A string that lies inside the text is added to the cache: the strings of the cache
still lie inside the text. -/
theorem addString_inside (sc sc1 : sStrCache) (json : Bytes) (str len : Nat)
    (hs : StringsInside json sc) (h : str + len < json.length)
    (ha : sc.addString json str len = .ok sc1) : StringsInside json sc1 := by
  unfold sStrCache.addString at ha
  simp only at ha
  split at ha
  · split at ha
    · simp only [Except.ok.injEq] at ha
      subst ha
      refine ⟨by simp only [List.length_set]; exact hs.1, ?_⟩
      intro i
      simp only [getD_set_le]
      rw [hs.1]
      by_cases hi : sc.numStr = i ∧ sc.numStr < sc.aStrLen.length
      · rw [if_pos hi, if_pos hi]
        exact h
      · rw [if_neg hi, if_neg hi]
        exact hs.2 i
    · cases ha
  · simp only [Except.ok.injEq] at ha
    subst ha
    exact hs

theorem init_inside (json : Bytes) (n : Nat) (h : json ≠ []) :
    StringsInside json (sStrCache.init n) := by
  have hl : 0 < json.length := List.length_pos.mpr h
  refine ⟨by simp [sStrCache.init], ?_⟩
  intro i
  have e : ∀ (k : Nat), (List.replicate k 0).getD i 0 = 0 := by
    intro k
    rw [List.getD_eq_getElem?_getD]
    cases hg : (List.replicate k 0)[i]? with
    | none => rfl
    | some v =>
      have := List.getElem?_eq_some_iff.mp hg
      obtain ⟨hlt, hv⟩ := this
      simp at hv
      simp [hv]
  simp only [sStrCache.init, e]
  exact hl

theorem getCharNegative_window (cfg : Config) (u : Nat) (p q : Bytes) (left : Int)
    (hu : 2147483648 ≤ u) (h : SameWindow u p q) :
    getCharNegative cfg p left = getCharNegative cfg q left := by
  rcases h with h | ⟨t, rfl, h⟩
  · omega
  · unfold getCharNegative
    have e0 : peek (q ++ t) 0 = peek q 0 := peek_append_left q t 0 (by omega)
    have ed : (q ++ t).drop 1 = q.drop 1 ++ t := List.drop_append_of_le_length (by omega)
    simp only [e0, ed]
    have hl : (toInt32 (left - 1)).toNat < (q.drop 1).length := by
      simp only [List.length_drop]
      unfold toInt32
      omega
    rw [solidusCode_append cfg _ t _ 1 hl]

/-- The loop of `toEncoding` from an `int left` that holds the bits `u`, on a window that ends
inside the text. -/
theorem toEncodingInt_window (cfg : Config) :
    ∀ (fuel u : Nat) (p q : Bytes) (out : Bytes), u < 4294967296 → SameWindow u p q →
      toEncodingInt cfg fuel p (toInt32 (u : Int)) out
        = toEncodingInt cfg fuel q (toInt32 (u : Int)) out := by
  intro fuel
  induction fuel with
  | zero => intro u p q out _ _; rfl
  | succ fuel ih =>
    intro u p q out hu h
    rw [toEncodingInt, toEncodingInt]
    by_cases hs : 0 ≤ toInt32 (u : Int)
    · rw [if_pos hs, if_pos hs]
      have e : (toInt32 (u : Int)).toNat = u := by
        unfold toInt32 at hs ⊢
        omega
      rw [e, toEncodingLoop_window cfg _ _ _ _ _ h]
    · rw [if_neg hs, if_neg hs]
      have hneg : 2147483648 ≤ u := by
        unfold toInt32 at hs
        omega
      have ec := getCharNegative_window cfg u p q (toInt32 (u : Int)) hneg h
      have hb := getCharNegative_len cfg q (toInt32 (u : Int))
      simp only [ec]
      have e2 : toInt32 (toInt32 (u : Int) - ((getCharNegative cfg q (toInt32 (u : Int))).2 : Int))
          = toInt32 ((u - (getCharNegative cfg q (toInt32 (u : Int))).2 : Nat) : Int) := by
        generalize (getCharNegative cfg q (toInt32 (u : Int))).2 = c at hb
        unfold toInt32
        omega
      rw [e2]
      exact ih _ _ _ _ (by omega) (sameWindow_drop u _ p q h)

theorem encodeList_append (cfg : Config) (json t : Bytes) (sc : sStrCache)
    (hs : StringsInside json sc) (hsize : json.length < 4294967296) :
    ∀ idx : List Nat, encodeList cfg (json ++ t) sc idx = encodeList cfg json sc idx := by
  intro idx
  induction idx with
  | nil => rfl
  | cons i idx ih =>
    rw [encodeList, encodeList, ih]
    have hi := hs.2 i
    have hw : SameWindow (sc.aStrLen.getD i 0) ((json ++ t).drop (sc.apStrings.getD i 0))
        (json.drop (sc.apStrings.getD i 0)) :=
      Or.inr ⟨t, List.drop_append_of_le_length (by omega),
        by simp only [List.length_drop]; omega⟩
    rw [toEncodingInt_window cfg _ _ _ _ _ (by omega) hw]

theorem encodeStrings_append (cfg : Config) (json t : Bytes) (sc : sStrCache)
    (hs : StringsInside json sc) (hsize : json.length < 4294967296) :
    encodeStrings cfg (json ++ t) sc = encodeStrings cfg json sc :=
  encodeList_append cfg json t sc hs hsize _

theorem stringBytes_append (cfg : Config) (json t : Bytes) (sc : sStrCache)
    (hs : StringsInside json sc) :
    stringBytes cfg (json ++ t) sc = stringBytes cfg json sc := by
  have e : ∀ i ∈ List.range sc.numStr,
      getStrLenInt cfg ((json ++ t).drop (sc.apStrings.getD i 0))
          (toInt32 (sc.aStrLen.getD i 0 : Int)) + 1
        = getStrLenInt cfg (json.drop (sc.apStrings.getD i 0))
          (toInt32 (sc.aStrLen.getD i 0 : Int)) + 1 := by
    intro i _
    unfold getStrLenInt
    have hi := hs.2 i
    have hl := toInt32_toNat_le (sc.aStrLen.getD i 0)
    have hlt : sc.apStrings.getD i 0 + (toInt32 (sc.aStrLen.getD i 0 : Int)).toNat
        < json.length := lt_of_le_of_lt (Nat.add_le_add_left hl _) hi
    rw [(string_append cfg json t _ _ hlt).2.1]
  unfold stringBytes
  rw [List.map_congr_left e]

theorem writeItem_more (m : Machine) (k p : Nat) (f : JBItem → JBItem) :
    (m.more k).writeItem p f = (m.writeItem p f).map (fun x => x.more k) := by
  unfold Machine.writeItem Machine.more
  split <;> rfl

theorem ctxOp_more (m : Machine) (k : Nat) (op : JBParse → Except Fault JBParse) :
    (m.more k).ctxOp op = (m.ctxOp op).map (fun x => x.more k) := by
  unfold Machine.ctxOp Machine.more
  simp only
  split <;> rfl

theorem liftFault_map {α β : Type} (x : Except Fault α) (g : α → β) :
    liftFault (x.map g) = (liftFault x).map g := by
  cases x <;> rfl

theorem map_bind_except {ε α β γ : Type} (x : Except ε α) (g : α → β) (h : β → Except ε γ) :
    (x.map g >>= h) = (x >>= fun a => h (g a)) := by
  cases x <;> rfl

theorem bind_map_except {ε α β γ : Type} (x : Except ε α) (g : β → γ) (h : α → Except ε β) :
    (x >>= fun a => (h a).map g) = (x >>= h).map g := by
  cases x <;> rfl

theorem step_value_more (m : Machine) (k : Nat) (ty : JBType) :
    step_value (m.more k) ty = (step_value m ty).map (fun x => x.more k) := by
  unfold step_value Machine.writeItem
  simp only [Machine.more]
  cases hp : m.read.pItem with
  | none => rfl
  | some p =>
    simp only []
    by_cases h1 : 0 ≤ m.read.level ∧ m.read.level < JSON_MAX_DEPTH
    · rw [if_pos h1, if_pos h1]
      cases hpar : (m.read.aHier.getD m.read.level.toNat (none, none)).1 with
      | none => rfl
      | some parent =>
        simp only []
        by_cases h2 : parent < m.mem.length
        · rw [if_pos h2, if_pos h2]
          by_cases h4 : p < m.mem.length <;> by_cases h5 : ty = JBType.JB_ARRAY ∨ ty = JBType.JB_OBJECT
            <;> by_cases h7 : m.read.level + 1 < JSON_MAX_DEPTH
            <;> cases hel : (m.read.aHier.getD m.read.level.toNat (none, none)).2 with
          | none =>
            simp [bind, Except.bind, pure, Except.pure, Except.map, h4, h5, h7]
          | some elder =>
            by_cases h3 : elder < m.mem.length <;>
            simp [bind, Except.bind, pure, Except.pure, Except.map, h4, h5, h7, h3]
        · rw [if_neg h2, if_neg h2]
          rfl
    · rw [if_neg h1, if_neg h1]
      rfl

theorem step_value_frame (m m1 : Machine) (ty : JBType) (h : step_value m ty = .ok m1) :
    m1.cursor = m.cursor ∧ m1.left = m.left ∧ m1.strCache = m.strCache ∧ m1.error = m.error
      ∧ m1.read.ctx_stack = m.read.ctx_stack - 1 ∧ m1.read.context = m.read.context := by
  unfold step_value Machine.writeItem at h
  simp only [] at h
  cases hp : m.read.pItem with
  | none =>
    rw [hp] at h
    simp only [Except.ok.injEq] at h
    subst h
    exact ⟨rfl, rfl, rfl, rfl, rfl, rfl⟩
  | some p =>
    rw [hp] at h
    simp only [] at h
    by_cases h1 : 0 ≤ m.read.level ∧ m.read.level < JSON_MAX_DEPTH
    · rw [if_pos h1] at h
      cases hpar : (m.read.aHier.getD m.read.level.toNat (none, none)).1 with
      | none => rw [hpar] at h; cases h
      | some parent =>
        rw [hpar] at h
        simp only [] at h
        by_cases h2 : parent < m.mem.length
        · rw [if_pos h2] at h
          by_cases h4 : p < m.mem.length <;> by_cases h5 : ty = JBType.JB_ARRAY ∨ ty = JBType.JB_OBJECT
            <;> by_cases h7 : m.read.level + 1 < JSON_MAX_DEPTH
            <;> cases hel : (m.read.aHier.getD m.read.level.toNat (none, none)).2 with
          | none =>
            rw [hel] at h
            simp [bind, Except.bind, pure, Except.pure, h4, h5, h7] at h <;>
              (subst h; exact ⟨rfl, rfl, rfl, rfl, rfl, rfl⟩)
          | some elder =>
            rw [hel] at h
            by_cases h3 : elder < m.mem.length <;>
            simp [bind, Except.bind, pure, Except.pure, h4, h5, h7, h3] at h <;>
              (subst h; exact ⟨rfl, rfl, rfl, rfl, rfl, rfl⟩)
        · rw [if_neg h2] at h
          cases h
    · rw [if_neg h1] at h
      cases h

theorem textSkip_more (m : Machine) (k skip : Nat) (h1 : skip ≤ m.left)
    (h2 : m.left + k < 4294967296) :
    (m.more k).textSkip skip = (m.textSkip skip).more k
      ∧ (m.textSkip skip).left = m.left - skip := by
  unfold Machine.textSkip Machine.more u32
  simp only
  have e1 : skip % 4294967296 = skip := Nat.mod_eq_of_lt (by omega)
  have e2 : (m.left + 4294967296 - skip) % 4294967296 = m.left - skip := by omega
  have e3 : (m.left + k + 4294967296 - skip) % 4294967296 = m.left - skip + k := by omega
  rw [e1, e2, e3]
  exact ⟨rfl, rfl⟩

theorem textBack_more (m : Machine) (k : Nat) (h : m.left + k + 1 < 4294967296) :
    (m.more k).textBack = m.textBack.more k ∧ m.textBack.left = m.left + 1 := by
  unfold Machine.textBack Machine.more u32
  simp only
  have e2 : (m.left + 1) % 4294967296 = m.left + 1 := by omega
  have e3 : (m.left + k + 1) % 4294967296 = m.left + 1 + k := by omega
  rw [e2, e3]
  exact ⟨rfl, rfl⟩

theorem pop_more (left k : Nat) (h1 : 1 ≤ left) (h2 : left + k < 4294967296) :
    u32 (left + k + 4294967295) = u32 (left + 4294967295) + k
      ∧ u32 (left + 4294967295) = left - 1 := by
  unfold u32
  omega

theorem depthCheck_more (m : Machine) (k : Nat) :
    depthCheck (m.more k) = (depthCheck m).more k := by
  unfold depthCheck
  simp only [Machine.more]
  split <;> rfl

theorem depthCheck_none (m : Machine) (h : (depthCheck m).error = JBError.JBERR_NONE) :
    depthCheck m = m ∧ m.error = JBError.JBERR_NONE := by
  unfold depthCheck at h ⊢
  split at h
  · simp [Machine.setError] at h
  · rename_i hc
    rw [if_neg hc]
    exact ⟨rfl, h⟩

theorem ctxOp_frame (m m1 : Machine) (op : JBParse → Except Fault JBParse)
    (h : m.ctxOp op = .ok m1) :
    m1.cursor = m.cursor ∧ m1.left = m.left ∧ m1.strCache = m.strCache ∧ m1.error = m.error
      ∧ m1.mem = m.mem ∧ op m.read = .ok m1.read := by
  unfold Machine.ctxOp at h
  cases ho : op m.read with
  | error e => rw [ho] at h; cases h
  | ok r =>
    rw [ho] at h
    simp only [Except.ok.injEq] at h
    subst h
    exact ⟨rfl, rfl, rfl, rfl, rfl, rfl⟩

theorem writeItem_frame (m m1 : Machine) (p : Nat) (f : JBItem → JBItem)
    (h : m.writeItem p f = .ok m1) :
    m1.cursor = m.cursor ∧ m1.left = m.left ∧ m1.strCache = m.strCache ∧ m1.error = m.error
      ∧ m1.read = m.read := by
  unfold Machine.writeItem at h
  split at h
  · simp only [Except.ok.injEq] at h
    subst h
    exact ⟨rfl, rfl, rfl, rfl, rfl⟩
  · cases h

theorem writeData_more (m : Machine) (k : Nat) (d : JBData) :
    (m.more k).writeData d = (m.writeData d).map (fun x => x.more k) := by
  unfold Machine.writeData
  cases hp : m.read.pItem with
  | none =>
    have : (m.more k).read.pItem = none := hp
    rw [this]
    rfl
  | some p =>
    have : (m.more k).read.pItem = some p := hp
    rw [this]
    simp only []
    rw [writeItem_more, liftFault_map]

theorem writeData_frame (m m1 : Machine) (d : JBData) (h : m.writeData d = .ok m1) :
    m1.cursor = m.cursor ∧ m1.left = m.left ∧ m1.strCache = m.strCache ∧ m1.error = m.error
      ∧ m1.read = m.read := by
  unfold Machine.writeData at h
  cases hp : m.read.pItem with
  | none =>
    rw [hp] at h
    simp only [Except.ok.injEq] at h
    subst h
    exact ⟨rfl, rfl, rfl, rfl, rfl⟩
  | some p =>
    rw [hp] at h
    simp only [] at h
    exact writeItem_frame m m1 p _ (liftFault_ok_inv _ _ h)

theorem caseOpen_more (m : Machine) (k : Nat) (ty : JBType) (ctx : eJSONCtx) :
    caseOpen (m.more k) ty ctx = (caseOpen m ty ctx).map (fun x => x.more k) := by
  unfold caseOpen
  rw [step_value_more]
  cases step_value m ty with
  | error e => rfl
  | ok m1 =>
    simp only [Except.map, liftFault, bind, Except.bind]
    have : (m1.more k).read = m1.read := rfl
    rw [this]
    cases m1.read.get_context with
    | error e => rfl
    | ok top =>
      simp only []
      rw [ctxOp_more]
      rfl

theorem caseOpen_frame (m m1 : Machine) (ty : JBType) (ctx : eJSONCtx)
    (h : caseOpen m ty ctx = .ok m1) :
    m1.cursor = m.cursor ∧ m1.left = m.left ∧ m1.strCache = m.strCache ∧ m1.error = m.error := by
  unfold caseOpen at h
  obtain ⟨a, ha, h⟩ := bind_ok _ _ _ h
  obtain ⟨top, _, h⟩ := bind_ok _ _ _ h
  have f1 := step_value_frame m a ty (liftFault_ok_inv _ _ ha)
  have f2 := ctxOp_frame a m1 _ h
  exact ⟨f2.1.trans f1.1, f2.2.1.trans f1.2.1, f2.2.2.1.trans f1.2.2.1, f2.2.2.2.1.trans f1.2.2.2.1⟩

theorem set_context_get (r r1 : JBParse) (x : eJSONCtx)
    (hl : r.context.length = JSON_MAX_CONTEXT) (h : r.set_context x = .ok r1) :
    r1.get_context = .ok x ∧ r1.context.length = JSON_MAX_CONTEXT
      ∧ r1.ctx_stack = r.ctx_stack := by
  unfold JBParse.set_context at h
  split at h
  · rename_i hr
    simp only [Except.ok.injEq] at h
    subst h
    have hi : r.ctx_stack.toNat < r.context.length := by
      rw [hl]
      unfold JSON_MAX_CONTEXT at hr ⊢
      omega
    refine ⟨?_, by simp only [List.length_set]; exact hl, rfl⟩
    unfold JBParse.get_context
    simp only []
    rw [if_pos hr, getD_set_same _ _ _ _ hi]
  · cases h

theorem push_context_get (r r1 : JBParse) (x : eJSONCtx)
    (hl : r.context.length = JSON_MAX_CONTEXT) (h : r.push_context x = .ok r1) :
    r1.get_context = .ok x ∧ r1.context.length = JSON_MAX_CONTEXT := by
  unfold JBParse.push_context at h
  have := set_context_get { r with ctx_stack := r.ctx_stack + 1 } r1 x hl h
  exact ⟨this.1, this.2.1⟩

theorem set_or_push_get (r r1 : JBParse) (x : eJSONCtx) (p : Bool)
    (hl : r.context.length = JSON_MAX_CONTEXT) (h : r.set_or_push_context x p = .ok r1) :
    r1.get_context = .ok x ∧ r1.context.length = JSON_MAX_CONTEXT := by
  unfold JBParse.set_or_push_context at h
  split at h
  · exact push_context_get r r1 x hl h
  · have := set_context_get r r1 x hl h
    exact ⟨this.1, this.2.1⟩

/-- A branch of the first `switch` that changes the context to `x`. -/
theorem ctxOp_branch (m m3 : Machine) (k : Nat) (op : JBParse → Except Fault JBParse)
    (x : eJSONCtx)
    (hop : ∀ r1, op m.read = .ok r1 →
      r1.get_context = .ok x ∧ r1.context.length = JSON_MAX_CONTEXT)
    (h : m.ctxOp op = .ok m3) :
    (m.more k).ctxOp op = .ok (m3.more k) ∧ m3.cursor = m.cursor ∧ m3.left = m.left
      ∧ m3.strCache = m.strCache ∧ m3.error = m.error ∧ m3.read.get_context = .ok x
      ∧ m3.read.context.length = JSON_MAX_CONTEXT := by
  have f := ctxOp_frame m m3 op h
  have g := hop _ f.2.2.2.2.2
  refine ⟨?_, f.1, f.2.1, f.2.2.1, f.2.2.2.1, g.1, g.2⟩
  rw [ctxOp_more, h]
  rfl

/-- A change of the context of a machine that is within the text. -/
theorem ctxOp_within (m m3 : Machine) (json : Bytes) (k : Nat)
    (op : JBParse → Except Fault JBParse) (x : eJSONCtx) (hw : m.Within json k)
    (hop : ∀ r1, op m.read = .ok r1 →
      r1.get_context = .ok x ∧ r1.context.length = JSON_MAX_CONTEXT)
    (h : m.ctxOp op = .ok m3) :
    (m.more k).ctxOp op = .ok (m3.more k) ∧ m3.Within json k ∧ m3.read.get_context = .ok x
      ∧ m3.cursor = m.cursor ∧ m3.left = m.left ∧ m3.error = m.error := by
  obtain ⟨g1, g2, g3, g4, g5, g6, g7⟩ := ctxOp_branch m m3 k op x hop h
  exact ⟨g1, ⟨by rw [g2, g3]; exact hw.1, hw.2.1, g7, by rw [g4]; exact hw.2.2.2⟩, g6, g2, g3, g5⟩

theorem more_read (m : Machine) (k : Nat) : (m.more k).read = m.read := rfl
theorem more_cursor (m : Machine) (k : Nat) : (m.more k).cursor = m.cursor := rfl
theorem more_left (m : Machine) (k : Nat) : (m.more k).left = m.left + k := rfl
theorem more_mem (m : Machine) (k : Nat) : (m.more k).mem = m.mem := rfl
theorem more_error (m : Machine) (k : Nat) : (m.more k).error = m.error := rfl
theorem more_strCache (m : Machine) (k : Nat) : (m.more k).strCache = m.strCache := rfl
theorem more_setError (m : Machine) (k : Nat) (e : JBError) :
    (m.more k).setError e = (m.setError e).more k := rfl

theorem drop_snoc_append (pre t : Bytes) (b c : Nat) (h : c ≤ pre.length) :
    (pre ++ [b]).drop c = pre.drop c ++ [b]
      ∧ (pre ++ [b] ++ t).drop c = pre.drop c ++ [b] ++ t := by
  constructor
  · exact List.drop_append_of_le_length h
  · rw [List.append_assoc, List.drop_append_of_le_length h, List.append_assoc]

theorem bracket_no_letter (b : Nat) (hb : b = 125 ∨ b = 93) :
    toLower b ∉ _null ∧ toLower b ∉ _true ∧ toLower b ∉ _false := by
  rcases hb with rfl | rfl <;> decide

/-- The first `switch` of a round, on a text that ends in a closing bracket: it does the
same when more text follows. -/
theorem tokenSwitch_append (cfg : Config) (hc : cfg.allowCComments = false) (pre t : Bytes)
    (b : Nat) (hb : b = 125 ∨ b = 93) (m m3 : Machine) (ctx : eJSONCtx) (c : Nat)
    (hw : m.Within (pre ++ [b]) t.length) (hcur : 1 ≤ m.cursor)
    (hctx : m.read.get_context = .ok ctx)
    (h : tokenSwitch cfg (pre ++ [b]) m ctx c = .ok m3) (he : m3.error = JBError.JBERR_NONE) :
    tokenSwitch cfg (pre ++ [b] ++ t) (m.more t.length) ctx c = .ok (m3.more t.length)
      ∧ m3.Within (pre ++ [b]) t.length ∧ m3.TokenTaken := by
  obtain ⟨hsum, hsize, hlen, hstr⟩ := hw
  have hN : (pre ++ [b]).length = pre.length + 1 := by simp
  -- a branch that only changes the context
  have key : ∀ (m3 : Machine) (op : JBParse → Except Fault JBParse) (x : eJSONCtx),
      (∀ r1, op m.read = .ok r1 → r1.get_context = .ok x ∧ r1.context.length = JSON_MAX_CONTEXT) →
      x ≠ eJSONCtx.JSON_NUMERIC_VALUE → m.ctxOp op = .ok m3 →
      (m.more t.length).ctxOp op = .ok (m3.more t.length)
        ∧ m3.Within (pre ++ [b]) t.length ∧ m3.TokenTaken := by
    intro m3 op x hop hx ho
    obtain ⟨g1, g2, g3, g4, _, g6, g7⟩ := ctxOp_branch m m3 t.length op x hop ho
    refine ⟨g1, ⟨by rw [g2, g3]; exact hsum, hsize, g7, by rw [g4]; exact hstr⟩, ?_, ?_⟩
    · intro hn
      rw [g6] at hn
      simp only [Except.ok.injEq] at hn
      exact absurd hn hx
    · intro _
      rw [g2]
      exact hcur
  -- a branch that sets an error
  have bad : ∀ (mm : Machine) (e : JBError) (P : Prop), e ≠ JBError.JBERR_NONE →
      (Except.ok (mm.setError e) : Except Stop Machine) = .ok m3 → P := by
    intro mm e P hne hs
    simp only [Except.ok.injEq] at hs
    subst hs
    exact absurd he hne
  unfold tokenSwitch at h ⊢
  simp only [more_read, more_left, more_cursor, more_mem] at h ⊢
  by_cases h123 : c = 123
  · rw [if_pos h123] at h ⊢
    by_cases h0 : m.read.ctx_stack = 0
    · rw [if_pos h0] at h ⊢
      exact key m3 _ eJSONCtx.JSON_OBJECT (fun r1 hr => push_context_get _ r1 _ hlen hr) (by decide) h
    · rw [if_neg h0] at h ⊢
      by_cases h1 : ctx = eJSONCtx.JSON_VALUE ∨ ctx = eJSONCtx.JSON_ARRAY
      · rw [if_pos h1] at h ⊢
        exact key m3 _ eJSONCtx.JSON_OBJECT_OPEN (fun r1 hr => push_context_get _ r1 _ hlen hr)
          (by decide) h
      · rw [if_neg h1] at h
        exact bad _ _ _ (by decide) h
  · rw [if_neg h123] at h ⊢
    by_cases h125 : c = 125
    · rw [if_pos h125] at h ⊢
      by_cases h1 : ctx = eJSONCtx.JSON_OBJECT
      · rw [if_pos h1] at h ⊢
        exact key m3 _ eJSONCtx.JSON_OBJECT_CLOSE
          (fun r1 hr => ⟨(set_context_get _ r1 _ hlen hr).1, (set_context_get _ r1 _ hlen hr).2.1⟩)
          (by decide) h
      · rw [if_neg h1] at h
        exact bad _ _ _ (by decide) h
    · rw [if_neg h125] at h ⊢
      by_cases h91 : c = 91
      · rw [if_pos h91] at h ⊢
        by_cases h1 : cfg.allowRootArray = true ∧ ctx = eJSONCtx.JSON_ROOT
        · rw [if_pos h1] at h ⊢
          obtain ⟨m1, ho, hrest⟩ := bind_ok _ _ _ h
          obtain ⟨g1, g2, g3⟩ := key m1 _ eJSONCtx.JSON_ARRAY
            (fun r1 hr => push_context_get _ r1 _ hlen hr) (by decide) ho
          rw [g1]
          simp only [bind, Except.bind, more_mem]
          by_cases hmem : m1.mem ≠ []
          · rw [if_pos hmem] at hrest ⊢
            have f := writeItem_frame m1 m3 0 _ (liftFault_ok_inv _ _ hrest)
            rw [writeItem_more, liftFault_map, hrest]
            refine ⟨rfl, ⟨by rw [f.1, f.2.1]; exact g2.1, hsize, by rw [f.2.2.2.2]; exact g2.2.2.1,
              by rw [f.2.2.1]; exact g2.2.2.2⟩, ?_⟩
            unfold Machine.TokenTaken
            rw [f.2.2.2.2, f.1, f.2.1]
            exact g3
          · rw [if_neg hmem] at hrest ⊢
            simp only [Except.ok.injEq] at hrest
            subst hrest
            exact ⟨rfl, g2, g3⟩
        · rw [if_neg h1] at h ⊢
          by_cases h2 : ctx = eJSONCtx.JSON_VALUE ∨ ctx = eJSONCtx.JSON_ARRAY
          · rw [if_pos h2] at h ⊢
            exact key m3 _ eJSONCtx.JSON_ARRAY_OPEN (fun r1 hr => push_context_get _ r1 _ hlen hr)
              (by decide) h
          · rw [if_neg h2] at h
            exact bad _ _ _ (by decide) h
      · rw [if_neg h91] at h ⊢
        by_cases h93 : c = 93
        · rw [if_pos h93] at h ⊢
          by_cases h1 : ctx = eJSONCtx.JSON_ARRAY
          · rw [if_pos h1] at h ⊢
            exact key m3 _ eJSONCtx.JSON_ARRAY_CLOSE
              (fun r1 hr => ⟨(set_context_get _ r1 _ hlen hr).1, (set_context_get _ r1 _ hlen hr).2.1⟩)
              (by decide) h
          · rw [if_neg h1] at h
            exact bad _ _ _ (by decide) h
        · rw [if_neg h93] at h ⊢
          by_cases h34 : c = 34
          · rw [if_pos h34] at h ⊢
            by_cases h1 : ctx = eJSONCtx.JSON_OBJECT
            · rw [if_pos h1] at h ⊢
              exact key m3 _ eJSONCtx.JSON_GET_TAG (fun r1 hr => push_context_get _ r1 _ hlen hr)
                (by decide) h
            · rw [if_neg h1] at h ⊢
              by_cases h2 : ctx = eJSONCtx.JSON_ARRAY
              · rw [if_pos h2] at h ⊢
                exact key m3 _ eJSONCtx.JSON_STRING_VALUE
                  (fun r1 hr => push_context_get _ r1 _ hlen hr) (by decide) h
              · rw [if_neg h2] at h ⊢
                by_cases h3 : ctx = eJSONCtx.JSON_VALUE
                · rw [if_pos h3] at h ⊢
                  exact key m3 _ eJSONCtx.JSON_STRING_VALUE
                    (fun r1 hr => ⟨(set_context_get _ r1 _ hlen hr).1,
                      (set_context_get _ r1 _ hlen hr).2.1⟩) (by decide) h
                · rw [if_neg h3] at h
                  exact bad _ _ _ (by decide) h
          · rw [if_neg h34] at h ⊢
            by_cases h58 : c = 58
            · rw [if_pos h58] at h ⊢
              by_cases h1 : ctx = eJSONCtx.JSON_COLON
              · rw [if_pos h1] at h ⊢
                exact key m3 _ eJSONCtx.JSON_VALUE
                  (fun r1 hr => ⟨(set_context_get _ r1 _ hlen hr).1,
                    (set_context_get _ r1 _ hlen hr).2.1⟩) (by decide) h
              · rw [if_neg h1] at h
                exact bad _ _ _ (by decide) h
            · rw [if_neg h58] at h ⊢
              by_cases h44 : c = 44
              · rw [if_pos h44] at h ⊢
                by_cases h1 : ctx ≠ eJSONCtx.JSON_OBJECT ∧ ctx ≠ eJSONCtx.JSON_ARRAY
                · rw [if_pos h1] at h
                  exact bad _ _ _ (by decide) h
                · rw [if_neg h1] at h ⊢
                  simp only [Except.ok.injEq] at h
                  subst h
                  refine ⟨rfl, ⟨hsum, hsize, hlen, hstr⟩, ?_, fun _ => hcur⟩
                  intro hn
                  rw [hctx] at hn
                  simp only [Except.ok.injEq] at hn
                  subst hn
                  exact absurd (by decide) h1
              · rw [if_neg h44] at h ⊢
                by_cases h47 : c = 47
                · rw [if_pos h47] at h ⊢
                  have hno : ¬ (cfg.allowCComments = true ∧ m.left ≠ 0
                      ∧ (peek (pre ++ [b]) m.cursor = 47 ∨ peek (pre ++ [b]) m.cursor = 42)) := by
                    rw [hc]
                    simp
                  rw [if_neg hno] at h
                  exact bad _ _ _ (by decide) h
                · rw [if_neg h47] at h ⊢
                  have hb1 := textBack_more m t.length (by rw [hN] at hsum hsize; omega)
                  rw [hb1.1]
                  simp only [more_cursor, more_left, more_read]
                  have hcb : m.textBack.cursor = m.cursor - 1 := rfl
                  obtain ⟨d1, d2⟩ := drop_snoc_append pre t b (m.cursor - 1)
                    (by rw [hN] at hsum; omega)
                  have hl2 : m.textBack.left = (pre.drop (m.cursor - 1)).length + 1 := by
                    rw [hb1.2, List.length_drop]
                    rw [hN] at hsum
                    omega
                  simp only [hcb, d1] at h
                  simp only [hcb, d2]
                  have hwb : m.textBack.Within (pre ++ [b]) t.length := by
                    refine ⟨?_, hsize, hlen, hstr⟩
                    rw [hcb, hb1.2]
                    omega
                  obtain ⟨n1, n2, n3⟩ := bracket_no_letter b hb
                  have sw : ∀ w, toLower b ∉ w →
                      sameWord (pre.drop (m.cursor - 1) ++ [b] ++ t) w (m.textBack.left + t.length)
                        = sameWord (pre.drop (m.cursor - 1) ++ [b]) w m.textBack.left := by
                    intro w hw
                    rw [hl2]
                    exact sameWord_append b t t.length _ w hw
                  rw [sw _ n1, sw _ n2, sw _ n3]
                  -- a word: the context is changed, then the word is skipped
                  have word : ∀ (op : JBParse → Except Fault JBParse) (x : eJSONCtx) (w : Bytes),
                      (∀ r1, op m.textBack.read = .ok r1 →
                        r1.get_context = .ok x ∧ r1.context.length = JSON_MAX_CONTEXT) →
                      x ≠ eJSONCtx.JSON_NUMERIC_VALUE → x ≠ eJSONCtx.JSON_GET_TAG →
                      x ≠ eJSONCtx.JSON_STRING_VALUE →
                      sameWord (pre.drop (m.cursor - 1) ++ [b]) w m.textBack.left = true →
                      (m.textBack.ctxOp op >>= fun m2 => Except.ok (m2.textSkip w.length)) = .ok m3 →
                      ((m.textBack.more t.length).ctxOp op
                          >>= fun m2 => Except.ok (m2.textSkip w.length)) = .ok (m3.more t.length)
                        ∧ m3.Within (pre ++ [b]) t.length ∧ m3.TokenTaken := by
                    intro op x w hop hx1 hx2 hx3 hsw hdo
                    obtain ⟨m2, ho, hrest⟩ := bind_ok _ _ _ hdo
                    obtain ⟨g1, g2, g3, g4, g5, _⟩ :=
                      ctxOp_within m.textBack m2 (pre ++ [b]) t.length op x hwb hop ho
                    have hwl := sameWord_true_length w _ _ hsw
                    have hsk := textSkip_more m2 t.length w.length (by rw [g5]; exact hwl)
                      (by rw [g5, hb1.2]; rw [hN] at hsum hsize; omega)
                    simp only [Except.ok.injEq] at hrest
                    subst hrest
                    rw [g1]
                    refine ⟨by simp only [bind, Except.bind]; rw [hsk.1], ⟨?_, hsize, g2.2.2.1, g2.2.2.2⟩, ?_, ?_⟩
                    · have hc2 : (m2.textSkip w.length).cursor = m2.cursor + w.length := rfl
                      rw [hc2, hsk.2]
                      have := g2.1
                      omega
                    · intro hn
                      have : (m2.textSkip w.length).read = m2.read := rfl
                      rw [this, g3] at hn
                      simp only [Except.ok.injEq] at hn
                      exact absurd hn hx1
                    · intro hn
                      have : (m2.textSkip w.length).read = m2.read := rfl
                      rw [this, g3] at hn
                      simp only [Except.ok.injEq] at hn
                      rcases hn with hn | hn
                      · exact absurd hn hx2
                      · exact absurd hn hx3
                  by_cases hd : (48 ≤ c ∧ c ≤ 57) ∨ c = 46 ∨ c = 45 ∨ c = 43
                  · rw [if_pos hd] at h ⊢
                    obtain ⟨g1, g2, g3, g4, g5, _⟩ :=
                      ctxOp_within m.textBack m3 (pre ++ [b]) t.length _ eJSONCtx.JSON_NUMERIC_VALUE
                        hwb (fun r1 hr => set_or_push_get _ r1 _ _ hlen hr) h
                    refine ⟨g1, g2, ?_, ?_⟩
                    · intro _
                      rw [g5, hb1.2]
                      omega
                    · intro hn
                      rw [g3] at hn
                      simp only [Except.ok.injEq] at hn
                      rcases hn with hn | hn <;> cases hn
                  · rw [if_neg hd] at h ⊢
                    by_cases hw1 : (ctx = eJSONCtx.JSON_ARRAY ∨ ctx = eJSONCtx.JSON_OBJECT)
                        ∧ sameWord (pre.drop (m.cursor - 1) ++ [b]) _null m.textBack.left = true
                    · rw [if_pos hw1] at h ⊢
                      exact word _ eJSONCtx.JSON_NULL_TAG _null
                        (fun r1 hr => push_context_get _ r1 _ hlen hr) (by decide) (by decide)
                        (by decide) hw1.2 h
                    · rw [if_neg hw1] at h ⊢
                      by_cases hw2 : ctx ≠ eJSONCtx.JSON_VALUE ∧ ctx ≠ eJSONCtx.JSON_ARRAY
                      · rw [if_pos hw2] at h
                        exact bad _ _ _ (by decide) h
                      · rw [if_neg hw2] at h ⊢
                        by_cases hw3 : sameWord (pre.drop (m.cursor - 1) ++ [b]) _true
                            m.textBack.left = true
                        · rw [if_pos hw3] at h ⊢
                          exact word _ eJSONCtx.JSON_TRUE_VALUE _true
                            (fun r1 hr => set_or_push_get _ r1 _ _ hlen hr) (by decide) (by decide)
                            (by decide) hw3 h
                        · rw [if_neg hw3] at h ⊢
                          by_cases hw4 : sameWord (pre.drop (m.cursor - 1) ++ [b]) _false
                              m.textBack.left = true
                          · rw [if_pos hw4] at h ⊢
                            exact word _ eJSONCtx.JSON_FALSE_VALUE _false
                              (fun r1 hr => set_or_push_get _ r1 _ _ hlen hr) (by decide)
                              (by decide) (by decide) hw4 h
                          · rw [if_neg hw4] at h ⊢
                            by_cases hw5 : sameWord (pre.drop (m.cursor - 1) ++ [b]) _null
                                m.textBack.left = true
                            · rw [if_pos hw5] at h ⊢
                              exact word _ eJSONCtx.JSON_NULL_VALUE _null
                                (fun r1 hr => set_or_push_get _ r1 _ _ hlen hr) (by decide)
                                (by decide) (by decide) hw5 h
                            · rw [if_neg hw5] at h
                              exact bad _ _ _ (by decide) h

theorem map_ok_more {ε : Type} (x : Except ε Machine) (m1 : Machine) (k : Nat) (h : x = .ok m1) :
    x.map (fun y => y.more k) = .ok (m1.more k) := by
  rw [h]
  rfl

/-- The cases that store a value which takes no text. -/
theorem leaf_append (m m5 : Machine) (json : Bytes) (k : Nat) (d : JBData) (ty : JBType)
    (hw : m.Within json k)
    (h : (m.writeData d >>= fun m1 => liftFault (step_value m1 ty)) = .ok m5) :
    ((m.more k).writeData d >>= fun m1 => liftFault (step_value m1 ty)) = .ok (m5.more k)
      ∧ m5.Within json k := by
  obtain ⟨m1, h1, h2⟩ := bind_ok _ _ _ h
  have f1 := writeData_frame m m1 d h1
  have f2 := step_value_frame m1 m5 ty (liftFault_ok_inv _ _ h2)
  constructor
  · rw [writeData_more, h1]
    show liftFault (step_value (m1.more k) ty) = _
    rw [step_value_more, liftFault_map, h2]
    rfl
  · refine ⟨?_, hw.2.1, ?_, ?_⟩
    · rw [f2.1, f2.2.1, f1.1, f1.2.1]
      exact hw.1
    · rw [f2.2.2.2.2.2, f1.2.2.2.2]
      exact hw.2.2.1
    · rw [f2.2.2.1, f1.2.2.1]
      exact hw.2.2.2

theorem caseOpen_append (m m5 : Machine) (json : Bytes) (k : Nat) (ty : JBType) (ctx : eJSONCtx)
    (hw : m.Within json k) (h : caseOpen m ty ctx = .ok m5) :
    caseOpen (m.more k) ty ctx = .ok (m5.more k) ∧ m5.Within json k := by
  constructor
  · rw [caseOpen_more, h]
    rfl
  · have f := caseOpen_frame m m5 ty ctx h
    unfold caseOpen at h
    obtain ⟨a, ha, h⟩ := bind_ok _ _ _ h
    obtain ⟨top, _, h⟩ := bind_ok _ _ _ h
    have f1 := step_value_frame m a ty (liftFault_ok_inv _ _ ha)
    have f2 := ctxOp_frame a m5 _ h
    have hl := (set_or_push_get _ _ _ _ (by rw [f1.2.2.2.2.2]; exact hw.2.2.1) f2.2.2.2.2.2).2
    refine ⟨?_, hw.2.1, hl, ?_⟩
    · rw [f.1, f.2.1]
      exact hw.1
    · rw [f.2.2.1]
      exact hw.2.2.2

theorem getNumStr_le (env : Env) (cfg : Config) (p : Bytes) (left : Nat) (num : NumStr)
    (h : getNumStr env cfg p left = .ok num) : num.num_len ≤ left := by
  obtain ⟨consumed, rest, e, hl, _⟩ := getNumStr_real env cfg p left num h
  have := congrArg List.length e
  simp only [List.length_take, List.length_append] at this
  omega

/-- The case `JSON_NUMERIC_VALUE` on a text that ends in a closing bracket. -/
theorem caseNumericValue_append (env : Env) (cfg : Config) (pre t : Bytes) (b : Nat)
    (hb : b = 125 ∨ b = 93) (m m5 : Machine) (hw : m.Within (pre ++ [b]) t.length)
    (hl : 1 ≤ m.left) (h : caseNumericValue env cfg (pre ++ [b]) m = .ok m5)
    (he : m5.error = JBError.JBERR_NONE) :
    caseNumericValue env cfg (pre ++ [b] ++ t) (m.more t.length) = .ok (m5.more t.length)
      ∧ m5.Within (pre ++ [b]) t.length := by
  obtain ⟨hsum, hsize, hlen, hstr⟩ := hw
  have hN : (pre ++ [b]).length = pre.length + 1 := by simp
  rw [hN] at hsum hsize
  obtain ⟨d1, d2⟩ := drop_snoc_append pre t b m.cursor (by omega)
  have hl1 : m.left = (pre.drop m.cursor ++ [b]).length := by
    simp only [List.length_append, List.length_drop, List.length_cons, List.length_nil]
    omega
  have hl2 : m.left + t.length = (pre.drop m.cursor ++ [b] ++ t).length := by
    simp only [List.length_append, List.length_drop, List.length_cons, List.length_nil]
    omega
  have hnum : getNumStr env cfg ((pre ++ [b] ++ t).drop m.cursor) (m.left + t.length)
      = getNumStr env cfg ((pre ++ [b]).drop m.cursor) m.left := by
    rw [d1, d2]
    have e := getNumStr_append env cfg (pre.drop m.cursor) t b hb
    rw [← hl1, ← hl2] at e
    exact e
  unfold caseNumericValue at h ⊢
  simp only [more_cursor, more_left]
  rw [hnum]
  obtain ⟨num, h1, h2⟩ := bind_ok _ _ _ h
  rw [h1]
  simp only [bind, Except.bind] at h2 ⊢
  have hle := getNumStr_le env cfg _ _ num (liftFault_ok_inv _ _ h1)
  by_cases hr : num.representable = false
  · rw [if_pos hr] at h2
    simp only [Except.ok.injEq] at h2
    subst h2
    cases he
  · rw [if_neg hr] at h2 ⊢
    rw [writeData_more]
    cases hwd : m.writeData
        (if num.real = false then JBData.i (num.intnum.getD 0) else JBData.f num.value) with
    | error e => rw [hwd] at h2; cases h2
    | ok m1 =>
      rw [hwd] at h2
      simp only [Except.map] at h2 ⊢
      have f1 := writeData_frame m m1 _ hwd
      have hsk := textSkip_more m1 t.length num.num_len (by rw [f1.2.1]; exact hle)
        (by rw [f1.2.1]; omega)
      have f2 := step_value_frame _ m5 _ (liftFault_ok_inv _ _ h2)
      constructor
      · rw [hsk.1, step_value_more, liftFault_map, h2]
        rfl
      · have hc2 : (m1.textSkip num.num_len).cursor = m1.cursor + num.num_len := rfl
        have hr2 : (m1.textSkip num.num_len).read = m1.read := rfl
        have hs2 : (m1.textSkip num.num_len).strCache = m1.strCache := rfl
        refine ⟨?_, by rw [hN]; exact hsize, ?_, ?_⟩
        · rw [f2.1, f2.2.1, hc2, hsk.2, f1.1, f1.2.1, hN]
          omega
        · rw [f2.2.2.2.2.2, hr2, f1.2.2.2.2]
          exact hlen
        · rw [f2.2.2.1, hs2, f1.2.2.1]
          exact hstr

theorem stringRef_more (m : Machine) (k p field index : Nat) :
    stringRef (m.more k) p field index = stringRef m p field index := rfl

/-- The start of the cases `JSON_GET_TAG` and `JSON_STRING_VALUE`: the end of the string is
found, the string is skipped. -/
theorem quote_append (json t : Bytes) (m : Machine) (e : Nat) (hw : m.Within json t.length)
    (hcur : 1 ≤ m.cursor) (hq : quoteEnd json m.textBack.cursor m.textBack.left = some e) :
    (m.more t.length).textBack = m.textBack.more t.length
      ∧ quoteEnd (json ++ t) m.textBack.cursor (m.textBack.left + t.length) = some e
      ∧ (m.textBack.more t.length).textSkip (e - m.textBack.cursor + 1)
          = (m.textBack.textSkip (e - m.textBack.cursor + 1)).more t.length
      ∧ (m.textBack.textSkip (e - m.textBack.cursor + 1)).Within json t.length
      ∧ m.textBack.cursor + 1 + (e - (m.textBack.cursor + 1)) < json.length := by
  obtain ⟨hsum, hsize, hlen, hstr⟩ := hw
  have hb1 := textBack_more m t.length (by omega)
  have hcb : m.textBack.cursor = m.cursor - 1 := rfl
  have hqb := quoteEnd_bound json _ _ e hq
  rw [hcb, hb1.2] at hqb
  have hq2 := quoteEnd_append json t t.length _ _ e (by rw [hcb, hb1.2]; omega) hq
  have hsk := textSkip_more m.textBack t.length (e - m.textBack.cursor + 1)
    (by rw [hcb, hb1.2]; omega) (by rw [hb1.2]; omega)
  refine ⟨hb1.1, hq2, hsk.1, ⟨?_, hsize, hlen, hstr⟩, by rw [hcb]; omega⟩
  have hc2 : (m.textBack.textSkip (e - m.textBack.cursor + 1)).cursor
      = m.textBack.cursor + (e - m.textBack.cursor + 1) := rfl
  rw [hc2, hsk.2, hcb, hb1.2]
  omega

theorem bind_intro {ε α β : Type} (x : Except ε α) (f : α → Except ε β) (a : α) (b : β)
    (h1 : x = .ok a) (h2 : f a = .ok b) : (x >>= f) = .ok b := by
  rw [h1]
  exact h2

theorem step_tail (m3 m5 : Machine) (k : Nat) (ty : JBType)
    (h : liftFault (step_value m3 ty) = .ok m5) :
    liftFault (step_value (m3.more k) ty) = .ok (m5.more k) := by
  rw [step_value_more, liftFault_map, h]
  rfl

/-- The end of a case that has taken a string: the value is counted. -/
theorem string_done (json : Bytes) (m2 m3 m5 : Machine) (k : Nat) (ty : JBType)
    (hw : m2.Within json k) (hc : m3.cursor = m2.cursor) (hl : m3.left = m2.left)
    (hr : m3.read = m2.read) (hs : StringsInside json m3.strCache)
    (h : liftFault (step_value m3 ty) = .ok m5) : m5.Within json k := by
  have f2 := step_value_frame m3 m5 _ (liftFault_ok_inv _ _ h)
  refine ⟨?_, hw.2.1, ?_, ?_⟩
  · rw [f2.1, f2.2.1, hc, hl]
    exact hw.1
  · rw [f2.2.2.2.2.2, hr]
    exact hw.2.2.1
  · rw [f2.2.2.1]
    exact hs

/-- The case `JSON_STRING_VALUE` on a text: it does the same when more text follows. -/
theorem caseStringValue_append (json t : Bytes) (m m5 : Machine)
    (hw : m.Within json t.length) (hcur : 1 ≤ m.cursor)
    (h : caseStringValue json m = .ok m5) (he : m5.error = JBError.JBERR_NONE) :
    caseStringValue (json ++ t) (m.more t.length) = .ok (m5.more t.length)
      ∧ m5.Within json t.length := by
  unfold caseStringValue at h ⊢
  simp only [] at h ⊢
  cases hq : quoteEnd json m.textBack.cursor m.textBack.left with
  | none =>
    rw [hq] at h
    simp only [Except.ok.injEq] at h
    subst h
    cases he
  | some e =>
    obtain ⟨q1, q2, q3, q4, q5⟩ := quote_append json t m e hw hcur hq
    rw [hq] at h
    simp only [] at h
    rw [q1]
    simp only [more_cursor, more_left]
    rw [q2]
    simp only []
    rw [q3]
    generalize m.textBack.textSkip (e - m.textBack.cursor + 1) = m2 at h q4 ⊢
    simp only [more_read, more_strCache, stringRef_more,
      getStringIndex_append m2.strCache json t _ _ q4.2.2.2 q5,
      addString_append m2.strCache json t _ _ q4.2.2.2 q5]
    cases hp : m2.read.pItem with
    | some p =>
      rw [hp] at h
      simp only [] at h ⊢
      by_cases hq0 : e - (m.textBack.cursor + 1) ≠ 0
      · rw [if_pos hq0] at h ⊢
        by_cases hi : m2.strCache.getStringIndex json (m.textBack.cursor + 1)
            (e - (m.textBack.cursor + 1)) < 0
        · rw [if_pos hi] at h ⊢
          exact ⟨step_tail (m2.setError _) m5 _ _ h,
            string_done json m2 (m2.setError JBError.JBERR_INTERNAL_MISS_STR) m5 _ _ q4 rfl rfl rfl
              q4.2.2.2 h⟩
        · rw [if_neg hi] at h ⊢
          obtain ⟨m3, h1, h2⟩ := bind_ok _ _ _ h
          have f := writeItem_frame m2 m3 p _ (liftFault_ok_inv _ _ h1)
          refine ⟨bind_intro _ _ _ _ ?_ (step_tail m3 m5 _ _ h2),
            string_done json m2 m3 m5 _ _ q4 f.1 f.2.1 f.2.2.2.2 (by rw [f.2.2.1]; exact q4.2.2.2) h2⟩
          rw [writeItem_more, liftFault_map, h1]
          rfl
      · rw [if_neg hq0] at h ⊢
        exact ⟨step_tail m2 m5 _ _ h, string_done json m2 _ m5 _ _ q4 rfl rfl rfl q4.2.2.2 h⟩
    | none =>
      rw [hp] at h
      simp only [] at h ⊢
      by_cases hq0 : e - (m.textBack.cursor + 1) ≠ 0
      · rw [if_pos hq0] at h ⊢
        obtain ⟨sc, h1, h2⟩ := bind_ok _ _ _ h
        have hin2 := addString_inside m2.strCache sc json _ _ q4.2.2.2 q5 (liftFault_ok_inv _ _ h1)
        rw [h1]
        simp only [bind, Except.bind] at h2 ⊢
        by_cases hn : sc.numStr ≥ sc.numStrMax
        · rw [if_pos hn] at h2 ⊢
          exact ⟨step_tail _ m5 _ _ h2,
            string_done json m2 (Machine.setError { m2 with strCache := sc }
              JBError.JBERR_UNEXPECTED_STRCOUNT) m5 _ _ q4 rfl rfl rfl hin2 h2⟩
        · rw [if_neg hn] at h2 ⊢
          exact ⟨step_tail _ m5 _ _ h2,
            string_done json m2 { m2 with strCache := sc } m5 _ _ q4 rfl rfl rfl hin2 h2⟩
      · rw [if_neg hq0] at h ⊢
        exact ⟨step_tail m2 m5 _ _ h, string_done json m2 _ m5 _ _ q4 rfl rfl rfl q4.2.2.2 h⟩

/-- The end of the case `JSON_GET_TAG`: the context becomes `JSON_COLON`. -/
theorem tag_done (json : Bytes) (m2 m4 m5 : Machine) (k : Nat)
    (hw : m2.Within json k) (hc : m4.cursor = m2.cursor) (hl : m4.left = m2.left)
    (hr : m4.read = m2.read) (hs : StringsInside json m4.strCache)
    (h : m4.ctxOp (fun r => r.set_context eJSONCtx.JSON_COLON) = .ok m5) :
    (m4.more k).ctxOp (fun r => r.set_context eJSONCtx.JSON_COLON) = .ok (m5.more k)
      ∧ m5.Within json k := by
  have hw4 : m4.Within json k :=
    ⟨by rw [hc, hl]; exact hw.1, hw.2.1, by rw [hr]; exact hw.2.2.1, hs⟩
  have := ctxOp_within m4 m5 json k _ eJSONCtx.JSON_COLON hw4
    (fun r1 hr1 => ⟨(set_context_get _ r1 _ hw4.2.2.1 hr1).1,
      (set_context_get _ r1 _ hw4.2.2.1 hr1).2.1⟩) h
  exact ⟨this.1, this.2.1⟩

/-- The case `JSON_GET_TAG` on a text: it does the same when more text follows. -/
theorem caseGetTag_append (cfg : Config) (json t : Bytes) (m m5 : Machine)
    (hw : m.Within json t.length) (hcur : 1 ≤ m.cursor)
    (h : caseGetTag cfg json m = .ok m5) (he : m5.error = JBError.JBERR_NONE) :
    caseGetTag cfg (json ++ t) (m.more t.length) = .ok (m5.more t.length)
      ∧ m5.Within json t.length := by
  unfold caseGetTag at h ⊢
  simp only [] at h ⊢
  cases hq : quoteEnd json m.textBack.cursor m.textBack.left with
  | none =>
    rw [hq] at h
    simp only [Except.ok.injEq] at h
    subst h
    cases he
  | some e =>
    obtain ⟨q1, q2, q3, q4, q5⟩ := quote_append json t m e hw hcur hq
    rw [hq] at h
    simp only [] at h
    rw [q1]
    simp only [more_cursor, more_left]
    rw [q2]
    simp only []
    rw [q3]
    generalize m.textBack.textSkip (e - m.textBack.cursor + 1) = m2 at h q4 ⊢
    simp only [more_read, more_strCache, stringRef_more,
      getStringIndex_append m2.strCache json t _ _ q4.2.2.2 q5,
      addString_append m2.strCache json t _ _ q4.2.2.2 q5,
      (string_append cfg json t _ _ q5).1]
    cases hp : m2.read.pItem with
    | some p =>
      rw [hp] at h
      simp only [] at h ⊢
      obtain ⟨m3, h1, h2⟩ := bind_ok _ _ _ h
      have f := writeItem_frame m2 m3 p _ (liftFault_ok_inv _ _ h1)
      have hs3 : StringsInside json m3.strCache := by rw [f.2.2.1]; exact q4.2.2.2
      refine ⟨bind_intro _ _ (m3.more t.length) _ (by rw [writeItem_more, liftFault_map, h1]; rfl) ?_, ?_⟩
      · simp only [more_strCache, stringRef_more,
          getStringIndex_append m3.strCache json t _ _ hs3 q5]
        by_cases hq0 : e - (m.textBack.cursor + 1) ≠ 0
        · rw [if_pos hq0] at h2 ⊢
          by_cases hi : m3.strCache.getStringIndex json (m.textBack.cursor + 1)
              (e - (m.textBack.cursor + 1)) < 0
          · rw [if_pos hi] at h2 ⊢
            exact (tag_done json m2 (m3.setError JBError.JBERR_INTERNAL_MISS_STR) m5 _ q4 f.1
              f.2.1 f.2.2.2.2 hs3 h2).1
          · rw [if_neg hi] at h2 ⊢
            obtain ⟨m4, h3, h4⟩ := bind_ok _ _ _ h2
            have f4 := writeItem_frame m3 m4 p _ (liftFault_ok_inv _ _ h3)
            refine bind_intro _ _ (m4.more t.length) _
              (by rw [writeItem_more, liftFault_map, h3]; rfl) ?_
            exact (tag_done json m2 m4 m5 _ q4 (f4.1.trans f.1) (f4.2.1.trans f.2.1)
              (f4.2.2.2.2.trans f.2.2.2.2) (by rw [f4.2.2.1]; exact hs3) h4).1
        · rw [if_neg hq0] at h2 ⊢
          exact (tag_done json m2 m3 m5 _ q4 f.1 f.2.1 f.2.2.2.2 hs3 h2).1
      · by_cases hq0 : e - (m.textBack.cursor + 1) ≠ 0
        · rw [if_pos hq0] at h2
          by_cases hi : m3.strCache.getStringIndex json (m.textBack.cursor + 1)
              (e - (m.textBack.cursor + 1)) < 0
          · rw [if_pos hi] at h2
            exact (tag_done json m2 (m3.setError JBError.JBERR_INTERNAL_MISS_STR) m5 t.length q4
              f.1 f.2.1 f.2.2.2.2 hs3 h2).2
          · rw [if_neg hi] at h2
            obtain ⟨m4, h3, h4⟩ := bind_ok _ _ _ h2
            have f4 := writeItem_frame m3 m4 p _ (liftFault_ok_inv _ _ h3)
            exact (tag_done json m2 m4 m5 t.length q4 (f4.1.trans f.1) (f4.2.1.trans f.2.1)
              (f4.2.2.2.2.trans f.2.2.2.2) (by rw [f4.2.2.1]; exact hs3) h4).2
        · rw [if_neg hq0] at h2
          exact (tag_done json m2 m3 m5 t.length q4 f.1 f.2.1 f.2.2.2.2 hs3 h2).2
    | none =>
      rw [hp] at h
      simp only [] at h ⊢
      by_cases hq0 : e - (m.textBack.cursor + 1) ≠ 0
      · rw [if_pos hq0] at h ⊢
        obtain ⟨sc, h1, h2⟩ := bind_ok _ _ _ h
        have hin2 := addString_inside m2.strCache sc json _ _ q4.2.2.2 q5 (liftFault_ok_inv _ _ h1)
        rw [h1]
        simp only [bind, Except.bind] at h2 ⊢
        by_cases hn : sc.numStr ≥ sc.numStrMax
        · rw [if_pos hn] at h2 ⊢
          exact tag_done json m2 (Machine.setError { m2 with strCache := sc }
            JBError.JBERR_UNEXPECTED_STRCOUNT) m5 _ q4 rfl rfl rfl hin2 h2
        · rw [if_neg hn] at h2 ⊢
          exact tag_done json m2 { m2 with strCache := sc } m5 _ q4 rfl rfl rfl hin2 h2
      · rw [if_neg hq0] at h ⊢
        exact tag_done json m2 m2 m5 _ q4 rfl rfl rfl q4.2.2.2 h

theorem caseClose_within (m : Machine) (json : Bytes) (k : Nat) (hw : m.Within json k) :
    caseClose (m.more k) = (caseClose m).more k ∧ (caseClose m).Within json k :=
  ⟨rfl, hw⟩

/-- The second `switch` of a round on a text that ends in a closing bracket: it does the
same when more text follows. -/
theorem contextSwitch_append (env : Env) (cfg : Config) (hc : cfg.allowCComments = false)
    (pre t : Bytes) (b : Nat) (hb : b = 125 ∨ b = 93) (m m5 : Machine)
    (hw : m.Within (pre ++ [b]) t.length) (htt : m.TokenTaken)
    (h : contextSwitch env cfg (pre ++ [b]) m = .ok m5) (he : m5.error = JBError.JBERR_NONE) :
    contextSwitch env cfg (pre ++ [b] ++ t) (m.more t.length) = .ok (m5.more t.length)
      ∧ m5.Within (pre ++ [b]) t.length := by
  unfold contextSwitch at h ⊢
  obtain ⟨ctx, hctx, h⟩ := bind_ok _ _ _ h
  rw [more_read, hctx]
  have hctx2 := liftFault_ok_inv _ _ hctx
  simp only [bind, Except.bind]
  cases ctx with
  | JSON_ROOT =>
    simp only [Except.ok.injEq] at h ⊢
    subst h
    exact ⟨rfl, hw⟩
  | JSON_GET_TAG =>
    exact caseGetTag_append cfg _ t m m5 hw (htt.2 (Or.inl hctx2)) h he
  | JSON_COLON =>
    simp only [] at h ⊢
    have := ctxOp_within m m5 _ t.length _ eJSONCtx.JSON_VALUE hw
      (fun r1 hr1 => ⟨(set_context_get _ r1 _ hw.2.2.1 hr1).1,
        (set_context_get _ r1 _ hw.2.2.1 hr1).2.1⟩) h
    exact ⟨this.1, this.2.1⟩
  | JSON_VALUE =>
    simp only [Except.ok.injEq] at h ⊢
    subst h
    exact ⟨rfl, hw⟩
  | JSON_OBJECT_OPEN => exact caseOpen_append m m5 _ _ _ _ hw h
  | JSON_OBJECT =>
    simp only [Except.ok.injEq] at h ⊢
    subst h
    exact ⟨rfl, hw⟩
  | JSON_OBJECT_CLOSE =>
    simp only [Except.ok.injEq] at h ⊢
    subst h
    exact ⟨rfl, hw⟩
  | JSON_ARRAY_OPEN => exact caseOpen_append m m5 _ _ _ _ hw h
  | JSON_ARRAY =>
    simp only [Except.ok.injEq] at h ⊢
    subst h
    exact ⟨rfl, hw⟩
  | JSON_ARRAY_CLOSE =>
    simp only [Except.ok.injEq] at h ⊢
    subst h
    exact ⟨rfl, hw⟩
  | JSON_NULL_TAG => exact leaf_append m m5 _ _ _ _ hw h
  | JSON_STRING_VALUE =>
    exact caseStringValue_append _ t m m5 hw (htt.2 (Or.inr hctx2)) h he
  | JSON_NUMERIC_VALUE =>
    exact caseNumericValue_append env cfg pre t b hb m m5 hw (htt.1 hctx2) h he
  | JSON_TRUE_VALUE => exact leaf_append m m5 _ _ _ _ hw h
  | JSON_FALSE_VALUE => exact leaf_append m m5 _ _ _ _ hw h
  | JSON_NULL_VALUE => exact leaf_append m m5 _ _ _ _ hw h
  | JSON_COMMENT =>
    simp only [hc] at h ⊢
    simp only [Bool.false_eq_true, if_false, Except.ok.injEq] at h ⊢
    subst h
    exact ⟨rfl, hw⟩

/-- One round of the main loop on a text that ends in a closing bracket: when the round
sets no error, it does the same when more text follows. -/
theorem parseRound_append (env : Env) (cfg : Config) (hc : cfg.allowCComments = false)
    (pre t : Bytes) (b : Nat) (hb : b = 125 ∨ b = 93) (m m' : Machine) (f : Bool)
    (hw : m.Within (pre ++ [b]) t.length)
    (h : parseRound env cfg (pre ++ [b]) m = .ok (m', f)) (he : m'.error = JBError.JBERR_NONE) :
    parseRound env cfg (pre ++ [b] ++ t) (m.more t.length) = .ok (m'.more t.length, f)
      ∧ m'.Within (pre ++ [b]) t.length := by
  obtain ⟨hsum, hsize, hlen, hstr⟩ := hw
  unfold parseRound at h ⊢
  simp only [] at h ⊢
  obtain ⟨ctx, hctx, h⟩ := bind_ok _ _ _ h
  have hwsle := whiteSpace_le cfg (pre ++ [b]) m.left m.cursor
  have hc1 : (m.textSkip (getWhiteSpaceSize cfg (pre ++ [b]) m.cursor m.left)).cursor
      = m.cursor + getWhiteSpaceSize cfg (pre ++ [b]) m.cursor m.left := rfl
  cases hg : (pre ++ [b]).get? (m.textSkip (getWhiteSpaceSize cfg (pre ++ [b]) m.cursor m.left)).cursor with
  | none =>
    rw [hg] at h
    cases h
  | some c =>
    rw [hg] at h
    simp only [] at h
    have hlt : m.cursor + getWhiteSpaceSize cfg (pre ++ [b]) m.cursor m.left
        < (pre ++ [b]).length := by
      rw [hc1] at hg
      simp only [List.get?_eq_getElem?] at hg
      exact (List.getElem?_eq_some_iff.mp hg).1
    have hws2 := whiteSpace_append cfg (pre ++ [b]) t t.length m.left m.cursor (by omega) (by omega)
    have hsk := textSkip_more m t.length (getWhiteSpaceSize cfg (pre ++ [b]) m.cursor m.left)
      hwsle (by omega)
    simp only [more_cursor, more_left]
    rw [hws2, hsk.1]
    generalize hm1 : m.textSkip (getWhiteSpaceSize cfg (pre ++ [b]) m.cursor m.left) = m1
      at h hg hctx hc1 hsk ⊢
    have hr1 : m1.read = m.read := by rw [← hm1]; rfl
    have hs1 : m1.strCache = m.strCache := by rw [← hm1]; rfl
    simp only [more_read, more_cursor, more_left, more_strCache, more_mem, more_error]
    rw [hctx, get_append_left _ _ _ (by rw [hc1]; exact hlt), hg]
    simp only [bind, Except.bind] at h ⊢
    have hpop := pop_more m1.left t.length (by rw [hsk.2]; omega) (by rw [hsk.2]; omega)
    have e2 : (⟨m1.read, m1.strCache, m1.mem, m1.cursor + 1,
          u32 (m1.left + t.length + 4294967295), m1.error⟩ : Machine)
        = Machine.more ⟨m1.read, m1.strCache, m1.mem, m1.cursor + 1,
            u32 (m1.left + 4294967295), m1.error⟩ t.length := by
      rw [hpop.1]
      rfl
    rw [e2]
    have hw2 : Machine.Within ⟨m1.read, m1.strCache, m1.mem, m1.cursor + 1,
        u32 (m1.left + 4294967295), m1.error⟩ (pre ++ [b]) t.length := by
      refine ⟨?_, hsize, by rw [← hlen, ← hr1], by rw [← hs1] at hstr; exact hstr⟩
      show m1.cursor + 1 + u32 (m1.left + 4294967295) = _
      rw [hpop.2, hsk.2, hc1]
      omega
    have hcur2 : 1 ≤ (⟨m1.read, m1.strCache, m1.mem, m1.cursor + 1,
        u32 (m1.left + 4294967295), m1.error⟩ : Machine).cursor := by
      show 1 ≤ m1.cursor + 1
      omega
    have hctx2 : (⟨m1.read, m1.strCache, m1.mem, m1.cursor + 1,
        u32 (m1.left + 4294967295), m1.error⟩ : Machine).read.get_context = .ok ctx :=
      liftFault_ok_inv _ _ hctx
    generalize (⟨m1.read, m1.strCache, m1.mem, m1.cursor + 1,
      u32 (m1.left + 4294967295), m1.error⟩ : Machine) = m2 at h hw2 hcur2 hctx2 ⊢
    cases h3 : tokenSwitch cfg (pre ++ [b]) m2 ctx c with
    | error e =>
      rw [h3] at h
      cases h
    | ok m3 =>
      rw [h3] at h
      simp only [] at h
      by_cases hd : (depthCheck m3).error ≠ JBError.JBERR_NONE
      · rw [if_pos hd] at h
        simp only [Except.ok.injEq, Prod.mk.injEq] at h
        rw [← h.1] at he
        exact absurd he hd
      · rw [if_neg hd] at h
        have hd3 := depthCheck_none m3 (by simpa using hd)
        obtain ⟨t1, t2, t3⟩ := tokenSwitch_append cfg hc pre t b hb m2 m3 ctx c hw2 hcur2 hctx2
          h3 hd3.2
        rw [t1]
        simp only []
        rw [depthCheck_more, hd3.1]
        rw [hd3.1] at h hd
        rw [more_error, if_neg hd]
        cases h5 : contextSwitch env cfg (pre ++ [b]) m3 with
        | error e =>
          rw [h5] at h
          cases h
        | ok m5 =>
          rw [h5] at h
          simp only [Except.ok.injEq, Prod.mk.injEq] at h
          obtain ⟨h6, h7⟩ := h
          have hd5 := depthCheck_none m5 (by rw [h6]; exact he)
          obtain ⟨c1, c2⟩ := contextSwitch_append env cfg hc pre t b hb m3 m5 t2 t3 h5 hd5.2
          rw [c1]
          simp only []
          rw [depthCheck_more, more_read, h7, h6]
          rw [hd5.1] at h6
          rw [← h6]
          exact ⟨rfl, c2⟩

theorem parseLoop_error (env : Env) (cfg : Config) (json : Bytes) (fuel : Nat) (m mf : Machine)
    (h : parseLoop env cfg json fuel m = .ok mf) (he : m.error ≠ JBError.JBERR_NONE) :
    mf = m := by
  cases fuel with
  | zero =>
    rw [parseLoop, if_neg (fun hc => he hc.2)] at h
    simp only [Except.ok.injEq] at h
    exact h.symm
  | succ fuel =>
    rw [parseLoop, if_neg (fun hc => he hc.2)] at h
    simp only [Except.ok.injEq] at h
    exact h.symm

theorem parseRound_flag (env : Env) (cfg : Config) (json : Bytes) (m m1 : Machine)
    (h : parseRound env cfg json m = .ok (m1, false)) : m1.read.ctx_stack ≠ 0 := by
  unfold parseRound at h
  simp only [] at h
  obtain ⟨ctx, _, h⟩ := bind_ok _ _ _ h
  split at h
  · cases h
  · obtain ⟨m3, _, h⟩ := bind_ok _ _ _ h
    split at h
    · simp only [Except.ok.injEq, Prod.mk.injEq] at h
      exact absurd h.2 (by decide)
    · obtain ⟨m5, _, h⟩ := bind_ok _ _ _ h
      simp only [Except.ok.injEq, Prod.mk.injEq, decide_eq_false_iff_not] at h
      rw [← h.1]
      exact h.2

/-- The main loop on a text that ends in a closing bracket: when the loop ends without an
error and with an empty context stack, it does the same when more text follows, and does
not go into that text. -/
theorem parseLoop_append (env : Env) (cfg : Config) (hc : cfg.allowCComments = false)
    (pre t : Bytes) (b : Nat) (hb : b = 125 ∨ b = 93) :
    ∀ (fuel : Nat) (m mf : Machine) (fuel1 : Nat), m.Within (pre ++ [b]) t.length →
      (m.left ≠ 0 ∨ m.read.ctx_stack ≠ 0) →
      parseLoop env cfg (pre ++ [b]) fuel m = .ok mf → mf.error = JBError.JBERR_NONE →
      mf.read.ctx_stack = 0 → fuel ≤ fuel1 →
      parseLoop env cfg (pre ++ [b] ++ t) fuel1 (m.more t.length) = .ok (mf.more t.length)
        ∧ mf.Within (pre ++ [b]) t.length := by
  intro fuel
  induction fuel with
  | zero =>
    intro m mf fuel1 hw hhead h he hs _
    rw [parseLoop] at h
    split at h
    · cases h
    · rename_i hcond
      simp only [Except.ok.injEq] at h
      subst h
      have hl : m.left = 0 := by
        by_contra hl
        exact hcond ⟨hl, he⟩
      rcases hhead with h1 | h1
      · exact absurd hl h1
      · exact absurd hs h1
  | succ fuel ih =>
    intro m mf fuel1 hw hhead h he hs hf
    obtain ⟨f1, rfl⟩ : ∃ f1, fuel1 = f1 + 1 := ⟨fuel1 - 1, by omega⟩
    rw [parseLoop] at h ⊢
    by_cases hcond : m.left ≠ 0 ∧ m.error = JBError.JBERR_NONE
    · rw [if_pos hcond] at h
      have hcond2 : (m.more t.length).left ≠ 0 ∧ (m.more t.length).error = JBError.JBERR_NONE := by
        refine ⟨?_, hcond.2⟩
        rw [more_left]
        have := hcond.1
        omega
      rw [if_pos hcond2]
      cases hr : parseRound env cfg (pre ++ [b]) m with
      | error e =>
        rw [hr] at h
        cases h
      | ok res =>
        obtain ⟨m1, flag⟩ := res
        rw [hr] at h
        cases flag with
        | true =>
          simp only [Except.ok.injEq] at h
          subst h
          obtain ⟨r1, r2⟩ := parseRound_append env cfg hc pre t b hb m m1 true hw hr he
          rw [r1]
          exact ⟨rfl, r2⟩
        | false =>
          simp only [] at h
          have he1 : m1.error = JBError.JBERR_NONE := by
            by_contra hne
            have := parseLoop_error env cfg _ fuel m1 mf h hne
            rw [this] at he
            exact hne he
          obtain ⟨r1, r2⟩ := parseRound_append env cfg hc pre t b hb m m1 false hw hr he1
          rw [r1]
          simp only []
          exact ih m1 mf f1 r2 (Or.inr (parseRound_flag env cfg _ m m1 hr)) h he hs (by omega)
    · rw [if_neg hcond] at h
      simp only [Except.ok.injEq] at h
      subst h
      have hl : m.left = 0 := by
        by_contra hl
        exact hcond ⟨hl, he⟩
      rcases hhead with h1 | h1
      · exact absurd hl h1
      · exact absurd hs h1

/-- The count of the strings of a text in which every quote is closed: it is the same when
more text follows that holds no quote. -/
theorem countStrings_append (cfg : Config) (hc : cfg.allowCComments = false) (json t : Bytes)
    (ht : 34 ∉ t) :
    ∀ (fuel qs ql n z fuel1 : Nat) (r : Nat × Nat), qs + ql = json.length →
      countStrings cfg json fuel qs ql n z = .ok r → fuel ≤ fuel1 →
      countStrings cfg (json ++ t) fuel1 qs (ql + t.length) n z = .ok r := by
  intro fuel
  induction fuel with
  | zero =>
    intro qs ql n z fuel1 r _ h
    rw [countStrings] at h
    cases h
  | succ fuel ih =>
    intro qs ql n z fuel1 r hs h hf
    obtain ⟨f1, rfl⟩ : ∃ f1, fuel1 = f1 + 1 := ⟨fuel1 - 1, by omega⟩
    rw [countStrings] at h ⊢
    simp only [hc, Bool.false_eq_true, if_false, false_and] at h ⊢
    cases hfc : findChar json 34 qs ql with
    | none =>
      rw [hfc] at h
      rw [findChar_append_none json t 34 (by decide) ht ql qs hs hfc]
      exact h
    | some qn =>
      rw [hfc] at h
      obtain ⟨b1, b2, _⟩ := findChar_bound json 34 ql qs qn hfc
      rw [findChar_append json t 34 t.length ql qs qn (by omega) hfc]
      simp only [] at h ⊢
      cases hq : quoteEnd json qn (ql - (qn - qs)) with
      | none =>
        rw [hq] at h
        cases h
      | some e =>
        rw [hq] at h
        obtain ⟨c1, c2, _⟩ := quoteEnd_bound json qn _ e hq
        rw [show ql + t.length - (qn - qs) = (ql - (qn - qs)) + t.length from by omega,
          quoteEnd_append json t t.length qn _ e (by omega) hq]
        simp only [] at h ⊢
        rw [show ql - (qn - qs) + t.length - (e + 1 - qn)
          = (ql - (qn - qs) - (e + 1 - qn)) + t.length from by omega]
        exact ih _ _ _ _ f1 r (by omega) h (by omega)

theorem stripBom_append (cfg : Config) (s t pre : Bytes) (b : Nat) (hb : b = 125 ∨ b = 93)
    (hs : stripBom cfg s = pre ++ [b]) : stripBom cfg (s ++ t) = stripBom cfg s ++ t := by
  unfold stripBom at hs ⊢
  by_cases h : cfg.handleUtf8Bom = true ∧ s.length ≥ 3 ∧ peek s 0 = 0xef ∧ peek s 1 = 0xbb
      ∧ peek s 2 = 0xbf
  · rw [if_pos h]
    have h2 : cfg.handleUtf8Bom = true ∧ (s ++ t).length ≥ 3 ∧ peek (s ++ t) 0 = 0xef
        ∧ peek (s ++ t) 1 = 0xbb ∧ peek (s ++ t) 2 = 0xbf := by
      rw [peek_append_left s t 0 (by omega), peek_append_left s t 1 (by omega),
        peek_append_left s t 2 (by omega)]
      refine ⟨h.1, ?_, h.2.2⟩
      simp only [List.length_append]
      omega
    rw [if_pos h2, List.drop_append_of_le_length (by omega)]
  · rw [if_neg h] at hs ⊢
    rw [if_neg]
    intro h2
    by_cases hl : s.length ≥ 3
    · apply h
      rw [peek_append_left s t 0 (by omega), peek_append_left s t 1 (by omega),
        peek_append_left s t 2 (by omega)] at h2
      exact ⟨h2.1, hl, h2.2.2⟩
    · subst hs
      have hp : peek (pre ++ [b] ++ t) pre.length = b := by
        rw [List.append_assoc]
        exact peek_at pre t b
      simp only [List.length_append, List.length_cons, List.length_nil] at hl
      have hpl : pre.length = 0 ∨ pre.length = 1 := by omega
      rcases hpl with h0 | h1
      · rw [h0] at hp
        have := h2.2.2.1
        omega
      · rw [h1] at hp
        have := h2.2.2.2.1
        omega

theorem startPass_more (m : Machine) (n k j : Nat) :
    startPass (m.more j) (n + k) = (startPass m n).map (fun x => x.more k) := by
  unfold startPass
  simp only [more_read]
  cases hp : m.read.pItem with
  | none => rfl
  | some p =>
    simp only []
    unfold Machine.writeItem
    simp only [more_mem]
    split <;> rfl

theorem startPass_within (m m0 : Machine) (json : Bytes) (k : Nat)
    (hsize : json.length + k < 4294967296) (hl : m.read.context.length = JSON_MAX_CONTEXT)
    (hs : StringsInside json m.strCache) (h : startPass m json.length = .ok m0) :
    m0.Within json k ∧ m0.left = json.length ∧ m0.error = m.error := by
  unfold startPass at h
  cases hp : m.read.pItem with
  | none =>
    simp only [hp, Except.ok.injEq] at h
    subst h
    exact ⟨⟨by simp, hsize, hl, hs⟩, rfl, rfl⟩
  | some p =>
    simp only [hp] at h
    obtain ⟨m2, h2, h⟩ := bind_ok _ _ _ h
    have f := writeItem_frame _ m2 p _ (liftFault_ok_inv _ _ h2)
    simp only [Except.ok.injEq] at h
    subst h
    refine ⟨⟨?_, hsize, ?_, ?_⟩, ?_, ?_⟩
    · show m2.cursor + m2.left = _
      rw [f.1, f.2.1]
      simp
    · show m2.read.context.length = _
      rw [f.2.2.2.2]
      exact hl
    · show StringsInside json m2.strCache
      rw [f.2.2.1]
      exact hs
    · show m2.left = _
      rw [f.2.1]
    · show m2.error = _
      rw [f.2.2.2.1]

theorem finish_more (json json2 : Bytes) (ps : Passes) (k : Nat)
    (he : ps.m.error = JBError.JBERR_NONE) :
    finish json2 { ps with m := ps.m.more k } = finish json ps := by
  unfold finish
  simp only [more_error, more_mem, more_cursor, he]
  simp

/-- The two passes over a text that ends in a closing bracket: when each pass ends without
an error and with an empty context stack, they do the same when more text follows. -/
theorem passes_append (env : Env) (cfg : Config) (hc : cfg.allowCComments = false)
    (pre t : Bytes) (b : Nat) (hb : b = 125 ∨ b = 93) (sc : sStrCache) (info : JBRet)
    (ps : Passes) (hsize : (pre ++ [b]).length + t.length < 4294967296)
    (hsc : StringsInside (pre ++ [b]) sc)
    (h : passes env cfg (pre ++ [b]) sc info = .ok ps)
    (he : ps.m.error = JBError.JBERR_NONE) (hs2 : ps.m.read.ctx_stack = 0)
    (hfirst : ∀ m0 m1, startPass ⟨JBParse.zero, sc, [], 0, 0, JBError.JBERR_NONE⟩
        (pre ++ [b]).length = .ok m0 →
      parseLoop env cfg (pre ++ [b]) ((pre ++ [b]).length + 1) m0 = .ok m1 →
      m1.read.ctx_stack = 0) :
    passes env cfg (pre ++ [b] ++ t) sc info = .ok { ps with m := ps.m.more t.length } := by
  unfold passes at h ⊢
  simp only [] at h ⊢
  obtain ⟨m0, h0, h⟩ := bind_ok _ _ _ h
  obtain ⟨m1, hp1, h⟩ := bind_ok _ _ _ h
  have hne : (pre ++ [b]).length ≠ 0 := by simp
  have hlen2 : (pre ++ [b] ++ t).length = (pre ++ [b]).length + t.length := by
    simp only [List.length_append]
  have sp0 : startPass ⟨JBParse.zero, sc, [], 0, 0, JBError.JBERR_NONE⟩
      ((pre ++ [b]).length + t.length) = .ok (m0.more t.length) := by
    have := startPass_more ⟨JBParse.zero, sc, [], 0, 0, JBError.JBERR_NONE⟩
      (pre ++ [b]).length t.length 0
    rw [h0] at this
    exact this
  obtain ⟨w0, l0, e0⟩ := startPass_within _ m0 (pre ++ [b]) t.length hsize zero_context_length
    hsc h0
  have hs1 := hfirst m0 m1 h0 hp1
  by_cases hcal : env.callocRet = true
  · rw [if_pos hcal] at h
    by_cases hoom : 4 * m1.strCache.numStr ≠ 0
        ∧ ¬ (4 * m1.strCache.numStr < env.ptrSize * (m1.strCache.numStrMax - m1.strCache.numStr))
        ∧ env.mallocRetStr = false
    · rw [if_pos hoom] at h
      simp only [Except.ok.injEq] at h
      subst h
      cases he
    · rw [if_neg hoom] at h
      obtain ⟨enc, henc, h⟩ := bind_ok _ _ _ h
      by_cases hcap : toInt32 ((stringBytes cfg (pre ++ [b]) m1.strCache : Nat) : Int)
          < ((enc.flatten.length : Nat) : Int)
      · rw [if_pos hcap] at h
        cases h
      rw [if_neg hcap] at h
      by_cases hm2 : m1.error = JBError.JBERR_NONE
      · rw [if_pos hm2] at h
        obtain ⟨m3, h3, h⟩ := bind_ok _ _ _ h
        obtain ⟨m4, hp2, h⟩ := bind_ok _ _ _ h
        simp only [Except.ok.injEq] at h
        subst h
        obtain ⟨p1, w1⟩ := parseLoop_append env cfg hc pre t b hb _ m0 m1
          ((pre ++ [b]).length + t.length + 1) w0 (Or.inl (by rw [l0]; exact hne)) hp1 hm2 hs1
          (by omega)
        have sp3 := startPass_more
          { m1 with
            strCache := { m1.strCache with apRetStr := stringOffsets enc 0 }
            mem := List.replicate m1.read.items.toNat JBItem.zero
            read := { m1.read with pItem := some 0, items := 0 } }
          (pre ++ [b]).length t.length t.length
        rw [h3] at sp3
        obtain ⟨w3, l3, e3⟩ := startPass_within _ m3 (pre ++ [b]) t.length hsize
          (by exact w1.2.2.1) (by exact w1.2.2.2) h3
        obtain ⟨p2, _⟩ := parseLoop_append env cfg hc pre t b hb _ m3 m4
          ((pre ++ [b]).length + t.length + 1) w3 (Or.inl (by rw [l3]; exact hne)) hp2 he hs2
          (by omega)
        rw [hlen2]
        refine bind_intro _ _ _ _ sp0 ?_
        refine bind_intro _ _ _ _ p1 ?_
        simp only [more_strCache, more_read, more_error,
          stringBytes_append cfg (pre ++ [b]) t m1.strCache w1.2.2.2,
          encodeStrings_append cfg (pre ++ [b]) t m1.strCache w1.2.2.2 (by omega)]
        rw [if_pos hcal, if_neg hoom]
        refine bind_intro _ _ _ _ henc ?_
        rw [if_neg hcap, if_pos hm2]
        refine bind_intro _ _ _ _ sp3 ?_
        refine bind_intro _ _ _ _ p2 ?_
        rfl
      · rw [if_neg hm2] at h
        simp only [Except.ok.injEq] at h
        subst h
        exact absurd he hm2
  · rw [if_neg hcal] at h
    simp only [Except.ok.injEq] at h
    subst h
    cases he

/-- The machine at the end of the passes does not depend on the record of the caller. -/
theorem passes_machine (env : Env) (cfg : Config) (json : Bytes) (sc : sStrCache)
    (info info2 : JBRet) (ps : Passes) (h : passes env cfg json sc info = .ok ps) :
    ∃ ps2, passes env cfg json sc info2 = .ok ps2 ∧ ps2.m = ps.m := by
  unfold passes at h ⊢
  simp only [] at h ⊢
  obtain ⟨m0, h0, h⟩ := bind_ok _ _ _ h
  obtain ⟨m1, hp1, h⟩ := bind_ok _ _ _ h
  rw [h0]
  simp only [bind, Except.bind]
  rw [hp1]
  simp only []
  by_cases hcal : env.callocRet = true
  · rw [if_pos hcal] at h ⊢
    by_cases hoom : 4 * m1.strCache.numStr ≠ 0
        ∧ ¬ (4 * m1.strCache.numStr < env.ptrSize * (m1.strCache.numStrMax - m1.strCache.numStr))
        ∧ env.mallocRetStr = false
    · rw [if_pos hoom] at h ⊢
      simp only [Except.ok.injEq] at h
      subst h
      exact ⟨_, rfl, rfl⟩
    · rw [if_neg hoom] at h ⊢
      obtain ⟨enc, henc, h⟩ := bind_ok _ _ _ h
      rw [henc]
      simp only []
      by_cases hcap : toInt32 ((stringBytes cfg json m1.strCache : Nat) : Int)
          < ((enc.flatten.length : Nat) : Int)
      · rw [if_pos hcap] at h
        cases h
      rw [if_neg hcap] at h ⊢
      by_cases hm2 : m1.error = JBError.JBERR_NONE
      · rw [if_pos hm2] at h ⊢
        obtain ⟨m3, h3, h⟩ := bind_ok _ _ _ h
        obtain ⟨m4, hp2, h⟩ := bind_ok _ _ _ h
        simp only [Except.ok.injEq] at h
        subst h
        simp only [bind, Except.bind]
        rw [h3]
        simp only []
        rw [hp2]
        exact ⟨_, rfl, rfl⟩
      · rw [if_neg hm2] at h ⊢
        simp only [Except.ok.injEq] at h
        subst h
        exact ⟨_, rfl, rfl⟩
  · rw [if_neg hcal] at h ⊢
    simp only [Except.ok.injEq] at h
    subst h
    exact ⟨_, rfl, rfl⟩

theorem finish_bytes (json : Bytes) (ps : Passes) (ret : Option JBTree) (r : JBRet)
    (h : finish json ps = Outcome.returned ret r) :
    r.bytes_read = ps.m.cursor ∧ r.error_code = ps.m.error := by
  unfold finish at h
  simp only [] at h
  split at h
  · split at h
    · simp only [Outcome.returned.injEq] at h
      rw [← h.2]
      exact ⟨rfl, rfl⟩
    · simp only [Outcome.returned.injEq] at h
      rw [← h.2]
      exact ⟨rfl, rfl⟩
  · simp only [Outcome.returned.injEq] at h
    rw [← h.2]
    exact ⟨rfl, rfl⟩

theorem stripBom_length_le (cfg : Config) (s : Bytes) : (stripBom cfg s).length ≤ s.length := by
  unfold stripBom
  split
  · simp only [List.length_drop]
    omega
  · exact le_refl _

/-- What follows a complete document is ignored, in a build without comments. -/
theorem JSONBin_append (env : Env) (cfg : Config) (s t : Bytes) (info : JBRet) (tree : JBTree)
    (r : JBRet) (hc : cfg.allowCComments = false) (hsize : (s ++ t).length < 4294967296)
    (ht : 34 ∉ t) (hdoc : CompleteDoc env cfg s)
    (hok : JSONBin env cfg s info = Outcome.returned (some tree) r) :
    JSONBin env cfg (s ++ t) info = Outcome.returned (some tree) r
      ∧ r.bytes_read = (stripBom cfg s).length ∧ r.error_code = JBError.JBERR_NONE := by
  obtain ⟨hlast, hends⟩ := hdoc
  obtain ⟨pre, b, htext, hb⟩ : ∃ pre b, stripBom cfg s = pre ++ [b] ∧ (b = 125 ∨ b = 93) := by
    rcases List.eq_nil_or_concat (stripBom cfg s) with h | ⟨pre, b, h⟩
    · rw [h] at hlast
      simp at hlast
    · rw [List.concat_eq_append] at h
      refine ⟨pre, b, h, ?_⟩
      rw [h] at hlast
      simp only [List.getLast?_append, List.getLast?_singleton, Option.or,
        Option.some.injEq] at hlast
      exact hlast
  have hsb := stripBom_append cfg s t pre b hb htext
  have hle := stripBom_length_le cfg s
  have hsz : (pre ++ [b]).length + t.length < 4294967296 := by
    rw [← htext]
    simp only [List.length_append] at hsize
    omega
  unfold JSONBin at hok ⊢
  simp only [] at hok ⊢
  rw [hsb, htext]
  rw [htext] at hok hends
  unfold passEnds at hends
  cases hcs : countStrings cfg (pre ++ [b]) ((pre ++ [b]).length + 1) 0 (pre ++ [b]).length 0 0 with
  | error e =>
    rw [hcs] at hok
    exact absurd hok (ofStop_ne _ _ _)
  | ok counts =>
    rw [hcs] at hok hends
    simp only [] at hok hends
    have hcs2 := countStrings_append cfg hc (pre ++ [b]) t ht _ 0 (pre ++ [b]).length 0 0
      ((pre ++ [b] ++ t).length + 1) counts (by simp) hcs
      (by simp only [List.length_append]; omega)
    have hl2 : (pre ++ [b] ++ t).length = (pre ++ [b]).length + t.length := by
      simp only [List.length_append]
    rw [hl2] at hcs2 ⊢
    rw [hcs2]
    simp only []
    by_cases hm : env.mallocWork = true
    · rw [if_pos hm] at hok ⊢
      cases hps : passes env cfg (pre ++ [b]) (sStrCache.init counts.1)
          { info with text_orig := counts.2, strings_orig := counts.1 } with
      | error e =>
        rw [hps] at hok
        exact absurd hok (ofStop_ne _ _ _)
      | ok ps =>
        rw [hps] at hok
        simp only [] at hok
        have hfs := finish_some _ ps tree r hok
        have hfb := finish_bytes _ ps _ r hok
        obtain ⟨ps0, hps0, hm0⟩ := passes_machine env cfg _ _ _ JBRet.zero ps hps
        rw [hps0] at hends
        cases hfp : firstPass env cfg (pre ++ [b]) counts.1 with
        | error e =>
          rw [hfp] at hends
          cases hends
        | ok m1 =>
          rw [hfp] at hends
          simp only [Option.some.injEq, Prod.mk.injEq] at hends
          obtain ⟨e1, e2, e3⟩ := hends
          rw [hm0] at e2 e3
          have hne : pre ++ [b] ≠ [] := by simp
          have hpa := passes_append env cfg hc pre t b hb (sStrCache.init counts.1)
            { info with text_orig := counts.2, strings_orig := counts.1 } ps hsz
            (init_inside _ _ hne) hps hfs.1 e2
            (by
              intro m0 m1' h0 hp1
              unfold firstPass at hfp
              rw [h0] at hfp
              have : parseLoop env cfg (pre ++ [b]) ((pre ++ [b]).length + 1) m0 = .ok m1 := hfp
              rw [hp1] at this
              simp only [Except.ok.injEq] at this
              rw [this]
              exact e1)
          rw [hpa]
          simp only []
          rw [finish_more (pre ++ [b]) _ ps _ hfs.1]
          refine ⟨hok, ?_, ?_⟩
          · rw [hfb.1, e3]
          · rw [hfb.2, hfs.1]
    · rw [if_neg hm] at hok
      have := finish_some _ _ tree r hok
      exact JBError.noConfusion this.1

end jbin

namespace jout

open jbin (Bytes bytesOf)

/-! ## Lemmas on the writer with a valid sink -/

theorem Emits.f_eq {op : Op} {o : JSONOut} {w : Bytes} (h : Emits op o w) :
    (op o).2.f = o.f := congrArg Ctl.f h.2.2

theorem emits_put (c : Nat) (o : JSONOut) (hf : o.f = true) : Emits (put c) o [c] := by
  unfold Emits put
  by_cases h : o.buf.length ≥ JO_FILE_BUFFER_SIZE
  · simp [h, write_buf, hf, JSONOut.text, JSONOut.ctl]
  · simp [h, JSONOut.text, JSONOut.ctl]

theorem emits_and {a b : Op} {o : JSONOut} {w1 w2 : Bytes} (ha : Emits a o w1)
    (hb : Emits b (a o).2 w2) : Emits (Op.and a b) o (w1 ++ w2) := by
  unfold Emits Op.and
  rw [if_pos ha.1]
  refine ⟨hb.1, ?_, ?_⟩
  · rw [hb.2.1, ha.2.1, List.append_assoc]
  · rw [hb.2.2, ha.2.2]

theorem emits_skip (o : JSONOut) : Emits (fun o1 => (true, o1)) o [] := by
  simp [Emits]

theorem emits_putAll (w : Bytes) (o : JSONOut) (hf : o.f = true) : Emits (putAll w) o w := by
  induction w generalizing o with
  | nil => simpa [putAll] using emits_skip o
  | cons c w ih =>
    have h1 := emits_put c o hf
    have h2 := ih (put c o).2 (by rw [h1.f_eq, hf])
    simpa [putAll] using emits_and h1 h2

theorem emits_add_string_loop (s : Bytes) (o : JSONOut) (hf : o.f = true) :
    Emits (add_string_loop s) o (s.flatMap escapeByte) := by
  induction s generalizing o with
  | nil => simpa [add_string_loop] using emits_skip o
  | cons c s ih =>
    have h1 := emits_putAll (escapeByte c) o hf
    have h2 := ih (putAll (escapeByte c) o).2 (by rw [h1.f_eq, hf])
    simpa [add_string_loop] using emits_and h1 h2

theorem emits_add_string (s : Bytes) (len : Nat) (o : JSONOut) (hf : o.f = true) :
    Emits (add_string s len) o ((s.take len).flatMap escapeByte) := by
  have h := emits_add_string_loop (s.take len) { o with column := o.column + (len : Int) } hf
  exact h

theorem emits_add_char (c : Nat) (o : JSONOut) (hf : o.f = true) : Emits (add_char c) o [c] :=
  emits_put c o hf

theorem emits_new_line (o : JSONOut) (hf : o.f = true) : Emits new_line o [10] := by
  have h := emits_add_char 10 o hf
  exact ⟨h.1, h.2.1, h.2.2⟩

theorem write_buf_ok (o : JSONOut) (hf : o.f = true) :
    write_buf o = (true, { o with file := o.file ++ o.buf, buf := [] }) := by
  simp [write_buf, hf]

theorem emits_add_indent_loop (n : Nat) (o : JSONOut) (hf : o.f = true) :
    Emits (add_indent_loop n) o (List.replicate n o.indentChunk).flatten := by
  induction n generalizing o with
  | zero => simpa [add_indent_loop] using emits_skip o
  | succ n ih =>
    unfold Emits
    simp only [add_indent_loop, write_buf_ok o hf, if_true]
    by_cases h : (o.buf.length : Int) ≥ (JO_FILE_BUFFER_SIZE : Int) - (o.indent_len : Int)
    · obtain ⟨t1, t2, t3⟩ := ih { o with file := o.file ++ o.buf, buf := [] ++ o.indentChunk } hf
      simp only [h, if_true]
      refine ⟨t1, ?_, t3⟩
      rw [JSONOut.indentChunk] at t1 t2 t3 ⊢
      rw [t2]
      simp [JSONOut.text, JSONOut.indentChunk, List.replicate_succ]
    · obtain ⟨t1, t2, t3⟩ := ih { o with buf := o.buf ++ o.indentChunk } hf
      simp only [h, if_false]
      refine ⟨t1, ?_, t3⟩
      rw [JSONOut.indentChunk] at t1 t2 t3 ⊢
      rw [t2]
      simp [JSONOut.text, JSONOut.indentChunk, List.replicate_succ]

theorem emits_add_indent (o : JSONOut) (hf : o.f = true) :
    Emits add_indent o (List.replicate o.hier_depth.toNat o.indentChunk).flatten := by
  have h := emits_add_indent_loop o.hier_depth.toNat o hf
  unfold Emits add_indent
  simp only [h.1, if_true]
  exact ⟨trivial, h.2.1, h.2.2⟩


theorem emits_separator_none (o : JSONOut) (hv : o.hasValueAt = false)
    (hd : bitIndexOk o.hier_depth = true) : Emits separator o [] := by
  simp [Emits, separator, hv, JSONOut.touch, hd]

theorem emits_separator_some (o : JSONOut) (hf : o.f = true) (hv : o.hasValueAt = true)
    (hd : bitIndexOk o.hier_depth = true) : Emits separator o [44] := by
  have h := emits_add_char 44 o hf
  have e : separator o = add_char 44 o := by simp [separator, hv, JSONOut.touch, hd]
  unfold Emits at h ⊢
  rw [e]
  exact h

/-- The separator written before an item: a comma when the scope has a value. -/
theorem emits_separator (o : JSONOut) (hf : o.f = true) (hd : bitIndexOk o.hier_depth = true) :
    Emits separator o (if o.hasValueAt = true then [44] else []) := by
  by_cases hv : o.hasValueAt = true
  · simpa [hv] using emits_separator_some o hf hv hd
  · simpa [hv] using emits_separator_none o (by simpa using hv) hd

theorem Emits.depth_eq {op : Op} {o : JSONOut} {w : Bytes} (h : Emits op o w) :
    (op o).2.hier_depth = o.hier_depth := congrArg Ctl.hier_depth h.2.2

theorem Emits.chunk_eq {op : Op} {o : JSONOut} {w : Bytes} (h : Emits op o w) :
    (op o).2.indentChunk = o.indentChunk := by
  have h1 : (op o).2.indent_len = o.indent_len := congrArg Ctl.indent_len h.2.2
  have h2 : (op o).2.indent = o.indent := congrArg Ctl.indent h.2.2
  simp [JSONOut.indentChunk, h1, h2]

/-- The indentation of a writer: `hier_depth` copies of the indent bytes. -/
theorem emits_new_line_indent (o : JSONOut) (hf : o.f = true) :
    Emits (Op.and new_line add_indent) o
      ([10] ++ (List.replicate o.hier_depth.toNat o.indentChunk).flatten) := by
  have h1 := emits_new_line o hf
  have h2 := emits_add_indent (new_line o).2 (by rw [h1.f_eq, hf])
  rw [h1.depth_eq, h1.chunk_eq] at h2
  exact emits_and h1 h2

theorem emits_next_line_indent (o : JSONOut) (hf : o.f = true)
    (hd : bitIndexOk o.hier_depth = true) :
    Emits next_line_indent o ((if o.hasValueAt = true then [44] else []) ++ ([10] ++
      (List.replicate o.hier_depth.toNat o.indentChunk).flatten)) := by
  have h1 := emits_separator o hf hd
  have h2 := emits_new_line_indent (separator o).2 (by rw [h1.f_eq, hf])
  rw [h1.depth_eq, h1.chunk_eq] at h2
  exact emits_and h1 h2

theorem emits_add_quote_str_len (s : Bytes) (len : Nat) (o : JSONOut) (hf : o.f = true) :
    Emits (add_quote_str_len s len) o ([34] ++ ((s.take len).flatMap escapeByte ++ [34])) := by
  have h1 := emits_add_char 34 o hf
  have h2 := emits_add_string s len (add_char 34 o).2 (by rw [h1.f_eq, hf])
  have h3 := emits_add_char 34 (add_string s len (add_char 34 o).2).2 (by rw [h2.f_eq, h1.f_eq, hf])
  exact emits_and h1 (emits_and h2 h3)

theorem emits_add_quote_str (s : Bytes) (o : JSONOut) (hf : o.f = true) :
    Emits (add_quote_str (some s)) o ([34] ++ (s.flatMap escapeByte ++ [34])) := by
  have h := emits_add_quote_str_len s s.length o hf
  simpa [add_quote_str] using h


theorem touch_ok (o : JSONOut) (i : Int) (h : bitIndexOk i = true) : o.touch i = o := by
  simp [JSONOut.touch, h]

/-- A push of a named value in an object scope: separator, new line, indentation, the quoted
name, ` : ` and the value; the scope then has a value. -/
theorem pushValue_object (name : Bytes) (value : Op) (w : Bytes) (tA tO : AddType) (o : JSONOut)
    (hf : o.f = true) (he : o.error_cause = JSONOutError.ERR_NONE) (ha : o.inArray = false)
    (hd : bitIndexOk o.hier_depth = true)
    (hv : ∀ o1 : JSONOut, o1.f = true → Emits value o1 w) :
    (pushValue (some name) value tA tO o).1 = true
    ∧ (pushValue (some name) value tA tO o).2.text = o.text ++
        ((if o.hasValueAt = true then [44] else []) ++ ([10] ++
          (List.replicate o.hier_depth.toNat o.indentChunk).flatten) ++
        (([34] ++ (name.flatMap escapeByte ++ [34])) ++ ([32, 58, 32] ++ w)))
    ∧ (pushValue (some name) value tA tO o).2.ctl =
        { o.ctl with hasValue := setBit o.hasValue o.hier_depth true, prev_type := tO } := by
  have h1 := emits_next_line_indent o hf hd
  have f1 : (next_line_indent o).2.f = true := by rw [h1.f_eq, hf]
  have h2 := emits_add_quote_str name (next_line_indent o).2 f1
  have f2 : (add_quote_str (some name) (next_line_indent o).2).2.f = true := by rw [h2.f_eq, f1]
  have h3 := emits_add_string [32, 58, 32] 3 _ f2
  have f3 := h3.f_eq.trans f2
  have h4 := hv _ f3
  have hX := emits_and h1 (emits_and h2 (emits_and h3 h4))
  have e3 : (List.take 3 [32, 58, 32]).flatMap escapeByte = [32, 58, 32] := by decide
  rw [e3] at hX
  obtain ⟨x1, x2, x3⟩ := hX
  have hdep := congrArg Ctl.hier_depth x3
  have hhv := congrArg Ctl.hasValue x3
  simp only [JSONOut.ctl] at hdep hhv
  unfold pushValue
  rw [touch_ok o _ hd]
  simp only [he, ne_eq, not_true_eq_false, if_false, ha, Bool.false_eq_true, valueDone, x1, if_true]
  refine ⟨trivial, ?_, ?_⟩
  · simp only [JSONOut.text, JSONOut.setHasValue, JSONOut.touch] at x2 ⊢
    rw [hdep, hd]
    simpa using x2
  · simp only [JSONOut.ctl, JSONOut.setHasValue, JSONOut.touch] at x3 ⊢
    rw [hdep, hd]
    simp only [if_true]
    simp only [Ctl.mk.injEq] at x3 ⊢
    obtain ⟨a1, a2, a3, a4, a5, a6, a7, a8, a9⟩ := x3
    exact ⟨a1, a2, a3, a4, trivial, a6, by rw [a7], a8, a9⟩


/-- The end of an object scope that has a value: new line, the indentation of the enclosing
scope and the closing brace. -/
theorem scope_end_object (o : JSONOut) (hf : o.f = true)
    (he : o.error_cause = JSONOutError.ERR_NONE) (ha : o.inArray = false)
    (hd : bitIndexOk o.hier_depth = true) (hv : o.hasValueAt = true) :
    (scope_end o).1 = true
    ∧ (scope_end o).2.text = o.text ++ ([10] ++
        (List.replicate (o.hier_depth - 1).toNat o.indentChunk).flatten ++ [125])
    ∧ (scope_end o).2.ctl =
        { o.ctl with hier_depth := o.hier_depth - 1, prev_type := AddType.JO_OBJECT_END } := by
  have h1 := emits_new_line_indent { o with hier_depth := o.hier_depth - 1 } hf
  obtain ⟨x1, x2, x3⟩ := h1
  have h2 := emits_put 125 { (Op.and new_line add_indent { o with hier_depth := o.hier_depth - 1 }).2
      with prev_type := AddType.JO_OBJECT_END } ((congrArg Ctl.f x3).trans hf)
  obtain ⟨y1, y2, y3⟩ := h2
  unfold scope_end
  rw [touch_ok o _ hd]
  have hne : ¬ (o.error_cause ≠ JSONOutError.ERR_NONE) := by simp [he]
  simp only [if_neg hne, if_false, ha, Bool.false_eq_true, hv, Bool.true_or,
    if_true, x1, add_char]
  refine ⟨y1, ?_, ?_⟩
  · rw [y2]
    simp only [JSONOut.text] at x2 ⊢
    rw [x2]
    simp [JSONOut.indentChunk]
  · rw [y3]
    simp only [JSONOut.ctl, Ctl.mk.injEq] at x3 ⊢
    obtain ⟨a1, a2, a3, a4, a5, a6, a7, a8, a9⟩ := x3
    exact ⟨a1, a2, a3, a4, trivial, a6, a7, a8, a9⟩

/-- The end of a document whose root is an object: new line, closing brace, new line, and
the buffer is written out. -/
theorem finish_object (allowRootArray : Bool) (o : JSONOut) (hf : o.f = true)
    (he : o.error_cause = JSONOutError.ERR_NONE) (hd : o.hier_depth = 1)
    (hr : o.isArray 0 = false) :
    (finish allowRootArray o).1 = true
    ∧ (finish allowRootArray o).2.file = o.text ++ [10, 125, 10]
    ∧ (finish allowRootArray o).2.buf = [] := by
  have h1 := emits_new_line o hf
  have h2 := emits_add_char 125 (new_line o).2 (h1.f_eq.trans hf)
  have h3 := emits_new_line _ (h2.f_eq.trans (h1.f_eq.trans hf))
  obtain ⟨x1, x2, x3⟩ := emits_and h1 (emits_and h2 h3)
  have xf : (Op.and new_line (Op.and (add_char 125) new_line) o).2.f = true :=
    (congrArg Ctl.f x3).trans hf
  unfold finish
  simp only [hf, Bool.true_eq_false, if_false, he, ne_eq, not_true_eq_false, hd, hr,
    and_false, Bool.false_eq_true]
  simp only [x1, if_true, write_buf_ok _ xf, JSONOut.setHasValue, JSONOut.touch]
  refine ⟨trivial, ?_, ?_⟩
  · simp only [JSONOut.text] at x2
    simpa [bitIndexOk, MAX_JSONOUT_DEPTH, JSONOut.text] using x2
  · simp [bitIndexOk, MAX_JSONOUT_DEPTH]


/-- The writer after the constructor with a valid sink and no root array: the text is the
opening brace of the root, the scope is an empty object at depth 1. -/
theorem new_fresh (ara : Bool) (c0 : Int) (b0 b1 : Int → Bool) :
    (JSONOut.new ara true false c0 b0 b1).text = [123]
    ∧ (JSONOut.new ara true false c0 b0 b1).ctl
        = ⟨true, 1, 2, JSONOutError.ERR_NONE, AddType.JO_NONE, [32, 32],
            setBit (setBit b0 0 false) 1 false, setBit (setBit b1 0 false) 1 false, false⟩ :=
  ⟨rfl, rfl⟩

/-- The opening of an object scope with the text ` : ` and a brace. -/
theorem openScope_object (o : JSONOut) (hf : o.f = true)
    (hd : bitIndexOk o.hier_depth = true) (hd1 : o.hier_depth + 1 < MAX_JSONOUT_DEPTH) :
    (openScope false [32, 58, 32, 123] o).1 = true
    ∧ (openScope false [32, 58, 32, 123] o).2.text = o.text ++ [32, 58, 32, 123]
    ∧ (openScope false [32, 58, 32, 123] o).2.ctl =
        { o.ctl with
          hier_depth := o.hier_depth + 1
          hasValue := setBit (setBit o.hasValue o.hier_depth true) (o.hier_depth + 1) false
          isArray := setBit o.isArray (o.hier_depth + 1) false
          prev_type := AddType.JO_OBJECT } := by
  have hd2 : bitIndexOk (o.hier_depth + 1) = true := by
    simp only [bitIndexOk, MAX_JSONOUT_DEPTH, Bool.and_eq_true, decide_eq_true_eq] at hd hd1 ⊢
    omega
  have hnd : ¬ (o.hier_depth + 1 ≥ (MAX_JSONOUT_DEPTH : Int)) := by omega
  have h3 := emits_add_string [32, 58, 32, 123] 4
    { ((({ o.setHasValue o.hier_depth true with
        hier_depth := o.hier_depth + 1 } : JSONOut).setIsArray (o.hier_depth + 1) false).setHasValue
        (o.hier_depth + 1) false) with prev_type := AddType.JO_OBJECT }
    (by simp [JSONOut.setHasValue, JSONOut.setIsArray, JSONOut.touch, hf, hd, hd2])
  have e3 : (List.take 4 [32, 58, 32, 123]).flatMap escapeByte = [32, 58, 32, 123] := by decide
  rw [e3] at h3
  obtain ⟨y1, y2, y3⟩ := h3
  unfold openScope
  simp only [JSONOut.setHasValue, JSONOut.setIsArray, JSONOut.touch, hd, hd2, if_true,
    if_neg hnd, List.length_cons, List.length_nil, Nat.reduceAdd, OfNat.ofNat_ne_one,
    Bool.false_eq_true, if_false] at y1 y2 y3 ⊢
  refine ⟨y1, ?_, ?_⟩
  · rw [y2]; rfl
  · rw [y3]; rfl

/-- The `push_object(name)` call in an object scope: separator, new line, indentation, the
quoted name, ` : ` and the opening brace; the new scope is an empty object one level down. -/
theorem push_object_object (name : Bytes) (o : JSONOut) (hf : o.f = true)
    (he : o.error_cause = JSONOutError.ERR_NONE) (ha : o.inArray = false)
    (hd : bitIndexOk o.hier_depth = true) (hd1 : o.hier_depth + 1 < MAX_JSONOUT_DEPTH) :
    (push_object (some name) o).1 = true
    ∧ (push_object (some name) o).2.text = o.text ++
        ((if o.hasValueAt = true then [44] else []) ++ ([10] ++
          (List.replicate o.hier_depth.toNat o.indentChunk).flatten) ++
        (([34] ++ (name.flatMap escapeByte ++ [34])) ++ [32, 58, 32, 123]))
    ∧ (push_object (some name) o).2.ctl =
        { o.ctl with
          hier_depth := o.hier_depth + 1
          hasValue := setBit (setBit o.hasValue o.hier_depth true) (o.hier_depth + 1) false
          isArray := setBit o.isArray (o.hier_depth + 1) false
          prev_type := AddType.JO_OBJECT } := by
  have h1 := emits_next_line_indent o hf hd
  have f1 : (next_line_indent o).2.f = true := by rw [h1.f_eq, hf]
  have h2 := emits_add_quote_str name (next_line_indent o).2 f1
  obtain ⟨x1, x2, x3⟩ := emits_and h1 h2
  have e : bytesOf " : \x7b" = [32, 58, 32, 123] := by decide
  have b1 := congrArg Ctl.f x3
  have b2 := congrArg Ctl.hier_depth x3
  simp only [JSONOut.ctl] at b1 b2
  obtain ⟨y1, y2, y3⟩ := openScope_object (Op.and next_line_indent (add_quote_str (some name)) o).2
    (b1.trans hf) (by rw [b2]; exact hd) (by rw [b2]; exact hd1)
  have hne : ¬ (o.error_cause ≠ JSONOutError.ERR_NONE) := by simp [he]
  unfold push_object
  rw [touch_ok o _ hd, e]
  simp only [if_neg hne, ha, Bool.false_eq_true, if_false]
  rw [Op.and, if_pos x1]
  refine ⟨y1, ?_, ?_⟩
  · rw [y2, x2]; simp
  · rw [y3, x3, b2]
    simp only [JSONOut.ctl] at x3 ⊢
    rw [Ctl.mk.injEq] at x3
    obtain ⟨a1, a2, a3, a4, a5, a6, a7, a8, a9⟩ := x3
    rw [a7, a8]


/-- On a freshly constructed writer with a valid sink (whatever the content of the fields
the constructor leaves uninitialised), `push_object("r")`, a push of the number `n` whose
text is `valstr`, `scope_end()` and `finish()` all succeed; the text after `scope_end()` is
the root brace, the object `r` nested in it at indentation two, and the member `n` at
indentation four, and `finish()` closes the root and writes everything out. -/
theorem nested_object_text (ara : Bool) (c0 : Int) (b0 b1 : Int → Bool) (valstr : Bytes) :
    let r1 := push_object (some (bytesOf "r")) (JSONOut.new ara true false c0 b0 b1)
    let r2 := push_float (some (bytesOf "n")) valstr r1.2
    let r3 := scope_end r2.2
    let r4 := finish ara r3.2
    r1.1 = true ∧ r2.1 = true ∧ r3.1 = true ∧ r4.1 = true
    ∧ r3.2.text = bytesOf "\x7b\n  \"r\" : \x7b\n    \"n\" : " ++ valstr.flatMap escapeByte
        ++ bytesOf "\n  \x7d"
    ∧ r4.2.file = r3.2.text ++ bytesOf "\n\x7d\n" ∧ r4.2.buf = [] := by
  intro r1 r2 r3 r4
  obtain ⟨n1, n2⟩ := new_fresh ara c0 b0 b1
  rw [JSONOut.ctl, Ctl.mk.injEq] at n2
  obtain ⟨a1, a2, a3, a4, a5, a6, a7, a8, a9⟩ := n2
  obtain ⟨p1, p2, p3⟩ := push_object_object (bytesOf "r") (JSONOut.new ara true false c0 b0 b1)
    a1 a4 (by simp [JSONOut.inArray, a2, a8, setBit]) (by rw [a2]; decide) (by rw [a2]; decide)
  have q2 : r1.2.text = bytesOf "\x7b\n  \"r\" : \x7b" := by
    show (push_object (some (bytesOf "r")) (JSONOut.new ara true false c0 b0 b1)).2.text = _
    rw [p2, n1]
    simp only [JSONOut.hasValueAt, JSONOut.indentChunk, a2, a3, a6, a7, setBit, if_true,
      Bool.false_eq_true, if_false]
    decide
  have q3 : r1.2.ctl = ⟨true, 2, 2, JSONOutError.ERR_NONE, AddType.JO_OBJECT, [32, 32],
      setBit (setBit (setBit (setBit b0 0 false) 1 false) 1 true) 2 false,
      setBit (setBit (setBit b1 0 false) 1 false) 2 false, false⟩ := by
    show (push_object (some (bytesOf "r")) (JSONOut.new ara true false c0 b0 b1)).2.ctl = _
    rw [p3]
    simp only [JSONOut.ctl, a1, a2, a3, a4, a6, a7, a8, a9]
    rfl
  rw [JSONOut.ctl, Ctl.mk.injEq] at q3
  obtain ⟨c1, c2, c3, c4, c5, c6, c7, c8, c9⟩ := q3
  obtain ⟨s1, s2, s3⟩ := pushValue_object (bytesOf "n") (add_string valstr valstr.length)
    ((valstr.take valstr.length).flatMap escapeByte) AddType.JO_NUMBER AddType.JO_NUMBER r1.2
    c1 c4 (by simp [JSONOut.inArray, c2, c8, setBit]) (by rw [c2]; decide)
    (fun o1 h1 => emits_add_string valstr valstr.length o1 h1)
  have s1a : r2.1 = true := s1
  have s2a : r2.2.text = bytesOf "\x7b\n  \"r\" : \x7b\n    \"n\" : "
      ++ valstr.flatMap escapeByte := by
    show (pushValue (some (bytesOf "n")) (add_string valstr valstr.length) AddType.JO_NUMBER
      AddType.JO_NUMBER r1.2).2.text = _
    rw [s2, q2]
    simp only [JSONOut.hasValueAt, JSONOut.indentChunk, c2, c3, c6, c7, setBit, if_true,
      Bool.false_eq_true, if_false, List.take_length]
    have e : bytesOf "\x7b\n  \"r\" : \x7b\n    \"n\" : " = bytesOf "\x7b\n  \"r\" : \x7b"
      ++ ([] ++ ([10] ++ (List.replicate (Int.toNat 2)
        (List.map (fun i => [32, 32].getD i 0) (List.range 2))).flatten)
        ++ ([34] ++ (List.flatMap (bytesOf "n") escapeByte ++ [34]) ++ [32, 58, 32])) := by decide
    rw [e]
    simp only [List.append_assoc]
  have s3a : r2.2.ctl = ⟨true, 2, 2, JSONOutError.ERR_NONE, AddType.JO_NUMBER, [32, 32],
      setBit (setBit (setBit (setBit (setBit b0 0 false) 1 false) 1 true) 2 false) 2 true,
      setBit (setBit (setBit b1 0 false) 1 false) 2 false, false⟩ := by
    show (pushValue (some (bytesOf "n")) (add_string valstr valstr.length) AddType.JO_NUMBER
      AddType.JO_NUMBER r1.2).2.ctl = _
    rw [s3]
    simp only [JSONOut.ctl, c1, c2, c3, c4, c6, c7, c8, c9]
  rw [JSONOut.ctl, Ctl.mk.injEq] at s3a
  obtain ⟨d1, d2, d3, d4, d5, d6, d7, d8, d9⟩ := s3a
  obtain ⟨t1, t2, t3⟩ := scope_end_object r2.2 d1 d4 (by simp [JSONOut.inArray, d2, d8, setBit])
    (by rw [d2]; decide) (by simp [JSONOut.hasValueAt, d2, d7, setBit])
  have t2a : r3.2.text = bytesOf "\x7b\n  \"r\" : \x7b\n    \"n\" : "
      ++ valstr.flatMap escapeByte ++ bytesOf "\n  \x7d" := by
    show (scope_end r2.2).2.text = _
    rw [t2, s2a]
    simp only [JSONOut.indentChunk, d2, d3, d6]
    rfl
  have t3a : r3.2.ctl = ⟨true, 1, 2, JSONOutError.ERR_NONE, AddType.JO_OBJECT_END, [32, 32],
      setBit (setBit (setBit (setBit (setBit b0 0 false) 1 false) 1 true) 2 false) 2 true,
      setBit (setBit (setBit b1 0 false) 1 false) 2 false, false⟩ := by
    show (scope_end r2.2).2.ctl = _
    rw [t3]
    simp only [JSONOut.ctl, d1, d2, d3, d4, d6, d7, d8, d9]
    rfl
  rw [JSONOut.ctl, Ctl.mk.injEq] at t3a
  obtain ⟨e1, e2, e3, e4, e5, e6, e7, e8, e9⟩ := t3a
  obtain ⟨u1, u2, u3⟩ := finish_object ara r3.2 e1 e4 e2 (by simp [e8, setBit])
  have eb : bytesOf "\n\x7d\n" = [10, 125, 10] := by decide
  refine ⟨p1, s1a, t1, u1, t2a, ?_, ?_⟩
  · rw [eb, show r4 = finish ara r3.2 from rfl]
    exact u2
  · rw [show r4 = finish ara r3.2 from rfl]
    exact u3


/-! ### The text written for the number 3.14 -/

theorem set_mid (a b : Bytes) (x c : Nat) : (a ++ x :: b).set a.length c = a ++ c :: b := by
  induction a with
  | nil => rfl
  | cons y a ih =>
    simp only [List.cons_append, List.length_cons, List.set_cons_succ, ih]

theorem storeAt_mid (w : Bytes) : ∀ (a old b : Bytes), old.length = w.length →
    storeAt (a ++ old ++ b) a.length w = a ++ w ++ b := by
  induction w with
  | nil =>
    intro a old b h
    have : old = [] := List.length_eq_zero.mp h
    subst this
    rfl
  | cons c w ih =>
    intro a old b h
    cases old with
    | nil => simp at h
    | cons o old =>
      simp only [List.length_cons, Nat.add_right_cancel_iff] at h
      rw [storeAt]
      have e1 : (a ++ o :: old ++ b).set a.length c = (a ++ [c]) ++ old ++ b := by
        have := set_mid a (old ++ b) o c
        simp only [List.append_assoc, List.cons_append, List.nil_append] at this ⊢
        exact this
      have e2 : a.length + 1 = (a ++ [c]).length := by simp
      rw [e1, e2, ih (a ++ [c]) old b h]
      simp

theorem bufText_store (buf w : Bytes) (hl : w.length < buf.length) (hw : ∀ b ∈ w, b ≠ 0) :
    bufText ((storeAt buf 0 w).set w.length 0) = w := by
  have hd : buf.drop w.length ≠ [] := by
    intro h
    have := congrArg List.length h
    simp only [List.length_drop, List.length_nil] at this
    omega
  obtain ⟨x, xs, hx⟩ := List.exists_cons_of_ne_nil hd
  have hb : buf = [] ++ buf.take w.length ++ (x :: xs) := by
    rw [← hx]
    simp
  have hs := storeAt_mid w [] (buf.take w.length) (x :: xs)
    (by rw [List.length_take]; omega)
  rw [← hb] at hs
  rw [show (0 : Nat) = ([] : Bytes).length from rfl, hs]
  simp only [List.nil_append]
  rw [set_mid]
  unfold bufText
  rw [List.takeWhile_append_of_pos]
  · simp
  · intro b hb
    simpa using hw b hb

theorem storeAt_append (w1 w2 : Bytes) : ∀ (buf : Bytes) (pos : Nat),
    storeAt (storeAt buf pos w1) (pos + w1.length) w2 = storeAt buf pos (w1 ++ w2) := by
  induction w1 with
  | nil => intro buf pos; rfl
  | cons c w1 ih =>
    intro buf pos
    have e : pos + (c :: w1).length = pos + 1 + w1.length := by
      simp only [List.length_cons]
      omega
    rw [e, List.cons_append, storeAt, storeAt, ih]

/-- The content of the buffer after `double2text` of the literal `3.14`, for a `<math.h>`
with `int(log10(3.14)) = 0` and `pow(10.0, 16) = 1e16`. -/
theorem double2textBuf_314 (fe : FloatEnv) (buf : Bytes) (hb : buf.length = 64)
    (h1 : fe.intLog10 literal314.abs = 0)
    (h2 : fe.pow10 16 = Dbl.ofInt 10000000000000000) :
    double2textBuf fe literal314 buf 17
      = (storeAt buf 0 (bytesOf "3.1400000000000001")).set 18 0 := by
  have hneg : literal314.isNegative = false := by decide!
  have hmin : literal314.abs.aboveMin = true := by decide!
  have hn : (literal314.toInt % 18446744073709551616).toNat = 3 := by decide!
  have hnc : countChars 20 3 10 = 1 := by decide!
  have hfn : ((Dbl.add (Dbl.mul (Dbl.sub literal314 (Dbl.ofInt ((3 : Nat) : Int)))
      (Dbl.ofInt 10000000000000000)) (Dbl.div (Dbl.ofInt 49) (Dbl.ofInt 100))).toInt
        % 18446744073709551616).toNat = 1400000000000001 := by decide!
  unfold double2textBuf
  simp only [hneg, Bool.false_eq_true, if_false, h1, hmin, if_true]
  have hbig : (decide ((0 : Int) > 17 - 2) || decide ((0 : Int) < -2)) = false := by decide
  simp only [hbig, Bool.false_eq_true, if_false, hn, hnc]
  have e1 : ¬ ((17 : Int) - 1 - 0 < 1) := by decide
  have e2 : ¬ ((17 : Int) - 1 - 0 > 17 + 1) := by decide
  simp only [e1, e2, if_false]
  have e3 : (17 : Int) - 1 - 0 = 16 := by decide
  simp only [e3, h2, hfn, hb]
  have p16 : (16 : Int) > 0 := by decide
  have t16 : Int.toNat 16 = 16 := rfl
  simp only [p16, if_true, t16, Nat.zero_add, Nat.sub_zero]
  rw [if_neg (by decide), if_neg (by decide), if_neg (by decide), if_pos (by decide)]
  have hd : digitsOf 1 3 = [51] := by decide
  rw [hd, show (1 : Nat) = 0 + ([51] : Bytes).length from rfl, storeAt_append]
  rfl

/-- The text `push` adds for the `double` of the literal `3.14`. -/
theorem push_double_314 (fe : FloatEnv) (name : Option Bytes) (valstr : Bytes)
    (hb : valstr.length = 64) (h1 : fe.intLog10 literal314.abs = 0)
    (h2 : fe.pow10 16 = Dbl.ofInt 10000000000000000) :
    push_double_value fe name literal314 valstr
      = push_float name (bytesOf "3.1400000000000001") := by
  unfold push_double_value push_double
  rw [double2textBuf_314 fe valstr hb h1 h2]
  have e : bufText ((storeAt valstr 0 (bytesOf "3.1400000000000001")).set 18 0)
      = bytesOf "3.1400000000000001" :=
    bufText_store valstr (bytesOf "3.1400000000000001") (by rw [hb]; decide) (by decide)
  rw [e]
  have hn : literal314.isNaN = false := by decide!
  rw [hn]
  have hc : cleanfloatstr (double2text false (bytesOf "3.1400000000000001") (bufText valstr))
      = bytesOf "3.1400000000000001" := by
    unfold double2text
    rw [if_neg (by decide)]
    decide
  rw [hc]

theorem getD_append_left (a b : Bytes) (i : Nat) (h : i < a.length) :
    (a ++ b).getD i 0 = a.getD i 0 := by
  simp [List.getD_eq_getElem?_getD, List.getElem?_append_left h]

theorem text_314 : bytesOf "\x7b\n  \"r\" : \x7b\n    \"n\" : "
      ++ (bytesOf "3.1400000000000001").flatMap escapeByte ++ bytesOf "\n  \x7d"
    = bytesOf "\x7b\n  \"r\" : \x7b\n    \"n\" : 3.1400000000000001\n  \x7d" := by decide

theorem file_314 : bytesOf "\x7b\n  \"r\" : \x7b\n    \"n\" : 3.1400000000000001\n  \x7d"
      ++ bytesOf "\n\x7d\n"
    = bytesOf "\x7b\n  \"r\" : \x7b\n    \"n\" : 3.1400000000000001\n  \x7d\n\x7d\n" := by
  decide

theorem literal314_bits : literal314 = Dbl.finite false 7070651414971679 (-51) := by decide!

/-- C20 (amended). On a freshly constructed writer with a valid sink (whatever the content
of the fields the constructor leaves uninitialised and of the stack), with JO_FAST_FRAC
and a math library for which int(log10(3.14)) is 0 and pow(10.0, 16) is 1e16:
push_object("r"), push("n", 3.14), scope_end() and finish() all succeed; the text
after scope_end() is the root brace, the object r nested in it at indentation two and
the member n at indentation four with the number text 3.1400000000000001, and
finish() closes the root and writes everything out. The double of the literal 3.14 is
7070651414971679 * 2^(-51). -/
theorem C20_nested_object_text (ara : Bool) (c0 : Int) (b0 b1 : Int → Bool) (fe : FloatEnv)
    (valstr : Bytes) (hb : valstr.length = 64) (h1 : fe.intLog10 literal314.abs = 0)
    (h2 : fe.pow10 16 = Dbl.ofInt 10000000000000000) :
    let r1 := push_object (some (bytesOf "r")) (JSONOut.new ara true false c0 b0 b1)
    let r2 := push_double_value fe (some (bytesOf "n")) literal314 valstr r1.2
    let r3 := scope_end r2.2
    let r4 := finish ara r3.2
    r1.1 = true ∧ r2.1 = true ∧ r3.1 = true ∧ r4.1 = true
    ∧ r3.2.text = bytesOf "\x7b\n  \"r\" : \x7b\n    \"n\" : 3.1400000000000001\n  \x7d"
    ∧ r4.2.file = bytesOf "\x7b\n  \"r\" : \x7b\n    \"n\" : 3.1400000000000001\n  \x7d\n\x7d\n"
    ∧ r4.2.buf = []
    ∧ literal314 = Dbl.finite false 7070651414971679 (-51) := by
  rw [push_double_314 fe (some (bytesOf "n")) valstr hb h1 h2]
  have g := nested_object_text ara c0 b0 b1 (bytesOf "3.1400000000000001")
  rw [text_314] at g
  obtain ⟨g1, g2, g3, g4, g5, g6, g7⟩ := g
  rw [g5, file_314] at g6
  exact ⟨g1, g2, g3, g4, g5, g6, g7, literal314_bits⟩

/-- C20 at a writer whose uninitialised fields hold zeros, a stack of 64 bytes 7, and a
`<math.h>` that is exact. -/
theorem C20_nested_object_text_witness :
    (List.replicate 64 7 : Bytes).length = 64
      ∧ okFloatEnv.intLog10 literal314.abs = 0
      ∧ okFloatEnv.pow10 16 = Dbl.ofInt 10000000000000000
      ∧ (scope_end (push_double_value okFloatEnv (some (bytesOf "n")) literal314
          (List.replicate 64 7) (push_object (some (bytesOf "r"))
            (JSONOut.new false true false 0 (fun _ => false) (fun _ => false))).2).2).2.text
        = bytesOf "\x7b\n  \"r\" : \x7b\n    \"n\" : 3.1400000000000001\n  \x7d"
      ∧ (finish false (scope_end (push_double_value okFloatEnv (some (bytesOf "n")) literal314
          (List.replicate 64 7) (push_object (some (bytesOf "r"))
            (JSONOut.new false true false 0 (fun _ => false) (fun _ => false))).2).2).2).2.file
        = bytesOf "\x7b\n  \"r\" : \x7b\n    \"n\" : 3.1400000000000001\n  \x7d\n\x7d\n" :=
  have hb : (List.replicate 64 7 : Bytes).length = 64 := by decide
  have h1 : okFloatEnv.intLog10 literal314.abs = 0 := by decide!
  have h2 : okFloatEnv.pow10 16 = Dbl.ofInt 10000000000000000 := by decide!
  have g := C20_nested_object_text false 0 (fun _ => false) (fun _ => false) okFloatEnv
    (List.replicate 64 7) hb h1 h2
  ⟨hb, h1, h2, g.2.2.2.2.1, g.2.2.2.2.2.1⟩

/-- C20 (counterexample). On a new writer with a valid sink, `push_object("r")`,
`push("n", 3.14)` and `scope_end()` give the root brace, the object `r` nested in it and the
member `n` with the text `3.1400000000000001`, and `finish()` closes the root: neither text
is the text of the claim.  Whatever the text of the number is, and whatever the fields hold
that the constructor leaves uninitialised, the text after `scope_end()` and the text after
`finish()` are not the text of the claim: the constructor has opened the root, and the
object `r` is written as a member of it, so the sixth byte is the `r` of the name and not
an `n`. -/
theorem C20_text_is_not_flat :
    (scope_end (push_double_value okFloatEnv (some (bytesOf "n")) literal314
        (List.replicate 64 0) (push_object (some (bytesOf "r"))
          (JSONOut.new false true false 0 (fun _ => false) (fun _ => false))).2).2).2.text
      = bytesOf "\x7b\n  \"r\" : \x7b\n    \"n\" : 3.1400000000000001\n  \x7d"
    ∧ (finish false (scope_end (push_double_value okFloatEnv (some (bytesOf "n")) literal314
        (List.replicate 64 0) (push_object (some (bytesOf "r"))
          (JSONOut.new false true false 0 (fun _ => false) (fun _ => false))).2).2).2).2.file
      = bytesOf "\x7b\n  \"r\" : \x7b\n    \"n\" : 3.1400000000000001\n  \x7d\n\x7d\n"
    ∧ bytesOf "\x7b\n  \"r\" : \x7b\n    \"n\" : 3.1400000000000001\n  \x7d"
      ≠ bytesOf "\x7b\n  \"n\" : 3.14\n\x7d\n"
    ∧ bytesOf "\x7b\n  \"r\" : \x7b\n    \"n\" : 3.1400000000000001\n  \x7d\n\x7d\n"
      ≠ bytesOf "\x7b\n  \"n\" : 3.14\n\x7d\n"
    ∧ ∀ (ara : Bool) (c0 : Int) (b0 b1 : Int → Bool) (valstr : Bytes),
      (scope_end (push_float (some (bytesOf "n")) valstr
          (push_object (some (bytesOf "r")) (JSONOut.new ara true false c0 b0 b1)).2).2).2.text
        ≠ bytesOf "\x7b\n  \"n\" : 3.14\n\x7d\n"
      ∧ (finish ara (scope_end (push_float (some (bytesOf "n")) valstr
          (push_object (some (bytesOf "r"))
            (JSONOut.new ara true false c0 b0 b1)).2).2).2).2.file
        ≠ bytesOf "\x7b\n  \"n\" : 3.14\n\x7d\n"
      ∧ (scope_end (push_float (some (bytesOf "n")) valstr
          (push_object (some (bytesOf "r")) (JSONOut.new ara true false c0 b0 b1)).2).2).2.text
        = bytesOf "\x7b\n  \"r\" : \x7b\n    \"n\" : " ++ valstr.flatMap escapeByte
            ++ bytesOf "\n  \x7d" := by
  have e := push_double_314 okFloatEnv (some (bytesOf "n")) (List.replicate 64 0) (by decide)
    (by decide!) (by decide!)
  rw [e]
  have g := nested_object_text false 0 (fun _ => false) (fun _ => false)
    (bytesOf "3.1400000000000001")
  rw [text_314] at g
  obtain ⟨_, _, _, _, g5, g6, _⟩ := g
  rw [g5, file_314] at g6
  refine ⟨g5, g6, by decide, by decide, ?_⟩
  intro ara c0 b0 b1 valstr
  obtain ⟨_, _, _, _, g5, g6, _⟩ := nested_object_text ara c0 b0 b1 valstr
  have k : ∀ x : Bytes, bytesOf "\x7b\n  \"r\" : \x7b\n    \"n\" : " ++ x
      ≠ bytesOf "\x7b\n  \"n\" : 3.14\n\x7d\n" := by
    intro x h
    have h4 := congrArg (fun l => l.getD 5 0) h
    simp only [] at h4
    rw [getD_append_left _ _ 5 (by decide)] at h4
    revert h4
    decide
  refine ⟨?_, ?_, g5⟩
  · rw [g5, List.append_assoc]
    exact k _
  · rw [g6, g5, List.append_assoc, List.append_assoc]
    exact k _

/-! ## Errors of the writer and array elements (claims C21 to C23) -/

theorem pushValue_latched (name : Option Bytes) (value : Op) (t1 t2 : AddType) (o : JSONOut)
    (h : o.error_cause ≠ JSONOutError.ERR_NONE) : pushValue name value t1 t2 o = (false, o) := by
  simp [pushValue, h]

theorem elementValue_latched (value : Op) (t : AddType) (o : JSONOut)
    (h : o.error_cause ≠ JSONOutError.ERR_NONE) : elementValue value t o = (false, o) := by
  simp [elementValue, h]

/-- C21. With a latched error every push, element and `scope_end` call returns false and
leaves the writer as it is: no byte is added to the file or the buffer, and `hier_depth`,
`hasValue`, `isArray` and `error_cause` (as every other field) are unchanged. -/
theorem C21_error_is_sticky (o : JSONOut) (h : o.error_cause ≠ JSONOutError.ERR_NONE)
    (name : Option Bytes) (s : Bytes) (len : Nat) (i : Int) (b nan : Bool)
    (digits stack : Bytes) :
    push_str name s len o = (false, o) ∧ push_int name i o = (false, o)
    ∧ push_float name s o = (false, o) ∧ push_double name nan digits stack o = (false, o)
    ∧ push_bool name b o = (false, o)
    ∧ push_null_named name o = (false, o) ∧ push_null o = (false, o)
    ∧ push_object name o = (false, o) ∧ push_array name o = (false, o)
    ∧ element_str s len o = (false, o) ∧ element_int i o = (false, o)
    ∧ element_float s o = (false, o) ∧ element_double nan digits stack o = (false, o)
    ∧ element_bool b o = (false, o)
    ∧ element_null o = (false, o) ∧ element_object o = (false, o)
    ∧ element_array o = (false, o) ∧ scope_end o = (false, o) := by
  refine ⟨pushValue_latched _ _ _ _ o h, pushValue_latched _ _ _ _ o h,
    pushValue_latched _ _ _ _ o h, pushValue_latched _ _ _ _ o h,
    pushValue_latched _ _ _ _ o h, ?_, ?_, ?_, ?_,
    elementValue_latched _ _ o h, elementValue_latched _ _ o h, elementValue_latched _ _ o h,
    elementValue_latched _ _ o h, elementValue_latched _ _ o h, elementValue_latched _ _ o h,
    ?_, ?_, ?_⟩
  · simp [push_null_named, h]
  · simp [push_null, h]
  · simp [push_object, h]
  · simp [push_array, h]
  · simp [element_object, h]
  · simp [element_array, h]
  · simp [scope_end, h]

/-- C21 at a writer on which `element` was called in the root object. -/
theorem C21_error_is_sticky_witness :
    (element_int 1 (JSONOut.new false true false 0 (fun _ => false) (fun _ => false))).2.error_cause
        ≠ JSONOutError.ERR_NONE
    ∧ push_int (some (bytesOf "a")) 2
        (element_int 1 (JSONOut.new false true false 0 (fun _ => false) (fun _ => false))).2
      = (false, (element_int 1
          (JSONOut.new false true false 0 (fun _ => false) (fun _ => false))).2) :=
  ⟨by decide, (C21_error_is_sticky _ (by decide) (some (bytesOf "a")) [] 0 2 false false
    [] []).2.1⟩

theorem elementValue_rejects (value : Op) (t : AddType) (o : JSONOut)
    (he : o.error_cause = JSONOutError.ERR_NONE) (ha : o.inArray = false) :
    RejectsNotArray (elementValue value t) o := by
  unfold RejectsNotArray elementValue
  simp only [he, ne_eq, not_true_eq_false, if_false, ha, if_true, error, JSONOut.touch]
  by_cases hb : bitIndexOk o.hier_depth = true <;> simp [hb]

/-- C22. Without a latched error and outside an array every element function returns
false, sets `error_cause` to `ERR_NOT_ARRAY`, adds no byte to the file or the buffer and
keeps `hier_depth`. -/
theorem C22_element_outside_array (o : JSONOut) (he : o.error_cause = JSONOutError.ERR_NONE)
    (ha : o.inArray = false) (s : Bytes) (len : Nat) (i : Int) (b nan : Bool)
    (digits stack : Bytes) :
    RejectsNotArray (element_str s len) o ∧ RejectsNotArray (element_int i) o
    ∧ RejectsNotArray (element_float s) o ∧ RejectsNotArray (element_double nan digits stack) o
    ∧ RejectsNotArray (element_bool b) o ∧ RejectsNotArray element_null o
    ∧ RejectsNotArray element_object o ∧ RejectsNotArray element_array o := by
  refine ⟨elementValue_rejects _ _ o he ha, elementValue_rejects _ _ o he ha,
    elementValue_rejects _ _ o he ha, elementValue_rejects _ _ o he ha,
    elementValue_rejects _ _ o he ha, elementValue_rejects _ _ o he ha, ?_, ?_⟩
  · unfold RejectsNotArray element_object
    simp only [he, ne_eq, not_true_eq_false, if_false, ha, if_true, error, JSONOut.touch]
    by_cases hb : bitIndexOk o.hier_depth = true <;> simp [hb]
  · unfold RejectsNotArray element_array
    simp only [he, ne_eq, not_true_eq_false, if_false, ha, if_true, error, JSONOut.touch]
    by_cases hb : bitIndexOk o.hier_depth = true <;> simp [hb]

/-- C22 at a fresh writer, whose root is an object: `element(1)` is rejected. -/
theorem C22_element_outside_array_witness :
    RejectsNotArray (element_int 1)
      (JSONOut.new false true false 0 (fun _ => false) (fun _ => false)) :=
  (C22_element_outside_array _ (by decide) (by decide) [] 0 1 false false [] []).2.1

/-- C25. The length of the indent is not configurable: `set_indent` stores the string but
`indent_len` stays 2, so `add_indent` copies two bytes of `indent` for each level.  After
`set_indent("\t")` the indentation at depth 1 is a tab and the terminating 0, at depth 2
it is that twice; after `set_indent` with four spaces it is two spaces for each level.
With the default indent it is two spaces for each level. -/
theorem C25_indent_length_stays_two :
    ((set_indent (bytesOf "\t")
        (JSONOut.new false true false 0 (fun _ => false) (fun _ => false))).indentChunk = [9, 0])
    ∧ (add_indent (set_indent (bytesOf "\t")
        (JSONOut.new false true false 0 (fun _ => false) (fun _ => false)))).2.text
      = [123, 9, 0]
    ∧ (add_indent (set_indent (bytesOf "\t") (push_object (some (bytesOf "a"))
        (JSONOut.new false true false 0 (fun _ => false) (fun _ => false))).2)).2.text
      = bytesOf "\x7b\n  \"a\" : \x7b" ++ [9, 0, 9, 0]
    ∧ (add_indent (set_indent (bytesOf "    ")
        (JSONOut.new false true false 0 (fun _ => false) (fun _ => false)))).2.text
      = [123, 32, 32]
    ∧ (add_indent (push_object (some (bytesOf "a"))
        (JSONOut.new false true false 0 (fun _ => false) (fun _ => false))).2).2.text
      = bytesOf "\x7b\n  \"a\" : \x7b" ++ [32, 32, 32, 32] := by
  decide

/-- C26. The literal that `double2text` returns for a NaN is not used: the text pushed is
what the array `valstr` held before the call.  With the bytes `xyz` there, a push of a NaN
named `n` on a fresh writer adds the text `xyz` as the value, and `element` of a NaN in an
array adds `xyz`; with `1.500` there the value text is `1.5`; with a 0 at the start of
`valstr` the value text is empty.  None of these is `0.0`. -/
theorem C26_nan_pushes_stale_buffer :
    (push_double (some (bytesOf "n")) true [] (bytesOf "xyz")
        (JSONOut.new false true false 0 (fun _ => false) (fun _ => false))).2.text
      = bytesOf "\x7b\n  \"n\" : xyz"
    ∧ (push_double (some (bytesOf "n")) true [] (bytesOf "1.500")
        (JSONOut.new false true false 0 (fun _ => false) (fun _ => false))).2.text
      = bytesOf "\x7b\n  \"n\" : 1.5"
    ∧ (push_double (some (bytesOf "n")) true [] []
        (JSONOut.new false true false 0 (fun _ => false) (fun _ => false))).2.text
      = bytesOf "\x7b\n  \"n\" : "
    ∧ (element_double true [] (bytesOf "xyz") (push_array (some (bytesOf "a"))
        (JSONOut.new false true false 0 (fun _ => false) (fun _ => false))).2).2.text
      = bytesOf "\x7b\n  \"a\" : [ xyz"
    ∧ bytesOf "\x7b\n  \"n\" : xyz" ≠ bytesOf "\x7b\n  \"n\" : 0.0" := by
  decide

/-! ## Escaping of strings (claim C24) -/

/-- C24. For every well-formed UTF-8 byte string `s` and every writer with an open file,
`add_string(s)` appends the escaped text `w`; in the text `"` `w` `"` `quoteEnd` returns
the position of the final quote, `toEncoding` of the text between the quotes gives back
`s`, no byte of `w` is below 0x20, and every `"` in `w` has an odd number of backslashes
right before it. -/
theorem C24_escape_round_trip (cfg : jbin.Config) (s : Bytes) (o : JSONOut)
    (hv : jbin.ValidUtf8 s) (hf : o.f = true) :
    Emits (add_string s s.length) o (s.flatMap escapeByte)
    ∧ jbin.quoteEnd ([34] ++ s.flatMap escapeByte ++ [34]) 0
        ((s.flatMap escapeByte).length + 2) = some ((s.flatMap escapeByte).length + 1)
    ∧ jbin.toEncoding cfg (([34] ++ s.flatMap escapeByte ++ [34]).drop 1)
        (s.flatMap escapeByte).length = s
    ∧ (∀ b ∈ s.flatMap escapeByte, 32 ≤ b)
    ∧ (∀ pre post, s.flatMap escapeByte = pre ++ 34 :: post →
        jbin.trailingBackslashes pre % 2 = 1) := by
  refine ⟨?_, jbin.quoteEnd_escape s, ?_, jbin.escaped_ge s, ?_⟩
  · have h := emits_add_string s s.length o hf
    rwa [List.take_length] at h
  · have h := jbin.toEncoding_escape cfg s [34] hv
    simpa using h
  · intro pre post h
    have := jbin.escaped_quotes s [] pre post (by simp [jbin.trailing_nil]) h
    simpa using this

/-- C24 at the string of a quote, a line feed, `é`, `€` and U+1F600, on a new writer. -/
theorem C24_escape_round_trip_witness :
    jbin.ValidUtf8 [34, 10, 0xc3, 0xa9, 0xe2, 0x82, 0xac, 0xf0, 0x9f, 0x98, 0x80]
    ∧ ([34, 10, 0xc3, 0xa9, 0xe2, 0x82, 0xac, 0xf0, 0x9f, 0x98, 0x80] : Bytes).flatMap escapeByte
        = [92, 34, 92, 110, 0xc3, 0xa9, 0xe2, 0x82, 0xac, 0xf0, 0x9f, 0x98, 0x80]
    ∧ jbin.quoteEnd ([34] ++ ([34, 10, 0xc3, 0xa9, 0xe2, 0x82, 0xac, 0xf0, 0x9f, 0x98,
          0x80] : Bytes).flatMap escapeByte ++ [34]) 0
        ((([34, 10, 0xc3, 0xa9, 0xe2, 0x82, 0xac, 0xf0, 0x9f, 0x98, 0x80] : Bytes).flatMap
          escapeByte).length + 2)
      = some ((([34, 10, 0xc3, 0xa9, 0xe2, 0x82, 0xac, 0xf0, 0x9f, 0x98, 0x80] : Bytes).flatMap
          escapeByte).length + 1)
    ∧ jbin.toEncoding jbin.defaultConfig (([34] ++ ([34, 10, 0xc3, 0xa9, 0xe2, 0x82, 0xac, 0xf0,
          0x9f, 0x98, 0x80] : Bytes).flatMap escapeByte ++ [34]).drop 1)
        (([34, 10, 0xc3, 0xa9, 0xe2, 0x82, 0xac, 0xf0, 0x9f, 0x98, 0x80] : Bytes).flatMap
          escapeByte).length
      = [34, 10, 0xc3, 0xa9, 0xe2, 0x82, 0xac, 0xf0, 0x9f, 0x98, 0x80] :=
  have hv : jbin.ValidUtf8 [34, 10, 0xc3, 0xa9, 0xe2, 0x82, 0xac, 0xf0, 0x9f, 0x98, 0x80] :=
    .one 34 _ (by decide) (.one 10 _ (by decide)
      (.two 0xc3 0xa9 _ (by decide) (by decide) (by unfold jbin.isCont; decide)
        (.three 0xe2 0x82 0xac _ (by decide) (by decide) (by unfold jbin.isCont; decide)
          (by unfold jbin.isCont; decide) (by decide) (by decide)
          (.four 0xf0 0x9f 0x98 0x80 _ (by decide) (by decide) (by unfold jbin.isCont; decide)
            (by unfold jbin.isCont; decide) (by unfold jbin.isCont; decide) (by decide)
            (by decide) .nil))))
  have h := C24_escape_round_trip jbin.defaultConfig _
    (JSONOut.new false true false 0 (fun _ => false) (fun _ => false)) hv rfl
  ⟨hv, by decide, h.2.1, h.2.2.1⟩

/-! ## The depth of the hierarchy (claim C38) -/

/-- C38. `scope_end` lowers `hier_depth` without a test (`hasValue[hier_depth--]`).  On a
fresh writer, where only the root is open and `hier_depth` is 1, `scope_end` returns true
and leaves `hier_depth = 0`; a second `scope_end` returns true and leaves
`hier_depth = -1`; the push that follows indexes `isArray` and `hasValue` at -1, outside
the bit sets. -/
theorem C38_scope_end_at_root_lowers_depth :
    (JSONOut.new false true false 0 (fun _ => false) (fun _ => false)).hier_depth = 1
      ∧ (scope_end (JSONOut.new false true false 0 (fun _ => false) (fun _ => false))).1 = true
      ∧ (scope_end (JSONOut.new false true false 0 (fun _ => false) (fun _ => false))).2.hier_depth = 0
      ∧ (scope_end (scope_end
          (JSONOut.new false true false 0 (fun _ => false) (fun _ => false))).2).1 = true
      ∧ (scope_end (scope_end
          (JSONOut.new false true false 0 (fun _ => false) (fun _ => false))).2).2.hier_depth = -1
      ∧ (scope_end (scope_end
          (JSONOut.new false true false 0 (fun _ => false) (fun _ => false))).2).2.fault = false
      ∧ (push_int (some (bytesOf "a")) 1 (scope_end (scope_end
          (JSONOut.new false true false 0 (fun _ => false) (fun _ => false))).2).2).2.fault = true
      ∧ bitIndexOk (-1) = false := by
  decide

/-! ## The trim of trailing zeros (claim C36) -/

theorem cleanScan_append (s t : Bytes) :
    ∀ (i : Nat) (d e l : Option Nat),
      cleanScan (s ++ t) i d e l
        = cleanScan t (i + s.length) (cleanScan s i d e l).1 (cleanScan s i d e l).2.1
            (cleanScan s i d e l).2.2 := by
  induction s with
  | nil => intro i d e l; rfl
  | cons c s ih =>
    intro i d e l
    simp only [List.cons_append, cleanScan, List.length_cons]
    rw [show i + (s.length + 1) = (i + 1) + s.length by omega]
    exact ih _ _ _ _

/-- Bytes other than `.`, `e` and `E` leave the positions of the dot and of the exponent. -/
theorem cleanScan_plain (s : Bytes) (hs : ∀ c ∈ s, c ≠ 46 ∧ c ≠ 101 ∧ c ≠ 69) :
    ∀ (i : Nat) (d e l : Option Nat),
      (cleanScan s i d e l).1 = d ∧ (cleanScan s i d e l).2.1 = e := by
  induction s with
  | nil => intro i d e l; exact ⟨rfl, rfl⟩
  | cons c s ih =>
    intro i d e l
    obtain ⟨h1, h2, h3⟩ := hs c (List.mem_cons_self c s)
    simp only [cleanScan]
    rw [if_neg h1, if_neg (by simp [h2, h3])]
    exact ih (fun x hx => hs x (List.mem_cons_of_mem c hx)) _ _ _ _

/-- After a byte other than `0` no run of zeros is open. -/
theorem cleanScan_snoc (s : Bytes) (x : Nat) (hx : x ≠ 48) (i : Nat) (d e l : Option Nat) :
    (cleanScan (s ++ [x]) i d e l).2.2 = none := by
  rw [cleanScan_append]
  simp only [cleanScan]
  rw [if_pos hx]

/-- A run of zeros behind the start of a run. -/
theorem cleanScan_zeros_some (k : Nat) :
    ∀ (i j : Nat) (d e : Option Nat),
      cleanScan (List.replicate k 48) i d e (some j) = (d, e, some j) := by
  induction k with
  | zero => intro i j d e; rfl
  | succ k ih =>
    intro i j d e
    simp only [List.replicate_succ, cleanScan]
    rw [if_neg (by decide), if_neg (by decide), if_neg (by simp), if_neg (by simp)]
    exact ih _ _ _ _

/-- A run of zeros: the position of its first zero is kept. -/
theorem cleanScan_zeros (k i : Nat) (d e : Option Nat) :
    cleanScan (List.replicate (k + 1) 48) i d e none = (d, e, some i) := by
  simp only [List.replicate_succ, cleanScan]
  rw [if_neg (by decide), if_neg (by decide), if_neg (by simp), if_pos trivial]
  exact cleanScan_zeros_some k _ _ _ _

theorem stripZeros_split (w : Bytes) :
    ∃ k, w = stripZeros w ++ List.replicate k 48 := by
  refine ⟨(w.reverse.takeWhile (fun b => decide (b = 48))).length, ?_⟩
  have h := List.takeWhile_append_dropWhile (fun b => decide (b = 48)) w.reverse
  have h2 : w.reverse.takeWhile (fun b => decide (b = 48))
      = List.replicate (w.reverse.takeWhile (fun b => decide (b = 48))).length 48 := by
    rw [List.eq_replicate_iff]
    refine ⟨rfl, ?_⟩
    intro b hb
    have := List.mem_takeWhile_imp hb
    simpa using this
  have h4 : (w.reverse.takeWhile (fun b => decide (b = 48))).reverse
      = List.replicate (w.reverse.takeWhile (fun b => decide (b = 48))).length 48 := by
    rw [h2, List.reverse_replicate, List.length_replicate]
  have h3 := congrArg List.reverse h
  rw [List.reverse_append, List.reverse_reverse, h4] at h3
  unfold stripZeros
  exact h3.symm

theorem stripZeros_last (w : Bytes) : ∀ x, (stripZeros w).getLast? = some x → x ≠ 48 := by
  intro x hx
  unfold stripZeros at hx
  rw [List.getLast?_reverse] at hx
  have := List.head?_dropWhile_not (fun b => decide (b = 48)) w.reverse
  rw [hx] at this
  simpa using this

theorem cleanScan_core (pre mid : Bytes) (k : Nat)
    (hpre : ∀ c ∈ pre, c ≠ 46 ∧ c ≠ 101 ∧ c ≠ 69)
    (hmid : ∀ c ∈ mid, c ≠ 46 ∧ c ≠ 101 ∧ c ≠ 69)
    (hlast : ∀ x, mid.getLast? = some x → x ≠ 48) :
    cleanScan (pre ++ 46 :: (mid ++ List.replicate k 48)) 0 none none none
      = (some pre.length, none, if k = 0 then none else some (pre.length + 1 + mid.length)) := by
  obtain ⟨p1, p2⟩ := cleanScan_plain pre hpre 0 none none none
  rw [cleanScan_append, p1, p2]
  simp only [cleanScan]
  rw [if_pos trivial, if_neg (by simp), if_pos (by decide), cleanScan_append]
  obtain ⟨m1, m2⟩ := cleanScan_plain mid hmid (0 + pre.length + 1) (some (0 + pre.length)) none none
  have m3 : (cleanScan mid (0 + pre.length + 1) (some (0 + pre.length)) none none).2.2 = none := by
    rcases List.eq_nil_or_concat mid with h | ⟨w, x, h⟩
    · rw [h]
      rfl
    · rw [List.concat_eq_append] at h
      rw [h]
      exact cleanScan_snoc w x (hlast x (by rw [h]; simp)) _ _ _ _
  rw [m1, m2, m3]
  cases k with
  | zero =>
    simp only [List.replicate_zero, cleanScan, if_true, Nat.zero_add]
  | succ k =>
    rw [cleanScan_zeros, if_neg (by omega)]
    simp only [Nat.zero_add]

theorem cleanfloatstr_core (pre mid : Bytes) (k : Nat)
    (hpre : ∀ c ∈ pre, c ≠ 46 ∧ c ≠ 101 ∧ c ≠ 69)
    (hmid : ∀ c ∈ mid, c ≠ 46 ∧ c ≠ 101 ∧ c ≠ 69)
    (hlast : ∀ x, mid.getLast? = some x → x ≠ 48) :
    cleanfloatstr (pre ++ 46 :: (mid ++ List.replicate k 48))
      = pre ++ 46 :: (if k = 0 then mid else if mid = [] then [48] else mid) := by
  unfold cleanfloatstr
  rw [cleanScan_core pre mid k hpre hmid hlast]
  cases k with
  | zero => simp
  | succ k =>
    simp only [Nat.succ_ne_zero, if_false]
    rw [if_pos (by omega)]
    by_cases hm : mid = []
    · subst hm
      rw [if_pos (by simp), if_pos rfl]
      have e : pre ++ 46 :: ([] ++ List.replicate (k + 1) 48)
          = (pre ++ [46, 48]) ++ List.replicate k 48 := by
        simp [List.replicate_succ]
      rw [e]
      have e2 : pre.length + 1 + ([] : Bytes).length + 1 = (pre ++ [46, 48]).length := by simp
      rw [e2, List.take_left]
    · rw [if_neg (by
        have := List.length_pos.2 hm
        omega), if_neg hm]
      have e : pre ++ 46 :: (mid ++ List.replicate (k + 1) 48)
          = (pre ++ 46 :: mid) ++ List.replicate (k + 1) 48 := by simp
      rw [e]
      have e2 : pre.length + 1 + mid.length = (pre ++ 46 :: mid).length := by simp; omega
      rw [e2, List.take_left]

theorem cleanScan_exp (s : Bytes) :
    ∀ (i : Nat) (d e l : Option Nat), (e ≠ none ∨ 101 ∈ s ∨ 69 ∈ s) →
      (cleanScan s i d e l).2.1 ≠ none := by
  induction s with
  | nil =>
    intro i d e l h
    rcases h with h | h | h
    · exact h
    · simp at h
    · simp at h
  | cons c s ih =>
    intro i d e l h
    simp only [cleanScan]
    apply ih
    by_cases hc : c = 101 ∨ c = 69
    · left
      have h46 : c ≠ 46 := by omega
      rw [if_pos ⟨h46, hc⟩]
      simp
    · rw [if_neg (fun hx => hc hx.2)]
      rcases h with h | h | h
      · exact Or.inl h
      · rcases List.mem_cons.1 h with h | h
        · exact absurd (Or.inl h.symm) hc
        · exact Or.inr (Or.inl h)
      · rcases List.mem_cons.1 h with h | h
        · exact absurd (Or.inr h.symm) hc
        · exact Or.inr (Or.inr h)

theorem cleanScan_nodot (s : Bytes) (hs : 46 ∉ s) :
    ∀ (i : Nat) (d e l : Option Nat), (cleanScan s i d e l).1 = d := by
  induction s with
  | nil => intro i d e l; rfl
  | cons c s ih =>
    intro i d e l
    have hc : c ≠ 46 := fun h => hs (by simp [h])
    simp only [cleanScan]
    rw [if_neg hc]
    exact ih (fun h => hs (List.mem_cons_of_mem _ h)) _ _ _ _

/-- A text with an `e` or an `E`, or without a `.`, is left as it is. -/
theorem cleanfloatstr_unchanged (s : Bytes) (h : 101 ∈ s ∨ 69 ∈ s ∨ 46 ∉ s) :
    cleanfloatstr s = s := by
  unfold cleanfloatstr
  split
  · rename_i dot last0 heq
    rcases h with h | h | h
    · have := cleanScan_exp s 0 none none none (Or.inr (Or.inl h))
      rw [heq] at this
      exact absurd rfl this
    · have := cleanScan_exp s 0 none none none (Or.inr (Or.inr h))
      rw [heq] at this
      exact absurd rfl this
    · have := cleanScan_nodot s h 0 none none none
      rw [heq] at this
      cases this
  · rfl

theorem decimalValue_zeros (a : Bytes) (k : Nat) :
    jbin.decimalValue (a ++ List.replicate k 48) = jbin.decimalValue a * 10 ^ k := by
  induction k with
  | zero => simp
  | succ k ih =>
    rw [List.replicate_succ', ← List.append_assoc]
    unfold jbin.decimalValue at ih ⊢
    rw [List.foldl_append, ih]
    simp only [List.foldl_cons, List.foldl_nil]
    rw [pow_succ]
    ring

theorem digit_plain (c : Nat) (h : jbin.isDigit c) : c ≠ 46 ∧ c ≠ 101 ∧ c ≠ 69 := by
  unfold jbin.isDigit at h
  omega

/-- C36. For a text made of an optional `-`, the digits `ip`, a `.` and one or more digits
`fp`, `cleanfloatstr` leaves the text up to the `.` and behind it the digits of `fp`
without the zeros at their end, or the one digit `0` when `fp` consists of zeros
(`keptFraction fp`): the `.` stays, a digit follows it, the number denoted is the same,
and `cleanfloatstr` applied to the result gives the result.  A text that holds an `e` or an
`E`, or no `.`, is returned as it is. -/
theorem C36_cleanfloatstr_trims_zeros (sign ip fp : Bytes)
    (hsign : sign = [] ∨ sign = [45])
    (hip : ∀ d ∈ ip, jbin.isDigit d) (hfp : ∀ d ∈ fp, jbin.isDigit d) (hne : fp ≠ []) :
    cleanfloatstr (sign ++ ip ++ 46 :: fp) = sign ++ ip ++ 46 :: keptFraction fp
      ∧ (∃ k, fp = stripZeros fp ++ List.replicate k 48)
      ∧ (∀ x, (stripZeros fp).getLast? = some x → x ≠ 48)
      ∧ keptFraction fp ≠ []
      ∧ (∀ d ∈ keptFraction fp, jbin.isDigit d)
      ∧ fixedValue ip (keptFraction fp) = fixedValue ip fp
      ∧ cleanfloatstr (cleanfloatstr (sign ++ ip ++ 46 :: fp))
          = cleanfloatstr (sign ++ ip ++ 46 :: fp)
      ∧ (∀ s : Bytes, (101 ∈ s ∨ 69 ∈ s ∨ 46 ∉ s) → cleanfloatstr s = s) := by
  obtain ⟨k, hk⟩ := stripZeros_split fp
  have hlast := stripZeros_last fp
  have hpre : ∀ c ∈ sign ++ ip, c ≠ 46 ∧ c ≠ 101 ∧ c ≠ 69 := by
    intro c hc
    rcases List.mem_append.1 hc with h | h
    · rcases hsign with hs | hs
      · rw [hs] at h
        cases h
      · rw [hs] at h
        simp only [List.mem_singleton] at h
        omega
    · exact digit_plain c (hip c h)
  have hsub : ∀ c ∈ stripZeros fp, c ∈ fp := by
    intro c hc
    rw [hk]
    exact List.mem_append_left _ hc
  have hmid : ∀ c ∈ stripZeros fp, c ≠ 46 ∧ c ≠ 101 ∧ c ≠ 69 :=
    fun c hc => digit_plain c (hfp c (hsub c hc))
  have hcore := cleanfloatstr_core (sign ++ ip) (stripZeros fp) k hpre hmid hlast
  rw [← hk] at hcore
  have hkept : (if k = 0 then stripZeros fp else if stripZeros fp = [] then [48] else stripZeros fp)
      = keptFraction fp := by
    unfold keptFraction
    by_cases hm : stripZeros fp = []
    · have hk0 : k ≠ 0 := by
        intro h0
        rw [hm, h0] at hk
        exact hne hk
      rw [if_neg hk0, if_pos hm, if_pos hm]
      obtain ⟨j, rfl⟩ : ∃ j, k = j + 1 := ⟨k - 1, by omega⟩
      rw [hk, hm]
      rfl
    · rw [if_neg hm, if_neg hm]
      split <;> rfl
  rw [hkept] at hcore
  have hkne : keptFraction fp ≠ [] := by
    unfold keptFraction
    by_cases hm : stripZeros fp = []
    · rw [if_pos hm]
      obtain ⟨d, ds, rfl⟩ := List.exists_cons_of_ne_nil hne
      simp
    · rw [if_neg hm]
      exact hm
  have hkd : ∀ d ∈ keptFraction fp, jbin.isDigit d := by
    intro d hd
    unfold keptFraction at hd
    by_cases hm : stripZeros fp = []
    · rw [if_pos hm] at hd
      exact hfp d (List.mem_of_mem_take hd)
    · rw [if_neg hm] at hd
      exact hfp d (hsub d hd)
  refine ⟨hcore, ⟨k, hk⟩, hlast, hkne, hkd, ?_, ?_, cleanfloatstr_unchanged⟩
  · unfold fixedValue
    congr 1
    by_cases hm : stripZeros fp = []
    · have e1 : keptFraction fp = [48] := by
        unfold keptFraction
        rw [if_pos hm]
        obtain ⟨j, rfl⟩ : ∃ j, k = j + 1 := ⟨k - 1, by
          have : k ≠ 0 := by
            intro h0
            rw [hm, h0] at hk
            exact hne hk
          omega⟩
        rw [hk, hm]
        rfl
      have e2 : jbin.decimalValue fp = 0 := by
        rw [hk, hm, decimalValue_zeros]
        simp [jbin.decimalValue]
      rw [e1, e2]
      simp [jbin.decimalValue]
    · have e1 : keptFraction fp = stripZeros fp := by
        unfold keptFraction
        rw [if_neg hm]
      have e2 : jbin.decimalValue fp = jbin.decimalValue (stripZeros fp) * 10 ^ k := by
        conv_lhs => rw [hk]
        exact decimalValue_zeros _ _
      have e3 : fp.length = (stripZeros fp).length + k := by
        conv_lhs => rw [hk]
        simp
      rw [e1, e2, e3, pow_add]
      push_cast
      field_simp
      ring
  · rw [hcore]
    by_cases hm : stripZeros fp = []
    · have e1 : keptFraction fp = [] ++ List.replicate 1 48 := by
        unfold keptFraction
        rw [if_pos hm]
        obtain ⟨j, rfl⟩ : ∃ j, k = j + 1 := ⟨k - 1, by
          have : k ≠ 0 := by
            intro h0
            rw [hm, h0] at hk
            exact hne hk
          omega⟩
        rw [hk, hm]
        rfl
      rw [e1, cleanfloatstr_core (sign ++ ip) [] 1 hpre (by simp) (by simp)]
      rfl
    · have e1 : keptFraction fp = stripZeros fp ++ List.replicate 0 48 := by
        unfold keptFraction
        rw [if_neg hm]
        simp
      rw [e1, cleanfloatstr_core (sign ++ ip) (stripZeros fp) 0 hpre hmid hlast]
      simp

/-- C36 at the text `-12.5000`, which becomes `-12.5`. -/
theorem C36_cleanfloatstr_trims_zeros_witness :
    cleanfloatstr ([45] ++ bytesOf "12" ++ 46 :: bytesOf "5000")
        = [45] ++ bytesOf "12" ++ 46 :: keptFraction (bytesOf "5000")
      ∧ (∃ k, bytesOf "5000" = stripZeros (bytesOf "5000") ++ List.replicate k 48)
      ∧ (∀ x, (stripZeros (bytesOf "5000")).getLast? = some x → x ≠ 48)
      ∧ keptFraction (bytesOf "5000") ≠ []
      ∧ (∀ d ∈ keptFraction (bytesOf "5000"), jbin.isDigit d)
      ∧ fixedValue (bytesOf "12") (keptFraction (bytesOf "5000"))
          = fixedValue (bytesOf "12") (bytesOf "5000")
      ∧ cleanfloatstr (cleanfloatstr ([45] ++ bytesOf "12" ++ 46 :: bytesOf "5000"))
          = cleanfloatstr ([45] ++ bytesOf "12" ++ 46 :: bytesOf "5000")
      ∧ (∀ s : Bytes, (101 ∈ s ∨ 69 ∈ s ∨ 46 ∉ s) → cleanfloatstr s = s) :=
  C36_cleanfloatstr_trims_zeros [45] (bytesOf "12") (bytesOf "5000") (Or.inr rfl)
    (by
      intro d hd
      simp [bytesOf] at hd
      unfold jbin.isDigit
      omega)
    (by
      intro d hd
      simp [bytesOf] at hd
      unfold jbin.isDigit
      omega)
    (by decide)

theorem cleanfloatstr_examples :
    cleanfloatstr (bytesOf "-12.5000") = bytesOf "-12.5"
      ∧ keptFraction (bytesOf "5000") = bytesOf "5"
      ∧ cleanfloatstr (bytesOf "3.000") = bytesOf "3.0"
      ∧ cleanfloatstr (bytesOf "1.2500e+10") = bytesOf "1.2500e+10"
      ∧ cleanfloatstr (bytesOf "100") = bytesOf "100" := by
  decide

/-! ## Separators between the members of a container (claim C35) -/

theorem and_true_inv (a b : Op) (o : JSONOut) (h : (Op.and a b o).1 = true) :
    (a o).1 = true ∧ (b (a o).2).1 = true ∧ Op.and a b o = b (a o).2 := by
  unfold Op.and at h ⊢
  by_cases ha : (a o).1 = true
  · rw [if_pos ha] at h ⊢
    exact ⟨ha, h, rfl⟩
  · rw [if_neg ha] at h
    cases h

theorem adds_refl (o : JSONOut) : Adds (fun o1 => (true, o1)) o [] :=
  ⟨by simp, rfl, rfl, rfl, rfl, rfl⟩

theorem adds_and {a b : Op} {o : JSONOut} {w1 w2 : Bytes} (h : (Op.and a b o).1 = true)
    (ha : Adds a o w1) (hb : Adds b (a o).2 w2) : Adds (Op.and a b) o (w1 ++ w2) := by
  obtain ⟨_, _, e⟩ := and_true_inv a b o h
  unfold Adds
  rw [e]
  obtain ⟨a1, a2, a3, a4, a5, a6⟩ := ha
  obtain ⟨b1, b2, b3, b4, b5, b6⟩ := hb
  exact ⟨by rw [b1, a1, List.append_assoc], by rw [b2, a2], by rw [b3, a3], by rw [b4, a4],
    by rw [b5, a5], by rw [b6, a6]⟩

theorem put_adds (c : Nat) (o : JSONOut) (h : (put c o).1 = true) : Adds (put c) o [c] := by
  unfold Adds
  unfold put at h ⊢
  by_cases hb : o.buf.length ≥ JO_FILE_BUFFER_SIZE
  · rw [if_pos hb] at h ⊢
    by_cases hf : o.f = true
    · simp [write_buf, hf, JSONOut.text, JSONOut.indentChunk]
    · simp [write_buf, hf, error] at h
  · rw [if_neg hb]
    simp [JSONOut.text, JSONOut.indentChunk]

theorem putAll_adds (w : Bytes) : ∀ o : JSONOut, (putAll w o).1 = true → Adds (putAll w) o w := by
  induction w with
  | nil => intro o _; exact adds_refl o
  | cons c w ih =>
    intro o h
    unfold putAll at h ⊢
    obtain ⟨h1, h2, _⟩ := and_true_inv _ _ o h
    exact adds_and h (put_adds c o h1) (ih _ h2)

theorem add_string_loop_adds (s : Bytes) :
    ∀ o : JSONOut, (add_string_loop s o).1 = true →
      Adds (add_string_loop s) o (s.flatMap escapeByte) := by
  induction s with
  | nil => intro o _; exact adds_refl o
  | cons c s ih =>
    intro o h
    unfold add_string_loop at h ⊢
    obtain ⟨h1, h2, _⟩ := and_true_inv _ _ o h
    exact adds_and h (putAll_adds _ o h1) (ih _ h2)

theorem add_string_adds (s : Bytes) (len : Nat) (o : JSONOut) (h : (add_string s len o).1 = true) :
    Adds (add_string s len) o ((s.take len).flatMap escapeByte) := by
  have h1 := add_string_loop_adds (s.take len) { o with column := o.column + (len : Int) } h
  exact h1

theorem add_char_adds (c : Nat) (o : JSONOut) (h : (add_char c o).1 = true) :
    Adds (add_char c) o [c] := put_adds c o h

theorem new_line_adds (o : JSONOut) (h : (new_line o).1 = true) : Adds new_line o [10] := by
  obtain ⟨a1, a2, a3, a4, a5, a6⟩ := add_char_adds 10 o h
  exact ⟨a1, a2, a3, a4, a5, a6⟩

theorem add_indent_loop_adds (n : Nat) :
    ∀ o : JSONOut, (add_indent_loop n o).1 = true →
      Adds (add_indent_loop n) o (List.replicate n o.indentChunk).flatten := by
  induction n with
  | zero => intro o _; exact adds_refl o
  | succ n ih =>
    intro o h
    by_cases hb : (o.buf.length : Int) ≥ (JO_FILE_BUFFER_SIZE : Int) - (o.indent_len : Int)
    · by_cases hf : o.f = true
      · have e : add_indent_loop (n + 1) o
            = add_indent_loop n { o with file := o.file ++ o.buf, buf := o.indentChunk } := by
          rw [add_indent_loop]
          simp only [hb, if_true, write_buf, hf, JSONOut.indentChunk, List.nil_append]
        rw [e] at h
        obtain ⟨a1, a2, a3, a4, a5, a6⟩ := ih _ h
        unfold Adds
        rw [e]
        refine ⟨?_, a2, a3, ?_, a5, a6⟩
        · rw [a1]
          simp [JSONOut.text, JSONOut.indentChunk, List.replicate_succ]
        · rw [a4]
          rfl
      · have e : (add_indent_loop (n + 1) o).1 = false := by
          rw [add_indent_loop]
          simp only [hb, if_true, write_buf, hf, error]
          simp
        rw [e] at h
        cases h
    · have e : add_indent_loop (n + 1) o
          = add_indent_loop n { o with buf := o.buf ++ o.indentChunk } := by
        rw [add_indent_loop]
        simp only [hb, if_false, JSONOut.indentChunk]
      rw [e] at h
      obtain ⟨a1, a2, a3, a4, a5, a6⟩ := ih _ h
      unfold Adds
      rw [e]
      refine ⟨?_, a2, a3, ?_, a5, a6⟩
      · rw [a1]
        simp [JSONOut.text, JSONOut.indentChunk, List.replicate_succ]
      · rw [a4]
        rfl

theorem add_indent_adds (o : JSONOut) (h : (add_indent o).1 = true) :
    Adds add_indent o (List.replicate o.hier_depth.toNat o.indentChunk).flatten := by
  have hr : (add_indent_loop o.hier_depth.toNat o).1 = true := by
    by_contra hr
    unfold add_indent at h
    simp only [hr, if_false] at h
    exact hr h
  obtain ⟨a1, a2, a3, a4, a5, a6⟩ := add_indent_loop_adds _ o hr
  have e : add_indent o = (true, { (add_indent_loop o.hier_depth.toNat o).2 with
      column := (add_indent_loop o.hier_depth.toNat o).2.column
        + o.hier_depth * (o.indent_len : Int) }) := by
    unfold add_indent
    simp only [hr, if_true]
  unfold Adds
  rw [e]
  exact ⟨a1, a2, a3, a4, a5, a6⟩

theorem new_line_indent_adds (o : JSONOut) (h : (Op.and new_line add_indent o).1 = true) :
    Adds (Op.and new_line add_indent) o (lineBreak o.indentChunk o.hier_depth) := by
  obtain ⟨h1, h2, _⟩ := and_true_inv _ _ o h
  have a1 := new_line_adds o h1
  have a2 := add_indent_adds _ h2
  rw [a1.2.1, a1.2.2.2.1] at a2
  exact adds_and h a1 a2

theorem separator_adds (o : JSONOut) (hd : bitIndexOk o.hier_depth = true)
    (h : (separator o).1 = true) :
    Adds separator o (if o.hasValueAt = true then [44] else []) := by
  have e : separator o = if o.hasValueAt = true then add_char 44 o else (true, o) := by
    unfold separator
    rw [touch_ok o _ hd]
  rw [e] at h
  unfold Adds
  rw [e]
  by_cases hv : o.hasValueAt = true
  · rw [if_pos hv] at h
    rw [if_pos hv, if_pos hv]
    exact add_char_adds 44 o h
  · rw [if_neg hv, if_neg hv]
    exact adds_refl o

/-- The start of a line for a member: the separator, a newline and the indentation. -/
theorem next_line_indent_adds (o : JSONOut) (hd : bitIndexOk o.hier_depth = true)
    (h : (next_line_indent o).1 = true) :
    Adds next_line_indent o ((if o.hasValueAt = true then [44] else [])
      ++ lineBreak o.indentChunk o.hier_depth) := by
  unfold next_line_indent at h ⊢
  obtain ⟨h1, h2, _⟩ := and_true_inv _ _ o h
  have a1 := separator_adds o hd h1
  have a2 := new_line_indent_adds _ h2
  rw [a1.2.1, a1.2.2.2.1] at a2
  exact adds_and h a1 a2

/-- The start of an element of an array: the separator, then a blank or a new line. -/
theorem next_element_adds (o : JSONOut) (hd : bitIndexOk o.hier_depth = true)
    (h : (next_element o).1 = true) :
    ∃ gap, (gap = lineBreak o.indentChunk o.hier_depth ∨ gap = [32])
      ∧ Adds next_element o ((if o.hasValueAt = true then [44] else []) ++ gap) := by
  unfold next_element at h ⊢
  obtain ⟨h1, h2, _⟩ := and_true_inv _ _ o h
  have a1 := separator_adds o hd h1
  by_cases hc : (separator o).2.column < MAX_JSONOUT_ARRAY_LINE
  · have e : (fun o => if o.column < MAX_JSONOUT_ARRAY_LINE then add_char 32 o
        else Op.and new_line add_indent o) (separator o).2 = add_char 32 (separator o).2 := by
      simp only [hc, if_true]
    have a2 : Adds (fun o => if o.column < MAX_JSONOUT_ARRAY_LINE then add_char 32 o
        else Op.and new_line add_indent o) (separator o).2 [32] := by
      unfold Adds
      rw [e]
      exact add_char_adds 32 _ (by rw [← e]; exact h2)
    exact ⟨[32], Or.inr rfl, adds_and h a1 a2⟩
  · have e : (fun o => if o.column < MAX_JSONOUT_ARRAY_LINE then add_char 32 o
        else Op.and new_line add_indent o) (separator o).2
        = Op.and new_line add_indent (separator o).2 := by
      simp only [hc, if_false]
    have a2 : Adds (fun o => if o.column < MAX_JSONOUT_ARRAY_LINE then add_char 32 o
        else Op.and new_line add_indent o) (separator o).2
        (lineBreak o.indentChunk o.hier_depth) := by
      unfold Adds
      rw [e]
      have a3 := new_line_indent_adds _ (by rw [← e]; exact h2)
      rw [a1.2.1, a1.2.2.2.1] at a3
      exact a3
    exact ⟨lineBreak o.indentChunk o.hier_depth, Or.inl rfl, adds_and h a1 a2⟩

theorem add_quote_str_len_adds (s : Bytes) (len : Nat) (o : JSONOut)
    (h : (add_quote_str_len s len o).1 = true) :
    Adds (add_quote_str_len s len) o (quoted (s.take len)) := by
  unfold add_quote_str_len at h ⊢
  obtain ⟨h1, h2, _⟩ := and_true_inv _ _ o h
  obtain ⟨h3, h4, _⟩ := and_true_inv _ _ _ h2
  have a := adds_and h (add_char_adds 34 o h1)
    (adds_and h2 (add_string_adds s len _ h3) (add_char_adds 34 _ h4))
  exact a

theorem add_quote_str_adds (s : Option Bytes) (o : JSONOut) (h : (add_quote_str s o).1 = true) :
    Adds (add_quote_str s) o (quoted (s.getD [])) := by
  cases s with
  | none => exact add_quote_str_len_adds [] 0 o h
  | some s =>
    have a := add_quote_str_len_adds s s.length o h
    rw [List.take_length] at a
    exact a

theorem bitIndexOk_iff (i : Int) : bitIndexOk i = true ↔ 0 ≤ i ∧ i < 256 := by
  simp [bitIndexOk, MAX_JSONOUT_DEPTH]

theorem valueDone_true (t : AddType) (r : Bool × JSONOut) (h : (valueDone t r).1 = true) :
    r.1 = true
      ∧ valueDone t r = (true, { r.2.setHasValue r.2.hier_depth true with prev_type := t }) := by
  unfold valueDone at h ⊢
  by_cases hr : r.1 = true
  · rw [if_pos hr]
    exact ⟨hr, rfl⟩
  · rw [if_neg hr] at h
    exact absurd h hr

theorem setHasValue_ok (o : JSONOut) (i : Int) (v : Bool) (h : bitIndexOk i = true) :
    o.setHasValue i v = { o with hasValue := setBit o.hasValue i v } := by
  unfold JSONOut.setHasValue
  rw [touch_ok o i h, if_pos h]

/-- The end of a push: from a call that has appended the separator and `body`, the state
with the bit of the container set. -/
theorem valueDone_member (t : AddType) (op : Op) (o : JSONOut) (body : Bytes)
    (hd : bitIndexOk o.hier_depth = true)
    (h : (valueDone t (op o)).1 = true)
    (ha : Adds op o ((if o.hasValueAt = true then [44] else []) ++ body)) :
    AddsMember (fun o1 => valueDone t (op o1)) o body := by
  obtain ⟨_, e⟩ := valueDone_true t (op o) h
  obtain ⟨a1, a2, a3, a4, a5, _⟩ := ha
  unfold AddsMember
  simp only [e]
  have hd2 : bitIndexOk (op o).2.hier_depth = true := by rw [a2]; exact hd
  rw [setHasValue_ok _ _ _ hd2]
  refine ⟨?_, a2, ?_, ?_, ?_, ?_⟩
  · show (op o).2.text = _
    rw [a1, List.append_assoc]
  · show setBit (op o).2.hasValue (op o).2.hier_depth true (op o).2.hier_depth = true
    simp [setBit]
  · intro j hj
    have hne : j ≠ (op o).2.hier_depth := by rw [a2]; omega
    show setBit (op o).2.hasValue (op o).2.hier_depth true j = o.hasValue j
    simp [setBit, hne, a3]
  · exact a4
  · intro j _
    show (op o).2.isArray j = o.isArray j
    rw [a5]

/-- A push of a value adds one member: the white space, in an object the name and the
colon, and the text `w` of the value. -/
theorem pushValue_member (name : Option Bytes) (value : Op) (tA tO : AddType) (w : Bytes)
    (hv : ∀ o1 : JSONOut, (value o1).1 = true → Adds value o1 w) (o : JSONOut)
    (hd : bitIndexOk o.hier_depth = true) (h : (pushValue name value tA tO o).1 = true) :
    ∃ gap, ValueGap o.indentChunk o.hier_depth o.inArray gap
      ∧ AddsMember (pushValue name value tA tO) o (gap ++ (nameText o.inArray name ++ w)) := by
  by_cases he : o.error_cause ≠ JSONOutError.ERR_NONE
  · unfold pushValue at h
    rw [if_pos he] at h
    cases h
  by_cases ha : o.inArray = true
  · have e2 : pushValue name value tA tO o = valueDone tA (Op.and next_element value o) := by
      unfold pushValue
      rw [if_neg he, if_pos ha, touch_ok o _ hd]
    rw [e2] at h
    obtain ⟨h0, _⟩ := valueDone_true _ _ h
    obtain ⟨h1, h2, _⟩ := and_true_inv _ _ o h0
    obtain ⟨gap, hg, a1⟩ := next_element_adds o hd h1
    have a2 := hv _ h2
    have a3 := adds_and h0 a1 a2
    rw [List.append_assoc] at a3
    have hm := valueDone_member tA (Op.and next_element value) o (gap ++ w) hd h a3
    refine ⟨gap, ?_, ?_⟩
    · rcases hg with hg | hg
      · exact Or.inl hg
      · exact Or.inr ⟨ha, hg⟩
    · unfold AddsMember at hm ⊢
      rw [e2]
      have en : nameText o.inArray name = [] := by
        unfold nameText
        rw [if_pos ha]
      rw [en, List.nil_append]
      exact hm
  · have e2 : pushValue name value tA tO o
        = valueDone tO (Op.and next_line_indent (Op.and (add_quote_str name)
            (Op.and (add_string [32, 58, 32] 3) value)) o) := by
      unfold pushValue
      rw [if_neg he, if_neg ha, touch_ok o _ hd]
    rw [e2] at h
    obtain ⟨h0, _⟩ := valueDone_true _ _ h
    obtain ⟨h1, h2, _⟩ := and_true_inv _ _ o h0
    obtain ⟨h3, h4, _⟩ := and_true_inv _ _ _ h2
    obtain ⟨h5, h6, _⟩ := and_true_inv _ _ _ h4
    have a1 := next_line_indent_adds o hd h1
    have a2 := add_quote_str_adds name _ h3
    have a3 := add_string_adds [32, 58, 32] 3 _ h5
    have a4 := hv _ h6
    have a5 := adds_and h0 a1 (adds_and h2 a2 (adds_and h4 a3 a4))
    rw [List.append_assoc] at a5
    have hm := valueDone_member tO (Op.and next_line_indent (Op.and (add_quote_str name)
      (Op.and (add_string [32, 58, 32] 3) value))) o _ hd h a5
    refine ⟨lineBreak o.indentChunk o.hier_depth, Or.inl rfl, ?_⟩
    unfold AddsMember at hm ⊢
    rw [e2]
    have en : nameText o.inArray name ++ w
        = quoted (name.getD []) ++ ((List.take 3 [32, 58, 32]).flatMap escapeByte ++ w) := by
      unfold nameText
      rw [if_neg ha, List.append_assoc]
      rfl
    rw [en]
    exact hm

/-- An element of an array adds one member: the white space and the text `w` of the
value; the call succeeds in an array only. -/
theorem elementValue_member (value : Op) (t : AddType) (w : Bytes)
    (hv : ∀ o1 : JSONOut, (value o1).1 = true → Adds value o1 w) (o : JSONOut)
    (hd : bitIndexOk o.hier_depth = true) (h : (elementValue value t o).1 = true) :
    o.inArray = true ∧ ∃ gap, ValueGap o.indentChunk o.hier_depth o.inArray gap
      ∧ AddsMember (elementValue value t) o (gap ++ w) := by
  by_cases he : o.error_cause ≠ JSONOutError.ERR_NONE
  · unfold elementValue at h
    rw [if_pos he] at h
    cases h
  by_cases ha : o.inArray = false
  · unfold elementValue at h
    rw [if_neg he, if_pos ha] at h
    cases h
  · have ha1 : o.inArray = true := by simpa using ha
    have e2 : elementValue value t o = valueDone t (Op.and next_element value o) := by
      unfold elementValue
      rw [if_neg he, if_neg ha, touch_ok o _ hd]
    rw [e2] at h
    obtain ⟨h0, _⟩ := valueDone_true _ _ h
    obtain ⟨h1, h2, _⟩ := and_true_inv _ _ o h0
    obtain ⟨gap, hg, a1⟩ := next_element_adds o hd h1
    have a2 := hv _ h2
    have a3 := adds_and h0 a1 a2
    rw [List.append_assoc] at a3
    have hm := valueDone_member t (Op.and next_element value) o (gap ++ w) hd h a3
    refine ⟨ha1, gap, ?_, ?_⟩
    · rcases hg with hg | hg
      · exact Or.inl hg
      · exact Or.inr ⟨ha1, hg⟩
    · unfold AddsMember at hm ⊢
      rw [e2]
      exact hm

theorem escape_plain (w : Bytes) (h : ∀ c ∈ w, 32 ≤ c ∧ c ≠ 34 ∧ c ≠ 92) :
    w.flatMap escapeByte = w := by
  induction w with
  | nil => rfl
  | cons c w ih =>
    have hc := h c (List.mem_cons_self _ _)
    have e : escapeByte c = [c] := by
      unfold escapeByte
      rw [if_neg (by omega), if_neg (by omega), if_neg (by omega), if_neg (by omega),
        if_neg (by omega)]
      rw [if_neg (by omega), if_neg (by omega), if_neg (by omega)]
    rw [List.flatMap_cons, e, ih (fun x hx => h x (List.mem_cons_of_mem _ hx))]
    rfl

/-- The text of an integer has no escapes. -/
theorem escape_decimalText (v : Int) :
    ((decimalText v).take (decimalText v).length).flatMap escapeByte = decimalText v := by
  rw [List.take_length]
  apply escape_plain
  intro c hc
  unfold decimalText at hc
  rw [List.mem_append] at hc
  rcases hc with hc | hc
  · by_cases hv : v < 0
    · rw [if_pos hv] at hc
      simp only [List.mem_singleton] at hc
      omega
    · rw [if_neg hv] at hc
      cases hc
  · have hdig := (jbin.toDigits_value v.natAbs).2.1 c hc
    unfold jbin.isDigit at hdig
    omega

theorem add_int_adds (v : Int) :
    ∀ o1 : JSONOut, (add_string (decimalText v) (decimalText v).length o1).1 = true →
      Adds (add_string (decimalText v) (decimalText v).length) o1 (decimalText v) := by
  intro o1 h
  have a := add_string_adds _ _ o1 h
  rw [escape_decimalText] at a
  exact a

theorem add_float_adds (valstr : Bytes) :
    ∀ o1 : JSONOut, (add_string valstr valstr.length o1).1 = true →
      Adds (add_string valstr valstr.length) o1 (valstr.flatMap escapeByte) := by
  intro o1 h
  have a := add_string_adds _ _ o1 h
  rw [List.take_length] at a
  exact a

theorem add_bool_adds (value : Bool) :
    ∀ o1 : JSONOut,
      ((if value = true then add_string (bytesOf "true") 4
        else add_string (bytesOf "false") 5) o1).1 = true →
      Adds (if value = true then add_string (bytesOf "true") 4
        else add_string (bytesOf "false") 5) o1
        (if value = true then bytesOf "true" else bytesOf "false") := by
  intro o1 h
  cases value with
  | true => exact add_string_adds (bytesOf "true") 4 o1 h
  | false => exact add_string_adds (bytesOf "false") 5 o1 h

theorem add_null_adds :
    ∀ o1 : JSONOut, (add_string (bytesOf "null") 4 o1).1 = true →
      Adds (add_string (bytesOf "null") 4) o1 (bytesOf "null") :=
  fun o1 h => add_string_adds (bytesOf "null") 4 o1 h

theorem add_quote_adds (s : Bytes) (len : Nat) :
    ∀ o1 : JSONOut, (add_quote_str_len s len o1).1 = true →
      Adds (add_quote_str_len s len) o1 (quoted (s.take len)) :=
  fun o1 h => add_quote_str_len_adds s len o1 h

/-- A push that starts a line and then writes its text `w`. -/
theorem line_member (rest : Op) (t : AddType) (w : Bytes)
    (hr : ∀ o1 : JSONOut, (rest o1).1 = true → Adds rest o1 w) (o : JSONOut)
    (hd : bitIndexOk o.hier_depth = true)
    (h : (valueDone t (Op.and next_line_indent rest o)).1 = true) :
    AddsMember (fun o1 => valueDone t (Op.and next_line_indent rest o1)) o
      (lineBreak o.indentChunk o.hier_depth ++ w) := by
  obtain ⟨h0, _⟩ := valueDone_true _ _ h
  obtain ⟨h1, h2, _⟩ := and_true_inv _ _ o h0
  have a1 := next_line_indent_adds o hd h1
  have a2 := hr _ h2
  have a3 := adds_and h0 a1 a2
  rw [List.append_assoc] at a3
  exact valueDone_member t (Op.and next_line_indent rest) o _ hd h a3

theorem adds_and_all (a b : Op) (w1 w2 : Bytes)
    (ha : ∀ o1 : JSONOut, (a o1).1 = true → Adds a o1 w1)
    (hb : ∀ o1 : JSONOut, (b o1).1 = true → Adds b o1 w2) :
    ∀ o1 : JSONOut, (Op.and a b o1).1 = true → Adds (Op.and a b) o1 (w1 ++ w2) := by
  intro o1 h
  obtain ⟨h1, h2, _⟩ := and_true_inv a b o1 h
  exact adds_and h (ha o1 h1) (hb _ h2)

theorem adds_skip : ∀ o1 : JSONOut, ((fun o2 : JSONOut => (true, o2)) o1).1 = true →
    Adds (fun o2 => (true, o2)) o1 [] :=
  fun o1 _ => adds_refl o1

theorem push_null_named_member (name : Option Bytes) (o : JSONOut)
    (hd : bitIndexOk o.hier_depth = true) (h : (push_null_named name o).1 = true) :
    ∃ gap, ValueGap o.indentChunk o.hier_depth o.inArray gap
      ∧ AddsMember (push_null_named name) o
          (gap ++ ((if name.isSome = true then nameText o.inArray name else [])
            ++ bytesOf "null")) := by
  by_cases he : o.error_cause ≠ JSONOutError.ERR_NONE
  · unfold push_null_named at h
    rw [if_pos he] at h
    cases h
  by_cases ha : o.inArray = true
  · have e2 : push_null_named name o = elementValue (add_string (bytesOf "null") 4)
        AddType.JO_NULL o := by
      unfold push_null_named elementValue
      rw [if_neg he, if_pos ha, if_neg he, if_neg (by simp [ha])]
    rw [e2] at h
    obtain ⟨_, gap, hg, hm⟩ := elementValue_member _ _ _ add_null_adds o hd h
    refine ⟨gap, hg, ?_⟩
    have en : (if name.isSome = true then nameText o.inArray name else []) = [] := by
      unfold nameText
      rw [if_pos ha]
      simp
    rw [en, List.nil_append]
    unfold AddsMember at hm ⊢
    rw [e2]
    exact hm
  · refine ⟨lineBreak o.indentChunk o.hier_depth, Or.inl rfl, ?_⟩
    cases name with
    | none =>
      have e2 : push_null_named none o
          = valueDone AddType.JO_NULL (Op.and next_line_indent (Op.and
              (fun o1 => (true, o1)) (add_string (bytesOf "null") 4)) o) := by
        unfold push_null_named
        rw [if_neg he, if_neg ha, touch_ok o _ hd]
      rw [e2] at h
      have hm := line_member _ AddType.JO_NULL _
        (adds_and_all _ _ _ _ adds_skip add_null_adds) o hd h
      unfold AddsMember at hm ⊢
      rw [e2]
      exact hm
    | some n =>
      have e2 : push_null_named (some n) o
          = valueDone AddType.JO_NULL (Op.and next_line_indent (Op.and
              (Op.and (add_quote_str (some n)) (add_string [32, 58, 32] 3))
              (add_string (bytesOf "null") 4)) o) := by
        unfold push_null_named
        rw [if_neg he, if_neg ha, touch_ok o _ hd]
      rw [e2] at h
      have hm := line_member _ AddType.JO_NULL _
        (adds_and_all _ _ _ _ (adds_and_all _ _ _ _
          (fun o1 h1 => add_quote_str_adds (some n) o1 h1)
          (fun o1 h1 => add_string_adds [32, 58, 32] 3 o1 h1)) add_null_adds) o hd h
      unfold AddsMember at hm ⊢
      rw [e2]
      have en : (if (some n).isSome = true then nameText o.inArray (some n) else [])
          = quoted ((some n).getD []) ++ (List.take 3 [32, 58, 32]).flatMap escapeByte := by
        unfold nameText
        rw [if_neg ha]
        rfl
      rw [en]
      exact hm

theorem push_null_member (o : JSONOut)
    (hd : bitIndexOk o.hier_depth = true) (h : (push_null o).1 = true) :
    ∃ gap, ValueGap o.indentChunk o.hier_depth o.inArray gap
      ∧ AddsMember push_null o (gap ++ bytesOf "null") := by
  by_cases he : o.error_cause ≠ JSONOutError.ERR_NONE
  · unfold push_null at h
    rw [if_pos he] at h
    cases h
  by_cases ha : o.inArray = true
  · have e2 : push_null o = elementValue (add_string (bytesOf "null") 4)
        AddType.JO_NULL o := by
      unfold push_null elementValue
      rw [if_neg he, if_pos ha, if_neg he, if_neg (by simp [ha])]
    rw [e2] at h
    obtain ⟨_, gap, hg, hm⟩ := elementValue_member _ _ _ add_null_adds o hd h
    refine ⟨gap, hg, ?_⟩
    unfold AddsMember at hm ⊢
    rw [e2]
    exact hm
  · have e2 : push_null o
        = valueDone AddType.JO_NULL (Op.and next_line_indent (add_string (bytesOf "null") 4) o) := by
      unfold push_null
      rw [if_neg he, if_neg ha, touch_ok o _ hd]
    rw [e2] at h
    have hm := line_member _ AddType.JO_NULL _ add_null_adds o hd h
    refine ⟨lineBreak o.indentChunk o.hier_depth, Or.inl rfl, ?_⟩
    unfold AddsMember at hm ⊢
    rw [e2]
    exact hm

theorem setIsArray_ok (o : JSONOut) (i : Int) (v : Bool) (h : bitIndexOk i = true) :
    o.setIsArray i v = { o with isArray := setBit o.isArray i v } := by
  unfold JSONOut.setIsArray
  rw [touch_ok o i h, if_pos h]

theorem openScope_opened (array : Bool) (opening : Bytes) (o : JSONOut)
    (hd : bitIndexOk o.hier_depth = true) (h : (openScope array opening o).1 = true) :
    Opened o (openScope array opening o).2 array
      (if opening.length = 1 then [opening.getD 0 0]
        else (opening.take opening.length).flatMap escapeByte) := by
  have hlt : o.hier_depth + 1 < MAX_JSONOUT_DEPTH := by
    by_contra hc
    unfold openScope at h
    rw [setHasValue_ok _ _ _ hd] at h
    simp only [] at h
    rw [if_pos (by
      show o.hier_depth + 1 ≥ (MAX_JSONOUT_DEPTH : Int)
      omega)] at h
    cases h
  have hd1 : bitIndexOk (o.hier_depth + 1) = true := by
    rw [bitIndexOk_iff] at hd ⊢
    simp only [MAX_JSONOUT_DEPTH] at hlt
    omega
  have e : openScope array opening o
      = (if opening.length = 1 then add_char (opening.getD 0 0) else
          add_string opening opening.length)
        { o with
          hier_depth := o.hier_depth + 1
          hasValue := setBit (setBit o.hasValue o.hier_depth true) (o.hier_depth + 1) false
          isArray := setBit o.isArray (o.hier_depth + 1) array
          prev_type := if array = true then AddType.JO_ARRAY else AddType.JO_OBJECT } := by
    unfold openScope
    rw [setHasValue_ok _ _ _ hd]
    simp only []
    rw [if_neg (by
      show ¬ o.hier_depth + 1 ≥ (MAX_JSONOUT_DEPTH : Int)
      omega)]
    rw [setIsArray_ok _ _ _ hd1, setHasValue_ok _ _ _ hd1]
    split <;> rfl
  rw [e] at h ⊢
  have hadds : Adds (if opening.length = 1 then add_char (opening.getD 0 0) else
      add_string opening opening.length)
      { o with
        hier_depth := o.hier_depth + 1
        hasValue := setBit (setBit o.hasValue o.hier_depth true) (o.hier_depth + 1) false
        isArray := setBit o.isArray (o.hier_depth + 1) array
        prev_type := if array = true then AddType.JO_ARRAY else AddType.JO_OBJECT }
      (if opening.length = 1 then [opening.getD 0 0]
        else (opening.take opening.length).flatMap escapeByte) := by
    by_cases h1 : opening.length = 1
    · rw [if_pos h1] at h ⊢
      rw [if_pos h1]
      exact add_char_adds _ _ h
    · rw [if_neg h1] at h ⊢
      rw [if_neg h1]
      exact add_string_adds _ _ _ h
  obtain ⟨a1, a2, a3, a4, a5, a6⟩ := hadds
  refine ⟨a1, a2, ?_, ?_, ?_, ?_, a4, ?_, ?_, a6⟩
  · rw [a2]
    exact hd1
  · unfold JSONOut.hasValueAt
    rw [a2, a3]
    simp [setBit]
  · rw [a3]
    simp [setBit]
  · intro j hj
    rw [a3]
    have h1 : j ≠ o.hier_depth + 1 := by omega
    have h2 : j ≠ o.hier_depth := by omega
    simp [setBit, h1, h2]
  · unfold JSONOut.inArray
    rw [a2, a5]
    simp [setBit]
  · intro j hj
    rw [a5]
    have h1 : j ≠ o.hier_depth + 1 := by omega
    simp [setBit, h1]

/-- The opening of a nested container after the start of a line and the text `w1`. -/
theorem line_opened (mid : Op) (array : Bool) (opening w1 : Bytes)
    (hm : ∀ o1 : JSONOut, (mid o1).1 = true → Adds mid o1 w1) (o : JSONOut)
    (hd : bitIndexOk o.hier_depth = true)
    (h : (Op.and (Op.and next_line_indent mid) (openScope array opening) o).1 = true) :
    Opened o (Op.and (Op.and next_line_indent mid) (openScope array opening) o).2 array
      ((if o.hasValueAt = true then [44] else [])
        ++ (lineBreak o.indentChunk o.hier_depth ++ (w1
          ++ (if opening.length = 1 then [opening.getD 0 0]
            else (opening.take opening.length).flatMap escapeByte)))) := by
  obtain ⟨h1, h2, e⟩ := and_true_inv _ _ o h
  obtain ⟨h3, h4, _⟩ := and_true_inv _ _ o h1
  have a1 := next_line_indent_adds o hd h3
  have a2 := hm _ h4
  have a3 := adds_and h1 a1 a2
  obtain ⟨b1, b2, b3, b4, b5, _⟩ := a3
  have hd2 : bitIndexOk (Op.and next_line_indent mid o).2.hier_depth = true := by
    rw [b2]
    exact hd
  obtain ⟨c1, c2, c3, c4, c5, c6, c7, c8, c9, c10⟩ := openScope_opened array opening _ hd2 h2
  rw [e]
  refine ⟨?_, ?_, c3, c4, ?_, ?_, ?_, c8, ?_, c10⟩
  · rw [c1, b1]
    simp only [List.append_assoc]
  · rw [c2, b2]
  · rw [← b2]
    exact c5
  · intro j hj
    rw [c6 j (by rw [b2]; exact hj), b3]
  · rw [c7, b4]
  · intro j hj
    rw [c9 j (by rw [b2]; exact hj), b5]

/-- Each call that opens a nested container writes the separator, a new line and the
indentation, in an object the name and the colon, and the opening bracket, and leaves the
new container without a member. -/
theorem opens_opened (op : Op) (hop : Opens op) (o : JSONOut)
    (hd : bitIndexOk o.hier_depth = true) (h : (op o).1 = true) :
    ∃ array head, OpensText o.inArray op array head
      ∧ Opened o (op o).2 array ((if o.hasValueAt = true then [44] else [])
          ++ (lineBreak o.indentChunk o.hier_depth ++ head)) := by
  have hskip : ∀ (array : Bool) (opening : Bytes),
      (Op.and next_line_indent (openScope array opening) o).1 = true →
      Op.and next_line_indent (openScope array opening) o
        = Op.and (Op.and next_line_indent (fun o1 => (true, o1))) (openScope array opening) o := by
    intro array opening _
    unfold Op.and
    by_cases hn : (next_line_indent o).1 = true
    · simp only [hn, if_true]
    · simp only [hn, if_false, Bool.false_eq_true]
  have harr : ∀ (array : Bool) (c : Nat),
      (Op.and next_line_indent (openScope array [c]) o).1 = true →
      Opened o (Op.and next_line_indent (openScope array [c]) o).2 array
        ((if o.hasValueAt = true then [44] else [])
          ++ (lineBreak o.indentChunk o.hier_depth ++ [c])) := by
    intro array c h1
    have h2 := h1
    rw [hskip array [c] h1] at h2 ⊢
    exact line_opened _ array [c] [] adds_skip o hd h2
  have hobj : ∀ (array : Bool) (name : Option Bytes) (c : Nat), 32 ≤ c → c ≠ 34 → c ≠ 92 →
      o.inArray ≠ true →
      (Op.and (Op.and next_line_indent (add_quote_str name))
        (openScope array [32, 58, 32, c]) o).1 = true →
      Opened o (Op.and (Op.and next_line_indent (add_quote_str name))
        (openScope array [32, 58, 32, c]) o).2 array
        ((if o.hasValueAt = true then [44] else [])
          ++ (lineBreak o.indentChunk o.hier_depth ++ (nameText o.inArray name ++ [c]))) := by
    intro array name c c1 c2 c3 ha h1
    have hl := line_opened _ array [32, 58, 32, c] _
      (fun o1 h1 => add_quote_str_adds name o1 h1) o hd h1
    have et : quoted (name.getD []) ++ (if ([32, 58, 32, c] : Bytes).length = 1
          then [([32, 58, 32, c] : Bytes).getD 0 0]
          else (([32, 58, 32, c] : Bytes).take ([32, 58, 32, c] : Bytes).length).flatMap
            escapeByte)
        = nameText o.inArray name ++ [c] := by
      unfold nameText
      rw [if_neg ha, if_neg (by simp), List.take_length,
        escape_plain [32, 58, 32, c] (by
          intro x hx
          simp only [List.mem_cons, List.mem_singleton, List.not_mem_nil, or_false] at hx
          rcases hx with rfl | rfl | rfl | rfl
          · decide
          · decide
          · decide
          · exact ⟨c1, c2, c3⟩)]
      simp
    rw [et] at hl
    exact hl
  by_cases he : o.error_cause ≠ JSONOutError.ERR_NONE
  · cases hop <;> simp [push_object, push_array, element_object, element_array, he] at h
  cases hop with
  | push_object name =>
    by_cases ha : o.inArray = true
    · have e : push_object name o = Op.and next_line_indent (openScope false [123]) o := by
        unfold push_object
        rw [if_neg he, if_pos ha, touch_ok o _ hd]
      rw [e] at h ⊢
      refine ⟨false, nameText o.inArray name ++ [123], OpensText.push_object _ _, ?_⟩
      have en : nameText o.inArray name = [] := by
        unfold nameText
        rw [if_pos ha]
      rw [en, List.nil_append]
      exact harr _ _ h
    · have e : push_object name o
          = Op.and (Op.and next_line_indent (add_quote_str name))
              (openScope false [32, 58, 32, 123]) o := by
        unfold push_object
        rw [if_neg he, if_neg ha, touch_ok o _ hd]
        rfl
      rw [e] at h ⊢
      exact ⟨false, nameText o.inArray name ++ [123], OpensText.push_object _ _,
        hobj false name 123 (by decide) (by decide) (by decide) ha h⟩
  | push_array name =>
    by_cases ha : o.inArray = true
    · have e : push_array name o = Op.and next_line_indent (openScope true [91]) o := by
        unfold push_array
        rw [if_neg he, if_pos ha, touch_ok o _ hd]
      rw [e] at h ⊢
      refine ⟨true, nameText o.inArray name ++ [91], OpensText.push_array _ _, ?_⟩
      have en : nameText o.inArray name = [] := by
        unfold nameText
        rw [if_pos ha]
      rw [en, List.nil_append]
      exact harr _ _ h
    · have e : push_array name o
          = Op.and (Op.and next_line_indent (add_quote_str name))
              (openScope true [32, 58, 32, 91]) o := by
        unfold push_array
        rw [if_neg he, if_neg ha, touch_ok o _ hd]
        rfl
      rw [e] at h ⊢
      exact ⟨true, nameText o.inArray name ++ [91], OpensText.push_array _ _,
        hobj true name 91 (by decide) (by decide) (by decide) ha h⟩
  | element_object =>
    by_cases ha : o.inArray = false
    · unfold element_object at h
      rw [if_neg he, if_pos ha] at h
      cases h
    · have ha1 : o.inArray = true := by simpa using ha
      have e : element_object o = Op.and next_line_indent (openScope false [123]) o := by
        unfold element_object
        rw [if_neg he, if_neg ha, touch_ok o _ hd]
      rw [e] at h ⊢
      refine ⟨false, [123], ?_, harr _ _ h⟩
      rw [ha1]
      exact OpensText.element_object
  | element_array =>
    by_cases ha : o.inArray = false
    · unfold element_array at h
      rw [if_neg he, if_pos ha] at h
      cases h
    · have ha1 : o.inArray = true := by simpa using ha
      have e : element_array o = Op.and next_line_indent (openScope true [91]) o := by
        unfold element_array
        rw [if_neg he, if_neg ha, touch_ok o _ hd]
      rw [e] at h ⊢
      refine ⟨true, [91], ?_, harr _ _ h⟩
      rw [ha1]
      exact OpensText.element_array

/-- The white space before a closing bracket: a new line and the indentation, or a blank. -/
theorem closing_space (c : Bool) (o2 : JSONOut)
    (h : (if c = true then Op.and new_line add_indent o2 else add_char 32 o2).1 = true) :
    Adds (fun o => if c = true then Op.and new_line add_indent o else add_char 32 o) o2
      (if c = true then lineBreak o2.indentChunk o2.hier_depth else [32]) := by
  unfold Adds
  by_cases hc : c = true
  · simp only [hc, if_true] at h ⊢
    exact new_line_indent_adds o2 h
  · simp only [hc, if_false, Bool.false_eq_true] at h ⊢
    exact add_char_adds 32 o2 h

theorem closing_bracket (b : Nat) (t : AddType) (r : Bool × JSONOut)
    (h : (if r.1 = true then add_char b { r.2 with prev_type := t } else r).1 = true) :
    r.1 = true
      ∧ (if r.1 = true then add_char b { r.2 with prev_type := t } else r).2.text = r.2.text ++ [b]
      ∧ (if r.1 = true then add_char b { r.2 with prev_type := t } else r).2.hier_depth
          = r.2.hier_depth
      ∧ (if r.1 = true then add_char b { r.2 with prev_type := t } else r).2.hasValue
          = r.2.hasValue
      ∧ (if r.1 = true then add_char b { r.2 with prev_type := t } else r).2.indentChunk
          = r.2.indentChunk
      ∧ (if r.1 = true then add_char b { r.2 with prev_type := t } else r).2.isArray
          = r.2.isArray := by
  by_cases hr : r.1 = true
  · rw [if_pos hr] at h ⊢
    obtain ⟨a1, a2, a3, a4, a5, _⟩ := add_char_adds b _ h
    exact ⟨hr, a1, a2, a3, a4, a5⟩
  · rw [if_neg hr] at h
    exact absurd h hr

/-- The two forms of `scope_end`: the white space, then the closing bracket. -/
theorem scope_end_eq (o : JSONOut) (hd : bitIndexOk o.hier_depth = true)
    (he : ¬ o.error_cause ≠ JSONOutError.ERR_NONE) :
    ∃ c : Bool,
      (o.hasValueAt = true → o.inArray = false → c = true)
      ∧ (o.hasValueAt = false → o.prev_type ≠ AddType.JO_ARRAY_END →
          o.prev_type ≠ AddType.JO_OBJECT_END → c = false)
      ∧ scope_end o
        = (if ((fun o1 => if c = true then Op.and new_line add_indent o1 else add_char 32 o1)
              { o with hier_depth := o.hier_depth - 1 }).1 = true
          then add_char (if o.inArray = true then 93 else 125)
            { ((fun o1 => if c = true then Op.and new_line add_indent o1 else add_char 32 o1)
                { o with hier_depth := o.hier_depth - 1 }).2
              with prev_type := if o.inArray = true then AddType.JO_ARRAY_END
                else AddType.JO_OBJECT_END }
          else ((fun o1 => if c = true then Op.and new_line add_indent o1 else add_char 32 o1)
              { o with hier_depth := o.hier_depth - 1 })) := by
  by_cases ha : o.inArray = true
  · refine ⟨(o.hasValueAt && decide (o.column > MAX_JSONOUT_ARRAY_LINE))
      || (decide (o.prev_type = AddType.JO_ARRAY_END)
        || decide (o.prev_type = AddType.JO_OBJECT_END)), ?_, ?_, ?_⟩
    · intro _ hf
      rw [ha] at hf
      cases hf
    · intro hv h1 h2
      simp [hv, h1, h2]
    · unfold scope_end
      rw [if_neg he, touch_ok o _ hd]
      simp only [ha, if_true]
  · refine ⟨o.hasValueAt || (decide (o.prev_type = AddType.JO_ARRAY_END)
        || decide (o.prev_type = AddType.JO_OBJECT_END)), ?_, ?_, ?_⟩
    · intro hv _
      simp [hv]
    · intro hv h1 h2
      simp [hv, h1, h2]
    · unfold scope_end
      rw [if_neg he, touch_ok o _ hd]
      simp only [ha, if_false, Bool.false_eq_true]

/-- The end of a container: white space and the closing bracket, no separator; the depth
goes down by one. -/
theorem scope_end_closes (o : JSONOut) (hd : bitIndexOk o.hier_depth = true)
    (h : (scope_end o).1 = true) :
    ∃ ws, (ws = [32] ∨ ws = lineBreak o.indentChunk (o.hier_depth - 1))
      ∧ (o.hasValueAt = true → o.inArray = false
          → ws = lineBreak o.indentChunk (o.hier_depth - 1))
      ∧ (o.hasValueAt = false → o.prev_type ≠ AddType.JO_ARRAY_END →
          o.prev_type ≠ AddType.JO_OBJECT_END → ws = [32])
      ∧ (scope_end o).2.text = o.text ++ ws ++ [if o.inArray = true then 93 else 125]
      ∧ (scope_end o).2.hier_depth = o.hier_depth - 1
      ∧ (scope_end o).2.hasValue = o.hasValue
      ∧ (scope_end o).2.indentChunk = o.indentChunk
      ∧ (scope_end o).2.isArray = o.isArray := by
  by_cases he : o.error_cause ≠ JSONOutError.ERR_NONE
  · unfold scope_end at h
    rw [if_pos he] at h
    cases h
  obtain ⟨c, hc1, hc2, e⟩ := scope_end_eq o hd he
  rw [e] at h ⊢
  obtain ⟨h1, b1, b2, b3, b4, b5⟩ := closing_bracket _ _ _ h
  obtain ⟨c1, c2, c3, c4, c5, _⟩ := closing_space c _ h1
  refine ⟨if c = true then lineBreak o.indentChunk (o.hier_depth - 1) else [32], ?_, ?_, ?_,
    ?_, ?_, ?_, ?_, ?_⟩
  · cases c
    · exact Or.inl rfl
    · exact Or.inr rfl
  · intro hv ha
    rw [hc1 hv ha]
    rfl
  · intro hv p1 p2
    rw [hc2 hv p1 p2]
    rfl
  · rw [b1, c1]
    rfl
  · rw [b2, c2]
  · rw [b3, c3]
  · rw [b4, c4]
    rfl
  · rw [b5, c5]

theorem op_and_assoc (a b c : Op) : Op.and (Op.and a b) c = Op.and a (Op.and b c) := by
  funext o
  unfold Op.and
  by_cases ha : (a o).1 = true
  · simp only [ha, if_true]
  · simp only [ha, if_false, Bool.false_eq_true]

theorem runAll_append (a b : List Op) :
    runAll (a ++ b) = Op.and (runAll a) (runAll b) := by
  induction a with
  | nil =>
    funext o
    simp [runAll, Op.and]
  | cons x a ih =>
    rw [List.cons_append, runAll, runAll, ih, op_and_assoc]

theorem runAll_single (op : Op) : runAll [op] = op := by
  funext o
  unfold runAll runAll Op.and
  by_cases h : (op o).1 = true
  · rw [if_pos h]
    exact Prod.ext h.symm rfl
  · rw [if_neg h]
    have : (op o).1 = false := by simpa using h
    exact Prod.ext this.symm rfl

theorem joinFrom_cons (f : Bool) (b : Bytes) (bs : List Bytes) :
    joinFrom f (b :: bs) = (if f = true then [] else [44]) ++ b ++ joinFrom false bs := rfl

theorem runAll_cons_ok (op : Op) (ops : List Op) (o : JSONOut) (h : (op o).1 = true) :
    runAll (op :: ops) o = runAll ops (op o).2 := by
  rw [runAll]
  unfold Op.and
  rw [if_pos h]

/-- Calls that each add one member write the texts of their members with a comma between
two of them, and leave the depth, the bits of the containers around, the kind of the
container and the indentation; the container has a member when there was a call. -/
theorem runAll_members (ops : List Op) (hops : ∀ op ∈ ops, AddsOne op) :
    ∀ o : JSONOut, bitIndexOk o.hier_depth = true → (runAll ops o).1 = true →
      ∃ bodies, SeqText o.indentChunk o.hier_depth o.inArray ops bodies
        ∧ bodies.length = ops.length
        ∧ (∀ k, k ≤ ops.length →
            (runAll (ops.take k) o).2.text
              = o.text ++ joinFrom (!o.hasValueAt) (bodies.take k))
        ∧ (runAll ops o).2.hier_depth = o.hier_depth
        ∧ (∀ j, j < o.hier_depth → (runAll ops o).2.hasValue j = o.hasValue j)
        ∧ (runAll ops o).2.indentChunk = o.indentChunk
        ∧ (∀ j, j ≤ o.hier_depth → (runAll ops o).2.isArray j = o.isArray j)
        ∧ (ops ≠ [] → (runAll ops o).2.hasValueAt = true)
        ∧ (ops = [] → (runAll ops o).2 = o) := by
  induction ops with
  | nil =>
    intro o _ _
    refine ⟨[], SeqText.nil _ _, rfl, ?_, rfl, fun _ _ => rfl, rfl, fun _ _ => rfl,
      fun h => absurd rfl h, fun _ => rfl⟩
    intro k _
    simp [runAll, joinFrom]
  | cons op ops ih =>
    intro o hd h
    have h0 := h
    unfold runAll at h0
    obtain ⟨h1, h2, _⟩ := and_true_inv _ _ o h0
    have e := runAll_cons_ok op ops o h1
    obtain ⟨body, mt, m2, m3, m4, m5, m6, m7⟩ := hops op (List.mem_cons_self _ _) o hd h1
    have hd2 : bitIndexOk (op o).2.hier_depth = true := by rw [m3]; exact hd
    obtain ⟨bodies, s1, s2, s3, r2, r3, r4, r5, r6, _⟩ :=
      ih (fun x hx => hops x (List.mem_cons_of_mem _ hx)) _ hd2 h2
    have harr : (op o).2.inArray = o.inArray := by
      unfold JSONOut.inArray
      rw [m3]
      exact m7 _ (le_refl _)
    rw [m6, m3, harr] at s1
    refine ⟨body :: bodies, SeqText.cons _ _ _ _ _ _ mt s1, by simp [s2], ?_, ?_, ?_, ?_, ?_,
      ?_, fun hx => absurd hx (List.cons_ne_nil _ _)⟩
    · intro k hk
      cases k with
      | zero => simp [runAll, joinFrom]
      | succ k =>
        rw [List.take_succ_cons, List.take_succ_cons, runAll_cons_ok op _ o h1,
          s3 k (by simpa using hk), m2, m4, joinFrom_cons]
        cases o.hasValueAt <;> simp
    · rw [e, r2, m3]
    · intro j hj
      rw [e, r3 j (by rw [m3]; exact hj), m5 j hj]
    · rw [e, r4, m6]
    · intro j hj
      rw [e, r5 j (by rw [m3]; exact hj), m7 j hj]
    · intro _
      rw [e]
      by_cases hn : ops = []
      · subst hn
        exact m4
      · exact r6 hn

/-- A nested container with its members and its end is one member of the container around
it. -/
theorem container_addsOne (opn : Op) (hop : Opens opn) (inner : List Op)
    (hin : ∀ op ∈ inner, AddsOne op) : AddsOne (runAll (opn :: inner ++ [scope_end])) := by
  intro o hd h
  have e0 : runAll (opn :: inner ++ [scope_end])
      = Op.and opn (Op.and (runAll inner) scope_end) := by
    rw [List.cons_append, runAll, runAll_append, runAll_single]
  have h' := h
  rw [e0] at h'
  obtain ⟨h1, h2, e1⟩ := and_true_inv _ _ o h'
  obtain ⟨h3, h4, e2⟩ := and_true_inv _ _ _ h2
  obtain ⟨array, head, ot, p1, p2, p3, p4, p5, p6, p7, p8, p9, p10⟩ :=
    opens_opened opn hop o hd h1
  obtain ⟨bodies, s1, s2, s3, r2, r3, r4, r5, r6, r7⟩ := runAll_members inner hin _ p3 h3
  have hd3 : bitIndexOk (runAll inner (opn o).2).2.hier_depth = true := by
    rw [r2]
    exact p3
  have harr : (runAll inner (opn o).2).2.inArray = array := by
    unfold JSONOut.inArray
    rw [r2, r5 _ (le_refl _)]
    exact p8
  obtain ⟨ws, w1, w2, w3, t1, t2, t3, t4, t5⟩ := scope_end_closes _ hd3 h4
  have hdep : (runAll inner (opn o).2).2.hier_depth - 1 = o.hier_depth := by
    rw [r2, p2]
    omega
  rw [r4, p7, hdep] at w1 w2
  rw [harr] at w2 t1
  have hcg : CloseGap o.indentChunk o.hier_depth array inner ws := by
    refine ⟨w1, ?_, ?_⟩
    · intro hn
      have hs := r7 hn
      rw [hs] at w3
      apply w3 p4
      · rw [p10]
        cases array <;> decide
      · rw [p10]
        cases array <;> decide
    · intro hn hf
      exact w2 (r6 hn) hf
  have htot := s3 inner.length (le_refl _)
  rw [List.take_length, p4, p1] at htot
  rw [p7, p2, p8] at s1
  refine ⟨lineBreak o.indentChunk o.hier_depth ++ head ++ commaJoin bodies ++ ws
    ++ [if array = true then 93 else 125],
    MemberText.container _ _ _ _ _ _ _ _ ot s1 hcg, ?_⟩
  unfold AddsMember
  rw [e0, e1, e2]
  refine ⟨?_, ?_, ?_, ?_, ?_, ?_⟩
  · rw [t1, htot]
    have hb : bodies.take inner.length = bodies :=
      List.take_of_length_le (by omega)
    rw [hb]
    unfold commaJoin
    simp only [Bool.not_false, List.append_assoc]
  · rw [t2, r2, p2]
    omega
  · unfold JSONOut.hasValueAt
    rw [t2, r2, p2, t3, show o.hier_depth + 1 - 1 = o.hier_depth by omega,
      r3 o.hier_depth (by rw [p2]; omega)]
    exact p5
  · intro j hj
    rw [t3, r3 j (by rw [p2]; omega)]
    exact p6 j hj
  · rw [t4, r4, p7]
  · intro j hj
    rw [t5, r5 j (by rw [p2]; omega)]
    exact p9 j hj

/-- Every call for a member adds one member, with the text of a member. -/
theorem member_addsOne (op : Op) (hm : Member op) : AddsOne op := by
  induction hm with
  | push_str name value length =>
    intro o hd h
    obtain ⟨gap, hg, hm⟩ := pushValue_member name _ _ _ _ (add_quote_adds value length) o hd h
    exact ⟨_, MemberText.value _ _ _ _ _ hg (ValueText.push_str _ name value length), hm⟩
  | push_int name value =>
    intro o hd h
    obtain ⟨gap, hg, hm⟩ := pushValue_member name _ _ _ _ (add_int_adds value) o hd h
    exact ⟨_, MemberText.value _ _ _ _ _ hg (ValueText.push_int _ name value), hm⟩
  | push_float name valstr =>
    intro o hd h
    obtain ⟨gap, hg, hm⟩ := pushValue_member name _ _ _ _ (add_float_adds valstr) o hd h
    exact ⟨_, MemberText.value _ _ _ _ _ hg (ValueText.push_float _ name valstr), hm⟩
  | push_bool name value =>
    intro o hd h
    obtain ⟨gap, hg, hm⟩ := pushValue_member name _ _ _ _ (add_bool_adds value) o hd h
    exact ⟨_, MemberText.value _ _ _ _ _ hg (ValueText.push_bool _ name value), hm⟩
  | push_null_named name =>
    intro o hd h
    obtain ⟨gap, hg, hm⟩ := push_null_named_member name o hd h
    exact ⟨_, MemberText.value _ _ _ _ _ hg (ValueText.push_null_named _ name), hm⟩
  | push_null =>
    intro o hd h
    obtain ⟨gap, hg, hm⟩ := push_null_member o hd h
    exact ⟨_, MemberText.value _ _ _ _ _ hg (ValueText.push_null _), hm⟩
  | element_str value length =>
    intro o hd h
    obtain ⟨ha, gap, hg, hm⟩ := elementValue_member _ _ _ (add_quote_adds value length) o hd h
    refine ⟨_, MemberText.value _ _ _ _ _ hg ?_, hm⟩
    rw [ha]
    exact ValueText.element_str value length
  | element_int value =>
    intro o hd h
    obtain ⟨ha, gap, hg, hm⟩ := elementValue_member _ _ _ (add_int_adds value) o hd h
    refine ⟨_, MemberText.value _ _ _ _ _ hg ?_, hm⟩
    rw [ha]
    exact ValueText.element_int value
  | element_float valstr =>
    intro o hd h
    obtain ⟨ha, gap, hg, hm⟩ := elementValue_member _ _ _ (add_float_adds valstr) o hd h
    refine ⟨_, MemberText.value _ _ _ _ _ hg ?_, hm⟩
    rw [ha]
    exact ValueText.element_float valstr
  | element_bool value =>
    intro o hd h
    obtain ⟨ha, gap, hg, hm⟩ := elementValue_member _ _ _ (add_bool_adds value) o hd h
    refine ⟨_, MemberText.value _ _ _ _ _ hg ?_, hm⟩
    rw [ha]
    exact ValueText.element_bool value
  | element_null =>
    intro o hd h
    obtain ⟨ha, gap, hg, hm⟩ := elementValue_member _ _ _ add_null_adds o hd h
    refine ⟨_, MemberText.value _ _ _ _ _ hg ?_, hm⟩
    rw [ha]
    exact ValueText.element_null
  | push_object name inner _ ih => exact container_addsOne _ (Opens.push_object name) inner ih
  | push_array name inner _ ih => exact container_addsOne _ (Opens.push_array name) inner ih
  | element_object inner _ ih => exact container_addsOne _ Opens.element_object inner ih
  | element_array inner _ ih => exact container_addsOne _ Opens.element_array inner ih

/-- The writer after the constructor: depth 1, and the root has no member. -/
theorem new_root (ara fileOut rootArray : Bool) (c0 : Int) (b0 b1 : Int → Bool) :
    (JSONOut.new ara fileOut rootArray c0 b0 b1).hasValueAt = false
      ∧ (JSONOut.new ara fileOut rootArray c0 b0 b1).hier_depth = 1 := by
  cases rootArray <;> cases ara <;> exact ⟨rfl, rfl⟩

/-- The text of one more member: a comma, unless it is the first, and the member. -/
theorem joinFrom_take_succ (bodies : List Bytes) :
    ∀ (f : Bool) (k : Nat), k < bodies.length →
      joinFrom f (bodies.take (k + 1))
        = joinFrom f (bodies.take k) ++ (if f = true ∧ k = 0 then [] else [44])
          ++ bodies.getD k [] := by
  induction bodies with
  | nil =>
    intro f k hk
    simp at hk
  | cons b bs ih =>
    intro f k hk
    cases k with
    | zero =>
      cases f <;> simp [joinFrom]
    | succ k =>
      have hk2 : k < bs.length := by simpa using hk
      rw [List.take_succ_cons, List.take_succ_cons, joinFrom_cons, joinFrom_cons, ih false k hk2]
      simp

/-- The length of the joined text: the lengths of the members and one comma less than
there are members. -/
theorem joinFrom_length (bodies : List Bytes) :
    ∀ f : Bool, (joinFrom f bodies).length
      = (bodies.map List.length).sum + (if f = true then bodies.length - 1 else bodies.length) := by
  induction bodies with
  | nil =>
    intro f
    cases f <;> rfl
  | cons b bs ih =>
    intro f
    rw [joinFrom_cons, List.length_append, List.length_append, ih false]
    cases f
    · simp
      omega
    · simp
      omega

/-- C35. Let `ops` be calls that each add one member (a push of a value, an element, or a
nested container from its opening to its `scope_end`), made one after the other in a
container that has no member yet, each returning true.  Then there is one text for each
call, the text of its member: white space (a new line and the indentation, or one blank
before a value in an array), in an object the quoted name and ` : `, and then the text of
the value, or the opening bracket, the texts of the members of the nested container with a
comma between two of them, white space and the closing bracket (`SeqText`).  Each call
appends to the text one comma when it is not the first call and nothing when it is the
first, and then the text of its member: so the comma is right behind the text of the value
or the closing bracket of the call before.  The text after all calls is the texts of the
members with a comma between two of them, none before the first and none behind the last:
one comma less than there are calls, next to the text of the members.  The depth is then as
before, and a `scope_end` that follows appends white space and the closing bracket, no
comma.  A container is without a member right after the call that opens it, and so is the
root after the constructor. -/
theorem C35_comma_before_all_but_first (ops : List Op) (o : JSONOut)
    (hops : ∀ p ∈ ops, Member p)
    (hd : bitIndexOk o.hier_depth = true) (hfresh : o.hasValueAt = false)
    (h : (runAll ops o).1 = true) :
    (∃ bodies : List Bytes,
        SeqText o.indentChunk o.hier_depth o.inArray ops bodies
        ∧ bodies.length = ops.length
        ∧ (∀ (pre : List Op) (op : Op) (post : List Op), ops = pre ++ op :: post →
            (runAll (pre ++ [op]) o).2.text
              = (runAll pre o).2.text ++ (if pre.isEmpty = true then [] else [44])
                ++ bodies.getD pre.length [])
        ∧ (runAll ops o).2.text = o.text ++ commaJoin bodies
        ∧ (commaJoin bodies).length = (bodies.map List.length).sum + (ops.length - 1))
      ∧ (runAll ops o).2.hier_depth = o.hier_depth
      ∧ ((scope_end (runAll ops o).2).1 = true →
          ∃ ws, (ws = [32] ∨ ws = lineBreak o.indentChunk (o.hier_depth - 1))
            ∧ (ops ≠ [] → o.inArray = false
                → ws = lineBreak o.indentChunk (o.hier_depth - 1))
            ∧ (scope_end (runAll ops o).2).2.text
              = (runAll ops o).2.text ++ ws ++ [if o.inArray = true then 93 else 125])
      ∧ (∀ (opn : Op) (o1 : JSONOut), Opens opn → bitIndexOk o1.hier_depth = true →
          (opn o1).1 = true →
          (opn o1).2.hasValueAt = false ∧ bitIndexOk (opn o1).2.hier_depth = true
            ∧ (opn o1).2.hier_depth = o1.hier_depth + 1)
      ∧ (∀ (ara fileOut rootArray : Bool) (c0 : Int) (b0 b1 : Int → Bool),
          (JSONOut.new ara fileOut rootArray c0 b0 b1).hasValueAt = false
            ∧ (JSONOut.new ara fileOut rootArray c0 b0 b1).hier_depth = 1) := by
  have hall : ∀ p ∈ ops, AddsOne p := fun p hp => member_addsOne p (hops p hp)
  obtain ⟨bodies, s1, s2, s3, r2, _, r4, r5, r6, _⟩ := runAll_members ops hall o hd h
  rw [hfresh] at s3
  refine ⟨⟨bodies, s1, s2, ?_, ?_, ?_⟩, r2, ?_, ?_, ?_⟩
  · intro pre op post hsplit
    have hlen : pre.length < ops.length := by
      rw [hsplit]
      simp
    have t1 : ops.take pre.length = pre := by
      rw [hsplit]
      simp
    have t2 : ops.take (pre.length + 1) = pre ++ [op] := by
      rw [hsplit, List.take_append_eq_append_take]
      simp
    have k1 := s3 pre.length (by omega)
    have k2 := s3 (pre.length + 1) (by omega)
    rw [t1] at k1
    rw [t2, joinFrom_take_succ bodies _ _ (by omega)] at k2
    rw [k2, k1]
    cases pre with
    | nil => simp
    | cons x xs => simp
  · have k := s3 ops.length (le_refl _)
    rw [List.take_length, List.take_of_length_le (by omega)] at k
    exact k
  · unfold commaJoin
    rw [joinFrom_length, if_pos rfl, s2]
  · intro hs
    have hd2 : bitIndexOk (runAll ops o).2.hier_depth = true := by
      rw [r2]
      exact hd
    have harr : (runAll ops o).2.inArray = o.inArray := by
      unfold JSONOut.inArray
      rw [r2]
      exact r5 _ (le_refl _)
    obtain ⟨ws, w1, w2, _, t1, _⟩ := scope_end_closes _ hd2 hs
    rw [r2, r4] at w1 w2
    rw [harr] at w2 t1
    exact ⟨ws, w1, fun hn hf => w2 (r6 hn) hf, t1⟩
  · intro opn o1 hopn hd1 h1
    obtain ⟨_, _, _, _, p2, p3, p4, _⟩ := opens_opened opn hopn o1 hd1 h1
    exact ⟨p4, p3, p2⟩
  · exact new_root

theorem sampleMembers_text :
    (runAll sampleMembers
        (JSONOut.new false true false 0 (fun _ => false) (fun _ => false))).2.text
      = bytesOf "\x7b\n  \"a\" : 1,\n  \"b\" : [ 1, 2 ],\n  \"c\" : true" := by
  decide

/-- The texts of the three members of `sampleMembers` at depth 1 of an object. -/
theorem sampleMembers_seqText :
    SeqText [32, 32] 1 false sampleMembers
        [bytesOf "\n  \"a\" : 1", bytesOf "\n  \"b\" : [ 1, 2 ]", bytesOf "\n  \"c\" : true"]
      ∧ commaJoin [bytesOf "\n  \"a\" : 1", bytesOf "\n  \"b\" : [ 1, 2 ]",
            bytesOf "\n  \"c\" : true"]
          = bytesOf "\n  \"a\" : 1,\n  \"b\" : [ 1, 2 ],\n  \"c\" : true" := by
  refine ⟨?_, by decide⟩
  have m1 : MemberText [32, 32] 1 false (push_int (some (bytesOf "a")) 1)
      (bytesOf "\n  \"a\" : 1") :=
    MemberText.value 1 false _ (lineBreak [32, 32] 1)
      (nameText false (some (bytesOf "a")) ++ decimalText 1) (Or.inl rfl)
      (ValueText.push_int false _ 1)
  have e1 : MemberText [32, 32] 2 true (element_int 1) (bytesOf " 1") :=
    MemberText.value 2 true _ [32] (decimalText 1) (Or.inr ⟨rfl, rfl⟩) (ValueText.element_int 1)
  have e2 : MemberText [32, 32] 2 true (element_int 2) (bytesOf " 2") :=
    MemberText.value 2 true _ [32] (decimalText 2) (Or.inr ⟨rfl, rfl⟩) (ValueText.element_int 2)
  have m2 : MemberText [32, 32] 1 false
      (runAll (push_array (some (bytesOf "b")) :: [element_int 1, element_int 2] ++ [scope_end]))
      (bytesOf "\n  \"b\" : [ 1, 2 ]") :=
    MemberText.container 1 false _ true (nameText false (some (bytesOf "b")) ++ [91])
      [element_int 1, element_int 2] [bytesOf " 1", bytesOf " 2"] [32]
      (OpensText.push_array false _)
      (SeqText.cons _ _ _ _ _ _ e1 (SeqText.cons _ _ _ _ _ _ e2 (SeqText.nil _ _)))
      ⟨Or.inl rfl, fun _ => rfl, fun _ h => Bool.noConfusion h⟩
  have m3 : MemberText [32, 32] 1 false (push_bool (some (bytesOf "c")) true)
      (bytesOf "\n  \"c\" : true") :=
    MemberText.value 1 false _ (lineBreak [32, 32] 1)
      (nameText false (some (bytesOf "c")) ++ (if true = true then bytesOf "true"
        else bytesOf "false")) (Or.inl rfl) (ValueText.push_bool false _ true)
  exact SeqText.cons _ _ _ _ _ _ m1 (SeqText.cons _ _ _ _ _ _ m2
    (SeqText.cons _ _ _ _ _ _ m3 (SeqText.nil _ _)))

/-- C35 at the calls for `"a" : 1`, the array `"b"` of 1 and 2, and `"c" : true` on a new
writer: the hypotheses hold, the texts of the three members exist (they are a new line, the
indentation, the name, the colon and `1`, `[ 1, 2 ]` and `true`), and the text written is
the root brace and the three members with two commas. -/
theorem C35_comma_before_all_but_first_witness :
    (∀ p ∈ sampleMembers, Member p)
      ∧ bitIndexOk newWriter.hier_depth = true ∧ newWriter.hasValueAt = false
      ∧ (runAll sampleMembers newWriter).1 = true
      ∧ (∃ bodies : List Bytes,
          SeqText newWriter.indentChunk newWriter.hier_depth newWriter.inArray sampleMembers
            bodies
          ∧ bodies.length = sampleMembers.length
          ∧ (runAll sampleMembers newWriter).2.text = newWriter.text ++ commaJoin bodies)
      ∧ SeqText [32, 32] 1 false sampleMembers
          [bytesOf "\n  \"a\" : 1", bytesOf "\n  \"b\" : [ 1, 2 ]", bytesOf "\n  \"c\" : true"]
      ∧ newWriter.text = bytesOf "\x7b"
      ∧ (runAll sampleMembers newWriter).2.text
          = bytesOf "\x7b\n  \"a\" : 1,\n  \"b\" : [ 1, 2 ],\n  \"c\" : true" := by
  have hm : ∀ p ∈ sampleMembers, Member p := by
    intro p hp
    simp only [sampleMembers, List.mem_cons, List.mem_singleton, List.not_mem_nil,
      or_false] at hp
    rcases hp with rfl | rfl | rfl
    · exact Member.push_int _ _
    · refine Member.push_array _ [element_int 1, element_int 2] ?_
      intro q hq
      simp only [List.mem_cons, List.mem_singleton, List.not_mem_nil, or_false] at hq
      rcases hq with rfl | rfl
      · exact Member.element_int _
      · exact Member.element_int _
    · exact Member.push_bool _ _
  have h1 : bitIndexOk newWriter.hier_depth = true := by decide
  have h2 : newWriter.hasValueAt = false := by decide
  have h3 : (runAll sampleMembers newWriter).1 = true := by decide
  obtain ⟨⟨bodies, s1, s2, _, s4, _⟩, _⟩ :=
    C35_comma_before_all_but_first sampleMembers newWriter hm h1 h2 h3
  exact ⟨hm, h1, h2, h3, ⟨bodies, s1, s2, s4⟩, sampleMembers_seqText.1, by decide, by decide⟩

end jout

namespace resave

open jbin

/-! ## The resave round trip (claim C16) -/

/-- C16. The round trip fails for the text `[1,2,3]`, which JSONBin accepts (item 0 of type
`JB_ARRAY` with the three integers).  Without `JO_ALLOW_ROOT_ARRAY` the constructor of the
writer reports `ERR_ROOT_ARRAY`, `ExportJSON` returns false at the first item and nothing
reaches the file; the parse of the empty file gives a tree with one item.  With
`JO_ALLOW_ROOT_ARRAY` the root is opened with a bracket but the scope is not marked as an
array: the integers are written as members with an empty name, the root is closed with a
brace, and the parse of that text fails with `JBERR_UNEXPECTED_COLON` (shown with the
fields the constructor leaves uninitialised at zero; the first case holds whatever they
contain). -/
theorem C16_root_array_not_resaved (column0 : Int) (bits0 bits1 : Int → Bool)
    (floatText : JBItem → Bytes) :
    JSONBin okEnv defaultConfig (bytesOf "[1,2,3]") JBRet.zero
        = Outcome.returned (some arrayTree) ⟨64, 7, 4, 0, 0, 0, 0, .JBERR_NONE, 0, 0⟩
    ∧ (ExportJSON false column0 bits0 bits1 floatText arrayTree).ret = some false
    ∧ (ExportJSON false column0 bits0 bits1 floatText arrayTree).written = some []
    ∧ JSONBin okEnv defaultConfig [] JBRet.zero
        = Outcome.returned (some ⟨[JBItem.zero], []⟩) ⟨16, 0, 1, 0, 0, 0, 0, .JBERR_NONE, 0, 0⟩
    ∧ (ExportJSON true 0 (fun _ => false) (fun _ => false) (fun _ => []) arrayTree).ret
        = some true
    ∧ (ExportJSON true 0 (fun _ => false) (fun _ => false) (fun _ => []) arrayTree).written
        = some (bytesOf "[\n  \"\" : 1,\n  \"\" : 2,\n  \"\" : 3\n\x7d\n")
    ∧ JSONBin okEnv defaultConfig (bytesOf "[\n  \"\" : 1,\n  \"\" : 2,\n  \"\" : 3\n\x7d\n")
        JBRet.zero
        = Outcome.returned none ⟨0, 8, 0, 0, 0, 0, 0, .JBERR_UNEXPECTED_COLON, 2, 7⟩ := by
  exact ⟨by decide!, rfl, rfl, by decide!, by decide!, by decide!, by decide!⟩

end resave
